import Mathlib

/-!
# a1fs: a shallow embedding of the driver's file operations

The embedding follows `fs_ctx.c` and `a1fs.c`.  The mounted image is split into
the regions that `fs_ctx_init` locates: the two bitmaps, the inode table, the
two counters of the superblock and the data region.  The data region is a byte
memory addressed relative to `fs->data_block`; an extent array lives inside
that memory at the address stored in the inode (`indirect_pt`), two
little-endian 32-bit words per extent, exactly as the C code reads and writes
it.  Unsigned C arithmetic is written with explicit reductions modulo `2^32`
or `2^64`, for the LP64 types of the target (`int` and `uint32_t` of 32 bits,
`size_t`, `off_t` and `uint_fast32_t` of 64 bits).  A result `none` stands for
an access the C program performs outside the modelled regions (a NULL or
negative index dereference, an uninitialised read).
-/

namespace A1fs

/-! ## Constants -/

/-- Modelled from the spec: `a1fs.h` is not among the sources.  These are the
values that header (and the C implementation) fix and that the driver code only
names: the two length caps, the size of a directory entry record, and the value
of the expression `(uint32_t) 2e32-1` that `get_first_available_position`
returns when no bit is clear (the conversion is out of range, so the value is
left to the compiler).  A directory entry is taken to be a 32-bit inode number
followed by the name. -/
structure a1fs_h where
  A1FS_NAME_MAX : Nat
  A1FS_PATH_MAX : Nat
  sizeof_dentry : Nat
  no_position : Nat

/-- Modelled from the spec: the block size `B = 4096` bytes, a plain `int`
constant of the absent header `a1fs.h`. -/
def A1FS_BLOCK_SIZE : Nat := 4096

/-- Modelled from the spec: an extent is the pair `(start, count)` of two
32-bit words, so that one block holds the 512 extents an inode may have. -/
def sizeof_extent : Nat := 8

def ROOT_INODE : Nat := 0

def ENOENT : Int := 2
def ENOTDIR : Int := 20
def ENOMEM : Int := 12
def ENOSPC : Int := 28
def ENAMETOOLONG : Int := 36
def ENOTEMPTY : Int := 39

def S_IFMT : Nat := 61440
def S_IFREG : Nat := 32768
def S_IFDIR : Nat := 16384

/-- The test `S_ISREG(mode)`. -/
def S_ISREG (mode : Nat) : Bool := (mode &&& S_IFMT) == S_IFREG

/-! ## Machine integers -/

/-- Truncation to `uint32_t`. -/
def u32 (x : Nat) : Nat := x % 4294967296

/-- Truncation to `uint64_t`. -/
def u64 (x : Nat) : Nat := x % 18446744073709551616

/-- Subtraction of `uint32_t` values. -/
def sub32 (a b : Nat) : Nat := (u32 a + 4294967296 - u32 b) % 4294967296

/-- Subtraction of `uint64_t` values. -/
def sub64 (a b : Nat) : Nat :=
  (u64 a + 18446744073709551616 - u64 b) % 18446744073709551616

/-- The conversion `(int) n` of an unsigned value. -/
def int_of (n : Nat) : Int :=
  if n % 4294967296 < 2147483648 then ((n % 4294967296 : Nat) : Int)
  else ((n % 4294967296 : Nat) : Int) - 4294967296

/-- The conversion `(uint32_t) r` of an `int`. -/
def u32_of_int (r : Int) : Nat := (r % 4294967296).toNat

/-! ## Data model -/

structure timespec where
  tv_sec : Int
  tv_nsec : Int
deriving DecidableEq

/-- The inode record.  `indirect_pt` is the address of the extent array, kept
relative to the start of the data region. -/
structure a1fs_inode where
  mode : Nat
  links : Nat
  size : Nat
  mtime : timespec
  extent_num : Nat
  num_dir_entry : Nat
  indirect_pt : Nat
deriving DecidableEq

/-- Byte memory: an address to the byte stored there. -/
abbrev Mem := Nat → Nat

/-- The mounted file system: the fields of `fs_ctx` with the regions they
point to.  `available_blocks` and `available_inodes` are the superblock
counters the context points at; `data` is the memory from `fs->data_block` on.
`size` is the size of the mapped image and `data_block` the offset of the data
region in it: the bytes `[a, a + n)` of `data` are bytes of the image when
`data_block + a + n ≤ size`. -/
structure fs_ctx where
  size : Nat
  inode_bitmap : Mem
  data_bitmap : Mem
  inode_table : Nat → a1fs_inode
  data_block : Nat
  data : Mem
  available_blocks : Nat
  num_inodes : Nat
  available_inodes : Nat
  num_of_data_blocks : Nat

/-- The result of `stat` that `a1fs_getattr` fills in. -/
structure stat where
  st_mode : Nat
  st_nlink : Nat
  st_size : Nat
  st_blocks : Nat
  st_mtim : timespec
deriving DecidableEq

/-! ## Memory primitives -/

/-- Load of a little-endian `uint32_t`. -/
def read32 (m : Mem) (a : Nat) : Nat :=
  m a % 256 + 256 * (m (a + 1) % 256) + 65536 * (m (a + 2) % 256)
    + 16777216 * (m (a + 3) % 256)

/-- Store of a little-endian `uint32_t`. -/
def write32 (m : Mem) (a v : Nat) : Mem := fun x =>
  if x = a then v % 256
  else if x = a + 1 then v / 256 % 256
  else if x = a + 2 then v / 65536 % 256
  else if x = a + 3 then v / 16777216 % 256
  else m x

/-- The call `memset(a, c, n)`. -/
def memset (m : Mem) (a c n : Nat) : Mem := fun x =>
  if a ≤ x ∧ x < a + n then c else m x

/-- The call `memcpy(a, src, n)` from a caller buffer. -/
def memcpy (m : Mem) (a : Nat) (src : List Nat) (n : Nat) : Mem := fun x =>
  if a ≤ x ∧ x < a + n then src.getD (x - a) 0 else m x

/-- The bytes `memcpy(buf, a, n)` puts in a caller buffer. -/
def load_bytes (m : Mem) (a n : Nat) : List Nat :=
  (List.range n).map (fun i => m (a + i))

/-- Update of one inode table slot. -/
def set_inode (t : Nat → a1fs_inode) (i : Nat) (v : a1fs_inode) : Nat → a1fs_inode :=
  fun k => if k = i then v else t k

/-! ## Bitmaps (`fs_ctx.c`) -/

def is_bit_set (index : Nat) (bitmap : Mem) : Nat :=
  let byte_index := index / 8
  let bit_index := index % 8
  if (bitmap byte_index &&& (1 <<< bit_index)) = 0 then 0 else 1

/-- The loop of `get_first_available_position`, `k` indices left from `i`. -/
def first_available_from (h : a1fs_h) (bitmap : Mem) : Nat → Nat → Nat
  | 0, _ => u32 h.no_position
  | k + 1, i => if is_bit_set i bitmap = 0 then i else first_available_from h bitmap k (i + 1)

def get_first_available_position (h : a1fs_h) (n : Nat) (bitmap : Mem) : Nat :=
  first_available_from h bitmap n 0

def set_bitmap (bitmap : Mem) (index : Nat) : Mem := fun b =>
  if b = index / 8 then bitmap b ||| (1 <<< (index % 8)) else bitmap b

def unset_bitmap (bitmap : Mem) (index : Nat) : Mem := fun b =>
  if b = index / 8 then bitmap b &&& (255 ^^^ (1 <<< (index % 8))) else bitmap b

/-! ## Extents and block addressing (`fs_ctx.c`) -/

/-- The field `((a1fs_extent *) p)[i].start`. -/
def extent_start (m : Mem) (p i : Nat) : Nat := read32 m (p + sizeof_extent * i)

/-- The field `((a1fs_extent *) p)[i].count`. -/
def extent_count (m : Mem) (p i : Nat) : Nat := read32 m (p + sizeof_extent * i + 4)

/-- The running `uint32_t` sum of the counts of the first `k` extents. -/
def sum_counts (m : Mem) (p : Nat) : Nat → Nat
  | 0 => 0
  | k + 1 => u32 (sum_counts m p k + extent_count m p k)

def get_num_blks_of_file (m : Mem) (ino : a1fs_inode) : Nat :=
  sum_counts m ino.indirect_pt ino.extent_num

/-- The loop of `get_exact_num_blks_of_file`, which starts from 1. -/
def sum_counts_from_one (m : Mem) (p : Nat) : Nat → Nat
  | 0 => 1
  | k + 1 => u32 (sum_counts_from_one m p k + extent_count m p k)

def get_exact_num_blks_of_file (m : Mem) (ino : a1fs_inode) : Nat :=
  if ino.size = 0 then 0 else sum_counts_from_one m ino.indirect_pt ino.extent_num

def find_last_block (fs : fs_ctx) (inode_num : Nat) : Nat :=
  let inode := fs.inode_table inode_num
  u32 (extent_start fs.data inode.indirect_pt (sub32 inode.extent_num 1)
        + extent_count fs.data inode.indirect_pt (sub32 inode.extent_num 1)
        + 4294967295)

/-- Address of a data block, relative to the start of the data region. -/
def get_addr_of_block (block_num : Nat) : Nat := block_num * A1FS_BLOCK_SIZE

def get_num_of_block (block_addr : Nat) : Nat := u32 (block_addr / A1FS_BLOCK_SIZE)

/-- The inner loop of `get_addr_of_starting_write_point` over the blocks of one
extent: `k` blocks left from index `j`, `count` bytes skipped so far.  The
result is the address found, or the updated `count`. -/
def write_point_in_extent (start offset : Nat) : Nat → Nat → Nat → Nat ⊕ Nat
  | 0, _, count => Sum.inr count
  | k + 1, j, count =>
    if sub64 offset count < A1FS_BLOCK_SIZE then
      Sum.inl (get_addr_of_block (u32 (start + j)) + sub64 offset count)
    else write_point_in_extent start offset k (j + 1) (u64 (count + A1FS_BLOCK_SIZE))

/-- The outer loop of `get_addr_of_starting_write_point`: `k` extents left from
index `i`. -/
def write_point_from (m : Mem) (p offset : Nat) : Nat → Nat → Nat → Option Nat
  | 0, _, _ => none
  | k + 1, i, count =>
    match write_point_in_extent (extent_start m p i) offset (extent_count m p i) 0 count with
    | Sum.inl a => some a
    | Sum.inr count1 => write_point_from m p offset k (i + 1) count1

/-- The address of the byte at `offset` of the file; `none` is the NULL
result. -/
def get_addr_of_starting_write_point (fs : fs_ctx) (file_inode_num offset : Nat) :
    Option Nat :=
  write_point_from fs.data (fs.inode_table file_inode_num).indirect_pt offset
    (fs.inode_table file_inode_num).extent_num 0 0

/-! ## Path resolution (`fs_ctx.c`) -/

/-- The tokens that the successive calls `strtok(path, "/")`, `strtok(NULL, "/")`
return: the maximal runs of characters other than the slash.  `cur` is the run
being read, reversed. -/
def strtok_tokens : List Char → List Char → List (List Char)
  | [], cur => if cur = [] then [] else [cur.reverse]
  | c :: cs, cur =>
    if c = '/' then
      (if cur = [] then strtok_tokens cs [] else cur.reverse :: strtok_tokens cs [])
    else strtok_tokens cs (c :: cur)

/-- The test `strcmp(token, name) == 0` for a name stored at address `a`. -/
def strcmp_eq (m : Mem) : List Char → Nat → Bool
  | [], a => m a == 0
  | c :: cs, a => m a == c.toNat && strcmp_eq m cs (a + 1)

/-- How a scan of a directory for one token ends: the entry was found, the
`dir_count` test returned -1, or the loops ran to their end. -/
inductive scan_result where
  | found (ino : Nat)
  | not_found
  | fell_through (dir_count : Nat)
deriving DecidableEq

/-- The loop over the entries of one extent: `k` entries left from index `j`. -/
def scan_extent (h : a1fs_h) (m : Mem) (token : List Char) (dir_entry_list num_dir_entry : Nat) :
    Nat → Nat → Nat → scan_result
  | 0, _, dir_count => scan_result.fell_through dir_count
  | k + 1, j, dir_count =>
    if strcmp_eq m token (dir_entry_list + j * h.sizeof_dentry + 4) then
      scan_result.found (read32 m (dir_entry_list + j * h.sizeof_dentry))
    else if u32 (dir_count + 1) ≥ num_dir_entry then scan_result.not_found
    else scan_extent h m token dir_entry_list num_dir_entry k (j + 1) (u32 (dir_count + 1))

/-- The loop over the extents of directory `dir`: `k` extents left from `i`. -/
def scan_dir (h : a1fs_h) (fs : fs_ctx) (dir : Nat) (token : List Char) :
    Nat → Nat → Nat → scan_result
  | 0, _, dir_count => scan_result.fell_through dir_count
  | k + 1, i, dir_count =>
    let p := (fs.inode_table dir).indirect_pt
    let dir_entry_list := u32 (extent_start fs.data p i * A1FS_BLOCK_SIZE)
    let num_dentries_in_extent :=
      u32 (u32 (extent_count fs.data p i * A1FS_BLOCK_SIZE) / h.sizeof_dentry)
    match scan_extent h fs.data token dir_entry_list (fs.inode_table dir).num_dir_entry
        num_dentries_in_extent 0 dir_count with
    | scan_result.fell_through dc => scan_dir h fs dir token k (i + 1) dc
    | r => r

/-- The `while (token != NULL)` loop of `path_lookup`. -/
def lookup_rest (h : a1fs_h) (fs : fs_ctx) : List (List Char) → Int → Option Int
  | [], tmp_inode => some tmp_inode
  | token :: rest, tmp_inode =>
    if tmp_inode < 0 then none
    else if (fs.inode_table tmp_inode.toNat).size = 0 then some (-1)
    else if S_ISREG (fs.inode_table tmp_inode.toNat).mode then some (-2)
    else
      match scan_dir h fs tmp_inode.toNat token
          (fs.inode_table tmp_inode.toNat).extent_num 0 0 with
      | scan_result.found ino => lookup_rest h fs rest (int_of ino)
      | scan_result.not_found => some (-1)
      | scan_result.fell_through _ => lookup_rest h fs rest tmp_inode

def path_lookup (h : a1fs_h) (fs : fs_ctx) (path : String) : Option Int :=
  if path.toList.head? ≠ some '/' then some (-1)
  else
    match strtok_tokens path.toList [] with
    | [] => some (ROOT_INODE : Int)
    | token :: rest =>
      match scan_dir h fs ROOT_INODE token (fs.inode_table ROOT_INODE).extent_num 0 0 with
      | scan_result.found ino => lookup_rest h fs rest (int_of ino)
      | scan_result.not_found => some (-1)
      | scan_result.fell_through _ => lookup_rest h fs rest (-1)

/-! ## The path buffer under `strtok` (`fs_ctx.c`)

`path_lookup` hands the caller's buffer to `strtok`, which stores a NUL over the
slash that ends each token it returns.  The definitions below follow the same
code as `path_lookup` above and keep the contents of the buffer next to the
result.  A buffer is the list of the characters before its terminating NUL. -/

/-- The successive results of `strtok(path, "/")`, `strtok(NULL, "/")`, ...: each
token with the contents of the buffer after the call that returned it.  `passed`
is the part of the buffer already passed (reversed, with the NULs stored so
far) and `cur` the run being read (reversed). -/
def strtok_calls : List Char → List Char → List Char → List (List Char × List Char)
  | [], passed, cur => if cur = [] then [] else [(cur.reverse, passed.reverse)]
  | c :: cs, passed, cur =>
    if c = '/' then
      (if cur = [] then strtok_calls cs (c :: passed) []
       else (cur.reverse, passed.reverse ++ Char.ofNat 0 :: cs)
              :: strtok_calls cs (Char.ofNat 0 :: passed) [])
    else strtok_calls cs (c :: passed) (c :: cur)

/-- The `while (token != NULL)` loop of `path_lookup`, with the buffer: `buf` is
the buffer as the calls made so far left it. -/
def lookup_rest_buffer (h : a1fs_h) (fs : fs_ctx) :
    List (List Char × List Char) → Int → List Char → Option Int × List Char
  | [], tmp_inode, buf => (some tmp_inode, buf)
  | (token, buf1) :: rest, tmp_inode, _ =>
    if tmp_inode < 0 then (none, buf1)
    else if (fs.inode_table tmp_inode.toNat).size = 0 then (some (-1), buf1)
    else if S_ISREG (fs.inode_table tmp_inode.toNat).mode then (some (-2), buf1)
    else
      match scan_dir h fs tmp_inode.toNat token
          (fs.inode_table tmp_inode.toNat).extent_num 0 0 with
      | scan_result.found ino => lookup_rest_buffer h fs rest (int_of ino) buf1
      | scan_result.not_found => (some (-1), buf1)
      | scan_result.fell_through _ => lookup_rest_buffer h fs rest tmp_inode buf1

/-- The function `path_lookup` on a path buffer: the value returned and the
contents of the buffer when it returns. -/
def path_lookup_buffer (h : a1fs_h) (fs : fs_ctx) (path : List Char) :
    Option Int × List Char :=
  if path.head? ≠ some '/' then (some (-1), path)
  else
    match strtok_calls path [] [] with
    | [] => (some (ROOT_INODE : Int), path)
    | (token, buf1) :: rest =>
      match scan_dir h fs ROOT_INODE token (fs.inode_table ROOT_INODE).extent_num 0 0 with
      | scan_result.found ino => lookup_rest_buffer h fs rest (int_of ino) buf1
      | scan_result.not_found => (some (-1), buf1)
      | scan_result.fell_through _ => lookup_rest_buffer h fs rest (-1) buf1

/-! ## Parent and child of a path (`fs_ctx.c`) -/

/-- The index of the last slash, the value `strlen(path) - strlen(last)` for
`last = strrchr(path, '/')`; `none` when there is no slash. -/
def last_slash : List Char → Option Nat
  | [] => none
  | c :: cs =>
    match last_slash cs with
    | some i => some (i + 1)
    | none => if c = '/' then some 0 else none

/-- The call `extract_parent_path(path, buf)` on a zeroed buffer of `buf_size`
bytes: the string left in the buffer.  `none` when `strrchr` finds no slash or
the copy does not leave a terminator inside the buffer. -/
def extract_parent_path (path : List Char) (buf_size : Nat) : Option (List Char) :=
  match last_slash path with
  | none => none
  | some diff =>
    if diff = 0 then (if 2 ≤ buf_size then some ['/'] else none)
    else if diff < buf_size then some (path.take diff)
    else none

/-- The string `extract_child_path(path, buf)` leaves in `buf`: the characters
after the last slash. -/
def extract_child_path (path : List Char) : Option (List Char) :=
  match last_slash path with
  | none => none
  | some i => some (path.drop (i + 1))

/-! ## Attributes (`a1fs.c`) -/

def a1fs_getattr (h : a1fs_h) (fs : fs_ctx) (path : String) (st : stat) : Option (Int × stat) :=
  if path.length ≥ h.A1FS_PATH_MAX then some (-ENAMETOOLONG, st)
  else
    let st0 : stat := ⟨0, 0, 0, 0, ⟨0, 0⟩⟩
    match path_lookup h fs path with
    | none => none
    | some inode_num =>
      if inode_num = -1 then some (-ENOENT, st0)
      else if inode_num = -2 then some (-ENOTDIR, st0)
      else if inode_num < 0 then none
      else
        let inode_entry := fs.inode_table inode_num.toNat
        some (0, ⟨inode_entry.mode, inode_entry.links, inode_entry.size,
          get_exact_num_blks_of_file fs.data inode_entry, inode_entry.mtime⟩)

/-! ## Growing a file by one block (`fs_ctx.c`) -/

/-- The body of `growing_a_block_for_file`: the return value and the state it
leaves.  `none` stands for the `memset` of the block after the last block of
the file when that block does not lie inside the mapped image. -/
def growing_a_block_for_file (h : a1fs_h) (fs : fs_ctx) (file_inode_num : Nat) :
    Option (Int × fs_ctx) :=
  if fs.available_blocks = 0 then some (-1, fs)
  else if (fs.inode_table file_inode_num).size = 0 then
    if fs.available_blocks = 1 then some (-1, fs)
    else
      let new_single_indirect_block_num :=
        get_first_available_position h fs.num_of_data_blocks fs.data_bitmap
      let bm1 := set_bitmap fs.data_bitmap new_single_indirect_block_num
      let p := get_addr_of_block new_single_indirect_block_num
      let m1 := write32 fs.data (p + sizeof_extent * 0)
        (get_first_available_position h fs.num_of_data_blocks bm1)
      let bm2 := set_bitmap bm1 new_single_indirect_block_num
      let m2 := write32 m1 (p + sizeof_extent * 0 + 4) 1
      let m3 := memset m2 (get_addr_of_block (extent_start m2 p 0)) 0 A1FS_BLOCK_SIZE
      some (0, { fs with
              data_bitmap := bm2
              available_blocks := sub32 (sub32 fs.available_blocks 1) 1
              data := m3
              inode_table := set_inode fs.inode_table file_inode_num
                { fs.inode_table file_inode_num with
                    indirect_pt := p, size := A1FS_BLOCK_SIZE, extent_num := 1 } })
  else
    let inode := fs.inode_table file_inode_num
    let original_last_block_addr := get_addr_of_block (find_last_block fs file_inode_num)
    let original_block_count_of_file := get_num_blks_of_file fs.data inode
    let m1 :=
      if inode.size % A1FS_BLOCK_SIZE ≠ 0 then
        memset fs.data (original_last_block_addr + inode.size % A1FS_BLOCK_SIZE) 0
          (sub64 (A1FS_BLOCK_SIZE * original_block_count_of_file) inode.size)
      else fs.data
    let fs1 := { fs with data := m1 }
    if is_bit_set (u32 (find_last_block fs1 file_inode_num + 1)) fs1.data_bitmap = 0 then
      if fs.size < fs.data_block + (original_last_block_addr + A1FS_BLOCK_SIZE) + A1FS_BLOCK_SIZE
      then none
      else
        let bm := set_bitmap fs1.data_bitmap (u32 (find_last_block fs1 file_inode_num + 1))
        let i := sub32 inode.extent_num 1
        let m2 := write32 m1 (inode.indirect_pt + sizeof_extent * i + 4)
          (u32 (extent_count m1 inode.indirect_pt i + 1))
        let m3 := memset m2 (original_last_block_addr + A1FS_BLOCK_SIZE) 0 A1FS_BLOCK_SIZE
        some (0, { fs with
                data_bitmap := bm
                available_blocks := sub32 fs.available_blocks 1
                data := m3
                inode_table := set_inode fs.inode_table file_inode_num
                  { inode with
                      size := u64 ((original_block_count_of_file + 1) * A1FS_BLOCK_SIZE) } })
    else if inode.extent_num = 512 then some (-1, fs1)
    else
      let new_block_num := get_first_available_position h fs.num_of_data_blocks fs.data_bitmap
      let bm := set_bitmap fs.data_bitmap new_block_num
      let m2 := write32 m1 (inode.indirect_pt + sizeof_extent * inode.extent_num) new_block_num
      let m3 := write32 m2 (inode.indirect_pt + sizeof_extent * inode.extent_num + 4) 1
      let m4 := memset m3 (get_addr_of_block new_block_num) 0 A1FS_BLOCK_SIZE
      some (0, { fs with
              data_bitmap := bm
              available_blocks := sub32 fs.available_blocks 1
              data := m4
              inode_table := set_inode fs.inode_table file_inode_num
                { inode with
                    extent_num := u32 (inode.extent_num + 1)
                    size := u64 ((original_block_count_of_file + 1) * A1FS_BLOCK_SIZE) } })

/-! ## Truncate (`a1fs.c`) -/

/-- The block count `a1fs_truncate` computes for a requested size. -/
def new_file_block_count (size : Nat) : Nat :=
  if size % A1FS_BLOCK_SIZE = 0 then u32 size / A1FS_BLOCK_SIZE
  else u32 (u32 size / A1FS_BLOCK_SIZE + 1)

/-- The search loop of the shrinking branch: `k` extents left from index `i`,
`count` blocks passed, `temp_extent` the extent read last.  The result is
`(target_extent_index, target_block_num_in_extent, temp_extent)`. -/
def shrink_search (m : Mem) (p new_count : Nat) :
    Nat → Nat → Nat → Nat × Nat → Nat × Nat × (Nat × Nat)
  | 0, _, _, temp_extent => (0, 1, temp_extent)
  | k + 1, i, count, _ =>
    let temp_extent := (extent_start m p i, extent_count m p i)
    if u32 (temp_extent.2 + count) ≥ new_count then (i, sub32 new_count count, temp_extent)
    else shrink_search m p new_count k (i + 1) (u32 (count + temp_extent.2)) temp_extent

/-- The loop that frees the tail of the target extent: `k` rounds left from
index `i`, on the data bitmap and the counter of available blocks. -/
def free_in_target (start : Nat) : Nat → Nat → Mem → Nat → Mem × Nat
  | 0, _, bitmap, available => (bitmap, available)
  | k + 1, i, bitmap, available =>
    free_in_target start k (i + 1) (unset_bitmap bitmap (u32 (start + i + 4294967295)))
      (u32 (available + 1))

/-- The inner loop over the blocks of a later extent `i`.  Its `unset_bitmap`
is applied to the memory at `fs->data_block`, and the bound is read again from
that memory in every round; `fuel` bounds the rounds of a 32-bit counter. -/
def free_later_blocks (p i : Nat) : Nat → Nat → Mem → Nat → Mem × Nat
  | 0, _, m, available => (m, available)
  | fuel + 1, j, m, available =>
    if j < extent_count m p i then
      free_later_blocks p i fuel (j + 1) (unset_bitmap m (u32 (extent_start m p i + j)))
        (u32 (available + 1))
    else (m, available)

/-- The loop over the extents after the target one: `k` extents left from `i`. -/
def free_later_extents (p : Nat) : Nat → Nat → Mem → Nat → Mem × Nat
  | 0, _, m, available => (m, available)
  | k + 1, i, m, available =>
    let r := free_later_blocks p i 4294967296 0 m available
    free_later_extents p k (i + 1) r.1 r.2

/-- The loop of the growing branch: `k` calls of `growing_a_block_for_file`
left; the flag tells whether all of them returned 0. -/
def grow_blocks (h : a1fs_h) (file_inode_num : Nat) : Nat → fs_ctx → Option (Bool × fs_ctx)
  | 0, fs => some (true, fs)
  | k + 1, fs =>
    match growing_a_block_for_file h fs file_inode_num with
    | none => none
    | some r => if r.1 = -1 then some (false, r.2) else grow_blocks h file_inode_num k r.2

/-- The body of `a1fs_truncate`; `now` is the time `clock_gettime` reports. -/
def a1fs_truncate (h : a1fs_h) (fs : fs_ctx) (now : timespec) (path : String) (size : Nat) :
    Option (Int × fs_ctx) :=
  match path_lookup h fs path with
  | none => none
  | some r =>
    let file_inode_num := u32_of_int r
    let inode := fs.inode_table file_inode_num
    let file_original_size := inode.size
    if u64 size = file_original_size then some (0, fs)
    else if u64 size < file_original_size then
      if inode.extent_num = 0 then none
      else
        let p := inode.indirect_pt
        let found := shrink_search fs.data p (new_file_block_count size) inode.extent_num 0 0 (0, 0)
        let target_extent_index := found.1
        let target_block_num_in_extent := found.2.1
        let temp_extent := found.2.2
        let freed := free_in_target temp_extent.1 (temp_extent.2 - target_block_num_in_extent)
          target_block_num_in_extent fs.data_bitmap fs.available_blocks
        let m1 := write32 fs.data (p + sizeof_extent * target_extent_index + 4)
          target_block_num_in_extent
        let later := free_later_extents p (inode.extent_num - (target_extent_index + 1))
          (u32 (target_extent_index + 1)) m1 freed.2
        some (0, { fs with
                    data_bitmap := freed.1
                    available_blocks := later.2
                    data := later.1
                    inode_table := set_inode fs.inode_table file_inode_num
                      { inode with
                          extent_num := u32 (target_extent_index + 1)
                          size := u64 size
                          mtime := now } })
    else
      let original_file_block_count := get_num_blks_of_file fs.data inode
      let num_blocks_we_have_to_add := sub32 (new_file_block_count size) original_file_block_count
      match grow_blocks h file_inode_num num_blocks_we_have_to_add fs with
      | none => none
      | some grown =>
        if grown.1 = false then some (-ENOSPC, grown.2)
        else
          some (0, { grown.2 with
                      inode_table := set_inode grown.2.inode_table file_inode_num
                        { grown.2.inode_table file_inode_num with
                            size := u64 size, mtime := now } })

/-! ## Read (`a1fs.c`) -/

/-- The loop that looks for the extent holding the offset: `k` extents left
from index `i`; the result is `(extent_index, offset_copy)`. -/
def read_find_extent (m : Mem) (p : Nat) : Nat → Nat → Int → Nat × Int
  | 0, _, offset_copy => (0, offset_copy)
  | k + 1, i, offset_copy =>
    if offset_copy - (u32 (extent_count m p i * A1FS_BLOCK_SIZE) : Nat) < 0 then (i, offset_copy)
    else read_find_extent m p k (i + 1)
      (offset_copy - (u32 (extent_count m p i * A1FS_BLOCK_SIZE) : Nat))

/-- The loop that looks for the block inside the extent: `k` blocks left from
index `j`; the result is `blk_index_in_extent`. -/
def read_find_block : Nat → Nat → Int → Nat
  | 0, _, _ => 0
  | k + 1, j, offset_copy =>
    if offset_copy - (A1FS_BLOCK_SIZE : Nat) < 0 then j
    else read_find_block k (j + 1) (offset_copy - (A1FS_BLOCK_SIZE : Nat))

/-- The body of `a1fs_read`: the return value and the bytes copied to the
start of the caller's buffer.  The function stores nothing in the image. -/
def a1fs_read (h : a1fs_h) (fs : fs_ctx) (path : String) (size offset : Nat) :
    Option (Int × List Nat) :=
  match path_lookup h fs path with
  | none => none
  | some inode_num =>
    if inode_num < 0 then none
    else
      let inode := fs.inode_table inode_num.toNat
      if u32 offset ≥ inode.size then some (0, [])
      else
        let ret : Int :=
          if u64 (u32 offset + size) > inode.size then int_of (sub64 inode.size (u32 offset))
          else int_of size
        let offset_in_blk := u64 offset % A1FS_BLOCK_SIZE
        let found := read_find_extent fs.data inode.indirect_pt inode.extent_num 0 (offset : Int)
        let extent_index := found.1
        let blk_index_in_extent :=
          read_find_block (extent_count fs.data inode.indirect_pt extent_index) 0 found.2
        let data_to_read :=
          u32 (extent_start fs.data inode.indirect_pt extent_index + blk_index_in_extent)
            * A1FS_BLOCK_SIZE + offset_in_blk
        if ret < 0 then none
        else some (ret, load_bytes fs.data data_to_read ret.toNat)

/-! ## Write (`a1fs.c`) -/

/-- The update of `mtime` and of `size` that ends each branch of `a1fs_write`. -/
def touch (fs : fs_ctx) (n : Nat) (now : timespec) (size : Nat) : Nat → a1fs_inode :=
  set_inode fs.inode_table n { fs.inode_table n with mtime := now, size := size }

/-- The body of `a1fs_write`; `buf` holds the `size` bytes to write and `now`
is the time `clock_gettime` reports. -/
def a1fs_write (h : a1fs_h) (fs : fs_ctx) (now : timespec) (path : String) (buf : List Nat)
    (offset : Nat) : Option (Int × fs_ctx) :=
  let size := buf.length
  if size = 0 then some (0, fs)
  else
    match path_lookup h fs path with
    | none => none
    | some r =>
      let n := u32_of_int r
      let file_size := (fs.inode_table n).size
      let blks := get_num_blks_of_file fs.data (fs.inode_table n)
      if u64 (size + offset) ≤ file_size then
        match get_addr_of_starting_write_point fs n (u64 offset) with
        | none => none
        | some addr_of_write_begin =>
          some (int_of size, { fs with
            data := memcpy fs.data addr_of_write_begin buf size
            inode_table := touch fs n now file_size })
      else if u64 (size + offset) ≤ u32 (A1FS_BLOCK_SIZE * blks) then
        match get_addr_of_starting_write_point fs n (u64 offset) with
        | none => none
        | some addr_of_write_begin =>
          if u64 offset ≤ file_size then
            let m1 := memset fs.data addr_of_write_begin 0
              (sub64 (u32 (A1FS_BLOCK_SIZE * blks)) offset)
            some (int_of size, { fs with
              data := memcpy m1 addr_of_write_begin buf size
              inode_table := touch fs n now (u64 (size + offset)) })
          else
            let file_last_block_addr := get_addr_of_block (find_last_block fs n)
            let hole := sub64 (u32 (A1FS_BLOCK_SIZE * blks)) file_size
            if file_last_block_addr + A1FS_BLOCK_SIZE < hole then none
            else
              let hole_begin := file_last_block_addr + A1FS_BLOCK_SIZE - hole
              let m1 := memset fs.data hole_begin 0 hole
              some (int_of size, { fs with
                data := memcpy m1 addr_of_write_begin buf size
                inode_table := touch fs n now (u64 (size + offset)) })
      else if u64 (size + offset) ≤ u32 (A1FS_BLOCK_SIZE * u32 (1 + blks)) then
        match growing_a_block_for_file h fs n with
        | none => none
        | some g =>
          if g.1 = -1 then some (-ENOSPC, g.2)
          else
            let current_last_block_addr := get_addr_of_block (find_last_block g.2 n)
            let write_begin := current_last_block_addr + offset % A1FS_BLOCK_SIZE
            some (int_of size, { g.2 with
              data := memcpy g.2.data write_begin buf size
              inode_table := touch g.2 n now (u64 (size + offset)) })
      else
        match growing_a_block_for_file h fs n with
        | none => none
        | some g1 =>
          if g1.1 = -1 then some (-ENOSPC, g1.2)
          else
            match growing_a_block_for_file h g1.2 n with
            | none => none
            | some g2 =>
              if g2.1 = -1 then some (-ENOSPC, g2.2)
              else
                let begin_write := get_addr_of_block (find_last_block g2.2 n)
                some (int_of size, { g2.2 with
                  data := memcpy g2.2.data begin_write buf size
                  inode_table := touch g2.2 n now (u64 (size + offset)) })


/-- Spec side of the read: the block that holds the `q`-th block of a file,
counting the blocks of the extents `i`, `i + 1`, ... (`k` of them) in array
order. -/
def nth_block_from (m : Mem) (p : Nat) : Nat → Nat → Nat → Option Nat
  | 0, _, _ => none
  | k + 1, i, q =>
    if q < extent_count m p i then some (extent_start m p i + q)
    else nth_block_from m p k (i + 1) (q - extent_count m p i)


/-! ## Directory entries (`a1fs.c`)

`a1fs_mkdir` and `a1fs_create` insert the entry of the new inode with the same
statements, and so do `a1fs_rmdir` and `a1fs_unlink` remove one; the two pairs
differ only in what they do to the link count of the parent.  The common
statements are the functions `add_entry` and `remove_entry` below. -/

/-- The contents of the locals `new_dir` and `new_entry` of `a1fs_mkdir` and
`a1fs_create` before the code assigns to their fields: the fields and bytes the
code never assigns keep these values when the records are copied to the
image. -/
structure locals where
  new_dir : a1fs_inode
  new_entry : Mem

/-- The store of a time in `fs->inode_table[n].mtime`. -/
def set_mtime (fs : fs_ctx) (n : Nat) (t : timespec) : fs_ctx :=
  { fs with inode_table := set_inode fs.inode_table n { fs.inode_table n with mtime := t } }

/-- The assignment `block[k] = new_entry`, for `a` the address of `block[k]`:
the record holds `ino`, then the name as `extract_child_path` left it (the
characters and three NULs), and is otherwise as it was on the stack.  `none`
when the name and its NULs do not fit in the record. -/
def store_new_entry (h : a1fs_h) (m : Mem) (a : Nat) (g : Mem) (ino : Nat) (name : List Char) :
    Option Mem :=
  if 4 + name.length + 3 ≤ h.sizeof_dentry then
    some (memcpy
      (write32 (fun x => if a ≤ x ∧ x < a + h.sizeof_dentry then g (x - a) else m x) a ino)
      (a + 4) (name.map Char.toNat ++ [0, 0, 0]) (name.length + 3))
  else none

/-- The branch `num_dir_entry == 0` of `a1fs_mkdir` and `a1fs_create`: the
parent `inode_num` gets an extent block, a first data block and the entry
`(new_inode, name)`.  `dir` tells whether the statement `links++` is there (it
is in `a1fs_mkdir`, not in `a1fs_create`). -/
def add_first_entry (h : a1fs_h) (fs : fs_ctx) (inode_num new_inode : Nat) (name : List Char)
    (g : Mem) (dir : Bool) : Option (Int × fs_ctx) :=
  let parent := fs.inode_table inode_num
  if fs.available_inodes = 0 ∨ fs.available_blocks = 0 then some (-ENOSPC, fs)
  else
    let new_single_indirect_block_num :=
      get_first_available_position h fs.num_of_data_blocks fs.data_bitmap
    let bm1 := set_bitmap fs.data_bitmap new_single_indirect_block_num
    let avail1 := sub32 fs.available_blocks 1
    let p := get_addr_of_block new_single_indirect_block_num
    if fs.available_inodes = 0 ∨ avail1 = 0 then
      some (-ENOSPC, { fs with
        data_bitmap := bm1
        available_blocks := avail1
        inode_table := set_inode fs.inode_table inode_num { parent with indirect_pt := p } })
    else
      let new_data_block := get_first_available_position h fs.num_of_data_blocks bm1
      let bm2 := set_bitmap bm1 new_data_block
      let m1 := write32 fs.data (p + sizeof_extent * 0) new_data_block
      let m2 := write32 m1 (p + sizeof_extent * 0 + 4) 1
      match store_new_entry h m2 (get_addr_of_block new_data_block + 0 * h.sizeof_dentry)
          g new_inode name with
      | none => none
      | some m3 =>
        some (0, { fs with
          data_bitmap := bm2
          available_blocks := sub32 avail1 1
          data := m3
          inode_table := set_inode fs.inode_table inode_num
            { parent with
                indirect_pt := p
                size := u64 (parent.size + h.sizeof_dentry)
                links := if dir then u32 (parent.links + 1) else parent.links
                num_dir_entry := u32 (parent.num_dir_entry + 1)
                extent_num := u32 (parent.extent_num + 1) } })

/-- The statements of `a1fs_mkdir` and `a1fs_create` that put the entry
`(new_inode, name)` in a parent that has entries: in the last block, in the
block after it, or in the block of a new extent.  The result is the state
reached, or `some none` where the code returns `-ENOSPC`; it is `none` when the
entry does not fit the record, and when the block after the last block, where
the entry is stored, does not lie inside the mapped image. -/
def place_entry (h : a1fs_h) (fs : fs_ctx) (inode_num new_inode : Nat) (name : List Char)
    (g : Mem) : Option (Option fs_ctx) :=
  let parent := fs.inode_table inode_num
  let last_block := find_last_block fs inode_num
  if parent.size % A1FS_BLOCK_SIZE ≠ 0 then
    let num_of_entry_in_last_block :=
      parent.num_dir_entry % (A1FS_BLOCK_SIZE / h.sizeof_dentry)
    match store_new_entry h fs.data
        (get_addr_of_block last_block + num_of_entry_in_last_block * h.sizeof_dentry)
        g new_inode name with
    | none => none
    | some m1 => some (some { fs with data := m1 })
  else if is_bit_set (u32 (last_block + 1)) fs.data_bitmap = 0 then
    let new_block_num := u32 (last_block + 1)
    if fs.size < fs.data_block + get_addr_of_block new_block_num + h.sizeof_dentry then none
    else
      match store_new_entry h fs.data (get_addr_of_block new_block_num + 0 * h.sizeof_dentry)
          g new_inode name with
      | none => none
      | some m1 =>
        let i := sub32 parent.extent_num 1
        some (some { fs with
          data_bitmap := set_bitmap fs.data_bitmap new_block_num
          available_blocks := sub32 fs.available_blocks 1
          data := write32 m1 (parent.indirect_pt + sizeof_extent * i + 4)
            (u32 (extent_count m1 parent.indirect_pt i + 1)) })
  else if fs.available_inodes = 0 ∨ fs.available_blocks = 0 then some none
  else
    let new_data_block_num := get_first_available_position h fs.num_of_data_blocks fs.data_bitmap
    let m1 := write32 fs.data (parent.indirect_pt + sizeof_extent * parent.extent_num)
      new_data_block_num
    let m2 := write32 m1 (parent.indirect_pt + sizeof_extent * parent.extent_num + 4) 1
    match store_new_entry h m2 (get_addr_of_block new_data_block_num + 0 * h.sizeof_dentry)
        g new_inode name with
    | none => none
    | some m3 =>
      some (some { fs with
        data_bitmap := set_bitmap fs.data_bitmap new_data_block_num
        available_blocks := sub32 fs.available_blocks 1
        data := m3
        inode_table := set_inode fs.inode_table inode_num
          { parent with extent_num := u32 (parent.extent_num + 1) } })

/-- The statements of `a1fs_mkdir` and `a1fs_create` that add the entry
`(new_inode, name)` to the directory `inode_num`; `name` is what
`extract_child_path` puts in `new_entry.name`. -/
def add_entry (h : a1fs_h) (fs : fs_ctx) (inode_num new_inode : Nat) (name : List Char)
    (g : Mem) (dir : Bool) : Option (Int × fs_ctx) :=
  if (fs.inode_table inode_num).num_dir_entry = 0 then
    add_first_entry h fs inode_num new_inode name g dir
  else
    match place_entry h fs inode_num new_inode name g with
    | none => none
    | some none => some (-ENOSPC, fs)
    | some (some fs1) =>
      let parent1 := fs1.inode_table inode_num
      some (0, { fs1 with
        inode_table := set_inode fs1.inode_table inode_num
          { parent1 with
              size := u64 (parent1.size + h.sizeof_dentry)
              links := if dir then u32 (parent1.links + 1) else parent1.links
              num_dir_entry := u32 (parent1.num_dir_entry + 1) } })

/-- The body of `a1fs_mkdir`; `now_child` and `now_parent` are the times its two
calls of `clock_gettime` report. -/
def a1fs_mkdir (h : a1fs_h) (fs : fs_ctx) (now_child now_parent : timespec) (g : locals)
    (path : String) (mode : Nat) : Option (Int × fs_ctx) :=
  let mode := u32 (mode ||| S_IFDIR)
  let new_dir : a1fs_inode :=
    { g.new_dir with
        mode := mode, links := 2, size := 0, mtime := now_child, extent_num := 0
        num_dir_entry := 0 }
  if fs.available_inodes = 0 ∨ fs.available_blocks = 0 then some (-ENOSPC, fs)
  else
    let new_inode := get_first_available_position h fs.num_inodes fs.inode_bitmap
    let fs1 := { fs with
      inode_bitmap := set_bitmap fs.inode_bitmap new_inode
      available_inodes := sub32 fs.available_inodes 1
      inode_table := set_inode fs.inode_table new_inode new_dir }
    match extract_parent_path path.toList h.A1FS_PATH_MAX, extract_child_path path.toList with
    | some parent_dir, some name =>
      match path_lookup h fs1 (String.mk parent_dir) with
      | none => none
      | some inode_num =>
        if inode_num < 0 then none
        else
          add_entry h (set_mtime fs1 inode_num.toNat now_parent) inode_num.toNat new_inode name
            g.new_entry true
    | _, _ => none

/-- The body of `a1fs_create`; `now` is the time `clock_gettime` reports.  The
code does not assign `new_dir.mtime`; a failed `assert(S_ISREG(mode))` ends the
program, which is the result `none`. -/
def a1fs_create (h : a1fs_h) (fs : fs_ctx) (now : timespec) (g : locals)
    (path : String) (mode : Nat) : Option (Int × fs_ctx) :=
  if S_ISREG (u32 mode) = false then none
  else if fs.available_inodes = 0 ∨ fs.available_blocks = 0 then some (-ENOSPC, fs)
  else
    let new_dir : a1fs_inode :=
      { g.new_dir with
          mode := u32 mode, links := 1, size := 0, extent_num := 0, num_dir_entry := 0 }
    let new_inode := get_first_available_position h fs.num_inodes fs.inode_bitmap
    let fs1 := { fs with
      inode_bitmap := set_bitmap fs.inode_bitmap new_inode
      available_inodes := sub32 fs.available_inodes 1
      inode_table := set_inode fs.inode_table new_inode new_dir }
    match extract_parent_path path.toList h.A1FS_NAME_MAX, extract_child_path path.toList with
    | some parent_dir, some name =>
      match path_lookup h fs1 (String.mk parent_dir) with
      | none => none
      | some inode_num =>
        if inode_num < 0 then none
        else
          add_entry h (set_mtime fs1 inode_num.toNat now) inode_num.toNat new_inode name
            g.new_entry false
    | _, _ => none

/-- The assignment `block[k] = parent_last_dentry` of a record read at `src`
to the record at `dst`. -/
def copy_dentry (h : a1fs_h) (m : Mem) (dst src : Nat) : Mem := fun x =>
  if dst ≤ x ∧ x < dst + h.sizeof_dentry then m (src + (x - dst)) else m x

/-- The loop over the entries of one block that looks for the entry of inode
`target`: `k` entries left from index `s`; the result is the address of the
entry found. -/
def find_in_block (h : a1fs_h) (m : Mem) (target temp_block_addr : Nat) : Nat → Nat → Option Nat
  | 0, _ => none
  | k + 1, s =>
    if read32 m (temp_block_addr + s * h.sizeof_dentry) = target then
      some (temp_block_addr + s * h.sizeof_dentry)
    else find_in_block h m target temp_block_addr k (s + 1)

/-- The loop over the blocks of the extent `temp_extent = (start, count)`: `k`
blocks left from index `j`. -/
def find_in_extent (h : a1fs_h) (m : Mem) (target start : Nat) : Nat → Nat → Option Nat
  | 0, _ => none
  | k + 1, j =>
    match find_in_block h m target (get_addr_of_block (u32 (start + j)))
        (A1FS_BLOCK_SIZE / h.sizeof_dentry) 0 with
    | some a => some a
    | none => find_in_extent h m target start k (j + 1)

/-- The loop over the extents of the parent: `k` extents left from index `i`. -/
def find_in_dir (h : a1fs_h) (m : Mem) (p target : Nat) : Nat → Nat → Option Nat
  | 0, _ => none
  | k + 1, i =>
    match find_in_extent h m target (extent_start m p i) (extent_count m p i) 0 with
    | some a => some a
    | none => find_in_dir h m p target k (i + 1)

/-- The address of the last entry of the parent, `parent_last_dentry`. -/
def last_entry_addr (h : a1fs_h) (fs : fs_ctx) (parent_inode_num : Nat) : Nat :=
  let parent := fs.inode_table parent_inode_num
  let parent_last_block_num := find_last_block fs parent_inode_num
  let per := A1FS_BLOCK_SIZE / h.sizeof_dentry
  let num_of_entry_in_last_block :=
    if u32 (parent.num_dir_entry % per) = 0 then u32 per else u32 (parent.num_dir_entry % per)
  get_addr_of_block parent_last_block_num + sub32 num_of_entry_in_last_block 1 * h.sizeof_dentry

/-- The statements of `a1fs_rmdir` and `a1fs_unlink` that find `target_dentry`
and put the last entry in its place: the result is `target_dentry.ino` and the
data region.  `none` when no entry is found, so that `target_dentry` is read
without a value. -/
def take_entry (h : a1fs_h) (fs : fs_ctx) (parent_inode_num target_inode_num : Nat) :
    Option (Nat × Mem) :=
  let parent := fs.inode_table parent_inode_num
  let last_addr := last_entry_addr h fs parent_inode_num
  if read32 fs.data last_addr = target_inode_num then some (read32 fs.data last_addr, fs.data)
  else
    match find_in_dir h fs.data parent.indirect_pt target_inode_num parent.extent_num 0 with
    | none => none
    | some a => some (read32 fs.data a, copy_dentry h fs.data a last_addr)

/-- The statements of `a1fs_rmdir` and `a1fs_unlink` from `find_last_block` on:
they take the entry of inode `target_inode_num` out of the directory
`parent_inode_num` and free the inode.  `dir` tells whether the statements
`links -= 1` are there (they are in `a1fs_rmdir`, not in `a1fs_unlink`). -/
def remove_entry (h : a1fs_h) (fs : fs_ctx) (parent_inode_num target_inode_num : Nat)
    (dir : Bool) : Option (Int × fs_ctx) :=
  let parent := fs.inode_table parent_inode_num
  let parent_last_block_num := find_last_block fs parent_inode_num
  let per := A1FS_BLOCK_SIZE / h.sizeof_dentry
  match take_entry h fs parent_inode_num target_inode_num with
  | none => none
  | some (target_ino, m) =>
    let inode_bitmap := unset_bitmap fs.inode_bitmap target_ino
    let available_inodes := u32 (fs.available_inodes + 1)
    if parent.num_dir_entry = 1 then
      let parent_indirect_block_num := get_num_of_block parent.indirect_pt
      some (0, { fs with
        inode_bitmap := inode_bitmap
        available_inodes := available_inodes
        data_bitmap :=
          unset_bitmap (unset_bitmap fs.data_bitmap parent_last_block_num) parent_indirect_block_num
        available_blocks := u32 (u32 (fs.available_blocks + 1) + 1)
        data := m
        inode_table := set_inode fs.inode_table parent_inode_num
          { parent with extent_num := 0, links := 2, num_dir_entry := 0, size := 0 } })
    else if parent.num_dir_entry % per ≠ 1 then
      some (0, { fs with
        inode_bitmap := inode_bitmap
        available_inodes := available_inodes
        data := m
        inode_table := set_inode fs.inode_table parent_inode_num
          { parent with
              links := if dir then sub32 parent.links 1 else parent.links
              num_dir_entry := sub32 parent.num_dir_entry 1
              size := sub64 parent.size h.sizeof_dentry } })
    else
      let parent_extent_num := parent.extent_num
      if extent_count m parent.indirect_pt (sub32 parent_extent_num 1) > 1 then
        some (0, { fs with
          inode_bitmap := inode_bitmap
          available_inodes := available_inodes
          data_bitmap := unset_bitmap fs.data_bitmap parent_last_block_num
          available_blocks := u32 (fs.available_blocks + 1)
          data := write32 m (parent.indirect_pt + sizeof_extent * sub32 parent_extent_num 1 + 4)
            (sub32 (extent_count m parent.indirect_pt (sub32 parent_extent_num 1)) 1)
          inode_table := set_inode fs.inode_table parent_inode_num
            { parent with
                links := if dir then sub32 parent.links 1 else parent.links
                num_dir_entry := sub32 parent.num_dir_entry 1
                size := sub64 parent.size h.sizeof_dentry } })
      else
        some (0, { fs with
          inode_bitmap := inode_bitmap
          available_inodes := available_inodes
          data_bitmap := unset_bitmap fs.data_bitmap parent_last_block_num
          available_blocks := u32 (fs.available_blocks + 1)
          data := m
          inode_table := set_inode fs.inode_table parent_inode_num
            { parent with
                extent_num := sub32 parent.extent_num 1
                links := if dir then sub32 parent.links 1 else parent.links
                num_dir_entry := sub32 parent.num_dir_entry 1
                size := sub64 parent.size h.sizeof_dentry } })

/-- The body of `a1fs_rmdir`; `now` is the time `clock_gettime` reports. -/
def a1fs_rmdir (h : a1fs_h) (fs : fs_ctx) (now : timespec) (path : String) :
    Option (Int × fs_ctx) :=
  match extract_parent_path path.toList h.A1FS_PATH_MAX with
  | none => none
  | some parent_dir =>
    match path_lookup h fs (String.mk parent_dir) with
    | none => none
    | some r =>
      let parent_inode_num := u32_of_int r
      let fs1 := set_mtime fs parent_inode_num now
      match path_lookup h fs1 path with
      | none => none
      | some t =>
        let target_dir_inode_num := u32_of_int t
        if (fs1.inode_table target_dir_inode_num).size ≠ 0 then some (-ENOTEMPTY, fs1)
        else remove_entry h fs1 parent_inode_num target_dir_inode_num true

/-- The loop of `a1fs_unlink` over the blocks of `this_extent`: `k` blocks left
from index `j`, on the data bitmap and the counter of available blocks. -/
def unlink_free_blocks (start : Nat) : Nat → Nat → Mem → Nat → Mem × Nat
  | 0, _, bitmap, available => (bitmap, available)
  | k + 1, j, bitmap, available =>
    unlink_free_blocks start k (j + 1) (unset_bitmap bitmap (u32 (start + j)))
      (u32 (available + 1))

/-- The loop of `a1fs_unlink` over the extents of the file: `k` extents left
from index `i`. -/
def unlink_free_extents (m : Mem) (p : Nat) : Nat → Nat → Mem → Nat → Mem × Nat
  | 0, _, bitmap, available => (bitmap, available)
  | k + 1, i, bitmap, available =>
    let r := unlink_free_blocks (extent_start m p i) (extent_count m p i) 0 bitmap available
    unlink_free_extents m p k (i + 1) r.1 r.2

/-- The body of `a1fs_unlink`; `now` is the time `clock_gettime` reports. -/
def a1fs_unlink (h : a1fs_h) (fs : fs_ctx) (now : timespec) (path : String) :
    Option (Int × fs_ctx) :=
  match extract_parent_path path.toList h.A1FS_PATH_MAX with
  | none => none
  | some parent_dir =>
    match path_lookup h fs (String.mk parent_dir) with
    | none => none
    | some r =>
      let parent_inode_num := u32_of_int r
      let fs1 := set_mtime fs parent_inode_num now
      match path_lookup h fs1 path with
      | none => none
      | some t =>
        let target_inode_num := u32_of_int t
        let target := fs1.inode_table target_inode_num
        let fs2 :=
          if target.size ≠ 0 then
            let freed := unlink_free_extents fs1.data target.indirect_pt target.extent_num 0
              fs1.data_bitmap fs1.available_blocks
            let target_file_indirect_num := get_num_of_block target.indirect_pt
            { fs1 with
                data_bitmap := unset_bitmap freed.1 target_file_indirect_num
                available_blocks := u32 (freed.2 + 1)
                inode_table := set_inode fs1.inode_table target_inode_num
                  { target with extent_num := 0, size := 0 } }
          else fs1
        remove_entry h fs2 parent_inode_num target_inode_num false

/-! ## Listing a directory (`a1fs.c`) -/

/-- The string `filler` reads at address `a`: the bytes before the first NUL,
which has to be among the first `k` bytes. -/
def c_string (m : Mem) : Nat → Nat → Option (List Nat)
  | 0, _ => none
  | k + 1, a => if m a = 0 then some [] else (c_string m k (a + 1)).map (fun s => m a :: s)

/-- The loop of `a1fs_readdir` over the entries of one extent: `k` entries left
from index `j`.  The result is the names passed to `filler` and the value of
`dir_count` when the loop ran to its end (`none` after `goto END`). -/
def list_extent (h : a1fs_h) (m : Mem) (dir_entry_list num_dir_entry : Nat) :
    Nat → Nat → Nat → Option (List (List Nat) × Option Nat)
  | 0, _, dir_count => some ([], some dir_count)
  | k + 1, j, dir_count =>
    match c_string m (h.sizeof_dentry - 4) (dir_entry_list + j * h.sizeof_dentry + 4) with
    | none => none
    | some name =>
      if u32 (dir_count + 1) ≥ num_dir_entry then some ([name], none)
      else
        match list_extent h m dir_entry_list num_dir_entry k (j + 1) (u32 (dir_count + 1)) with
        | none => none
        | some (names, r) => some (name :: names, r)

/-- The loop of `a1fs_readdir` over the extents of the directory: `k` extents
left from index `i`. -/
def list_dir (h : a1fs_h) (fs : fs_ctx) (dir : Nat) : Nat → Nat → Nat → Option (List (List Nat))
  | 0, _, _ => some []
  | k + 1, i, dir_count =>
    let p := (fs.inode_table dir).indirect_pt
    let dir_entry_list := u32 (extent_start fs.data p i * A1FS_BLOCK_SIZE)
    let num_dentries_in_extent :=
      u32 (u32 (extent_count fs.data p i * A1FS_BLOCK_SIZE) / h.sizeof_dentry)
    match list_extent h fs.data dir_entry_list (fs.inode_table dir).num_dir_entry
        num_dentries_in_extent 0 dir_count with
    | none => none
    | some (names, none) => some names
    | some (names, some dc) => (list_dir h fs dir k (i + 1) dc).map (fun l => names ++ l)

/-- The body of `a1fs_readdir`: the value returned and the names passed to
`filler`, in order, for a `filler` that accepts every name.  A name is read as
a string inside the name field of its entry. -/
def a1fs_readdir (h : a1fs_h) (fs : fs_ctx) (path : String) :
    Option (Int × List (List Nat)) :=
  match path_lookup h fs path with
  | none => none
  | some inode_num =>
    if inode_num < 0 then none
    else
      match list_dir h fs inode_num.toNat (fs.inode_table inode_num.toNat).extent_num 0 0 with
      | none => none
      | some names => some (0, [46] :: [46, 46] :: names)

/-! ## Modification time (`a1fs.c`) -/

/-- The number of clear bits among the first `n` bits of a bitmap. -/
def free_count (bitmap : Mem) : Nat → Nat
  | 0 => 0
  | n + 1 => free_count bitmap n + (if is_bit_set n bitmap = 0 then 1 else 0)

/-- The state of a regular file that the round-trip property starts from.  The
data region has fewer than `2^20` blocks (an image below 4 GiB), the counter of
available blocks does not exceed the number of clear bits of the data bitmap,
the file has at most 512 extents and holds exactly the blocks its size needs, and when the file is not
empty its extent array starts a block of its own, each extent is non-empty,
lies inside the data region and does not contain the block of the extent
array. -/
def regular_file_wf (fs : fs_ctx) (n : Nat) : Prop :=
  fs.num_of_data_blocks < 1048576 ∧
  fs.available_blocks ≤ free_count fs.data_bitmap fs.num_of_data_blocks ∧
  (fs.inode_table n).extent_num ≤ 512 ∧
  (fs.inode_table n).size
    ≤ get_num_blks_of_file fs.data (fs.inode_table n) * A1FS_BLOCK_SIZE ∧
  get_num_blks_of_file fs.data (fs.inode_table n) * A1FS_BLOCK_SIZE
    < (fs.inode_table n).size + A1FS_BLOCK_SIZE ∧
  (0 < (fs.inode_table n).size →
    (fs.inode_table n).indirect_pt % A1FS_BLOCK_SIZE = 0 ∧
    ∀ i, i < (fs.inode_table n).extent_num →
      1 ≤ extent_count fs.data (fs.inode_table n).indirect_pt i ∧
      extent_start fs.data (fs.inode_table n).indirect_pt i
        + extent_count fs.data (fs.inode_table n).indirect_pt i ≤ fs.num_of_data_blocks ∧
      ((fs.inode_table n).indirect_pt / A1FS_BLOCK_SIZE
          < extent_start fs.data (fs.inode_table n).indirect_pt i ∨
        extent_start fs.data (fs.inode_table n).indirect_pt i
          + extent_count fs.data (fs.inode_table n).indirect_pt i
          ≤ (fs.inode_table n).indirect_pt / A1FS_BLOCK_SIZE))

/-- Block `b` is one of the data blocks of the extents of inode `n`. -/
def file_block (fs : fs_ctx) (n b : Nat) : Prop :=
  ∃ i, i < (fs.inode_table n).extent_num ∧
    extent_start fs.data (fs.inode_table n).indirect_pt i ≤ b ∧
    b < extent_start fs.data (fs.inode_table n).indirect_pt i
          + extent_count fs.data (fs.inode_table n).indirect_pt i

/-- The resolution of `path` does not depend on the inode record of `n`, on the
bytes of the data blocks of `n`, or on the bytes of blocks whose bit in the data
bitmap is clear: every image that agrees with `fs` on the other inode records
and on the other bytes resolves `path` as `fs` does. -/
def path_independent_of_file (h : a1fs_h) (fs : fs_ctx) (path : String) (n : Nat) : Prop :=
  ∀ fs2 : fs_ctx,
    (∀ k, k ≠ n → fs2.inode_table k = fs.inode_table k) →
    (∀ a, is_bit_set (a / A1FS_BLOCK_SIZE) fs.data_bitmap = 1 →
      ¬ file_block fs n (a / A1FS_BLOCK_SIZE) → fs2.data a = fs.data a) →
    path_lookup h fs2 path = path_lookup h fs path


/-- The number of set bits among the first `n` bits of a bitmap. -/
def popcount (bitmap : Mem) : Nat → Nat
  | 0 => 0
  | n + 1 => popcount bitmap n + is_bit_set n bitmap

/-- The data blocks of inode `dir`, in the order of its extent array: the
logical block stream of the directory. -/
def dir_blocks (fs : fs_ctx) (dir : Nat) : List Nat :=
  (List.range (fs.inode_table dir).extent_num).flatMap (fun i =>
    (List.range (extent_count fs.data (fs.inode_table dir).indirect_pt i)).map (fun j =>
      extent_start fs.data (fs.inode_table dir).indirect_pt i + j))

/-- The addresses of the `B / sizeof(dentry)` entry slots of data block `b`. -/
def block_slots (h : a1fs_h) (b : Nat) : List Nat :=
  (List.range (A1FS_BLOCK_SIZE / h.sizeof_dentry)).map (fun s =>
    b * A1FS_BLOCK_SIZE + s * h.sizeof_dentry)

/-- The addresses of the entry slots of directory `dir`, in order: slot `i` lies
in block `i / (B / sizeof(dentry))` of the block stream of the directory. -/
def dir_entry_addrs (h : a1fs_h) (fs : fs_ctx) (dir : Nat) : List Nat :=
  (dir_blocks fs dir).flatMap (block_slots h)

/-- The addresses of the entries of directory `dir`: its first `dir_entry_count`
slots. -/
def dir_entries (h : a1fs_h) (fs : fs_ctx) (dir : Nat) : List Nat :=
  (dir_entry_addrs h fs dir).take (fs.inode_table dir).num_dir_entry

/-- The name stored at address `a` is `name`: the bytes of `name` followed by a
NUL. -/
def name_equals (m : Mem) (a : Nat) (name : List Char) : Bool :=
  load_bytes m a name.length == name.map Char.toNat && m (a + name.length) == 0

/-- The inode number of the first entry of `dir` whose name is `name`. -/
def dir_find (h : a1fs_h) (fs : fs_ctx) (dir : Nat) (name : List Char) : Option Nat :=
  ((dir_entries h fs dir).find? (fun a => name_equals fs.data (a + 4) name)).map
    (fun a => read32 fs.data a)

/-- The entry slots of extent `i` of the extent array at `p` as the loops of
`path_lookup` address them: `count * B / sizeof(dentry)` records from the start
of the first block of the extent. -/
def extent_slots (h : a1fs_h) (m : Mem) (p i : Nat) : List Nat :=
  (List.range (extent_count m p i * (A1FS_BLOCK_SIZE / h.sizeof_dentry))).map (fun j =>
    extent_start m p i * A1FS_BLOCK_SIZE + j * h.sizeof_dentry)

/-- The part of `path_lookup` that follows the first call of `strtok`, as a
function of the list of tokens. -/
def lookup_tokens (h : a1fs_h) (fs : fs_ctx) : List (List Char) → Option Int
  | [] => some (ROOT_INODE : Int)
  | token :: rest =>
    match scan_dir h fs ROOT_INODE token (fs.inode_table ROOT_INODE).extent_num 0 0 with
    | scan_result.found ino => lookup_rest h fs rest (int_of ino)
    | scan_result.not_found => some (-1)
    | scan_result.fell_through _ => lookup_rest h fs rest (-1)

/-! ## Well-formed directories and the insertion of an entry -/

/-- The free space that an allocation starts from: the data region has fewer
than `2^20` blocks and the inode table at most `2^31` inodes, and neither
counter of available items exceeds the number of clear bits of its bitmap. -/
def space_wf (fs : fs_ctx) : Prop :=
  fs.num_of_data_blocks < 1048576 ∧
  fs.available_blocks ≤ free_count fs.data_bitmap fs.num_of_data_blocks ∧
  fs.num_inodes ≤ 2147483648 ∧
  fs.available_inodes ≤ free_count fs.inode_bitmap fs.num_inodes

/-- The state of the directory `dir` that the operations on entries start
from.  Entries have 256 bytes; the size is `dir_entry_count * sizeof(dentry)`;
an empty directory has no extent and link count 2; a directory with entries has
at most 512 extents, none of them empty, in an extent array that starts a block
of the data region marked in the data bitmap, and its data blocks are
`ceil(dir_entry_count / 16)` distinct blocks of the data region, marked in the
data bitmap and other than the block of the extent array. -/
def directory_wf (h : a1fs_h) (fs : fs_ctx) (dir : Nat) : Prop :=
  h.sizeof_dentry = 256 ∧
  (fs.inode_table dir).size = (fs.inode_table dir).num_dir_entry * 256 ∧
  (fs.inode_table dir).links < 4294967296 ∧
  ((fs.inode_table dir).num_dir_entry = 0 →
    (fs.inode_table dir).extent_num = 0 ∧ (fs.inode_table dir).links = 2) ∧
  (0 < (fs.inode_table dir).num_dir_entry →
    (fs.inode_table dir).extent_num ≤ 512 ∧
    (fs.inode_table dir).indirect_pt % A1FS_BLOCK_SIZE = 0 ∧
    (fs.inode_table dir).indirect_pt / A1FS_BLOCK_SIZE < fs.num_of_data_blocks ∧
    is_bit_set ((fs.inode_table dir).indirect_pt / A1FS_BLOCK_SIZE) fs.data_bitmap = 1 ∧
    (∀ i, i < (fs.inode_table dir).extent_num →
      1 ≤ extent_count fs.data (fs.inode_table dir).indirect_pt i) ∧
    (fs.inode_table dir).num_dir_entry ≤ (dir_blocks fs dir).length * 16 ∧
    (dir_blocks fs dir).length * 16 < (fs.inode_table dir).num_dir_entry + 16 ∧
    (dir_blocks fs dir).Nodup ∧
    ∀ b ∈ dir_blocks fs dir,
      b < fs.num_of_data_blocks ∧ is_bit_set b fs.data_bitmap = 1 ∧
        b ≠ (fs.inode_table dir).indirect_pt / A1FS_BLOCK_SIZE)

/-- Block `b` belongs to the directory `dir`: it is one of its data blocks, or
the block of its extent array when the directory has entries. -/
def dir_owns (fs : fs_ctx) (dir b : Nat) : Prop :=
  b ∈ dir_blocks fs dir ∨
    (0 < (fs.inode_table dir).num_dir_entry ∧
      b = (fs.inode_table dir).indirect_pt / A1FS_BLOCK_SIZE)

/-- The resolution of `path` does not depend on the inode record of `dir`, on
the records of inodes that are not in use, on the bytes of the blocks of `dir`,
or on the bytes of blocks whose bit in the data bitmap is clear: every image
that agrees with `fs` on the other inode records and on the other bytes
resolves `path` as `fs` does. -/
def path_independent_of_dir (h : a1fs_h) (fs : fs_ctx) (path : String) (dir : Nat) : Prop :=
  ∀ fs2 : fs_ctx,
    (∀ k, k ≠ dir → is_bit_set k fs.inode_bitmap = 1 →
      fs2.inode_table k = fs.inode_table k) →
    (∀ a, is_bit_set (a / A1FS_BLOCK_SIZE) fs.data_bitmap = 1 →
      ¬ dir_owns fs dir (a / A1FS_BLOCK_SIZE) → fs2.data a = fs.data a) →
    path_lookup h fs2 path = path_lookup h fs path

/-- What the insertion of the entry `(new_inode, name)` does to the directory
`dir`, between the state `fs` before and the state `fs'` after: the entry is the
last one, at address `a`; the entries that were there keep their bytes; bytes
of marked blocks that do not belong to `dir` and the records of the other inodes
are kept; and the directory is well formed again. -/
def entry_added (h : a1fs_h) (fs fs' : fs_ctx) (dir new_inode : Nat) (name : List Char)
    (a : Nat) : Prop :=
  dir_entries h fs' dir = dir_entries h fs dir ++ [a] ∧
  last_entry_addr h fs' dir = a ∧
  read32 fs'.data a = new_inode ∧
  name_equals fs'.data (a + 4) name = true ∧
  (∀ x, x ∈ dir_entries h fs dir → ∀ off, off < 256 → fs'.data (x + off) = fs.data (x + off)) ∧
  (∀ x, is_bit_set (x / A1FS_BLOCK_SIZE) fs.data_bitmap = 1 →
    ¬ dir_owns fs dir (x / A1FS_BLOCK_SIZE) → fs'.data x = fs.data x) ∧
  (∀ k, k ≠ dir → fs'.inode_table k = fs.inode_table k) ∧
  (fs'.inode_table dir).mode = (fs.inode_table dir).mode ∧
  (fs'.inode_table dir).mtime = (fs.inode_table dir).mtime ∧
  (fs'.inode_table dir).num_dir_entry = (fs.inode_table dir).num_dir_entry + 1 ∧
  fs'.inode_bitmap = fs.inode_bitmap ∧ fs'.available_inodes = fs.available_inodes ∧
  fs'.num_inodes = fs.num_inodes ∧ fs'.num_of_data_blocks = fs.num_of_data_blocks ∧
  directory_wf h fs' dir

/-- The directory `dir` can take one more entry: when its last block is full,
the block that follows the last one is a block of the data region, and when
that block is taken the extent array has room for one more extent. -/
def dir_can_grow (fs : fs_ctx) (dir : Nat) : Prop :=
  0 < (fs.inode_table dir).num_dir_entry → (fs.inode_table dir).num_dir_entry % 16 = 0 →
    find_last_block fs dir + 1 < fs.num_of_data_blocks ∧
      (is_bit_set (find_last_block fs dir + 1) fs.data_bitmap ≠ 0 →
        (fs.inode_table dir).extent_num < 512)

/-- The blocks that the insertion of an entry in `dir` takes, between the state
`fs` before and the state `fs'` after: two free blocks `X` (extent array) and
`Y` (entries) when the directory was empty; none when the last block had room;
one free block `Z` when the last block was full, which lengthens the last
extent or makes a new extent of one block. -/
def entry_blocks (fs fs' : fs_ctx) (dir : Nat) : Prop :=
  ((fs.inode_table dir).num_dir_entry = 0 ∧
    ∃ X Y, X ≠ Y ∧ X < fs.num_of_data_blocks ∧
      is_bit_set X fs.data_bitmap = 0 ∧ is_bit_set Y fs.data_bitmap = 0 ∧
      fs'.data_bitmap = set_bitmap (set_bitmap fs.data_bitmap X) Y ∧
      fs'.available_blocks + 2 = fs.available_blocks ∧
      (fs'.inode_table dir).extent_num = 1 ∧
      (fs'.inode_table dir).indirect_pt = X * 4096 ∧
      find_last_block fs' dir = Y) ∨
  (0 < (fs.inode_table dir).num_dir_entry ∧ (fs.inode_table dir).num_dir_entry % 16 ≠ 0 ∧
    fs'.data_bitmap = fs.data_bitmap ∧ fs'.available_blocks = fs.available_blocks ∧
    (fs'.inode_table dir).extent_num = (fs.inode_table dir).extent_num ∧
    (fs'.inode_table dir).indirect_pt = (fs.inode_table dir).indirect_pt) ∨
  (0 < (fs.inode_table dir).num_dir_entry ∧ (fs.inode_table dir).num_dir_entry % 16 = 0 ∧
    ∃ Z, is_bit_set Z fs.data_bitmap = 0 ∧
      fs'.data_bitmap = set_bitmap fs.data_bitmap Z ∧
      u32 (fs'.available_blocks + 1) = u32 fs.available_blocks ∧
      find_last_block fs' dir = Z ∧
      (fs'.inode_table dir).indirect_pt = (fs.inode_table dir).indirect_pt ∧
      (((fs'.inode_table dir).extent_num = (fs.inode_table dir).extent_num ∧
          1 < extent_count fs'.data (fs.inode_table dir).indirect_pt
            ((fs.inode_table dir).extent_num - 1)) ∨
        ((fs'.inode_table dir).extent_num = (fs.inode_table dir).extent_num + 1 ∧
          extent_count fs'.data (fs.inode_table dir).indirect_pt
            (fs.inode_table dir).extent_num = 1)))

/-- The state after the statements of `a1fs_mkdir` and `a1fs_create` that take
the first free inode and store the record `new_dir` in it. -/
def take_inode (h : a1fs_h) (fs : fs_ctx) (new_dir : a1fs_inode) : fs_ctx :=
  { fs with
    inode_bitmap := set_bitmap fs.inode_bitmap
      (get_first_available_position h fs.num_inodes fs.inode_bitmap)
    available_inodes := sub32 fs.available_inodes 1
    inode_table := set_inode fs.inode_table
      (get_first_available_position h fs.num_inodes fs.inode_bitmap) new_dir }

/-- The accounting state of `fs2` is that of `fs`: the counters of available
inodes and blocks, every bit of the inode bitmap and of the data bitmap, and
the size, the entry count, the extent count and the link count of the directory
`dir`. -/
def accounting_restored (fs fs2 : fs_ctx) (dir : Nat) : Prop :=
  fs2.available_inodes = fs.available_inodes ∧
  fs2.available_blocks = fs.available_blocks ∧
  (∀ i, is_bit_set i fs2.inode_bitmap = is_bit_set i fs.inode_bitmap) ∧
  (∀ i, is_bit_set i fs2.data_bitmap = is_bit_set i fs.data_bitmap) ∧
  (fs2.inode_table dir).size = (fs.inode_table dir).size ∧
  (fs2.inode_table dir).num_dir_entry = (fs.inode_table dir).num_dir_entry ∧
  (fs2.inode_table dir).extent_num = (fs.inode_table dir).extent_num ∧
  (fs2.inode_table dir).links = (fs.inode_table dir).links

/-! ## The names of a directory and the removal of an entry -/

/-- The name that `filler` reads in the entry at address `a`: the bytes of the
name field before its first NUL. -/
def entry_name (h : a1fs_h) (m : Mem) (a : Nat) : List Nat :=
  (c_string m (h.sizeof_dentry - 4) (a + 4)).getD []

/-- Every entry of `dir` holds a string in its name field. -/
def names_readable (h : a1fs_h) (fs : fs_ctx) (dir : Nat) : Prop :=
  ∀ a ∈ dir_entries h fs dir, (c_string fs.data (h.sizeof_dentry - 4) (a + 4)).isSome = true

/-- The names of the entries of `dir`, in the order of the entries. -/
def dir_names (h : a1fs_h) (fs : fs_ctx) (dir : Nat) : List (List Nat) :=
  (dir_entries h fs dir).map (entry_name h fs.data)

/-- The entries of `dir` as pairs of a name and an inode number. -/
def dir_pairs (h : a1fs_h) (fs : fs_ctx) (dir : Nat) : List (List Nat × Nat) :=
  (dir_entries h fs dir).map (fun a => (entry_name h fs.data a, read32 fs.data a))

/-- No two entries of `dir` have the same name or the same inode number. -/
def entries_distinct (h : a1fs_h) (fs : fs_ctx) (dir : Nat) : Prop :=
  (dir_names h fs dir).Nodup ∧ ((dir_entries h fs dir).map (read32 fs.data)).Nodup

/-- What the removal of the entry at address `a` does to the directory `dir`,
between the state `fs` before and the state `fs'` after: the entries are those
of before without the last one; the entry at `a` holds the bytes that the last
entry held and the other entries keep their bytes; bytes of marked blocks that
do not belong to `dir` and the records of the other inodes are kept; and the
directory is well formed again. -/
def entry_removed (h : a1fs_h) (fs fs' : fs_ctx) (dir a : Nat) : Prop :=
  dir_entries h fs' dir = (dir_entries h fs dir).dropLast ∧
  (∀ s, s ∈ dir_entries h fs' dir → ∀ off, off < 256 →
    fs'.data (s + off) = fs.data ((if s = a then last_entry_addr h fs dir else s) + off)) ∧
  (∀ x, is_bit_set (x / A1FS_BLOCK_SIZE) fs.data_bitmap = 1 →
    ¬ dir_owns fs dir (x / A1FS_BLOCK_SIZE) → fs'.data x = fs.data x) ∧
  (∀ k, k ≠ dir → fs'.inode_table k = fs.inode_table k) ∧
  (fs'.inode_table dir).mode = (fs.inode_table dir).mode ∧
  (fs'.inode_table dir).num_dir_entry + 1 = (fs.inode_table dir).num_dir_entry ∧
  fs'.num_of_data_blocks = fs.num_of_data_blocks ∧
  directory_wf h fs' dir

/-! ## The accounting and the ownership of data blocks -/

/-- The accounting of data blocks: the counter of available blocks and the
number of set bits of the data bitmap add up to the number of data blocks. -/
def block_accounting (fs : fs_ctx) : Prop :=
  fs.available_blocks + popcount fs.data_bitmap fs.num_of_data_blocks = fs.num_of_data_blocks

/-- The blocks that inode `n` owns: the block of its extent array and the
blocks of its extents, when it has extents. -/
def owned_blocks (fs : fs_ctx) (n : Nat) : List Nat :=
  if (fs.inode_table n).extent_num = 0 then []
  else (fs.inode_table n).indirect_pt / A1FS_BLOCK_SIZE :: dir_blocks fs n

/-- The blocks owned by the inodes in use, inode after inode. -/
def all_owned_blocks (fs : fs_ctx) : List Nat :=
  ((List.range fs.num_inodes).filter (fun k => is_bit_set k fs.inode_bitmap = 1)).flatMap
    (owned_blocks fs)

/-- The blocks whose bit is set in the data bitmap. -/
def marked_blocks (fs : fs_ctx) : List Nat :=
  (List.range fs.num_of_data_blocks).filter (fun b => is_bit_set b fs.data_bitmap = 1)

/-- The ownership of blocks: no block is owned twice, and the owned blocks are
the blocks marked in the data bitmap. -/
def block_ownership (fs : fs_ctx) : Prop :=
  (all_owned_blocks fs).Nodup ∧ (∀ b ∈ all_owned_blocks fs, b ∈ marked_blocks fs) ∧
    ∀ b ∈ marked_blocks fs, b ∈ all_owned_blocks fs

/-! ## File system statistics (`a1fs.c`) -/

/-- The fields of `struct statvfs`. -/
structure statvfs where
  f_bsize : Nat
  f_frsize : Nat
  f_blocks : Nat
  f_bfree : Nat
  f_bavail : Nat
  f_files : Nat
  f_ffree : Nat
  f_favail : Nat
  f_fsid : Nat
  f_flag : Nat
  f_namemax : Nat
deriving DecidableEq

/-- The body of `a1fs_statfs`: the return value and the record it leaves in
`*st`.  The record is cleared by `memset` and then nine of its fields are
assigned. -/
def a1fs_statfs (h : a1fs_h) (fs : fs_ctx) : Int × statvfs :=
  let st : statvfs := ⟨0, 0, 0, 0, 0, 0, 0, 0, 0, 0, 0⟩
  let st := { st with f_bsize := A1FS_BLOCK_SIZE }
  let st := { st with f_frsize := A1FS_BLOCK_SIZE }
  let st := { st with f_bfree := fs.available_blocks }
  let st := { st with f_bavail := fs.available_blocks }
  let st := { st with f_files := fs.num_inodes }
  let st := { st with f_ffree := fs.available_inodes }
  let st := { st with f_favail := fs.available_inodes }
  let st := { st with f_namemax := h.A1FS_NAME_MAX }
  (0, st)

/-! ## The image, the formatter and the mount (`mkfs.c`, `fs_ctx.c`) -/

/-- Modelled from the spec: two more values of the absent header `a1fs.h` that
`mkfs.c` and `fs_ctx.c` only name, the magic number and the size in bytes of an
inode record. -/
structure a1fs_disk where
  A1FS_MAGIC : Nat
  sizeof_inode : Nat

/-- Modelled from the spec: the superblock record of the absent header
`a1fs.h`, with the fields that `mkfs` assigns.  Counters and lengths are 32-bit,
as the casts of `mkfs` make them; the three region pointers are kept relative to
the start of the image. -/
structure a1fs_superblock where
  magic : Nat
  size : Nat
  num_inodes : Nat
  available_inodes : Nat
  inode_bitmap : Nat
  inode_bitmap_length : Nat
  data_bitmap : Nat
  available_blocks : Nat
  data_bitmap_length : Nat
  inode_table : Nat
  inode_table_length : Nat
  root_directory_inode : Nat
deriving DecidableEq

/-- The mapped image: the superblock record at its start, its bytes by their
offset, and the inode records by the offset they are stored at.  A stored inode
record is read back from `inodes`; `bytes` does not describe the bytes under
it. -/
structure a1fs_image where
  superblock : a1fs_superblock
  bytes : Mem
  inodes : Nat → a1fs_inode

/-- The function `roundup(n)` for the double `n = num / den`.  Every call
passes the quotient by 4096 of an integer below `2^53`, which a double holds
exactly.  `none` stands for a value that `(int) n`, or `(int) n + 1`, cannot
hold. -/
def roundup (num den : Nat) : Option Nat :=
  if num % den ≠ 0 then
    if num / den + 1 < 2147483648 then some (num / den + 1) else none
  else
    if num / den < 2147483648 then some (num / den) else none

/-- The body of `mkfs`: the return value and the image it leaves.  `now` is
the time `clock_gettime` reports and `root_inode` the contents of the local
`root_inode` before its fields are assigned.  `none` stands for a store outside
the `size` bytes of the image, and for a product `num_inodes *
sizeof(a1fs_inode)` of `2^53` or more, which a double rounds. -/
def mkfs (d : a1fs_disk) (img : a1fs_image) (size n_inodes : Nat) (now : timespec)
    (root_inode : a1fs_inode) : Option (Bool × a1fs_image) :=
  let num_inodes := u32 n_inodes
  let available_inodes := sub32 num_inodes 1
  let inode_bitmap := A1FS_BLOCK_SIZE
  if size < inode_bitmap + 1 then none
  else
    let bytes : Mem := fun a => if a = inode_bitmap then img.bytes a ||| 1 else img.bytes a
    match roundup num_inodes A1FS_BLOCK_SIZE with
    | none => none
    | some r1 =>
      let inode_bitmap_length := u32 r1
      let data_bitmap := inode_bitmap + u32 (inode_bitmap_length * A1FS_BLOCK_SIZE)
      let available_blocks := sub32 (sub32 (u32 size / A1FS_BLOCK_SIZE) 1) inode_bitmap_length
      match roundup available_blocks A1FS_BLOCK_SIZE with
      | none => none
      | some r2 =>
        let data_bitmap_length := u32 r2
        let inode_table := data_bitmap + u32 (data_bitmap_length * A1FS_BLOCK_SIZE)
        if 9007199254740992 ≤ num_inodes * d.sizeof_inode then none
        else
          match roundup (num_inodes * d.sizeof_inode) A1FS_BLOCK_SIZE with
          | none => none
          | some r3 =>
            let inode_table_length := u32 r3
            let available_blocks := sub32 available_blocks data_bitmap_length
            let available_blocks := sub32 available_blocks inode_table_length
            let superblock : a1fs_superblock :=
              { img.superblock with
                  magic := d.A1FS_MAGIC
                  size := u64 size
                  num_inodes := num_inodes
                  available_inodes := available_inodes
                  inode_bitmap := inode_bitmap
                  inode_bitmap_length := inode_bitmap_length
                  data_bitmap := data_bitmap
                  available_blocks := available_blocks
                  data_bitmap_length := data_bitmap_length
                  inode_table := inode_table
                  inode_table_length := inode_table_length }
            let num_reserved_blocks :=
              u32 (1 + inode_bitmap_length + data_bitmap_length + inode_table_length)
            if u32 (num_reserved_blocks * A1FS_BLOCK_SIZE) ≥ size ∨ available_blocks = 0 then
              some (false, { img with superblock := superblock, bytes := bytes })
            else if size < inode_table + d.sizeof_inode then none
            else
              some (true,
                { superblock := { superblock with root_directory_inode := 0 }
                  bytes := bytes
                  inodes := set_inode img.inodes inode_table
                    { root_inode with
                        mode := S_IFDIR ||| 511
                        size := 0
                        links := 2
                        mtime := now
                        extent_num := 0
                        num_dir_entry := 0 } })

/-- The body of `fs_ctx_init`: the return value and the context it leaves,
from the context `fs` it is given.  The regions of the context are the parts of
the image that its pointers address. -/
def fs_ctx_init (d : a1fs_disk) (fs : fs_ctx) (img : a1fs_image) (size : Nat) :
    Bool × fs_ctx :=
  let superblock := img.superblock
  if superblock.magic ≠ d.A1FS_MAGIC then (false, { fs with size := size })
  else
    let inode_bitmap := A1FS_BLOCK_SIZE
    let data_bitmap := A1FS_BLOCK_SIZE + u32 (superblock.inode_bitmap_length * A1FS_BLOCK_SIZE)
    let inode_table := A1FS_BLOCK_SIZE + u32 (superblock.inode_bitmap_length * A1FS_BLOCK_SIZE)
      + u32 (superblock.data_bitmap_length * A1FS_BLOCK_SIZE)
    let data_block := A1FS_BLOCK_SIZE + u32 (superblock.inode_bitmap_length * A1FS_BLOCK_SIZE)
      + u32 (superblock.data_bitmap_length * A1FS_BLOCK_SIZE)
      + u32 (superblock.inode_table_length * A1FS_BLOCK_SIZE)
    (true,
      { size := size
        inode_bitmap := fun b => img.bytes (inode_bitmap + b)
        data_bitmap := fun b => img.bytes (data_bitmap + b)
        inode_table := fun k => img.inodes (inode_table + k * d.sizeof_inode)
        data_block := data_block
        data := fun a => img.bytes (data_block + a)
        available_blocks := superblock.available_blocks
        num_inodes := superblock.num_inodes
        available_inodes := superblock.available_inodes
        num_of_data_blocks := superblock.available_blocks })

/-! ## The shape of a directory and the link counts -/

/-- The number of blocks in the extents of inode `n`: the sum of the counts of
its extents. -/
def extent_blocks (fs : fs_ctx) (n : Nat) : Nat :=
  ((List.range (fs.inode_table n).extent_num).map
    (extent_count fs.data (fs.inode_table n).indirect_pt)).sum

/-- The shape of the directory `dir`: its size is `dir_entry_count *
sizeof(dentry)` and the counts of its extents add up to
`ceil(dir_entry_count / (4096 / sizeof(dentry)))`. -/
def directory_shape (h : a1fs_h) (fs : fs_ctx) (dir : Nat) : Prop :=
  (fs.inode_table dir).size = (fs.inode_table dir).num_dir_entry * h.sizeof_dentry ∧
  extent_blocks fs dir
    = ((fs.inode_table dir).num_dir_entry + (A1FS_BLOCK_SIZE / h.sizeof_dentry - 1))
        / (A1FS_BLOCK_SIZE / h.sizeof_dentry)

/-- The directory `dir`, which had blocks in the state `fs`, is empty in the
state `fs2` and its blocks are free: it has no extent, no entry and size 0, and
the bits of the blocks it owned are clear in the data bitmap. -/
def directory_emptied (fs fs2 : fs_ctx) (dir : Nat) : Prop :=
  (fs2.inode_table dir).extent_num = 0 ∧ (fs2.inode_table dir).num_dir_entry = 0 ∧
  (fs2.inode_table dir).size = 0 ∧
  ∀ b, dir_owns fs dir b → is_bit_set b fs2.data_bitmap = 0

/-- The state of `a1fs_unlink` before it takes the entry out of the parent,
without what it did to the data bitmap and to the counter of available blocks:
the record of a target that is not empty has no extent and size 0. -/
def unlink_target_cleared (fs : fs_ctx) (t : Nat) : fs_ctx :=
  if (fs.inode_table t).size ≠ 0 then
    { fs with
        inode_table := set_inode fs.inode_table t
          { fs.inode_table t with extent_num := 0, size := 0 } }
  else fs

/-- The test `S_ISDIR(mode)`. -/
def S_ISDIR (mode : Nat) : Bool := (mode &&& S_IFMT) == S_IFDIR

/-- The number of entries of `dir` whose inode is a directory. -/
def subdir_count (h : a1fs_h) (fs : fs_ctx) (dir : Nat) : Nat :=
  ((dir_entries h fs dir).map (read32 fs.data)).countP
    (fun k => S_ISDIR (fs.inode_table k).mode)

/-- The directories in use: the inodes whose bit is set in the inode bitmap and
whose mode is that of a directory. -/
def dirs_in_use (fs : fs_ctx) : List Nat :=
  (List.range fs.num_inodes).filter
    (fun Q => is_bit_set Q fs.inode_bitmap = 1 ∧ S_ISDIR (fs.inode_table Q).mode = true)

/-- The invariant of link counts: every directory in use has the link count 2
plus the number of its entries that are directories. -/
def links_invariant (h : a1fs_h) (fs : fs_ctx) : Prop :=
  ∀ Q ∈ dirs_in_use fs, (fs.inode_table Q).links = 2 + subdir_count h fs Q

/-- The state of the directories that the invariant of link counts is kept in:
every directory in use is well formed, its entries name different inodes, all
of them in use, and it owns no block that another directory in use owns. -/
def tree_wf (h : a1fs_h) (fs : fs_ctx) : Prop :=
  ∀ Q ∈ dirs_in_use fs,
    directory_wf h fs Q ∧
    ((dir_entries h fs Q).map (read32 fs.data)).Nodup ∧
    (∀ a ∈ dir_entries h fs Q, is_bit_set (read32 fs.data a) fs.inode_bitmap = 1) ∧
    ∀ Q2 ∈ dirs_in_use fs, Q2 ≠ Q → ∀ b ∈ owned_blocks fs Q, b ∉ owned_blocks fs Q2

/-- The data region after the first `memset` of `growing_a_block_for_file` on a
file that has blocks: when the size is not a multiple of the block size, the
bytes from the end of the file on are set to zero. -/
def hole_zeroed (fs : fs_ctx) (n : Nat) : Mem :=
  if (fs.inode_table n).size % A1FS_BLOCK_SIZE ≠ 0 then
    memset fs.data
      (get_addr_of_block (find_last_block fs n) + (fs.inode_table n).size % A1FS_BLOCK_SIZE) 0
      (sub64 (A1FS_BLOCK_SIZE * get_num_blks_of_file fs.data (fs.inode_table n))
        (fs.inode_table n).size)
  else fs.data

/-- The number of blocks of the directory `P` that `a1fs_rmdir` and
`a1fs_unlink` give back when they take one entry out of it: the last block and
the block of the extent array when the entry is the only one, the last block
when the entry taken out of it was alone in that block, and none otherwise. -/
def parent_blocks_freed (h : a1fs_h) (fs : fs_ctx) (P : Nat) : Nat :=
  if (fs.inode_table P).num_dir_entry = 1 then 2
  else if (fs.inode_table P).num_dir_entry % (A1FS_BLOCK_SIZE / h.sizeof_dentry) ≠ 1 then 0
  else 1

/-! ## Concrete images

Small images used to run the operations: 252 data blocks, 64 inodes, directory
entries of 256 bytes.  Each is written out as the bytes of its data region, its
inode records, its bitmaps and its counters. -/

/-- The header constants of the concrete images: names of at most 252 bytes,
paths of at most 4096 bytes, directory entries of 256 bytes. -/
def hdr : a1fs_h := ⟨252, 4096, 256, 4294967294⟩

def t0 : timespec := ⟨0, 0⟩

def t1 : timespec := ⟨1, 0⟩

/-- The bytes `hello`. -/
def hello : List Nat := [104, 101, 108, 108, 111]

/-- The data region after `create("/f")` on a fresh image: block 0 holds the
extent `(1, 1)` of the root directory and block 1 the entry `(1, "f")`. -/
def mem_f : Mem :=
  memcpy (write32 (write32 (write32 (fun _ => 0) 0 1) 4 1) 4096 1) 4100 [102, 0] 2

/-- The image after `create("/f")`: the root directory (inode 0) with the one
entry `f`, and the empty regular file of inode 1. -/
def fs_f : fs_ctx :=
  { size := 1048576
    data_block := 16384
    inode_bitmap := fun b => if b = 0 then 3 else 0
    data_bitmap := fun b => if b = 0 then 3 else 0
    inode_table := fun k =>
      if k = 0 then ⟨16895, 2, 256, t0, 1, 1, 0⟩
      else if k = 1 then ⟨33188, 1, 0, t0, 0, 0, 0⟩
      else ⟨0, 0, 0, t0, 0, 0, 0⟩
    data := mem_f
    available_blocks := 250
    num_inodes := 64
    available_inodes := 62
    num_of_data_blocks := 252 }

/-- An image with two files: `/f` (inode 1) is empty, `/g` (inode 2) holds one
byte in block 5 and keeps its extent array in block 4.  Blocks 0, 1, 4 and 5
are in use and marked; blocks 2 and 3 are free. -/
def fs_fg : fs_ctx :=
  { size := 1048576
    data_block := 16384
    inode_bitmap := fun b => if b = 0 then 7 else 0
    data_bitmap := fun b => if b = 0 then 51 else 0
    inode_table := fun k =>
      if k = 0 then ⟨16895, 2, 512, t0, 1, 2, 0⟩
      else if k = 1 then ⟨33188, 1, 0, t0, 0, 0, 0⟩
      else if k = 2 then ⟨33188, 1, 1, t0, 1, 0, 16384⟩
      else ⟨0, 0, 0, t0, 0, 0, 0⟩
    data :=
      memcpy (write32 (write32 (memcpy (write32 mem_f 4352 2) 4356 [103, 0] 2) 16384 5) 16388 1)
        20480 [103] 1
    available_blocks := 248
    num_inodes := 64
    available_inodes := 61
    num_of_data_blocks := 252 }

/-- An image in which `/f` holds three blocks: size 12288, extent array in
block 2, one extent `(3, 3)`; blocks 0 to 5 are marked in the data bitmap. -/
def fs_three : fs_ctx :=
  { size := 1048576
    data_block := 16384
    inode_bitmap := fun b => if b = 0 then 3 else 0
    data_bitmap := fun b => if b = 0 then 63 else 0
    inode_table := fun k =>
      if k = 0 then ⟨16895, 2, 256, t0, 1, 1, 0⟩
      else if k = 1 then ⟨33188, 1, 12288, t0, 1, 0, 8192⟩
      else ⟨0, 0, 0, t0, 0, 0, 0⟩
    data := write32 (write32 mem_f 8192 3) 8196 3
    available_blocks := 246
    num_inodes := 64
    available_inodes := 62
    num_of_data_blocks := 252 }

/-- An image in which `/f` holds one block: size 100, extent array in block 2,
one extent `(3, 1)`; blocks 0 to 3 are marked in the data bitmap. -/
def fs_one : fs_ctx :=
  { size := 1048576
    data_block := 16384
    inode_bitmap := fun b => if b = 0 then 3 else 0
    data_bitmap := fun b => if b = 0 then 15 else 0
    inode_table := fun k =>
      if k = 0 then ⟨16895, 2, 256, t0, 1, 1, 0⟩
      else if k = 1 then ⟨33188, 1, 100, t0, 1, 0, 8192⟩
      else ⟨0, 0, 0, t0, 0, 0, 0⟩
    data := write32 (write32 mem_f 8192 3) 8196 1
    available_blocks := 248
    num_inodes := 64
    available_inodes := 62
    num_of_data_blocks := 252 }

/-- The state an operation leaves, or `fs` when the operation is undefined. -/
def state_after (r : Option (Int × fs_ctx)) (fs : fs_ctx) : fs_ctx := (r.getD (0, fs)).2

/-- The value an operation returns, or `-1` when the operation is undefined. -/
def value_of (r : Option (Int × fs_ctx)) (fs : fs_ctx) : Int := (r.getD (-1, fs)).1

/-- The image `fs_fg` after 4096 bytes `A` were appended to the empty file
`/f`. -/
def fs_fg_block : fs_ctx :=
  state_after (a1fs_write hdr fs_fg t1 "/f" (List.replicate 4096 65) 0) fs_fg

/-- The image after ten bytes, the digits `0` to `9`, were written to `/f`. -/
def fs_ten : fs_ctx :=
  state_after (a1fs_write hdr fs_f t1 "/f" [48, 49, 50, 51, 52, 53, 54, 55, 56, 57] 0) fs_f

/-- The image after 100 bytes `x` were written to `/f`. -/
def fs_x100 : fs_ctx :=
  state_after (a1fs_write hdr fs_f t1 "/f" (List.replicate 100 120) 0) fs_f

/-- The image `fs_x100` after `/f` was truncated to 10 bytes. -/
def fs_x100_cut : fs_ctx :=
  state_after (a1fs_truncate hdr fs_x100 t1 "/f" 10) fs_x100

/-- The image `fs_x100_cut` after `/f` was truncated to 100 bytes. -/
def fs_x100_regrown : fs_ctx :=
  state_after (a1fs_truncate hdr fs_x100_cut t1 "/f" 100) fs_x100_cut

/-- The image after the empty file `/f` was truncated to 8192 bytes. -/
def fs_8192 : fs_ctx :=
  state_after (a1fs_truncate hdr fs_f t1 "/f" 8192) fs_f

/-- A freshly formatted image: the root directory (inode 0) is empty and no
data block is in use. -/
def fs_empty : fs_ctx :=
  { size := 1048576
    data_block := 16384
    inode_bitmap := fun b => if b = 0 then 1 else 0
    data_bitmap := fun _ => 0
    inode_table := fun k =>
      if k = 0 then ⟨16895, 2, 0, t0, 0, 0, 0⟩
      else ⟨0, 0, 0, t0, 0, 0, 0⟩
    data := fun _ => 0
    available_blocks := 252
    num_inodes := 64
    available_inodes := 63
    num_of_data_blocks := 252 }

def t2 : timespec := ⟨2, 0⟩

/-- Some contents of the uninitialised locals of `a1fs_mkdir` and
`a1fs_create`. -/
def stack : locals := ⟨⟨7, 7, 7, ⟨7, 7⟩, 7, 7, 7⟩, fun _ => 170⟩

/-- The image `fs_empty` after `mkdir("/a", 0755)`. -/
def fs_a : fs_ctx := state_after (a1fs_mkdir hdr fs_empty t1 t1 stack "/a" 493) fs_empty

/-- The image `fs_a` after `mkdir("/a/b", 0755)`. -/
def fs_ab : fs_ctx := state_after (a1fs_mkdir hdr fs_a t1 t1 stack "/a/b" 493) fs_a

/-- A path of one component of 300 characters. -/
def long_path : String := String.mk ('/' :: List.replicate 300 'a')

/-- The image `fs_a` after `mkdir("/b", 0755)`: the root directory holds the
entries `a` (inode 1) and `b` (inode 2). -/
def fs_two : fs_ctx := state_after (a1fs_mkdir hdr fs_a t1 t1 stack "/b" 493) fs_a

/-- An image in which `/f` holds two blocks in two extents: size 8192, extent
array in block 2, extents `(3, 1)` and `(5, 1)`; blocks 0 to 3 and 5 are marked
in the data bitmap and 247 blocks are available. -/
def fs_split : fs_ctx :=
  { size := 1048576
    data_block := 16384
    inode_bitmap := fun b => if b = 0 then 3 else 0
    data_bitmap := fun b => if b = 0 then 47 else 0
    inode_table := fun k =>
      if k = 0 then ⟨16895, 2, 256, t0, 1, 1, 0⟩
      else if k = 1 then ⟨33188, 1, 8192, t0, 2, 0, 8192⟩
      else ⟨0, 0, 0, t0, 0, 0, 0⟩
    data := write32 (write32 (write32 (write32 mem_f 8192 3) 8196 1) 8200 5) 8204 1
    available_blocks := 247
    num_inodes := 64
    available_inodes := 62
    num_of_data_blocks := 252 }

/-- The image `fs_empty` after `create("/f", 0644)`. -/
def fs_made_f : fs_ctx := state_after (a1fs_create hdr fs_empty t1 stack "/f" 33188) fs_empty

/-- The image `fs_made_f` after the byte `x` was written to `/f`. -/
def fs_wrote_f : fs_ctx := state_after (a1fs_write hdr fs_made_f t1 "/f" [120] 0) fs_made_f

/-- The image `fs_wrote_f` after `create("/g", 0644)`. -/
def fs_made_g : fs_ctx := state_after (a1fs_create hdr fs_wrote_f t1 stack "/g" 33188) fs_wrote_f

/-- The image `fs_made_g` after the byte `y` was written to `/g`. -/
def fs_wrote_g : fs_ctx := state_after (a1fs_write hdr fs_made_g t1 "/g" [121] 0) fs_made_g

/-- The format constants of the concrete images: a magic number and inode
records of 64 bytes. -/
def disk : a1fs_disk := ⟨14250363412805806497, 64⟩

/-- An image whose bytes are all zero, as `memset` leaves it. -/
def img_zero : a1fs_image :=
  { superblock := ⟨0, 0, 0, 0, 0, 0, 0, 0, 0, 0, 0, 0⟩
    bytes := fun _ => 0
    inodes := fun _ => ⟨0, 0, 0, t0, 0, 0, 0⟩ }

/-- An image that was in use before: all its bytes are `0xff`. -/
def img_used : a1fs_image :=
  { superblock := ⟨0, 0, 0, 0, 0, 0, 0, 0, 0, 0, 0, 0⟩
    bytes := fun _ => 255
    inodes := fun _ => ⟨0, 0, 0, t0, 0, 0, 0⟩ }

/-- The image an operation of the formatter leaves, or `img` when the
operation is undefined. -/
def image_after (r : Option (Bool × a1fs_image)) (img : a1fs_image) : a1fs_image :=
  (r.getD (false, img)).2

/-- The image `img_zero` of 1 MiB after `mkfs` with 64 inodes. -/
def img_formatted : a1fs_image :=
  image_after (mkfs disk img_zero 1048576 64 t1 stack.new_dir) img_zero

/-- The context that `fs_ctx_init` makes of the image `img_formatted`. -/
def fs_formatted : fs_ctx := (fs_ctx_init disk fs_empty img_formatted 1048576).2

/-- The context that `fs_ctx_init` makes of the image `img_used` of 1 MiB
after `mkfs` with 64 inodes. -/
def fs_reformatted : fs_ctx :=
  (fs_ctx_init disk fs_empty
    (image_after (mkfs disk img_used 1048576 64 t1 stack.new_dir) img_used) 1048576).2

/-- An image with one free data block: the root directory holds the empty
directory `/d` (inode 1) and the file `/f` (inode 2) of 248 blocks, extent
array in block 2 and extent `(3, 248)`.  Blocks 0 to 250 are in use and marked,
block 251 is free. -/
def fs_last_free : fs_ctx :=
  { size := 1048576
    data_block := 16384
    inode_bitmap := fun b => if b = 0 then 7 else 0
    data_bitmap := fun b => if b < 31 then 255 else if b = 31 then 7 else 0
    inode_table := fun k =>
      if k = 0 then ⟨16895, 3, 512, t0, 1, 2, 0⟩
      else if k = 1 then ⟨16877, 2, 0, t0, 0, 0, 0⟩
      else if k = 2 then ⟨33188, 1, 1015808, t0, 1, 0, 8192⟩
      else ⟨0, 0, 0, t0, 0, 0, 0⟩
    data :=
      write32 (write32 (memcpy (write32 (memcpy (write32 (write32 (write32 (fun _ => 0) 0 1) 4 1)
        4096 1) 4100 [100, 0] 2) 4352 2) 4356 [102, 0] 2) 8192 3) 8196 248
    available_blocks := 1
    num_inodes := 64
    available_inodes := 61
    num_of_data_blocks := 252 }

/-- The image `img_formatted` with two data blocks and one more inode in use:
the counters of the superblock and the first byte of each bitmap are as the
driver leaves them after `mkdir("/a")`. -/
def img_in_use : a1fs_image :=
  { img_formatted with
      superblock := { img_formatted.superblock with available_blocks := 250, available_inodes := 62 }
      bytes := fun a => if a = 4096 ∨ a = 8192 then 3 else img_formatted.bytes a }

/-- An image in which the file `/f` ends in the last block of the data region:
the root directory holds the empty directory `/d` (inode 1) and the file `/f`
(inode 2) of 248 blocks, extent array in block 3 and extent `(4, 248)`.  Blocks
0, 1 and 3 to 251 are in use and marked, block 2 is free. -/
def fs_file_at_end : fs_ctx :=
  { size := 1048576
    data_block := 16384
    inode_bitmap := fun b => if b = 0 then 7 else 0
    data_bitmap := fun b => if b = 0 then 251 else if b < 31 then 255 else if b = 31 then 15 else 0
    inode_table := fun k =>
      if k = 0 then ⟨16895, 3, 512, t0, 1, 2, 0⟩
      else if k = 1 then ⟨16877, 2, 0, t0, 0, 0, 0⟩
      else if k = 2 then ⟨33188, 1, 1015808, t0, 1, 0, 12288⟩
      else ⟨0, 0, 0, t0, 0, 0, 0⟩
    data :=
      write32 (write32 (memcpy (write32 (memcpy (write32 (write32 (write32 (fun _ => 0) 0 1) 4 1)
        4096 1) 4100 [100, 0] 2) 4352 2) 4356 [102, 0] 2) 12288 4) 12292 248
    available_blocks := 1
    num_inodes := 64
    available_inodes := 61
    num_of_data_blocks := 252 }

/-- The data region of `fs_dir_at_end`: block 0 holds the extent `(1, 1)` of
the root directory, block 1 its entries `(1, "d")` and `(2, "f")`, block 2 the
extent `(3, 246)` of `/f`, block 250 the extent `(251, 1)` of `/d`, and block
251 the sixteen entries `(3, "a")` to `(18, "p")` of `/d`. -/
def mem_dir_at_end : Mem := fun x =>
  if x < 1024000 then
    write32 (write32 (memcpy (write32 (memcpy (write32 (write32 (write32 (fun _ => 0) 0 1) 4 1)
      4096 1) 4100 [100, 0] 2) 4352 2) 4356 [102, 0] 2) 8192 3) 8196 246 x
  else if x < 1028096 then (if x = 1024000 then 251 else if x = 1024004 then 1 else 0)
  else if x < 1032192 then
    (if (x - 1028096) % 256 = 0 then (x - 1028096) / 256 + 3
     else if (x - 1028096) % 256 = 4 then (x - 1028096) / 256 + 97 else 0)
  else 0

/-- An image in which the directory `/d` (inode 1) ends in the last block of
the data region and that block is full: `/d` holds sixteen empty files in block
251 and keeps its extent array in block 250; the file `/f` (inode 2) holds the
blocks 3 to 248.  Block 249 is the one free block. -/
def fs_dir_at_end : fs_ctx :=
  { size := 1048576
    data_block := 16384
    inode_bitmap := fun b => if b < 2 then 255 else if b = 2 then 7 else 0
    data_bitmap := fun b => if b < 31 then 255 else if b = 31 then 13 else 0
    inode_table := fun k =>
      if k = 0 then ⟨16895, 3, 512, t0, 1, 2, 0⟩
      else if k = 1 then ⟨16877, 2, 4096, t0, 1, 16, 1024000⟩
      else if k = 2 then ⟨33188, 1, 1007616, t0, 1, 0, 8192⟩
      else if k < 19 then ⟨33188, 1, 0, t0, 0, 0, 0⟩
      else ⟨0, 0, 0, t0, 0, 0, 0⟩
    data := mem_dir_at_end
    available_blocks := 1
    num_inodes := 64
    available_inodes := 45
    num_of_data_blocks := 252 }

/-- The data region of `fs_dir_512`: block 0 holds the 512 extents
`(1 + 2 * i, 1)` of the root directory; the other bytes are zero. -/
def mem_dir_512 : Mem := fun x =>
  if x < 4096 then
    (if x % 8 = 0 then (1 + 2 * (x / 8)) % 256
     else if x % 8 = 1 then (1 + 2 * (x / 8)) / 256
     else if x % 8 = 4 then 1 else 0)
  else 0

/-- An image in which the root directory has 512 extents, all full: 8192
entries in the blocks 1, 3, ..., 1023, extent array in block 0.  The blocks 0
to 1024 are marked in the data bitmap of 2048 blocks, so that the block after
the last block of the directory is in use and block 1025 is the lowest free
one. -/
def fs_dir_512 : fs_ctx :=
  { size := 9461760
    data_block := 1073152
    inode_bitmap := fun b => if b < 1024 then 255 else if b = 1024 then 1 else 0
    data_bitmap := fun b => if b < 128 then 255 else if b = 128 then 1 else 0
    inode_table := fun k =>
      if k = 0 then ⟨16895, 2, 2097152, t0, 512, 8192, 0⟩
      else if k < 8193 then ⟨33188, 1, 0, t0, 0, 0, 0⟩
      else ⟨0, 0, 0, t0, 0, 0, 0⟩
    data := mem_dir_512
    available_blocks := 1023
    num_inodes := 16384
    available_inodes := 8191
    num_of_data_blocks := 2048 }

/-- The data region of `fs_file_512`: block 0 holds the extent `(1, 1)` of the
root directory, block 1 the entry `(1, "f")` and block 2 the 512 extents
`(4 + 2 * i, 1)` of `/f`; the other bytes are zero. -/
def mem_file_512 : Mem := fun x =>
  if x < 8192 then mem_f x
  else if x < 12288 then
    (if x % 8 = 0 then (4 + 2 * ((x - 8192) / 8)) % 256
     else if x % 8 = 1 then (4 + 2 * ((x - 8192) / 8)) / 256
     else if x % 8 = 4 then 1 else 0)
  else 0

/-- An image in which the file `/f` (inode 1) has 512 extents of one block: the
blocks 4, 6, ..., 1026, extent array in block 2, size 2097152.  Of the 1032
data blocks all are marked but the blocks 1027 and 1030: the block after the
last block of the file is free and the one after that is in use. -/
def fs_file_512 : fs_ctx :=
  { size := 4243456
    data_block := 16384
    inode_bitmap := fun b => if b = 0 then 3 else 0
    data_bitmap := fun b => if b < 128 then 255 else if b = 128 then 183 else 0
    inode_table := fun k =>
      if k = 0 then ⟨16895, 2, 256, t0, 1, 1, 0⟩
      else if k = 1 then ⟨33188, 1, 2097152, t0, 512, 0, 8192⟩
      else ⟨0, 0, 0, t0, 0, 0, 0⟩
    data := mem_file_512
    available_blocks := 2
    num_inodes := 64
    available_inodes := 62
    num_of_data_blocks := 1032 }

/-- The image `fs_file_512` with block 1027 in use as well: the block after the
last block of `/f` is in use and block 1030 is the one free block. -/
def fs_file_512_full : fs_ctx :=
  { fs_file_512 with
      data_bitmap := fun b => if b < 128 then 255 else if b = 128 then 191 else 0
      available_blocks := 1 }

/-- The image `fs_three` with block 6 in use as well: the block after the last
block of `/f` is in use and block 7 is the lowest free one. -/
def fs_three_blocked : fs_ctx :=
  { fs_three with
      data_bitmap := fun b => if b = 0 then 127 else 0
      available_blocks := 245 }

/-- The image `fs_empty` after `create("/z", 0100644)`. -/
def fs_run_z : fs_ctx := state_after (a1fs_create hdr fs_empty t1 stack "/z" 33188) fs_empty

/-- The image `fs_run_z` after `create("/a", 0100644)`. -/
def fs_run_a : fs_ctx := state_after (a1fs_create hdr fs_run_z t1 stack "/a" 33188) fs_run_z

/-- The image `fs_run_a` after the write of the byte `x` at offset 0 of `/a`. -/
def fs_run_w : fs_ctx := state_after (a1fs_write hdr fs_run_a t1 "/a" [120] 0) fs_run_a

/-- The image `fs_run_w` after `mkdir("/d", 0755)`. -/
def fs_run_d : fs_ctx := state_after (a1fs_mkdir hdr fs_run_w t1 t1 stack "/d" 493) fs_run_w

/-- The image `fs_run_d` after `create("/d/f", 0100644)`. -/
def fs_run_f : fs_ctx := state_after (a1fs_create hdr fs_run_d t1 stack "/d/f" 33188) fs_run_d

/-- The image `fs_run_f` after `unlink("/a")`. -/
def fs_run_u : fs_ctx := state_after (a1fs_unlink hdr fs_run_f t1 "/a") fs_run_f

/-- The image `fs_run_u` after `mkdir("/d/e", 0755)`. -/
def fs_run_e : fs_ctx := state_after (a1fs_mkdir hdr fs_run_u t1 t1 stack "/d/e" 493) fs_run_u

/-- The image `fs_run_e` after `mkdir("/d/e/x", 0755)`. -/
def fs_run_x : fs_ctx := state_after (a1fs_mkdir hdr fs_run_e t1 t1 stack "/d/e/x" 493) fs_run_e

/-- The image `fs_run_u` after the write of `hello` at offset 0 of `/d/f`. -/
def fs_run_h : fs_ctx := state_after (a1fs_write hdr fs_run_u t1 "/d/f" hello 0) fs_run_u

/-- The image `fs_one` after `truncate("/f", 0)`. -/
def fs_cut : fs_ctx := state_after (a1fs_truncate hdr fs_one t1 "/f" 0) fs_one

/-- The image `fs_cut` after `unlink("/f")`. -/
def fs_cut_gone : fs_ctx := state_after (a1fs_unlink hdr fs_cut t2 "/f") fs_cut

/-- The calls `a1fs_create(p, 0100644)` for the paths `p` of a list, one after
the other, as long as they return 0: the state after the last one, `none` when
one of them does not return 0. -/
def create_each (h : a1fs_h) (now : timespec) (s : locals) : fs_ctx → List String → Option fs_ctx
  | fs, [] => some fs
  | fs, p :: ps =>
    match a1fs_create h fs now s p 33188 with
    | some (0, fs2) => create_each h now s fs2 ps
    | _ => none

/-- The image `fs_empty` after `create("/a", 0100644)`. -/
def fs_shape_a : fs_ctx := state_after (a1fs_create hdr fs_empty t1 stack "/a" 33188) fs_empty

/-- The image `fs_shape_a` after the write of the byte `x` at offset 0 of `/a`. -/
def fs_shape_w : fs_ctx := state_after (a1fs_write hdr fs_shape_a t1 "/a" [120] 0) fs_shape_a

/-- The image `fs_shape_w` after the write of the byte `x` at offset 4096 of
`/a`. -/
def fs_shape_w2 : fs_ctx := state_after (a1fs_write hdr fs_shape_w t1 "/a" [120] 4096) fs_shape_w

/-- The image `fs_shape_w2` after `mkdir("/p", 0755)`. -/
def fs_shape_p : fs_ctx := state_after (a1fs_mkdir hdr fs_shape_w2 t1 t1 stack "/p" 493) fs_shape_w2

/-- The image `fs_shape_p` after `create("/p/a", 0100644)`. -/
def fs_shape_pa : fs_ctx := state_after (a1fs_create hdr fs_shape_p t1 stack "/p/a" 33188) fs_shape_p

/-- The image `fs_shape_pa` after `create("/b", 0100644)`. -/
def fs_shape_b : fs_ctx := state_after (a1fs_create hdr fs_shape_pa t1 stack "/b" 33188) fs_shape_pa

/-- The image `fs_shape_b` after the write of the byte `x` at offset 0 of `/b`. -/
def fs_shape_bw : fs_ctx := state_after (a1fs_write hdr fs_shape_b t1 "/b" [120] 0) fs_shape_b

/-- The paths of fifteen more files of `/p`. -/
def shape_paths : List String :=
  ["/p/b", "/p/c", "/p/d", "/p/e", "/p/f", "/p/g", "/p/h", "/p/i", "/p/j", "/p/k", "/p/l",
   "/p/m", "/p/n", "/p/o", "/p/q"]

/-- The image `fs_shape_bw` after `create(p, 0100644)` for the fifteen paths of
`shape_paths`. -/
def fs_shape_16 : fs_ctx := (create_each hdr t1 stack fs_shape_bw shape_paths).getD fs_shape_bw

/-- The image `fs_shape_16` after `truncate("/a", 4096)`. -/
def fs_shape_t : fs_ctx := state_after (a1fs_truncate hdr fs_shape_16 t1 "/a" 4096) fs_shape_16

/-- The image `fs_shape_t` after `create("/p/z", 0100644)`. -/
def fs_shape_z : fs_ctx := state_after (a1fs_create hdr fs_shape_t t1 stack "/p/z" 33188) fs_shape_t

/-- The image `fs_empty` after `create("/f", 0100644)`. -/
def fs_lost_f : fs_ctx := state_after (a1fs_create hdr fs_empty t1 stack "/f" 33188) fs_empty

/-- The image `fs_lost_f` after the write of `hello` at offset 0 of `/f`. -/
def fs_lost_w : fs_ctx := state_after (a1fs_write hdr fs_lost_f t1 "/f" hello 0) fs_lost_f

/-- The image `fs_lost_w` after `truncate("/f", 0)`. -/
def fs_lost_t : fs_ctx := state_after (a1fs_truncate hdr fs_lost_w t1 "/f" 0) fs_lost_w

/-- The image `fs_lost_t` after `unlink("/f")`. -/
def fs_lost_u : fs_ctx := state_after (a1fs_unlink hdr fs_lost_t t2 "/f") fs_lost_t

/-- An image as it is after a mount that found 250 blocks available:
`fs_ctx_init` takes that counter for `num_of_data_blocks` (fs_ctx.c:52), so the
blocks 0 to 249 count as the data region although the image holds the blocks
250 and 251 as well.  The file `/f` (inode 2) has the extent `(4, 246)` and
ends in block 249; the blocks 0, 1 and 3 to 249 are marked, the blocks 2, 250
and 251 are not, and 3 blocks are available. -/
def fs_file_at_count : fs_ctx :=
  { fs_file_at_end with
      data_bitmap := fun b => if b = 0 then 251 else if b < 31 then 255 else if b = 31 then 3 else 0
      inode_table := fun k =>
        if k = 2 then ⟨33188, 1, 1007616, t0, 1, 0, 12288⟩ else fs_file_at_end.inode_table k
      data := write32 fs_file_at_end.data 12292 246
      available_blocks := 3
      num_of_data_blocks := 250 }

/-! ## Memory lemmas -/

theorem read32_lt (m : Mem) (a : Nat) : read32 m a < 4294967296 := by
  unfold read32; omega

theorem read32_congr (m1 m2 : Mem) (a : Nat)
    (hb : ∀ k, k < 4 → m1 (a + k) = m2 (a + k)) : read32 m1 a = read32 m2 a := by
  have h0 := hb 0 (by omega)
  have h1 := hb 1 (by omega)
  have h2 := hb 2 (by omega)
  have h3 := hb 3 (by omega)
  simp only [Nat.add_zero] at h0
  unfold read32
  rw [h0, h1, h2, h3]

theorem write32_other (m : Mem) (a v x : Nat) (hx : x < a ∨ a + 4 ≤ x) :
    write32 m a v x = m x := by
  unfold write32
  have e0 : x ≠ a := by omega
  have e1 : x ≠ a + 1 := by omega
  have e2 : x ≠ a + 2 := by omega
  have e3 : x ≠ a + 3 := by omega
  simp [e0, e1, e2, e3]

theorem read32_write32_same (m : Mem) (a v : Nat) :
    read32 (write32 m a v) a = v % 4294967296 := by
  unfold read32 write32
  have e1 : a + 1 ≠ a := by omega
  have e2 : a + 2 ≠ a := by omega
  have e3 : a + 3 ≠ a := by omega
  have e4 : a + 2 ≠ a + 1 := by omega
  have e5 : a + 3 ≠ a + 1 := by omega
  have e6 : a + 3 ≠ a + 2 := by omega
  simp only [e1, e2, e3, e4, e5, e6, if_true, if_false]
  omega

theorem read32_write32_other (m : Mem) (a v b : Nat) (hd : b + 4 ≤ a ∨ a + 4 ≤ b) :
    read32 (write32 m a v) b = read32 m b := by
  apply read32_congr
  intro k hk
  apply write32_other
  omega

theorem memset_other (m : Mem) (a c n x : Nat) (hx : x < a ∨ a + n ≤ x) :
    memset m a c n x = m x := by
  unfold memset
  have e : ¬ (a ≤ x ∧ x < a + n) := by omega
  simp [e]

theorem memcpy_other (m : Mem) (a : Nat) (src : List Nat) (n x : Nat) (hx : x < a ∨ a + n ≤ x) :
    memcpy m a src n x = m x := by
  unfold memcpy
  have e : ¬ (a ≤ x ∧ x < a + n) := by omega
  simp [e]

theorem read32_memset_other (m : Mem) (a c n b : Nat) (hd : b + 4 ≤ a ∨ a + n ≤ b) :
    read32 (memset m a c n) b = read32 m b := by
  apply read32_congr
  intro k hk
  apply memset_other
  omega

theorem read32_memcpy_other (m : Mem) (a : Nat) (src : List Nat) (n b : Nat)
    (hd : b + 4 ≤ a ∨ a + n ≤ b) : read32 (memcpy m a src n) b = read32 m b := by
  apply read32_congr
  intro k hk
  apply memcpy_other
  omega

theorem load_bytes_memcpy (m : Mem) (a : Nat) (buf : List Nat) :
    load_bytes (memcpy m a buf buf.length) a buf.length = buf := by
  unfold load_bytes
  apply List.ext_getElem
  · simp
  · intro i h1 h2
    simp at h1
    simp [memcpy, h1, List.getD_eq_getElem]

/-! ## Bitmap lemmas -/

theorem land_shift_eq_zero_iff (x k : Nat) : (x &&& (1 <<< k)) = 0 ↔ x.testBit k = false := by
  rw [Nat.one_shiftLeft]
  constructor
  · intro hz
    have := congrArg (fun y => Nat.testBit y k) hz
    simpa [Nat.testBit_two_pow_self] using this
  · intro hb
    apply Nat.eq_of_testBit_eq
    intro i
    by_cases hki : k = i
    · subst hki; simp [hb]
    · simp [Nat.testBit_two_pow_of_ne hki]

theorem is_bit_set_eq (i : Nat) (bm : Mem) :
    is_bit_set i bm = if (bm (i / 8)).testBit (i % 8) then 1 else 0 := by
  unfold is_bit_set
  by_cases hb : (bm (i / 8)).testBit (i % 8) = true
  · have : ¬ (bm (i / 8) &&& (1 <<< (i % 8))) = 0 := by
      rw [land_shift_eq_zero_iff]; simp [hb]
    simp [this, hb]
  · have hb2 : (bm (i / 8)).testBit (i % 8) = false := by simpa using hb
    have : (bm (i / 8) &&& (1 <<< (i % 8))) = 0 := by
      rw [land_shift_eq_zero_iff]; exact hb2
    simp [this, hb2]

theorem is_bit_set_set_same (bm : Mem) (i : Nat) : is_bit_set i (set_bitmap bm i) = 1 := by
  rw [is_bit_set_eq]
  simp [set_bitmap, Nat.one_shiftLeft, Nat.testBit_two_pow_self]

theorem is_bit_set_set_other (bm : Mem) (i j : Nat) (hij : j ≠ i) :
    is_bit_set j (set_bitmap bm i) = is_bit_set j bm := by
  rw [is_bit_set_eq, is_bit_set_eq]
  unfold set_bitmap
  by_cases hb : j / 8 = i / 8
  · have hne : i % 8 ≠ j % 8 := by omega
    simp [hb, Nat.one_shiftLeft, Nat.testBit_two_pow_of_ne hne]
  · simp [hb]

theorem first_available_from_spec (h : a1fs_h) (bm : Mem) (k i : Nat)
    (hex : ∃ j, i ≤ j ∧ j < i + k ∧ is_bit_set j bm = 0) :
    i ≤ first_available_from h bm k i ∧ first_available_from h bm k i < i + k ∧
      is_bit_set (first_available_from h bm k i) bm = 0 := by
  induction k generalizing i with
  | zero => obtain ⟨j, h1, h2, _⟩ := hex; omega
  | succ k ih =>
    unfold first_available_from
    by_cases hb : is_bit_set i bm = 0
    · rw [if_pos hb]
      exact ⟨Nat.le_refl _, by omega, hb⟩
    · rw [if_neg hb]
      obtain ⟨j, h1, h2, h3⟩ := hex
      have hji : j ≠ i := by
        intro e; subst e; exact hb h3
      have := ih (i + 1) ⟨j, by omega, by omega, h3⟩
      omega

theorem free_count_pos (bm : Mem) (n : Nat) (hp : 0 < free_count bm n) :
    ∃ j, j < n ∧ is_bit_set j bm = 0 := by
  induction n with
  | zero => simp [free_count] at hp
  | succ n ih =>
    unfold free_count at hp
    by_cases hb : is_bit_set n bm = 0
    · exact ⟨n, by omega, hb⟩
    · simp only [hb, if_false, Nat.add_zero] at hp
      obtain ⟨j, h1, h2⟩ := ih hp
      exact ⟨j, by omega, h2⟩

theorem free_count_set_bitmap (bm : Mem) (x n : Nat) :
    free_count bm n ≤ free_count (set_bitmap bm x) n + (if x < n then 1 else 0) := by
  induction n with
  | zero => simp [free_count]
  | succ n ih =>
    unfold free_count
    by_cases hx : n = x
    · subst hx
      rw [is_bit_set_set_same]
      simp only [Nat.lt_irrefl, if_false, Nat.add_zero] at ih
      simp only [Nat.lt_succ_self, if_true]
      split_ifs <;> omega
    · rw [is_bit_set_set_other bm x n hx]
      by_cases hlt : x < n
      · have : x < n + 1 := by omega
        simp only [hlt, this, if_true] at ih ⊢
        omega
      · have : ¬ x < n + 1 := by omega
        simp only [hlt, this, if_false] at ih ⊢
        omega

theorem get_first_available_position_spec (h : a1fs_h) (bm : Mem) (n : Nat)
    (hp : 0 < free_count bm n) :
    get_first_available_position h n bm < n ∧
      is_bit_set (get_first_available_position h n bm) bm = 0 := by
  obtain ⟨j, h1, h2⟩ := free_count_pos bm n hp
  have := first_available_from_spec h bm n 0 ⟨j, by omega, by omega, h2⟩
  unfold get_first_available_position
  omega

theorem int_of_lt (n : Nat) : int_of n < 2147483648 := by
  unfold int_of; split_ifs <;> omega

theorem lookup_rest_lt (h : a1fs_h) (fs : fs_ctx) (l : List (List Char)) (tmp r : Int)
    (ht : tmp < 2147483648) (hr : lookup_rest h fs l tmp = some r) : r < 2147483648 := by
  induction l generalizing tmp with
  | nil => simp [lookup_rest] at hr; omega
  | cons token rest ih =>
    unfold lookup_rest at hr
    split_ifs at hr with h1 h2 h3
    · simp at hr; omega
    · simp at hr; omega
    · split at hr
      · exact ih _ (int_of_lt _) hr
      · simp at hr; omega
      · exact ih _ ht hr

theorem path_lookup_lt (h : a1fs_h) (fs : fs_ctx) (path : String) (r : Int)
    (hr : path_lookup h fs path = some r) : r < 2147483648 := by
  unfold path_lookup at hr
  split_ifs at hr with h1
  · simp at hr; omega
  · split at hr
    · simp [ROOT_INODE] at hr; omega
    · split at hr
      · exact lookup_rest_lt h fs _ _ _ (int_of_lt _) hr
      · simp at hr; omega
      · exact lookup_rest_lt h fs _ _ _ (by omega) hr

theorem u32_of_int_natCast (n : Nat) (hn : n < 4294967296) : u32_of_int (n : Int) = n := by
  unfold u32_of_int; omega

theorem set_inode_same (t : Nat → a1fs_inode) (i : Nat) (v : a1fs_inode) :
    set_inode t i v i = v := by
  simp [set_inode]

theorem u32_small (x : Nat) (hx : x < 4294967296) : u32 x = x := by
  unfold u32; omega

theorem u64_small (x : Nat) (hx : x < 18446744073709551616) : u64 x = x := by
  unfold u64; omega

theorem int_of_small (x : Nat) (hx : x < 2147483648) : int_of x = (x : Int) := by
  unfold int_of
  have : x % 4294967296 = x := by omega
  rw [this]; simp [hx]

/-- What `a1fs_read` returns for a range inside the first block of a file whose
first extent is not empty. -/
theorem a1fs_read_first_block (h : a1fs_h) (fs : fs_ctx) (path : String) (len offset ino : Nat)
    (hl : path_lookup h fs path = some (ino : Int))
    (hr : offset + len ≤ 4096)
    (hsz : offset + len ≤ (fs.inode_table ino).size)
    (hlen : 0 < len)
    (hen : 1 ≤ (fs.inode_table ino).extent_num)
    (hc : 1 ≤ extent_count fs.data (fs.inode_table ino).indirect_pt 0)
    (hc2 : extent_count fs.data (fs.inode_table ino).indirect_pt 0 < 1048576) :
    a1fs_read h fs path len offset =
      some ((len : Int), load_bytes fs.data
        (extent_start fs.data (fs.inode_table ino).indirect_pt 0 * 4096 + offset) len) := by
  unfold a1fs_read
  rw [hl]
  have hneg : ¬ ((ino : Int) < 0) := by omega
  have hu : u32 offset = offset := u32_small _ (by omega)
  have hge : ¬ (u32 offset ≥ (fs.inode_table ino).size) := by rw [hu]; omega
  have hgt : ¬ (u64 (u32 offset + len) > (fs.inode_table ino).size) := by
    rw [hu, u64_small _ (by omega)]; omega
  have hfe : read_find_extent fs.data (fs.inode_table ino).indirect_pt
      (fs.inode_table ino).extent_num 0 (offset : Int) = (0, (offset : Int)) := by
    obtain ⟨k, hk⟩ : ∃ k, (fs.inode_table ino).extent_num = k + 1 := ⟨_, (Nat.sub_add_cancel hen).symm⟩
    rw [hk]
    unfold read_find_extent
    have : u32 (extent_count fs.data (fs.inode_table ino).indirect_pt 0 * A1FS_BLOCK_SIZE)
        = extent_count fs.data (fs.inode_table ino).indirect_pt 0 * 4096 := by
      unfold A1FS_BLOCK_SIZE; apply u32_small; omega
    rw [this]
    have hlt : (offset : Int)
        - ((extent_count fs.data (fs.inode_table ino).indirect_pt 0 * 4096 : Nat) : Int) < 0 := by
      omega
    simp only [hlt, if_true]
  have hfb : read_find_block (extent_count fs.data (fs.inode_table ino).indirect_pt 0) 0
      (offset : Int) = 0 := by
    obtain ⟨k, hk⟩ : ∃ k, extent_count fs.data (fs.inode_table ino).indirect_pt 0 = k + 1 :=
      ⟨_, (Nat.sub_add_cancel hc).symm⟩
    rw [hk]
    unfold read_find_block
    have hlt : (offset : Int) - ((A1FS_BLOCK_SIZE : Nat) : Int) < 0 := by
      unfold A1FS_BLOCK_SIZE; omega
    simp only [hlt, if_true]
  have hio : int_of len = (len : Int) := int_of_small _ (by omega)
  have hs32 : u32 (extent_start fs.data (fs.inode_table ino).indirect_pt 0 + 0)
      = extent_start fs.data (fs.inode_table ino).indirect_pt 0 :=
    u32_small _ (by have := read32_lt fs.data ((fs.inode_table ino).indirect_pt + sizeof_extent * 0); unfold extent_start; omega)
  have hob : u64 offset % A1FS_BLOCK_SIZE = offset := by
    rw [u64_small _ (by omega)]; unfold A1FS_BLOCK_SIZE; omega
  simp only [hneg, if_false, Int.toNat_ofNat, hge, hgt, hfe, hfb, hio, hs32, hob]
  have hnn : ¬ ((len : Int) < 0) := by omega
  simp [hnn, A1FS_BLOCK_SIZE]

theorem extent_start_lt (m : Mem) (p i : Nat) : extent_start m p i < 4294967296 :=
  read32_lt m _

theorem extent_count_lt (m : Mem) (p i : Nat) : extent_count m p i < 4294967296 :=
  read32_lt m _

theorem sub64_zero (x : Nat) (hx : x < 18446744073709551616) : sub64 x 0 = x := by
  unfold sub64 u64; omega

theorem sum_counts_pos_extent_num (m : Mem) (p k : Nat) (hp : 0 < sum_counts m p k) : 1 ≤ k := by
  cases k with
  | zero => simp [sum_counts] at hp
  | succ k => omega

theorem write_point_in_extent_first (s offset c : Nat) (hoff : offset < 4096)
    (hs : s < 4294967296) :
    write_point_in_extent s offset (c + 1) 0 0 = Sum.inl (s * 4096 + offset) := by
  rw [write_point_in_extent]
  have h0 : sub64 offset 0 = offset := sub64_zero _ (by omega)
  have hlt : sub64 offset 0 < A1FS_BLOCK_SIZE := by rw [h0]; unfold A1FS_BLOCK_SIZE; omega
  rw [if_pos hlt, h0, Nat.add_zero, u32_small s hs]
  rfl

/-- The write point of an offset inside the first block of a file whose first
extent is not empty. -/
theorem write_point_first_block (fs : fs_ctx) (ino offset : Nat) (hoff : offset < 4096)
    (hen : 1 ≤ (fs.inode_table ino).extent_num)
    (hc : 1 ≤ extent_count fs.data (fs.inode_table ino).indirect_pt 0) :
    get_addr_of_starting_write_point fs ino offset =
      some (extent_start fs.data (fs.inode_table ino).indirect_pt 0 * 4096 + offset) := by
  unfold get_addr_of_starting_write_point
  obtain ⟨k, hk⟩ : ∃ k, (fs.inode_table ino).extent_num = k + 1 :=
    ⟨_, (Nat.sub_add_cancel hen).symm⟩
  obtain ⟨c, hcc⟩ : ∃ c, extent_count fs.data (fs.inode_table ino).indirect_pt 0 = c + 1 :=
    ⟨_, (Nat.sub_add_cancel hc).symm⟩
  rw [hk]
  unfold write_point_from
  rw [hcc, write_point_in_extent_first _ _ _ hoff (extent_start_lt _ _ _)]

/-- Growing an empty file when two bits of the data bitmap are clear: the
extent array is put in block `X`, its first extent is `(Y, 1)` with `Y ≠ X`,
both blocks had their bit clear, and nothing else changes in the data region
or in the other inode records. -/
theorem grow_from_empty_spec (h : a1fs_h) (fs : fs_ctx) (n : Nat)
    (hsize : (fs.inode_table n).size = 0)
    (hav : 2 ≤ fs.available_blocks)
    (hfree : fs.available_blocks ≤ free_count fs.data_bitmap fs.num_of_data_blocks)
    (hN : fs.num_of_data_blocks ≤ 1048576) :
    ∃ X Y g, X < fs.num_of_data_blocks ∧ Y < fs.num_of_data_blocks ∧ X ≠ Y ∧
      growing_a_block_for_file h fs n = some (0, g) ∧
      (g.inode_table n).indirect_pt = X * 4096 ∧
      (g.inode_table n).extent_num = 1 ∧
      read32 g.data (X * 4096) = Y ∧
      read32 g.data (X * 4096 + 4) = 1 ∧
      is_bit_set X fs.data_bitmap = 0 ∧ is_bit_set Y fs.data_bitmap = 0 ∧
      (∀ a, a / 4096 ≠ X → a / 4096 ≠ Y → g.data a = fs.data a) ∧
      (∀ k, k ≠ n → g.inode_table k = fs.inode_table k) := by
  have hav0 : ¬ fs.available_blocks = 0 := by omega
  have hav1 : ¬ fs.available_blocks = 1 := by omega
  obtain ⟨hX, hXb⟩ := get_first_available_position_spec h fs.data_bitmap fs.num_of_data_blocks
    (by omega)
  have hfc := free_count_set_bitmap fs.data_bitmap
    (get_first_available_position h fs.num_of_data_blocks fs.data_bitmap) fs.num_of_data_blocks
  rw [if_pos hX] at hfc
  obtain ⟨hY, hYb⟩ := get_first_available_position_spec h
    (set_bitmap fs.data_bitmap (get_first_available_position h fs.num_of_data_blocks fs.data_bitmap))
    fs.num_of_data_blocks (by omega)
  generalize hXe : get_first_available_position h fs.num_of_data_blocks fs.data_bitmap = X at *
  generalize hYe : get_first_available_position h fs.num_of_data_blocks (set_bitmap fs.data_bitmap X)
    = Y at *
  have hXY : X ≠ Y := by
    intro e
    rw [← e, is_bit_set_set_same] at hYb
    omega
  have hYb0 : is_bit_set Y fs.data_bitmap = 0 := by
    rw [is_bit_set_set_other fs.data_bitmap X Y (fun e => hXY e.symm)] at hYb
    exact hYb
  have hg : growing_a_block_for_file h fs n =
      some (0, { fs with
              data_bitmap := set_bitmap (set_bitmap fs.data_bitmap X) X
              available_blocks := sub32 (sub32 fs.available_blocks 1) 1
              data := memset (write32 (write32 fs.data (X * 4096) Y) (X * 4096 + 4) 1)
                (Y * 4096) 0 4096
              inode_table := set_inode fs.inode_table n
                { fs.inode_table n with
                    indirect_pt := X * 4096, size := 4096, extent_num := 1 } }) := by
    unfold growing_a_block_for_file
    rw [if_neg hav0, if_pos hsize, if_neg hav1]
    simp only [hXe, hYe, get_addr_of_block, A1FS_BLOCK_SIZE, sizeof_extent, Nat.mul_zero,
      Nat.add_zero, extent_start]
    have : read32 (write32 (write32 fs.data (X * 4096) Y) (X * 4096 + 4) 1) (X * 4096) = Y := by
      rw [read32_write32_other _ _ _ _ (by omega), read32_write32_same]
      omega
    rw [this]
  refine ⟨X, Y, _, hX, hY, hXY, hg, ?_, ?_, ?_, ?_, hXb, hYb0, ?_, ?_⟩
  · simp [set_inode]
  · simp [set_inode]
  · show read32 (memset (write32 (write32 fs.data (X * 4096) Y) (X * 4096 + 4) 1)
      (Y * 4096) 0 4096) (X * 4096) = Y
    rw [read32_memset_other _ _ _ _ _ (by omega), read32_write32_other _ _ _ _ (by omega),
      read32_write32_same]
    omega
  · show read32 (memset (write32 (write32 fs.data (X * 4096) Y) (X * 4096 + 4) 1)
      (Y * 4096) 0 4096) (X * 4096 + 4) = 1
    rw [read32_memset_other _ _ _ _ _ (by omega), read32_write32_same]
  · intro a haX haY
    show memset (write32 (write32 fs.data (X * 4096) Y) (X * 4096 + 4) 1)
      (Y * 4096) 0 4096 a = fs.data a
    rw [memset_other _ _ _ _ _ (by omega), write32_other _ _ _ _ (by omega),
      write32_other _ _ _ _ (by omega)]
  · intro k hk
    simp [set_inode, hk]

theorem extent_start_zero (m : Mem) (p : Nat) : extent_start m p 0 = read32 m p := by
  simp [extent_start, sizeof_extent]

theorem extent_count_zero (m : Mem) (p : Nat) : extent_count m p 0 = read32 m (p + 4) := by
  simp [extent_count, sizeof_extent]

/-- Reading back a range of the first block right after it was copied there,
when the copy did not touch the first extent. -/
theorem read_after_memcpy (h : a1fs_h) (fs : fs_ctx) (path : String) (data : List Nat)
    (offset ino s c : Nat) (m : Mem)
    (hl : path_lookup h fs path = some (ino : Int))
    (hr : offset + data.length ≤ 4096)
    (hlen : 0 < data.length)
    (hsz : offset + data.length ≤ (fs.inode_table ino).size)
    (hen : 1 ≤ (fs.inode_table ino).extent_num)
    (hd : fs.data = memcpy m (s * 4096 + offset) data data.length)
    (hs : read32 m (fs.inode_table ino).indirect_pt = s)
    (hc : read32 m ((fs.inode_table ino).indirect_pt + 4) = c)
    (hc1 : 1 ≤ c) (hc2 : c < 1048576)
    (hdisj : (fs.inode_table ino).indirect_pt + 8 ≤ s * 4096 + offset ∨
      s * 4096 + offset + data.length ≤ (fs.inode_table ino).indirect_pt) :
    a1fs_read h fs path data.length offset = some ((data.length : Int), data) := by
  have hs' : extent_start fs.data (fs.inode_table ino).indirect_pt 0 = s := by
    rw [extent_start_zero, hd, read32_memcpy_other _ _ _ _ _ (by omega), hs]
  have hc' : extent_count fs.data (fs.inode_table ino).indirect_pt 0 = c := by
    rw [extent_count_zero, hd, read32_memcpy_other _ _ _ _ _ (by omega), hc]
  rw [a1fs_read_first_block h fs path data.length offset ino hl hr hsz hlen hen
    (by rw [hc']; exact hc1) (by rw [hc']; exact hc2), hs', hd, load_bytes_memcpy]

/-! ## The shape of a write inside the first block -/

theorem touch_same (fs : fs_ctx) (n : Nat) (now : timespec) (sz : Nat) :
    touch fs n now sz n = { fs.inode_table n with mtime := now, size := sz } := by
  simp [touch, set_inode]

theorem touch_other (fs : fs_ctx) (n : Nat) (now : timespec) (sz k : Nat) (hk : k ≠ n) :
    touch fs n now sz k = fs.inode_table k := by
  simp [touch, set_inode, hk]

theorem grow_fails_small (h : a1fs_h) (fs : fs_ctx) (n : Nat)
    (hsize : (fs.inode_table n).size = 0) (hav : fs.available_blocks < 2) :
    growing_a_block_for_file h fs n = some (-1, fs) := by
  unfold growing_a_block_for_file
  by_cases h0 : fs.available_blocks = 0
  · rw [if_pos h0]
  · have h1 : fs.available_blocks = 1 := by omega
    rw [if_neg h0, if_pos hsize, if_pos h1]

theorem find_last_block_eq (fs : fs_ctx) (n : Nat) :
    find_last_block fs n =
      u32 (extent_start fs.data (fs.inode_table n).indirect_pt
            (sub32 (fs.inode_table n).extent_num 1)
          + extent_count fs.data (fs.inode_table n).indirect_pt
            (sub32 (fs.inode_table n).extent_num 1)
          + 4294967295) := rfl

/-- The image a successful write inside the first block leaves.  The new data
region is a copy of `data` into block `s` at `offset`, made on a memory `m` in
which the first extent of the file reads `(s, c)` and is not touched by the
copy; the inode records of the other files, and the bytes of `m` in blocks that
were marked used and are not blocks of the file, are those of the old image. -/
theorem write_first_block_shape (h : a1fs_h) (fs fs' : fs_ctx) (now : timespec) (path : String)
    (data : List Nat) (offset ino : Nat) (r : Int)
    (hlook : path_lookup h fs path = some (ino : Int))
    (hwf : regular_file_wf fs ino)
    (hne : data ≠ [])
    (hrange : offset + data.length ≤ 4096)
    (hw : a1fs_write h fs now path data offset = some (r, fs'))
    (hok : 0 ≤ r) :
    ∃ s c m,
      fs'.data = memcpy m (s * 4096 + offset) data data.length ∧
      offset + data.length ≤ (fs'.inode_table ino).size ∧
      1 ≤ (fs'.inode_table ino).extent_num ∧
      read32 m (fs'.inode_table ino).indirect_pt = s ∧
      read32 m ((fs'.inode_table ino).indirect_pt + 4) = c ∧
      1 ≤ c ∧ c < 1048576 ∧
      ((fs'.inode_table ino).indirect_pt + 8 ≤ s * 4096 + offset ∨
        s * 4096 + offset + data.length ≤ (fs'.inode_table ino).indirect_pt) ∧
      (∀ k, k ≠ ino → fs'.inode_table k = fs.inode_table k) ∧
      (∀ a, is_bit_set (a / 4096) fs.data_bitmap = 1 → ¬ file_block fs ino (a / 4096) →
        a / 4096 ≠ s ∧ m a = fs.data a) := by
  obtain ⟨hN, hfree, hen512, hsz1, hsz2, hext⟩ := hwf
  have hino : (ino : Int) < 2147483648 := path_lookup_lt h fs path _ hlook
  have hu : u32_of_int (ino : Int) = ino := u32_of_int_natCast _ (by omega)
  have hlen : 0 < data.length := List.length_pos.mpr hne
  have hlen0 : ¬ data.length = 0 := by omega
  have he : u64 (data.length + offset) = data.length + offset := u64_small _ (by omega)
  have ho : u64 offset = offset := u64_small _ (by omega)
  unfold a1fs_write at hw
  simp only [hlen0, if_false, hlook, hu, he, ho] at hw
  simp only [A1FS_BLOCK_SIZE, get_addr_of_block] at hw hsz1 hsz2 hext
  obtain ⟨blks, hbdef⟩ : ∃ b, get_num_blks_of_file fs.data (fs.inode_table ino) = b := ⟨_, rfl⟩
  rw [hbdef] at hw hsz1 hsz2
  -- facts shared by the branches that write in place
  have hplace : 0 < (fs.inode_table ino).size → 1 ≤ blks →
      (fs.inode_table ino).indirect_pt % 4096 = 0 ∧
      1 ≤ (fs.inode_table ino).extent_num ∧
      1 ≤ read32 fs.data ((fs.inode_table ino).indirect_pt + 4) ∧
      read32 fs.data (fs.inode_table ino).indirect_pt
        + read32 fs.data ((fs.inode_table ino).indirect_pt + 4) ≤ fs.num_of_data_blocks ∧
      ((fs.inode_table ino).indirect_pt / 4096 < read32 fs.data (fs.inode_table ino).indirect_pt ∨
        read32 fs.data (fs.inode_table ino).indirect_pt
          + read32 fs.data ((fs.inode_table ino).indirect_pt + 4)
          ≤ (fs.inode_table ino).indirect_pt / 4096) ∧
      file_block fs ino (read32 fs.data (fs.inode_table ino).indirect_pt) ∧
      get_addr_of_starting_write_point fs ino offset =
        some (read32 fs.data (fs.inode_table ino).indirect_pt * 4096 + offset) := by
    intro hpos hb1
    obtain ⟨hal, hall⟩ := hext hpos
    have hen : 1 ≤ (fs.inode_table ino).extent_num :=
      sum_counts_pos_extent_num fs.data (fs.inode_table ino).indirect_pt _
        (by unfold get_num_blks_of_file at hbdef; omega)
    obtain ⟨hcnt, hin, hdis⟩ := hall 0 (by omega)
    have hwp := write_point_first_block fs ino offset (by omega) hen hcnt
    rw [extent_start_zero] at hin hdis hwp
    rw [extent_count_zero] at hin hdis hcnt
    refine ⟨hal, hen, hcnt, hin, hdis, ⟨0, by omega, ?_, ?_⟩, hwp⟩
    · rw [extent_start_zero]
    · rw [extent_start_zero, extent_count_zero]; omega
  by_cases hc1 : data.length + offset ≤ (fs.inode_table ino).size
  · -- the range lies inside the file
    rw [if_pos hc1] at hw
    obtain ⟨hal, hen, hcnt, hin, hdis, hfb, hwp⟩ := hplace (by omega) (by omega)
    rw [hwp] at hw
    simp only [Option.some.injEq, Prod.mk.injEq] at hw
    obtain ⟨_, hfs⟩ := hw
    subst hfs
    refine ⟨read32 fs.data (fs.inode_table ino).indirect_pt,
      read32 fs.data ((fs.inode_table ino).indirect_pt + 4), fs.data, rfl, ?_, ?_, ?_, ?_,
      hcnt, by omega, ?_, ?_, ?_⟩
    · simp only [touch_same]; omega
    · simp only [touch_same]; exact hen
    · simp only [touch_same]
    · simp only [touch_same]
    · simp only [touch_same]; omega
    · intro k hk; exact touch_other fs ino now _ k hk
    · intro a _ hnf
      exact ⟨fun e => hnf (e ▸ hfb), rfl⟩
  · rw [if_neg hc1] at hw
    have hb01 : blks = 0 ∨ blks = 1 := by omega
    rcases hb01 with hb | hb
    · -- the file holds no block: it grows from empty
      subst hb
      have h40 : u32 (4096 * 0) = 0 := by simp [u32]
      have h41 : u32 (4096 * u32 (1 + 0)) = 4096 := by simp [u32]
      rw [h40, h41, if_neg (by omega), if_pos (by omega)] at hw
      have hsize : (fs.inode_table ino).size = 0 := by omega
      by_cases hav : ¬ 2 ≤ fs.available_blocks
      · rw [grow_fails_small h fs ino hsize (by omega)] at hw
        simp only [if_true, Option.some.injEq, Prod.mk.injEq, ENOSPC] at hw
        omega
      · obtain ⟨X, Y, g, hX, hY, hXY, hgeq, hp, hn1, hrs, hrc, hXb, hYb, hfr, hit⟩ :=
          grow_from_empty_spec h fs ino hsize (by omega) hfree (by omega)
        rw [hgeq] at hw
        have hlast : find_last_block g ino = Y := by
          have : sub32 1 1 = 0 := by simp [sub32, u32]
          rw [find_last_block_eq, hn1, this, extent_start_zero, extent_count_zero, hp, hrs, hrc]
          unfold u32; omega
        simp only [show ¬ ((0 : Int) = -1) by decide, if_false, Option.some.injEq,
          Prod.mk.injEq] at hw
        obtain ⟨_, hfs⟩ := hw
        subst hfs
        have hom : offset % 4096 = offset := by omega
        refine ⟨Y, 1, g.data, ?_, ?_, ?_, ?_, ?_,
          by omega, by omega, ?_, ?_, ?_⟩
        · simp only [hlast, hom]
        · simp only [touch_same]; omega
        · simp only [touch_same]; omega
        · simp only [touch_same, hp, hrs]
        · simp only [touch_same, hp, hrc]
        · simp only [touch_same, hp]; omega
        · intro k hk
          rw [← hit k hk]
          exact touch_other _ ino now _ k hk
        · intro a hbit _
          have haX : a / 4096 ≠ X := by
            intro e; rw [e, hXb] at hbit; omega
          have haY : a / 4096 ≠ Y := by
            intro e; rw [e, hYb] at hbit; omega
          exact ⟨haY, hfr a haX haY⟩
    · -- the file holds one block and the range ends after the old size
      subst hb
      have h41 : u32 (4096 * 1) = 4096 := by simp [u32]
      rw [h41, if_pos (by omega)] at hw
      obtain ⟨hal, hen, hcnt, hin, hdis, hfb, hwp⟩ := hplace (by omega) (by omega)
      rw [hwp] at hw
      by_cases hos : offset ≤ (fs.inode_table ino).size
      · simp only [if_pos hos, Option.some.injEq, Prod.mk.injEq] at hw
        obtain ⟨_, hfs⟩ := hw
        subst hfs
        have hs64 : sub64 4096 offset = 4096 - offset := by unfold sub64 u64; omega
        refine ⟨read32 fs.data (fs.inode_table ino).indirect_pt,
          read32 fs.data ((fs.inode_table ino).indirect_pt + 4),
          memset fs.data (read32 fs.data (fs.inode_table ino).indirect_pt * 4096 + offset) 0
            (4096 - offset), ?_, ?_, ?_, ?_, ?_, hcnt, by omega, ?_, ?_, ?_⟩
        · simp only [hs64]
        · simp only [touch_same]; omega
        · simp only [touch_same]; exact hen
        · simp only [touch_same]
          rw [read32_memset_other _ _ _ _ _ (by omega)]
        · simp only [touch_same]
          rw [read32_memset_other _ _ _ _ _ (by omega)]
        · simp only [touch_same]; omega
        · intro k hk; exact touch_other fs ino now _ k hk
        · intro a _ hnf
          have hne : a / 4096 ≠ read32 fs.data (fs.inode_table ino).indirect_pt :=
            fun e => hnf (e ▸ hfb)
          exact ⟨hne, memset_other _ _ _ _ _ (by omega)⟩
      · have hs64 : sub64 4096 (fs.inode_table ino).size = 4096 - (fs.inode_table ino).size := by
          unfold sub64 u64; omega
        obtain ⟨_, hall⟩ := hext (by omega)
        obtain ⟨hcl, hinl, hdisl⟩ := hall ((fs.inode_table ino).extent_num - 1) (by omega)
        have hsub : sub32 (fs.inode_table ino).extent_num 1 = (fs.inode_table ino).extent_num - 1 := by
          unfold sub32 u32; omega
        have hlast : find_last_block fs ino + 1 =
            extent_start fs.data (fs.inode_table ino).indirect_pt ((fs.inode_table ino).extent_num - 1)
            + extent_count fs.data (fs.inode_table ino).indirect_pt
                ((fs.inode_table ino).extent_num - 1) := by
          rw [find_last_block_eq, hsub]
          unfold u32; omega
        have hfl : file_block fs ino (find_last_block fs ino) :=
          ⟨(fs.inode_table ino).extent_num - 1, by omega, by omega, by omega⟩
        simp only [if_neg hos, hs64] at hw
        rw [if_neg (by omega)] at hw
        simp only [Option.some.injEq, Prod.mk.injEq] at hw
        obtain ⟨_, hfs⟩ := hw
        subst hfs
        refine ⟨read32 fs.data (fs.inode_table ino).indirect_pt,
          read32 fs.data ((fs.inode_table ino).indirect_pt + 4),
          memset fs.data (find_last_block fs ino * 4096 + 4096
              - (4096 - (fs.inode_table ino).size)) 0 (4096 - (fs.inode_table ino).size),
          rfl, ?_, ?_, ?_, ?_, hcnt, by omega, ?_, ?_, ?_⟩
        · simp only [touch_same]; omega
        · simp only [touch_same]; exact hen
        · simp only [touch_same]
          rw [read32_memset_other _ _ _ _ _ (by omega)]
        · simp only [touch_same]
          rw [read32_memset_other _ _ _ _ _ (by omega)]
        · simp only [touch_same]; omega
        · intro k hk; exact touch_other fs ino now _ k hk
        · intro a _ hnf
          have hne : a / 4096 ≠ read32 fs.data (fs.inode_table ino).indirect_pt :=
            fun e => hnf (e ▸ hfb)
          have hnl : a / 4096 ≠ find_last_block fs ino := fun e => hnf (e ▸ hfl)
          exact ⟨hne, memset_other _ _ _ _ _ (by omega)⟩

/-! ## The read for offsets below 4 GiB -/

theorem read_find_block_spec (c q rem j : Nat) (hq : q < c) (hrem : rem < 4096) :
    read_find_block c j ((4096 * q + rem : Nat) : Int) = j + q := by
  induction c generalizing q j with
  | zero => omega
  | succ c ih =>
    rw [read_find_block]
    by_cases hq0 : q = 0
    · subst hq0
      have hlt : ((4096 * 0 + rem : Nat) : Int) - ((A1FS_BLOCK_SIZE : Nat) : Int) < 0 := by
        unfold A1FS_BLOCK_SIZE; omega
      rw [if_pos hlt]; omega
    · have hge : ¬ (((4096 * q + rem : Nat) : Int) - ((A1FS_BLOCK_SIZE : Nat) : Int) < 0) := by
        unfold A1FS_BLOCK_SIZE; omega
      rw [if_neg hge]
      have e : ((4096 * q + rem : Nat) : Int) - ((A1FS_BLOCK_SIZE : Nat) : Int)
          = ((4096 * (q - 1) + rem : Nat) : Int) := by
        unfold A1FS_BLOCK_SIZE; omega
      rw [e, ih (q - 1) (j + 1) (by omega)]
      omega

theorem read_find_spec (m : Mem) (p k i q rem b : Nat) (hrem : rem < 4096)
    (hcnt : ∀ t, i ≤ t → t < i + k → extent_count m p t < 1048576)
    (hnth : nth_block_from m p k i q = some b) :
    extent_start m p (read_find_extent m p k i ((4096 * q + rem : Nat) : Int)).1
      + read_find_block
          (extent_count m p (read_find_extent m p k i ((4096 * q + rem : Nat) : Int)).1) 0
          (read_find_extent m p k i ((4096 * q + rem : Nat) : Int)).2 = b := by
  induction k generalizing i q with
  | zero => simp [nth_block_from] at hnth
  | succ k ih =>
    rw [nth_block_from] at hnth
    rw [read_find_extent]
    have hc := hcnt i (Nat.le_refl _) (by omega)
    have hu : u32 (extent_count m p i * A1FS_BLOCK_SIZE) = extent_count m p i * 4096 := by
      unfold A1FS_BLOCK_SIZE; apply u32_small; omega
    rw [hu]
    by_cases hq : q < extent_count m p i
    · rw [if_pos hq] at hnth
      have hlt : ((4096 * q + rem : Nat) : Int) - ((extent_count m p i * 4096 : Nat) : Int) < 0 := by
        omega
      rw [if_pos hlt]
      simp only
      rw [read_find_block_spec _ q rem 0 hq hrem]
      simp only [Option.some.injEq] at hnth
      omega
    · rw [if_neg hq] at hnth
      have hge : ¬ (((4096 * q + rem : Nat) : Int)
          - ((extent_count m p i * 4096 : Nat) : Int) < 0) := by omega
      rw [if_neg hge]
      have e : ((4096 * q + rem : Nat) : Int) - ((extent_count m p i * 4096 : Nat) : Int)
          = ((4096 * (q - extent_count m p i) + rem : Nat) : Int) := by omega
      rw [e]
      exact ih (i + 1) (q - extent_count m p i) (fun t h1 h2 => hcnt t (by omega) (by omega)) hnth

/-- What `a1fs_read` does for offsets below `2^32`: it returns 0 at or after the
end of the file, and otherwise `min(size, file_size - offset)` and that many
bytes from `offset % 4096` of the `(offset / 4096)`-th block of the file in
extent order, when that block exists below block `2^32` and no extent has
`2^20` blocks or more. -/
theorem a1fs_read_below_4gib (h : a1fs_h) (fs : fs_ctx) (path : String) (size offset ino : Nat)
    (hl : path_lookup h fs path = some (ino : Int))
    (hoff : offset < 4294967296)
    (hsize : size ≤ 4096)
    (hcnt : ∀ t, t < (fs.inode_table ino).extent_num →
      extent_count fs.data (fs.inode_table ino).indirect_pt t < 1048576) :
    ((fs.inode_table ino).size ≤ offset → a1fs_read h fs path size offset = some (0, [])) ∧
    (∀ b, offset < (fs.inode_table ino).size → b < 4294967296 →
      nth_block_from fs.data (fs.inode_table ino).indirect_pt (fs.inode_table ino).extent_num 0
        (offset / 4096) = some b →
      a1fs_read h fs path size offset =
        some (((min size ((fs.inode_table ino).size - offset) : Nat) : Int),
          load_bytes fs.data (b * 4096 + offset % 4096)
            (min size ((fs.inode_table ino).size - offset)))) := by
  have hneg : ¬ ((ino : Int) < 0) := by omega
  have hu : u32 offset = offset := u32_small _ hoff
  constructor
  · intro hge
    unfold a1fs_read
    rw [hl]
    simp only [hneg, if_false, Int.toNat_ofNat, hu]
    rw [if_pos hge]
  · intro b hlt hb hnth
    have hdecomp : offset = 4096 * (offset / 4096) + offset % 4096 := by omega
    have hfind := read_find_spec fs.data (fs.inode_table ino).indirect_pt
      (fs.inode_table ino).extent_num 0 (offset / 4096) (offset % 4096) b (by omega)
      (fun t _ h2 => hcnt t (by omega)) hnth
    rw [← hdecomp] at hfind
    unfold a1fs_read
    rw [hl]
    have hge : ¬ (u32 offset ≥ (fs.inode_table ino).size) := by rw [hu]; omega
    have hob : u64 offset % A1FS_BLOCK_SIZE = offset % 4096 := by
      rw [u64_small _ (by omega)]; rfl
    simp only [hneg, if_false, Int.toNat_ofNat, hge, hob]
    rw [hfind, u32_small b hb]
    by_cases hgt : u64 (u32 offset + size) > (fs.inode_table ino).size
    · have hgt' : offset + size > (fs.inode_table ino).size := by
        rw [hu, u64_small _ (by omega)] at hgt; exact hgt
      have hmin : min size ((fs.inode_table ino).size - offset)
          = (fs.inode_table ino).size - offset := by omega
      have hs64 : sub64 (fs.inode_table ino).size (u32 offset)
          = (fs.inode_table ino).size - offset := by
        rw [hu]; unfold sub64 u64; omega
      have hio : int_of ((fs.inode_table ino).size - offset)
          = (((fs.inode_table ino).size - offset : Nat) : Int) := int_of_small _ (by omega)
      rw [if_pos hgt, hs64, hio, hmin]
      have hnn : ¬ ((((fs.inode_table ino).size - offset : Nat) : Int) < 0) := by omega
      simp [hnn, A1FS_BLOCK_SIZE]
    · have hgt' : ¬ offset + size > (fs.inode_table ino).size := by
        rw [hu, u64_small _ (by omega)] at hgt; exact hgt
      have hmin : min size ((fs.inode_table ino).size - offset) = size := by omega
      have hio : int_of size = (size : Int) := int_of_small _ (by omega)
      rw [if_neg hgt, hio, hmin]
      have hnn : ¬ ((size : Int) < 0) := by omega
      simp [hnn, A1FS_BLOCK_SIZE]

/-! ## Facts about the concrete images -/

theorem eq_some_of_isSome (r : Option (Int × fs_ctx)) (fs : fs_ctx) (hs : r.isSome = true) :
    r = some (value_of r fs, state_after r fs) := by
  cases r with
  | none => simp at hs
  | some x => rfl

set_option maxRecDepth 100000 in
theorem regular_file_wf_fs_f : regular_file_wf fs_f 1 := by
  unfold regular_file_wf
  refine ⟨by decide, by decide, by decide, by decide, by decide, ?_⟩
  intro hpos
  exact absurd hpos (by decide)

set_option maxRecDepth 100000 in
theorem path_independent_fs_f : path_independent_of_file hdr fs_f "/f" 1 := by
  intro fs2 hit hdata
  have hnf : ∀ b, ¬ file_block fs_f 1 b := by
    rintro b ⟨i, hi, _⟩
    have h0 : (fs_f.inode_table 1).extent_num = 0 := by decide
    rw [h0] at hi
    exact absurd hi (Nat.not_lt_zero _)
  have hb : ∀ a, a < 8192 → fs2.data a = fs_f.data a := by
    intro a ha
    apply hdata a _ (hnf _)
    have : a / A1FS_BLOCK_SIZE = 0 ∨ a / A1FS_BLOCK_SIZE = 1 := by
      unfold A1FS_BLOCK_SIZE; omega
    rcases this with e | e <;> rw [e] <;> decide
  have hroot : fs2.inode_table 0 = ⟨16895, 2, 256, t0, 1, 1, 0⟩ := by
    rw [hit 0 (by decide)]; rfl
  have e1 : extent_start fs2.data 0 0 = 1 := by
    rw [extent_start_zero, read32_congr fs2.data fs_f.data 0 (fun k hk => hb _ (by omega))]
    decide
  have e2 : extent_count fs2.data 0 0 = 1 := by
    rw [extent_count_zero, read32_congr fs2.data fs_f.data (0 + 4) (fun k hk => hb _ (by omega))]
    decide
  have e3 : strcmp_eq fs2.data ['f'] 4100 = true := by
    simp only [strcmp_eq]
    rw [hb 4100 (by omega), hb 4101 (by omega)]
    decide
  have e4 : read32 fs2.data 4096 = 1 := by
    rw [read32_congr fs2.data fs_f.data 4096 (fun k hk => hb _ (by omega))]
    decide
  have hs : scan_dir hdr fs2 0 ['f'] 1 0 0 = scan_result.found 1 := by
    have hse : scan_extent hdr fs2.data ['f'] 4096 1 16 0 0 = scan_result.found 1 := by
      rw [scan_extent]
      have : 4096 + 0 * hdr.sizeof_dentry + 4 = 4100 := by decide
      rw [this, e3]
      simp only [if_true]
      have : 4096 + 0 * hdr.sizeof_dentry = 4096 := by decide
      rw [this, e4]
    rw [scan_dir]
    simp only [hroot, e1, e2]
    have h1 : u32 (1 * A1FS_BLOCK_SIZE) = 4096 := by decide
    have h2 : u32 (4096 / hdr.sizeof_dentry) = 16 := by decide
    rw [h1, h2, hse]
  have hrhs : path_lookup hdr fs_f "/f" = some 1 := by decide
  rw [hrhs]
  unfold path_lookup
  have ht : strtok_tokens "/f".toList [] = [['f']] := by decide
  have hh : ¬ ("/f".toList.head? ≠ some '/') := by decide
  rw [if_neg hh, ht]
  simp only [ROOT_INODE, hroot, hs]
  rw [lookup_rest]
  decide

/-! ## The buffer model returns what `path_lookup` returns -/

theorem strtok_calls_tokens (l passed cur : List Char) :
    (strtok_calls l passed cur).map Prod.fst = strtok_tokens l cur := by
  induction l generalizing passed cur with
  | nil =>
    unfold strtok_calls strtok_tokens
    split_ifs <;> simp
  | cons c cs ih =>
    unfold strtok_calls strtok_tokens
    split_ifs <;> simp [ih]

theorem lookup_rest_buffer_fst (h : a1fs_h) (fs : fs_ctx) (calls : List (List Char × List Char))
    (tmp : Int) (buf : List Char) :
    (lookup_rest_buffer h fs calls tmp buf).1 = lookup_rest h fs (calls.map Prod.fst) tmp := by
  induction calls generalizing tmp buf with
  | nil => simp [lookup_rest_buffer, lookup_rest]
  | cons c rest ih =>
    obtain ⟨token, buf1⟩ := c
    simp only [List.map_cons]
    unfold lookup_rest_buffer lookup_rest
    split_ifs
    · rfl
    · rfl
    · rfl
    · split <;> simp_all

/-- The value the buffer model of `path_lookup` returns is the value of
`path_lookup`. -/
theorem path_lookup_buffer_fst (h : a1fs_h) (fs : fs_ctx) (path : String) :
    (path_lookup_buffer h fs path.toList).1 = path_lookup h fs path := by
  unfold path_lookup_buffer path_lookup
  split_ifs with h1
  · rfl
  · have ht := strtok_calls_tokens path.toList [] []
    cases hc : strtok_calls path.toList [] [] with
    | nil =>
      rw [hc] at ht
      simp only [List.map_nil] at ht
      rw [← ht]
    | cons c rest =>
      obtain ⟨token, buf1⟩ := c
      rw [hc] at ht
      simp only [List.map_cons] at ht
      rw [← ht]
      simp only
      split
      · exact lookup_rest_buffer_fst h fs rest _ _
      · rfl
      · exact lookup_rest_buffer_fst h fs rest _ _

/-! ## More on bitmaps -/

theorem testBit_255 (k : Nat) (hk : k < 8) : Nat.testBit 255 k = true := by
  interval_cases k <;> decide

theorem is_bit_set_unset_same (bm : Mem) (i : Nat) : is_bit_set i (unset_bitmap bm i) = 0 := by
  rw [is_bit_set_eq]
  have hk : i % 8 < 8 := Nat.mod_lt _ (by decide)
  simp [unset_bitmap, Nat.one_shiftLeft, Nat.testBit_two_pow_self, testBit_255 _ hk]

theorem is_bit_set_unset_other (bm : Mem) (i j : Nat) (hij : j ≠ i) :
    is_bit_set j (unset_bitmap bm i) = is_bit_set j bm := by
  rw [is_bit_set_eq, is_bit_set_eq]
  unfold unset_bitmap
  have hk : j % 8 < 8 := Nat.mod_lt _ (by decide)
  by_cases hb : j / 8 = i / 8
  · have hne : i % 8 ≠ j % 8 := by omega
    simp [hb, Nat.one_shiftLeft, Nat.testBit_two_pow_of_ne hne, testBit_255 _ hk]
  · simp [hb]

theorem is_bit_set_le_one (i : Nat) (bm : Mem) : is_bit_set i bm = 0 ∨ is_bit_set i bm = 1 := by
  rw [is_bit_set_eq]
  split_ifs
  · right; rfl
  · left; rfl

theorem popcount_le (bm : Mem) (n : Nat) : popcount bm n ≤ n := by
  induction n with
  | zero => simp [popcount]
  | succ n ih =>
    unfold popcount
    rcases is_bit_set_le_one n bm with h0 | h1 <;> omega

theorem first_available_from_least (h : a1fs_h) (bm : Mem) (k i j : Nat)
    (hij : i ≤ j) (hj : j < first_available_from h bm k i)
    (hlt : first_available_from h bm k i < i + k) : is_bit_set j bm = 1 := by
  induction k generalizing i with
  | zero => omega
  | succ k ih =>
    unfold first_available_from at hj hlt
    by_cases hb : is_bit_set i bm = 0
    · rw [if_pos hb] at hj; omega
    · rw [if_neg hb] at hj hlt
      by_cases hji : j = i
      · subst hji
        rcases is_bit_set_le_one j bm with h0 | h1
        · exact absurd h0 hb
        · exact h1
      · exact ih (i + 1) (by omega) hj (by omega)

/-- The position found is the lowest clear bit. -/
theorem get_first_available_position_least (h : a1fs_h) (bm : Mem) (n j : Nat)
    (hlt : get_first_available_position h n bm < n)
    (hj : j < get_first_available_position h n bm) : is_bit_set j bm = 1 := by
  unfold get_first_available_position at hlt hj
  exact first_available_from_least h bm n 0 j (by omega) hj (by omega)

theorem find_in_block_ino (h : a1fs_h) (m : Mem) (t b k s a : Nat)
    (hf : find_in_block h m t b k s = some a) : read32 m a = t := by
  induction k generalizing s with
  | zero => simp [find_in_block] at hf
  | succ k ih =>
    unfold find_in_block at hf
    split_ifs at hf with h1
    · simp only [Option.some.injEq] at hf
      rw [← hf]; exact h1
    · exact ih _ hf

theorem find_in_extent_ino (h : a1fs_h) (m : Mem) (t start k j a : Nat)
    (hf : find_in_extent h m t start k j = some a) : read32 m a = t := by
  induction k generalizing j with
  | zero => simp [find_in_extent] at hf
  | succ k ih =>
    unfold find_in_extent at hf
    split at hf
    · rename_i a1 h1
      simp only [Option.some.injEq] at hf
      rw [← hf]; exact find_in_block_ino h m t _ _ _ a1 h1
    · exact ih _ hf

theorem find_in_dir_ino (h : a1fs_h) (m : Mem) (p t k i a : Nat)
    (hf : find_in_dir h m p t k i = some a) : read32 m a = t := by
  induction k generalizing i with
  | zero => simp [find_in_dir] at hf
  | succ k ih =>
    unfold find_in_dir at hf
    split at hf
    · rename_i a1 h1
      simp only [Option.some.injEq] at hf
      rw [← hf]; exact find_in_extent_ino h m t _ _ _ a1 h1
    · exact ih _ hf

theorem take_entry_ino (h : a1fs_h) (fs : fs_ctx) (p t target_ino : Nat) (m : Mem)
    (hf : take_entry h fs p t = some (target_ino, m)) : target_ino = t := by
  unfold take_entry at hf
  dsimp only at hf
  split_ifs at hf with h1
  · simp only [Option.some.injEq, Prod.mk.injEq] at hf
    rw [← hf.1]; exact h1
  · split at hf
    · simp at hf
    · rename_i a ha
      simp only [Option.some.injEq, Prod.mk.injEq] at hf
      rw [← hf.1]
      exact find_in_dir_ino h fs.data _ t _ _ a ha

theorem remove_entry_inode_fields (h : a1fs_h) (fs fs' : fs_ctx) (p t : Nat) (dir : Bool) (r : Int)
    (hr : remove_entry h fs p t dir = some (r, fs')) :
    fs'.inode_bitmap = unset_bitmap fs.inode_bitmap t ∧
      fs'.available_inodes = u32 (fs.available_inodes + 1) ∧
      fs'.num_inodes = fs.num_inodes := by
  unfold remove_entry at hr
  dsimp only at hr
  split at hr
  · simp at hr
  · rename_i target_ino m hf
    have ht : target_ino = t := take_entry_ino h fs p t target_ino m hf
    subst ht
    split_ifs at hr
    all_goals
      simp only [Option.some.injEq, Prod.mk.injEq] at hr
      rw [← hr.2]; exact ⟨rfl, rfl, rfl⟩

/-! ## The lookup reads neither modification times nor link counts -/

theorem scan_dir_congr (h : a1fs_h) (fs fs2 : fs_ctx) (dir : Nat) (token : List Char)
    (hd : fs2.data = fs.data)
    (hp : (fs2.inode_table dir).indirect_pt = (fs.inode_table dir).indirect_pt)
    (hn : (fs2.inode_table dir).num_dir_entry = (fs.inode_table dir).num_dir_entry)
    (k i dc : Nat) :
    scan_dir h fs2 dir token k i dc = scan_dir h fs dir token k i dc := by
  induction k generalizing i dc with
  | zero => rfl
  | succ k ih =>
    unfold scan_dir
    simp only [hd, hp, hn]
    split
    · rename_i dc1 he
      exact ih _ _
    · rfl

theorem lookup_rest_congr (h : a1fs_h) (fs fs2 : fs_ctx) (hd : fs2.data = fs.data)
    (hi : ∀ k, (fs2.inode_table k).size = (fs.inode_table k).size ∧
      (fs2.inode_table k).mode = (fs.inode_table k).mode ∧
      (fs2.inode_table k).extent_num = (fs.inode_table k).extent_num ∧
      (fs2.inode_table k).num_dir_entry = (fs.inode_table k).num_dir_entry ∧
      (fs2.inode_table k).indirect_pt = (fs.inode_table k).indirect_pt)
    (l : List (List Char)) (tmp : Int) :
    lookup_rest h fs2 l tmp = lookup_rest h fs l tmp := by
  induction l generalizing tmp with
  | nil => rfl
  | cons token rest ih =>
    unfold lookup_rest
    obtain ⟨h1, h2, h3, h4, h5⟩ := hi tmp.toNat
    rw [h1, h2, h3, scan_dir_congr h fs fs2 tmp.toNat token hd h5 h4]
    split_ifs
    · rfl
    · rfl
    · rfl
    · split
      · exact ih _
      · rfl
      · exact ih _

theorem path_lookup_congr (h : a1fs_h) (fs fs2 : fs_ctx) (hd : fs2.data = fs.data)
    (hi : ∀ k, (fs2.inode_table k).size = (fs.inode_table k).size ∧
      (fs2.inode_table k).mode = (fs.inode_table k).mode ∧
      (fs2.inode_table k).extent_num = (fs.inode_table k).extent_num ∧
      (fs2.inode_table k).num_dir_entry = (fs.inode_table k).num_dir_entry ∧
      (fs2.inode_table k).indirect_pt = (fs.inode_table k).indirect_pt)
    (path : String) :
    path_lookup h fs2 path = path_lookup h fs path := by
  unfold path_lookup
  obtain ⟨h1, h2, h3, h4, h5⟩ := hi ROOT_INODE
  split_ifs
  · rfl
  · split
    · rfl
    · rw [h3, scan_dir_congr h fs fs2 ROOT_INODE _ hd h5 h4]
      split
      · exact lookup_rest_congr h fs fs2 hd hi _ _
      · rfl
      · exact lookup_rest_congr h fs fs2 hd hi _ _

/-- Storing a modification time in one inode does not change any lookup. -/
theorem path_lookup_set_mtime (h : a1fs_h) (fs : fs_ctx) (n : Nat) (t : timespec) (path : String) :
    path_lookup h (set_mtime fs n t) path = path_lookup h fs path := by
  apply path_lookup_congr
  · rfl
  · intro k
    by_cases hk : k = n
    · subst hk; simp [set_mtime, set_inode]
    · simp [set_mtime, set_inode, hk]

/-! ## The accounting of inodes -/

theorem strcmp_eq_iff (m : Mem) (token : List Char) (a : Nat) :
    strcmp_eq m token a = name_equals m a token := by
  induction token generalizing a with
  | nil => simp [strcmp_eq, name_equals, load_bytes]
  | cons c cs ih =>
    unfold strcmp_eq
    rw [ih]
    unfold name_equals load_bytes
    simp only [List.length_cons, List.map_cons]
    rw [List.range_succ_eq_map]
    simp only [List.map_cons, List.map_map, Nat.add_zero]
    have e1 : (fun i => m (a + 1 + i)) = ((fun i => m (a + i)) ∘ Nat.succ) := by
      funext i; simp [Nat.add_assoc, Nat.add_comm 1 i]
    have e2 : a + 1 + cs.length = a + (cs.length + 1) := by omega
    rw [e1, e2]
    have e3 : (m a :: List.map ((fun i => m (a + i)) ∘ Nat.succ) (List.range cs.length)
          == c.toNat :: List.map Char.toNat cs)
        = (m a == c.toNat
            && List.map ((fun i => m (a + i)) ∘ Nat.succ) (List.range cs.length)
                == List.map Char.toNat cs) := rfl
    rw [e3, Bool.and_assoc]

/-! ## The scan of a directory finds what the specification finds -/

theorem entry_addr_flat (sz s j : Nat) (hdiv : sz ∣ A1FS_BLOCK_SIZE) :
    (s + j / (A1FS_BLOCK_SIZE / sz)) * A1FS_BLOCK_SIZE + j % (A1FS_BLOCK_SIZE / sz) * sz
      = s * A1FS_BLOCK_SIZE + j * sz := by
  have hps : A1FS_BLOCK_SIZE / sz * sz = A1FS_BLOCK_SIZE := Nat.div_mul_cancel hdiv
  have hj := Nat.div_add_mod j (A1FS_BLOCK_SIZE / sz)
  generalize A1FS_BLOCK_SIZE / sz = per at hps hj
  generalize j / per = q at hj
  generalize j % per = r at hj
  rw [← hj, ← hps]
  ring

theorem scan_extent_found (h : a1fs_h) (m : Mem) (token : List Char) (base n a : Nat)
    (hn : n < 4294967296) (k j dc : Nat)
    (hfind : ((((List.range' j k).map (fun j => base + j * h.sizeof_dentry)).take (n - dc)).find?
      (fun a => name_equals m (a + 4) token)) = some a) :
    scan_extent h m token base n k j dc = scan_result.found (read32 m a) := by
  induction k generalizing j dc with
  | zero => simp at hfind
  | succ k ih =>
    have hdc : dc < n := by
      by_contra hc
      have : n - dc = 0 := by omega
      rw [this] at hfind
      simp at hfind
    have e : n - dc = (n - (dc + 1)) + 1 := by omega
    rw [List.range'_succ, List.map_cons, e, List.take_succ_cons, List.find?_cons] at hfind
    unfold scan_extent
    rw [strcmp_eq_iff]
    cases hp : name_equals m (base + j * h.sizeof_dentry + 4) token with
    | true =>
      rw [hp] at hfind
      simp only [Option.some.injEq] at hfind
      simp [hfind]
    | false =>
      rw [hp] at hfind
      simp only [] at hfind
      have hdc2 : dc + 1 < n := by
        by_contra hc
        have : n - (dc + 1) = 0 := by omega
        rw [this] at hfind
        simp at hfind
      have hu : u32 (dc + 1) = dc + 1 := by unfold u32; omega
      rw [hu]
      have hge : ¬ dc + 1 ≥ n := by omega
      simp only [Bool.false_eq_true, if_false, hge]
      exact ih (j + 1) (dc + 1) hfind

theorem scan_extent_through (h : a1fs_h) (m : Mem) (token : List Char) (base n : Nat)
    (hn : n < 4294967296) (k j dc : Nat) (hk : dc + k < n)
    (hnone : ∀ a ∈ (List.range' j k).map (fun j => base + j * h.sizeof_dentry),
      name_equals m (a + 4) token = false) :
    scan_extent h m token base n k j dc = scan_result.fell_through (dc + k) := by
  induction k generalizing j dc with
  | zero => rfl
  | succ k ih =>
    rw [List.range'_succ, List.map_cons] at hnone
    unfold scan_extent
    rw [strcmp_eq_iff, hnone _ (List.mem_cons_self _ _)]
    have hu : u32 (dc + 1) = dc + 1 := by unfold u32; omega
    rw [hu]
    have hge : ¬ dc + 1 ≥ n := by omega
    simp only [Bool.false_eq_true, if_false, hge]
    rw [ih (j + 1) (dc + 1) (by omega) (fun a ha => hnone a (List.mem_cons_of_mem _ ha))]
    congr 1
    omega

theorem extent_slots_flat (h : a1fs_h) (m : Mem) (p i : Nat) :
    extent_slots h m p i
      = (List.range' 0 (extent_count m p i * (A1FS_BLOCK_SIZE / h.sizeof_dentry))).map
          (fun j => extent_start m p i * A1FS_BLOCK_SIZE + j * h.sizeof_dentry) := by
  unfold extent_slots
  rw [List.range_eq_range']

theorem block_slots_flat (h : a1fs_h) (hdiv : h.sizeof_dentry ∣ A1FS_BLOCK_SIZE) (s c : Nat) :
    (List.range c).flatMap (fun j => block_slots h (s + j))
      = (List.range (c * (A1FS_BLOCK_SIZE / h.sizeof_dentry))).map
          (fun j => s * A1FS_BLOCK_SIZE + j * h.sizeof_dentry) := by
  have hps : A1FS_BLOCK_SIZE / h.sizeof_dentry * h.sizeof_dentry = A1FS_BLOCK_SIZE :=
    Nat.div_mul_cancel hdiv
  induction c with
  | zero => simp
  | succ c ih =>
    rw [List.range_succ, List.flatMap_append, ih, Nat.succ_mul, List.range_add, List.map_append]
    congr 1
    simp only [List.flatMap_cons, List.flatMap_nil, List.append_nil, block_slots, List.map_map]
    apply List.map_congr_left
    intro x _
    simp only [Function.comp]
    generalize A1FS_BLOCK_SIZE / h.sizeof_dentry = per at hps
    rw [← hps]
    ring

theorem dir_entry_addrs_extents (h : a1fs_h) (fs : fs_ctx) (dir : Nat)
    (hdiv : h.sizeof_dentry ∣ A1FS_BLOCK_SIZE) :
    dir_entry_addrs h fs dir
      = (List.range (fs.inode_table dir).extent_num).flatMap
          (extent_slots h fs.data (fs.inode_table dir).indirect_pt) := by
  unfold dir_entry_addrs dir_blocks
  rw [List.flatMap_assoc]
  apply List.flatMap_congr
  intro i _
  rw [List.flatMap_map]
  exact block_slots_flat h hdiv _ _

theorem scan_dir_found (h : a1fs_h) (fs : fs_ctx) (dir : Nat) (token : List Char) (a : Nat)
    (hdiv : h.sizeof_dentry ∣ A1FS_BLOCK_SIZE)
    (hN : fs.num_of_data_blocks < 1048576)
    (hn : (fs.inode_table dir).num_dir_entry < 4294967296) (k i dc : Nat)
    (hb : ∀ x, i ≤ x → x < i + k →
      extent_start fs.data (fs.inode_table dir).indirect_pt x
        + extent_count fs.data (fs.inode_table dir).indirect_pt x ≤ fs.num_of_data_blocks)
    (hfind : ((((List.range' i k).flatMap
        (extent_slots h fs.data (fs.inode_table dir).indirect_pt)).take
          ((fs.inode_table dir).num_dir_entry - dc)).find?
        (fun a => name_equals fs.data (a + 4) token)) = some a) :
    scan_dir h fs dir token k i dc = scan_result.found (read32 fs.data a) := by
  induction k generalizing i dc with
  | zero => simp at hfind
  | succ k ih =>
    have hbi := hb i (Nat.le_refl _) (by omega)
    have hper : A1FS_BLOCK_SIZE / h.sizeof_dentry * h.sizeof_dentry = A1FS_BLOCK_SIZE :=
      Nat.div_mul_cancel hdiv
    have hperle : A1FS_BLOCK_SIZE / h.sizeof_dentry ≤ A1FS_BLOCK_SIZE :=
      Nat.div_le_self _ _
    have e1 : u32 (extent_start fs.data (fs.inode_table dir).indirect_pt i * A1FS_BLOCK_SIZE)
        = extent_start fs.data (fs.inode_table dir).indirect_pt i * A1FS_BLOCK_SIZE := by
      unfold u32 A1FS_BLOCK_SIZE; omega
    have e2 : u32 (u32 (extent_count fs.data (fs.inode_table dir).indirect_pt i * A1FS_BLOCK_SIZE)
          / h.sizeof_dentry)
        = extent_count fs.data (fs.inode_table dir).indirect_pt i
            * (A1FS_BLOCK_SIZE / h.sizeof_dentry) := by
      have e3 : u32 (extent_count fs.data (fs.inode_table dir).indirect_pt i * A1FS_BLOCK_SIZE)
          = extent_count fs.data (fs.inode_table dir).indirect_pt i * A1FS_BLOCK_SIZE := by
        unfold u32 A1FS_BLOCK_SIZE; omega
      rw [e3, Nat.mul_div_assoc _ hdiv]
      have : extent_count fs.data (fs.inode_table dir).indirect_pt i
          * (A1FS_BLOCK_SIZE / h.sizeof_dentry)
          ≤ extent_count fs.data (fs.inode_table dir).indirect_pt i * A1FS_BLOCK_SIZE :=
        Nat.mul_le_mul_left _ hperle
      unfold u32
      unfold A1FS_BLOCK_SIZE at this ⊢
      omega
    rw [List.range'_succ, List.flatMap_cons, List.take_append_eq_append_take, List.find?_append,
      extent_slots_flat h _ _ _] at hfind
    unfold scan_dir
    simp only [e1, e2]
    cases hf : (((List.range' 0 (extent_count fs.data (fs.inode_table dir).indirect_pt i
          * (A1FS_BLOCK_SIZE / h.sizeof_dentry))).map
          (fun j => extent_start fs.data (fs.inode_table dir).indirect_pt i * A1FS_BLOCK_SIZE
            + j * h.sizeof_dentry)).take ((fs.inode_table dir).num_dir_entry - dc)).find?
        (fun a => name_equals fs.data (a + 4) token) with
    | some a1 =>
      rw [hf] at hfind
      simp only [Option.or, Option.some.injEq] at hfind
      subst hfind
      rw [scan_extent_found h fs.data token _ _ a1 hn _ 0 dc hf]
    | none =>
      rw [hf] at hfind
      simp only [Option.or, List.length_map, List.length_range'] at hfind
      have hlen : dc + extent_count fs.data (fs.inode_table dir).indirect_pt i
          * (A1FS_BLOCK_SIZE / h.sizeof_dentry) < (fs.inode_table dir).num_dir_entry := by
        by_contra hc
        have : (fs.inode_table dir).num_dir_entry - dc
            - extent_count fs.data (fs.inode_table dir).indirect_pt i
              * (A1FS_BLOCK_SIZE / h.sizeof_dentry) = 0 := by omega
        rw [this] at hfind
        simp at hfind
      have htake : ((List.range' 0 (extent_count fs.data (fs.inode_table dir).indirect_pt i
          * (A1FS_BLOCK_SIZE / h.sizeof_dentry))).map
          (fun j => extent_start fs.data (fs.inode_table dir).indirect_pt i * A1FS_BLOCK_SIZE
            + j * h.sizeof_dentry)).take ((fs.inode_table dir).num_dir_entry - dc)
          = (List.range' 0 (extent_count fs.data (fs.inode_table dir).indirect_pt i
          * (A1FS_BLOCK_SIZE / h.sizeof_dentry))).map
          (fun j => extent_start fs.data (fs.inode_table dir).indirect_pt i * A1FS_BLOCK_SIZE
            + j * h.sizeof_dentry) := by
        apply List.take_of_length_le
        simp only [List.length_map, List.length_range']
        omega
      rw [htake] at hf
      have hnone := List.find?_eq_none.mp hf
      rw [scan_extent_through h fs.data token _ _ hn _ 0 dc hlen
        (fun a ha => by simpa using hnone a ha)]
      simp only
      apply ih (i + 1) _ (fun x hx1 hx2 => hb x (by omega) (by omega))
      rw [← hfind]
      congr 2
      omega

theorem dir_find_mem (h : a1fs_h) (fs : fs_ctx) (dir : Nat) (token : List Char) (ino : Nat)
    (hfind : dir_find h fs dir token = some ino) :
    ∃ a, (dir_entries h fs dir).find? (fun a => name_equals fs.data (a + 4) token) = some a ∧
      a ∈ dir_entries h fs dir ∧ read32 fs.data a = ino := by
  unfold dir_find at hfind
  cases hf : (dir_entries h fs dir).find? (fun a => name_equals fs.data (a + 4) token) with
  | none => rw [hf] at hfind; simp at hfind
  | some a =>
    rw [hf] at hfind
    simp only [Option.map_some', Option.some.injEq] at hfind
    exact ⟨a, rfl, List.mem_of_find?_eq_some hf, hfind⟩

theorem dir_find_scan (h : a1fs_h) (fs : fs_ctx) (dir : Nat) (token : List Char) (ino : Nat)
    (hdiv : h.sizeof_dentry ∣ A1FS_BLOCK_SIZE)
    (hN : fs.num_of_data_blocks < 1048576)
    (hn : (fs.inode_table dir).num_dir_entry < 4294967296)
    (hb : ∀ x, x < (fs.inode_table dir).extent_num →
      extent_start fs.data (fs.inode_table dir).indirect_pt x
        + extent_count fs.data (fs.inode_table dir).indirect_pt x ≤ fs.num_of_data_blocks)
    (hfind : dir_find h fs dir token = some ino) :
    scan_dir h fs dir token (fs.inode_table dir).extent_num 0 0 = scan_result.found ino := by
  obtain ⟨a, hf, _, hr⟩ := dir_find_mem h fs dir token ino hfind
  unfold dir_entries at hf
  rw [dir_entry_addrs_extents h fs dir hdiv, List.range_eq_range'] at hf
  rw [← hr]
  exact scan_dir_found h fs dir token a hdiv hN hn _ 0 0
    (fun x _ hx => hb x (by omega)) hf

theorem dir_find_pos (h : a1fs_h) (fs : fs_ctx) (dir : Nat) (token : List Char) (ino : Nat)
    (hfind : dir_find h fs dir token = some ino) : 0 < (fs.inode_table dir).num_dir_entry := by
  obtain ⟨a, _, hm, _⟩ := dir_find_mem h fs dir token ino hfind
  unfold dir_entries at hm
  by_contra hc
  have : (fs.inode_table dir).num_dir_entry = 0 := by omega
  rw [this] at hm
  simp at hm

theorem path_lookup_eq_tokens (h : a1fs_h) (fs : fs_ctx) (path : String) :
    path_lookup h fs path
      = if path.toList.head? ≠ some '/' then some (-1)
        else lookup_tokens h fs (strtok_tokens path.toList []) := by
  unfold path_lookup
  split_ifs
  · rfl
  · cases strtok_tokens path.toList [] with
    | nil => rfl
    | cons t rest => rfl

theorem last_slash_spec (l : List Char) (i : Nat) (hl : last_slash l = some i) :
    l = l.take i ++ '/' :: l.drop (i + 1) ∧ '/' ∉ l.drop (i + 1) := by
  induction l generalizing i with
  | nil => simp [last_slash] at hl
  | cons c cs ih =>
    unfold last_slash at hl
    cases hcs : last_slash cs with
    | some j =>
      rw [hcs] at hl
      simp only [Option.some.injEq] at hl
      subst hl
      obtain ⟨h1, h2⟩ := ih j hcs
      constructor
      · simp only [List.take_succ_cons, List.drop_succ_cons, List.cons_append]
        rw [← h1]
      · simpa using h2
    | none =>
      rw [hcs] at hl
      simp only at hl
      split_ifs at hl with hc
      simp only [Option.some.injEq] at hl
      subst hl
      have hnone : ∀ (l : List Char), last_slash l = none → '/' ∉ l := by
        intro l
        induction l with
        | nil => intro _; simp
        | cons d ds ihd =>
          intro hd
          unfold last_slash at hd
          cases hds : last_slash ds with
          | some j => rw [hds] at hd; simp at hd
          | none =>
            rw [hds] at hd
            simp only at hd
            split_ifs at hd with hdc
            simp only [List.mem_cons, not_or]
            exact ⟨fun e => hdc e.symm, ihd hds⟩
      constructor
      · simp [hc]
      · simpa using hnone cs hcs

theorem strtok_tokens_name (name cur : List Char) (hn : '/' ∉ name) :
    strtok_tokens name cur = if cur.reverse ++ name = [] then [] else [cur.reverse ++ name] := by
  induction name generalizing cur with
  | nil =>
    unfold strtok_tokens
    by_cases hc : cur = []
    · simp [hc]
    · simp [hc]
  | cons c cs ih =>
    unfold strtok_tokens
    have hc : c ≠ '/' := fun e => hn (by simp [e])
    rw [if_neg hc, ih (c :: cur) (fun hm => hn (List.mem_cons_of_mem _ hm))]
    simp

theorem strtok_tokens_append (l name cur : List Char) (hn : '/' ∉ name) (hne : name ≠ []) :
    strtok_tokens (l ++ '/' :: name) cur = strtok_tokens l cur ++ [name] := by
  induction l generalizing cur with
  | nil =>
    simp only [List.nil_append]
    unfold strtok_tokens
    rw [if_pos rfl, strtok_tokens_name name [] hn]
    by_cases hc : cur = []
    · simp [hc, hne]
    · simp [hc, hne]
  | cons c cs ih =>
    simp only [List.cons_append]
    unfold strtok_tokens
    by_cases hc : c = '/'
    · by_cases hcur : cur = []
      · simp [hc, hcur, ih]
      · simp [hc, hcur, ih]
    · simp [hc, ih]

/-- The tokens of a path are the tokens of its parent followed by its last
component. -/
theorem tokens_parent_child (path parent_dir name : List Char) (cap : Nat)
    (hp : extract_parent_path path cap = some parent_dir)
    (hc : extract_child_path path = some name) (hne : name ≠ []) :
    strtok_tokens path [] = strtok_tokens parent_dir [] ++ [name] ∧ '/' ∉ name := by
  unfold extract_parent_path at hp
  unfold extract_child_path at hc
  cases hl : last_slash path with
  | none => rw [hl] at hp; simp at hp
  | some i =>
    rw [hl] at hp hc
    simp only [Option.some.injEq] at hc
    obtain ⟨h1, h2⟩ := last_slash_spec path i hl
    rw [hc] at h1 h2
    refine ⟨?_, h2⟩
    have ht : strtok_tokens parent_dir [] = strtok_tokens (path.take i) [] := by
      simp only at hp
      split_ifs at hp with h0 h2 h3
      · simp only [Option.some.injEq] at hp
        rw [← hp, h0]
        simp [strtok_tokens]
      · simp only [Option.some.injEq] at hp
        rw [hp]
    rw [ht]
    conv_lhs => rw [h1]
    exact strtok_tokens_append _ name [] h2 hne

/-! ## Looking up one more component -/

theorem lookup_rest_cons (h : a1fs_h) (fs : fs_ctx) (token : List Char)
    (rest : List (List Char)) (tmp_inode : Int) :
    lookup_rest h fs (token :: rest) tmp_inode
      = if tmp_inode < 0 then none
        else if (fs.inode_table tmp_inode.toNat).size = 0 then some (-1)
        else if S_ISREG (fs.inode_table tmp_inode.toNat).mode then some (-2)
        else
          match scan_dir h fs tmp_inode.toNat token
              (fs.inode_table tmp_inode.toNat).extent_num 0 0 with
          | scan_result.found ino => lookup_rest h fs rest (int_of ino)
          | scan_result.not_found => some (-1)
          | scan_result.fell_through _ => lookup_rest h fs rest tmp_inode := by
  rw [lookup_rest]

theorem lookup_tokens_cons (h : a1fs_h) (fs : fs_ctx) (token : List Char)
    (rest : List (List Char)) :
    lookup_tokens h fs (token :: rest)
      = match scan_dir h fs ROOT_INODE token (fs.inode_table ROOT_INODE).extent_num 0 0 with
        | scan_result.found ino => lookup_rest h fs rest (int_of ino)
        | scan_result.not_found => some (-1)
        | scan_result.fell_through _ => lookup_rest h fs rest (-1) := by
  rw [lookup_tokens]

theorem lookup_rest_append (h : a1fs_h) (fs : fs_ctx) (l1 l2 : List (List Char)) (tmp : Int)
    (P : Nat) (hl : lookup_rest h fs l1 tmp = some (P : Int)) :
    lookup_rest h fs (l1 ++ l2) tmp = lookup_rest h fs l2 (P : Int) := by
  induction l1 generalizing tmp with
  | nil =>
    simp only [lookup_rest, Option.some.injEq] at hl
    simp [hl]
  | cons t rest ih =>
    simp only [List.cons_append]
    rw [lookup_rest_cons] at hl ⊢
    split_ifs at hl ⊢ with h1 h2 h3
    · simp only [Option.some.injEq] at hl; omega
    · simp only [Option.some.injEq] at hl; omega
    · cases he : scan_dir h fs tmp.toNat t (fs.inode_table tmp.toNat).extent_num 0 0 with
      | found ino =>
        rw [he] at hl
        exact ih _ hl
      | not_found =>
        rw [he] at hl
        simp only [Option.some.injEq] at hl; omega
      | fell_through dc =>
        rw [he] at hl
        exact ih _ hl

theorem lookup_rest_single_found (h : a1fs_h) (fs : fs_ctx) (P : Nat) (x : List Char) (ino : Nat)
    (hsize : (fs.inode_table P).size ≠ 0) (hreg : S_ISREG (fs.inode_table P).mode = false)
    (hscan : scan_dir h fs P x (fs.inode_table P).extent_num 0 0 = scan_result.found ino) :
    lookup_rest h fs [x] (P : Int) = some (int_of ino) := by
  rw [lookup_rest_cons]
  have e0 : ¬ ((P : Int) < 0) := by omega
  have e1 : ((P : Int)).toNat = P := by omega
  rw [if_neg e0, e1, if_neg hsize, hreg, hscan]
  simp [lookup_rest]

theorem lookup_rest_single_missing (h : a1fs_h) (fs : fs_ctx) (P : Nat) (x : List Char)
    (hreg : S_ISREG (fs.inode_table P).mode = false)
    (hscan : (fs.inode_table P).size = 0 ∨
      scan_dir h fs P x (fs.inode_table P).extent_num 0 0 = scan_result.not_found) :
    lookup_rest h fs [x] (P : Int) = some (-1) := by
  rw [lookup_rest_cons]
  have e0 : ¬ ((P : Int) < 0) := by omega
  have e1 : ((P : Int)).toNat = P := by omega
  rw [if_neg e0, e1]
  by_cases hs : (fs.inode_table P).size = 0
  · rw [if_pos hs]
  · rw [if_neg hs, hreg]
    rcases hscan with h0 | h1
    · exact absurd h0 hs
    · rw [h1]; rfl

theorem lookup_tokens_snoc (h : a1fs_h) (fs : fs_ctx) (ts : List (List Char)) (x : List Char)
    (P : Nat) (hne : ts ≠ []) (hl : lookup_tokens h fs ts = some (P : Int)) :
    lookup_tokens h fs (ts ++ [x]) = lookup_rest h fs [x] (P : Int) := by
  cases ts with
  | nil => exact absurd rfl hne
  | cons t rest =>
    simp only [List.cons_append]
    rw [lookup_tokens_cons] at hl ⊢
    cases he : scan_dir h fs ROOT_INODE t (fs.inode_table ROOT_INODE).extent_num 0 0 with
    | found ino =>
      rw [he] at hl
      exact lookup_rest_append h fs rest [x] _ P hl
    | not_found =>
      rw [he] at hl
      simp only [Option.some.injEq] at hl; omega
    | fell_through dc =>
      rw [he] at hl
      exact lookup_rest_append h fs rest [x] _ P hl

/-- The lookup of a path whose parent resolves to the directory `P`, when the
scan of `P` finds the last component. -/
theorem lookup_tokens_snoc_found (h : a1fs_h) (fs : fs_ctx) (ts : List (List Char))
    (x : List Char) (P ino : Nat) (hl : lookup_tokens h fs ts = some (P : Int))
    (hsize : (fs.inode_table P).size ≠ 0) (hreg : S_ISREG (fs.inode_table P).mode = false)
    (hscan : scan_dir h fs P x (fs.inode_table P).extent_num 0 0 = scan_result.found ino) :
    lookup_tokens h fs (ts ++ [x]) = some (int_of ino) := by
  by_cases hne : ts = []
  · subst hne
    simp only [lookup_tokens, Option.some.injEq, ROOT_INODE] at hl
    have hP : P = 0 := by omega
    subst hP
    simp only [List.nil_append]
    rw [lookup_tokens_cons]
    simp only [ROOT_INODE]
    rw [hscan]
    simp [lookup_rest]
  · rw [lookup_tokens_snoc h fs ts x P hne hl]
    exact lookup_rest_single_found h fs P x ino hsize hreg hscan

/-! ## The entry slots of a directory -/

theorem block_slots_eq (h : a1fs_h) (hs : h.sizeof_dentry = 256) (b : Nat) :
    block_slots h b = (List.range 16).map (fun s => b * 4096 + s * 256) := by
  unfold block_slots A1FS_BLOCK_SIZE
  rw [hs]

theorem mem_block_slots (h : a1fs_h) (hs : h.sizeof_dentry = 256) (a b : Nat) :
    a ∈ block_slots h b ↔ ∃ s, s < 16 ∧ a = b * 4096 + s * 256 := by
  rw [block_slots_eq h hs]
  simp only [List.mem_map, List.mem_range]
  constructor
  · rintro ⟨s, h1, h2⟩; exact ⟨s, h1, h2.symm⟩
  · rintro ⟨s, h1, h2⟩; exact ⟨s, h1, h2.symm⟩

theorem length_block_slots (h : a1fs_h) (hs : h.sizeof_dentry = 256) (b : Nat) :
    (block_slots h b).length = 16 := by
  rw [block_slots_eq h hs]; simp

theorem nodup_block_slots (h : a1fs_h) (hs : h.sizeof_dentry = 256) (b : Nat) :
    (block_slots h b).Nodup := by
  rw [block_slots_eq h hs]
  apply List.Nodup.map _ (List.nodup_range 16)
  intro x y hxy
  simp only at hxy
  omega

theorem length_flatMap_block_slots (h : a1fs_h) (hs : h.sizeof_dentry = 256) (l : List Nat) :
    (l.flatMap (block_slots h)).length = l.length * 16 := by
  induction l with
  | nil => rfl
  | cons b bs ih =>
    rw [List.flatMap_cons, List.length_append, ih, length_block_slots h hs, List.length_cons]
    omega

theorem mem_flatMap_block_slots (h : a1fs_h) (hs : h.sizeof_dentry = 256) (l : List Nat)
    (a : Nat) (ha : a ∈ l.flatMap (block_slots h)) :
    a / 4096 ∈ l ∧ a % 256 = 0 ∧ a % 4096 < 4096 - 255 := by
  rw [List.mem_flatMap] at ha
  obtain ⟨b, hb, hab⟩ := ha
  rw [mem_block_slots h hs] at hab
  obtain ⟨s, h1, h2⟩ := hab
  have e : a / 4096 = b := by omega
  rw [e]
  exact ⟨hb, by omega, by omega⟩

theorem nodup_flatMap_block_slots (h : a1fs_h) (hs : h.sizeof_dentry = 256) (l : List Nat)
    (hl : l.Nodup) : (l.flatMap (block_slots h)).Nodup := by
  rw [List.nodup_flatMap]
  refine ⟨fun b _ => nodup_block_slots h hs b, ?_⟩
  apply List.Pairwise.imp_of_mem _ hl
  intro b c _ _ hbc
  intro a ha hc
  rw [mem_block_slots h hs] at ha hc
  obtain ⟨s1, h1, h2⟩ := ha
  obtain ⟨s2, h3, h4⟩ := hc
  apply hbc
  omega

theorem length_dir_entry_addrs (h : a1fs_h) (hs : h.sizeof_dentry = 256) (fs : fs_ctx)
    (dir : Nat) : (dir_entry_addrs h fs dir).length = (dir_blocks fs dir).length * 16 :=
  length_flatMap_block_slots h hs _

theorem mem_dir_entry_addrs (h : a1fs_h) (hs : h.sizeof_dentry = 256) (fs : fs_ctx)
    (dir a : Nat) (ha : a ∈ dir_entry_addrs h fs dir) :
    a / 4096 ∈ dir_blocks fs dir ∧ a % 256 = 0 ∧ a % 4096 < 4096 - 255 :=
  mem_flatMap_block_slots h hs _ a ha

theorem mem_dir_entries (h : a1fs_h) (hs : h.sizeof_dentry = 256) (fs : fs_ctx)
    (dir a : Nat) (ha : a ∈ dir_entries h fs dir) :
    a / 4096 ∈ dir_blocks fs dir ∧ a % 256 = 0 ∧ a % 4096 < 4096 - 255 :=
  mem_dir_entry_addrs h hs fs dir a (List.mem_of_mem_take ha)

/-- The block list of a directory depends only on its extents. -/
theorem dir_blocks_congr (fs fs2 : fs_ctx) (dir : Nat)
    (he : (fs2.inode_table dir).extent_num = (fs.inode_table dir).extent_num)
    (hx : ∀ i, i < (fs.inode_table dir).extent_num →
      extent_start fs2.data (fs2.inode_table dir).indirect_pt i
          = extent_start fs.data (fs.inode_table dir).indirect_pt i ∧
        extent_count fs2.data (fs2.inode_table dir).indirect_pt i
          = extent_count fs.data (fs.inode_table dir).indirect_pt i) :
    dir_blocks fs2 dir = dir_blocks fs dir := by
  unfold dir_blocks
  rw [he]
  apply List.flatMap_congr
  intro i hi
  rw [List.mem_range] at hi
  rw [(hx i hi).1, (hx i hi).2]

theorem dir_blocks_nil (fs : fs_ctx) (dir : Nat) (he : (fs.inode_table dir).extent_num = 0) :
    dir_blocks fs dir = [] := by
  unfold dir_blocks
  rw [he]
  rfl

/-- The block list of a directory with one extent more. -/
theorem dir_blocks_succ (fs : fs_ctx) (dir e : Nat)
    (he : (fs.inode_table dir).extent_num = e + 1) :
    dir_blocks fs dir
      = (List.range e).flatMap (fun i =>
          (List.range (extent_count fs.data (fs.inode_table dir).indirect_pt i)).map (fun j =>
            extent_start fs.data (fs.inode_table dir).indirect_pt i + j))
        ++ (List.range (extent_count fs.data (fs.inode_table dir).indirect_pt e)).map (fun j =>
            extent_start fs.data (fs.inode_table dir).indirect_pt e + j) := by
  unfold dir_blocks
  rw [he, List.range_succ, List.flatMap_append]
  simp

theorem directory_wf_extents_pos (h : a1fs_h) (fs : fs_ctx) (dir : Nat)
    (hwf : directory_wf h fs dir) (hpos : 0 < (fs.inode_table dir).num_dir_entry) :
    0 < (fs.inode_table dir).extent_num := by
  obtain ⟨_, _, _, _, hd⟩ := hwf
  obtain ⟨_, _, _, _, _, hle, _⟩ := hd hpos
  by_contra hc
  have he : (fs.inode_table dir).extent_num = 0 := by omega
  rw [dir_blocks_nil fs dir he] at hle
  simp at hle
  omega

/-- The last block of a directory with entries is the last element of its block
list. -/
theorem dir_blocks_last (h : a1fs_h) (fs : fs_ctx) (dir : Nat)
    (hN : fs.num_of_data_blocks < 1048576)
    (hwf : directory_wf h fs dir) (hpos : 0 < (fs.inode_table dir).num_dir_entry) :
    ∃ front, dir_blocks fs dir = front ++ [find_last_block fs dir] ∧
      find_last_block fs dir + 1
        = extent_start fs.data (fs.inode_table dir).indirect_pt
            ((fs.inode_table dir).extent_num - 1)
          + extent_count fs.data (fs.inode_table dir).indirect_pt
            ((fs.inode_table dir).extent_num - 1) := by
  have hepos := directory_wf_extents_pos h fs dir hwf hpos
  obtain ⟨_, _, _, _, hd⟩ := hwf
  obtain ⟨he512, _, _, _, hcnt, _, _, _, hblk⟩ := hd hpos
  obtain ⟨e, he⟩ : ∃ e, (fs.inode_table dir).extent_num = e + 1 :=
    ⟨(fs.inode_table dir).extent_num - 1, by omega⟩
  have hc := hcnt e (by omega)
  obtain ⟨c, hce⟩ : ∃ c, extent_count fs.data (fs.inode_table dir).indirect_pt e = c + 1 :=
    ⟨extent_count fs.data (fs.inode_table dir).indirect_pt e - 1, by omega⟩
  have hb := dir_blocks_succ fs dir e he
  rw [hce, List.range_succ, List.map_append, ← List.append_assoc] at hb
  simp only [List.map_cons, List.map_nil] at hb
  have hlast : extent_start fs.data (fs.inode_table dir).indirect_pt e + c
      ∈ dir_blocks fs dir := by
    rw [hb]; simp
  have hlt := (hblk _ hlast).1
  have hfl : find_last_block fs dir
      = extent_start fs.data (fs.inode_table dir).indirect_pt e + c := by
    rw [find_last_block_eq]
    have hsub : sub32 (fs.inode_table dir).extent_num 1 = e := by
      unfold sub32 u32; omega
    rw [hsub, hce]
    unfold u32; omega
  refine ⟨(List.range e).flatMap (fun i =>
      List.map (fun j => extent_start fs.data (fs.inode_table dir).indirect_pt i + j)
        (List.range (extent_count fs.data (fs.inode_table dir).indirect_pt i))) ++
      List.map (fun j => extent_start fs.data (fs.inode_table dir).indirect_pt e + j)
        (List.range c), ?_, ?_⟩
  · rw [hfl]; exact hb
  · have : (fs.inode_table dir).extent_num - 1 = e := by omega
    rw [this, hce, hfl]
    omega

/-! ## Records of directory entries in memory -/

theorem read32_record_congr (m1 m2 : Mem) (a : Nat)
    (hb : ∀ off, off < 256 → m1 (a + off) = m2 (a + off)) : read32 m1 a = read32 m2 a :=
  read32_congr m1 m2 a (fun k hk => hb k (by omega))

theorem load_bytes_congr (m1 m2 : Mem) (a n : Nat)
    (hb : ∀ i, i < n → m1 (a + i) = m2 (a + i)) : load_bytes m1 a n = load_bytes m2 a n := by
  unfold load_bytes
  apply List.map_congr_left
  intro i hi
  exact hb i (List.mem_range.mp hi)

theorem name_equals_congr (m1 m2 : Mem) (a : Nat) (name : List Char)
    (hb : ∀ i, i < name.length + 1 → m1 (a + i) = m2 (a + i)) :
    name_equals m1 a name = name_equals m2 a name := by
  unfold name_equals
  rw [load_bytes_congr m1 m2 a name.length (fun i hi => hb i (by omega)),
    hb name.length (by omega)]

theorem name_equals_record_congr (m1 m2 : Mem) (a : Nat) (name : List Char)
    (hlen : name.length + 5 ≤ 256)
    (hb : ∀ off, off < 256 → m1 (a + off) = m2 (a + off)) :
    name_equals m1 (a + 4) name = name_equals m2 (a + 4) name := by
  apply name_equals_congr
  intro i hi
  have := hb (4 + i) (by omega)
  rw [← Nat.add_assoc] at this
  exact this

theorem c_string_congr (m1 m2 : Mem) (k a : Nat)
    (hb : ∀ i, i < k → m1 (a + i) = m2 (a + i)) : c_string m1 k a = c_string m2 k a := by
  induction k generalizing a with
  | zero => rfl
  | succ k ih =>
    unfold c_string
    have h0 := hb 0 (by omega)
    rw [Nat.add_zero] at h0
    rw [h0, ih (a + 1) (fun i hi => by
      have := hb (1 + i) (by omega)
      rw [← Nat.add_assoc] at this
      exact this)]

theorem c_string_record_congr (m1 m2 : Mem) (a : Nat)
    (hb : ∀ off, off < 256 → m1 (a + off) = m2 (a + off)) :
    c_string m1 252 (a + 4) = c_string m2 252 (a + 4) := by
  apply c_string_congr
  intro i hi
  have := hb (4 + i) (by omega)
  rw [← Nat.add_assoc] at this
  exact this

theorem memcpy_inside (m : Mem) (a : Nat) (src : List Nat) (n i : Nat) (hi : i < n) :
    memcpy m a src n (a + i) = src.getD i 0 := by
  unfold memcpy
  have : a ≤ a + i ∧ a + i < a + n := by omega
  rw [if_pos this]
  congr 1
  omega

theorem store_new_entry_spec (h : a1fs_h) (hs : h.sizeof_dentry = 256) (m m1 : Mem)
    (a : Nat) (g : Mem) (ino : Nat) (name : List Char) (hino : ino < 4294967296)
    (hst : store_new_entry h m a g ino name = some m1) :
    name.length + 7 ≤ 256 ∧
      (∀ x, x < a ∨ a + 256 ≤ x → m1 x = m x) ∧
      read32 m1 a = ino ∧
      name_equals m1 (a + 4) name = true := by
  unfold store_new_entry at hst
  rw [hs] at hst
  split_ifs at hst with hfit
  simp only [Option.some.injEq] at hst
  refine ⟨by omega, ?_, ?_, ?_⟩
  · intro x hx
    rw [← hst, memcpy_other _ _ _ _ _ (by omega), write32_other _ _ _ _ (by omega)]
    have : ¬ (a ≤ x ∧ x < a + 256) := by omega
    simp only [this, if_false]
  · rw [← hst, read32_memcpy_other _ _ _ _ _ (by omega), read32_write32_same]
    omega
  · rw [← hst]
    unfold name_equals
    have e1 : load_bytes
        (memcpy (write32 (fun x => if a ≤ x ∧ x < a + 256 then g (x - a) else m x) a ino)
          (a + 4) (name.map Char.toNat ++ [0, 0, 0]) (name.length + 3)) (a + 4) name.length
        = name.map Char.toNat := by
      unfold load_bytes
      apply List.ext_getElem
      · simp
      · intro i h1 h2
        simp only [List.length_map, List.length_range] at h1
        simp only [List.getElem_map, List.getElem_range]
        rw [memcpy_inside _ _ _ _ _ (by omega)]
        rw [List.getD_eq_getElem?_getD, List.getElem?_append_left (by simpa using h1)]
        simp [h1]
    have e2 : memcpy (write32 (fun x => if a ≤ x ∧ x < a + 256 then g (x - a) else m x) a ino)
          (a + 4) (name.map Char.toNat ++ [0, 0, 0]) (name.length + 3) (a + 4 + name.length)
        = 0 := by
      rw [memcpy_inside _ _ _ _ _ (by omega)]
      rw [List.getD_eq_getElem?_getD, List.getElem?_append_right (by simp)]
      simp
    rw [e1, e2]
    simp

/-! ## The state after an entry was added -/

theorem add_first_entry_ok (h : a1fs_h) (fs fs' : fs_ctx) (n new_inode : Nat)
    (name : List Char) (g : Mem) (dir : Bool)
    (hr : add_first_entry h fs n new_inode name g dir = some (0, fs')) :
    fs.available_blocks ≠ 0 ∧ sub32 fs.available_blocks 1 ≠ 0 ∧
    ∃ m3, store_new_entry h
        (write32 (write32 fs.data
          (get_addr_of_block (get_first_available_position h fs.num_of_data_blocks fs.data_bitmap)
            + sizeof_extent * 0)
          (get_first_available_position h fs.num_of_data_blocks
            (set_bitmap fs.data_bitmap
              (get_first_available_position h fs.num_of_data_blocks fs.data_bitmap))))
          (get_addr_of_block (get_first_available_position h fs.num_of_data_blocks fs.data_bitmap)
            + sizeof_extent * 0 + 4) 1)
        (get_addr_of_block (get_first_available_position h fs.num_of_data_blocks
            (set_bitmap fs.data_bitmap
              (get_first_available_position h fs.num_of_data_blocks fs.data_bitmap)))
          + 0 * h.sizeof_dentry) g new_inode name = some m3 ∧
      fs' = { fs with
        data_bitmap := set_bitmap
          (set_bitmap fs.data_bitmap
            (get_first_available_position h fs.num_of_data_blocks fs.data_bitmap))
          (get_first_available_position h fs.num_of_data_blocks
            (set_bitmap fs.data_bitmap
              (get_first_available_position h fs.num_of_data_blocks fs.data_bitmap)))
        available_blocks := sub32 (sub32 fs.available_blocks 1) 1
        data := m3
        inode_table := set_inode fs.inode_table n
          { fs.inode_table n with
              indirect_pt := get_addr_of_block
                (get_first_available_position h fs.num_of_data_blocks fs.data_bitmap)
              size := u64 ((fs.inode_table n).size + h.sizeof_dentry)
              links := if dir then u32 ((fs.inode_table n).links + 1) else (fs.inode_table n).links
              num_dir_entry := u32 ((fs.inode_table n).num_dir_entry + 1)
              extent_num := u32 ((fs.inode_table n).extent_num + 1) } } := by
  unfold add_first_entry at hr
  dsimp only at hr
  have hne : (-ENOSPC : Int) ≠ 0 := by decide
  by_cases h1 : fs.available_inodes = 0 ∨ fs.available_blocks = 0
  · rw [if_pos h1] at hr
    simp only [Option.some.injEq, Prod.mk.injEq] at hr
    exact absurd hr.1 hne
  · rw [if_neg h1] at hr
    by_cases h2 : fs.available_inodes = 0 ∨ sub32 fs.available_blocks 1 = 0
    · rw [if_pos h2] at hr
      simp only [Option.some.injEq, Prod.mk.injEq] at hr
      exact absurd hr.1 hne
    · rw [if_neg h2] at hr
      refine ⟨fun e => h1 (Or.inr e), fun e => h2 (Or.inr e), ?_⟩
      split at hr
      · simp at hr
      · rename_i m3 hm
        simp only [Option.some.injEq, Prod.mk.injEq, true_and] at hr
        exact ⟨m3, hm, hr.symm⟩

theorem alloc_one (h : a1fs_h) (fs : fs_ctx) (hsp : space_wf fs)
    (h0 : fs.available_blocks ≠ 0) :
    get_first_available_position h fs.num_of_data_blocks fs.data_bitmap < fs.num_of_data_blocks ∧
      is_bit_set (get_first_available_position h fs.num_of_data_blocks fs.data_bitmap)
        fs.data_bitmap = 0 ∧
      sub32 fs.available_blocks 1 + 1 = fs.available_blocks ∧
      fs.available_blocks < 1048576 := by
  obtain ⟨hN, hav, _, _⟩ := hsp
  have hfc : free_count fs.data_bitmap fs.num_of_data_blocks ≤ fs.num_of_data_blocks := by
    have : ∀ n, free_count fs.data_bitmap n ≤ n := by
      intro n
      induction n with
      | zero => simp [free_count]
      | succ n ih => unfold free_count; split_ifs <;> omega
    exact this _
  obtain ⟨h1, h2⟩ := get_first_available_position_spec h fs.data_bitmap fs.num_of_data_blocks
    (by omega)
  refine ⟨h1, h2, ?_, by omega⟩
  unfold sub32 u32
  omega

theorem alloc_two (h : a1fs_h) (fs : fs_ctx) (hsp : space_wf fs)
    (h0 : fs.available_blocks ≠ 0) (h1 : sub32 fs.available_blocks 1 ≠ 0) :
    get_first_available_position h fs.num_of_data_blocks
        (set_bitmap fs.data_bitmap
          (get_first_available_position h fs.num_of_data_blocks fs.data_bitmap))
      < fs.num_of_data_blocks ∧
    is_bit_set (get_first_available_position h fs.num_of_data_blocks
        (set_bitmap fs.data_bitmap
          (get_first_available_position h fs.num_of_data_blocks fs.data_bitmap)))
      fs.data_bitmap = 0 ∧
    get_first_available_position h fs.num_of_data_blocks
        (set_bitmap fs.data_bitmap
          (get_first_available_position h fs.num_of_data_blocks fs.data_bitmap))
      ≠ get_first_available_position h fs.num_of_data_blocks fs.data_bitmap ∧
    sub32 (sub32 fs.available_blocks 1) 1 + 2 = fs.available_blocks := by
  obtain ⟨hX1, hX2, hX3, hX4⟩ := alloc_one h fs hsp h0
  obtain ⟨hN, hav, _, _⟩ := hsp
  have hfc := free_count_set_bitmap fs.data_bitmap
    (get_first_available_position h fs.num_of_data_blocks fs.data_bitmap) fs.num_of_data_blocks
  rw [if_pos hX1] at hfc
  have h2 : 2 ≤ fs.available_blocks := by
    by_contra hc
    apply h1
    unfold sub32 u32; omega
  obtain ⟨hY1, hY2⟩ := get_first_available_position_spec h
    (set_bitmap fs.data_bitmap
      (get_first_available_position h fs.num_of_data_blocks fs.data_bitmap))
    fs.num_of_data_blocks (by omega)
  have hne : get_first_available_position h fs.num_of_data_blocks
        (set_bitmap fs.data_bitmap
          (get_first_available_position h fs.num_of_data_blocks fs.data_bitmap))
      ≠ get_first_available_position h fs.num_of_data_blocks fs.data_bitmap := by
    intro e
    rw [e, is_bit_set_set_same] at hY2
    omega
  refine ⟨hY1, ?_, hne, ?_⟩
  · rw [is_bit_set_set_other _ _ _ hne] at hY2
    exact hY2
  · unfold sub32 u32
    omega

theorem read32_frame (m1 m2 : Mem) (a lo len : Nat)
    (hf : ∀ x, x < lo ∨ lo + len ≤ x → m1 x = m2 x) (hd : a + 4 ≤ lo ∨ lo + len ≤ a) :
    read32 m1 a = read32 m2 a :=
  read32_congr m1 m2 a (fun k hk => hf (a + k) (by omega))

/-- The state after the first entry was added to an empty directory. -/
theorem add_first_entry_added (h : a1fs_h) (fs fs' : fs_ctx) (P new_inode : Nat)
    (name : List Char) (g : Mem) (dir : Bool) (X Y : Nat)
    (hsp : space_wf fs) (hwf : directory_wf h fs P) (hnew : new_inode < 4294967296)
    (hn0 : (fs.inode_table P).num_dir_entry = 0)
    (hX : get_first_available_position h fs.num_of_data_blocks fs.data_bitmap = X)
    (hY : get_first_available_position h fs.num_of_data_blocks (set_bitmap fs.data_bitmap X) = Y)
    (hr : add_first_entry h fs P new_inode name g dir = some (0, fs')) :
    entry_added h fs fs' P new_inode name (Y * 4096) ∧
      fs'.data_bitmap = set_bitmap (set_bitmap fs.data_bitmap X) Y ∧
      fs'.available_blocks + 2 = fs.available_blocks ∧
      is_bit_set X fs.data_bitmap = 0 ∧ is_bit_set Y fs.data_bitmap = 0 ∧ X ≠ Y ∧
      (fs'.inode_table P).extent_num = 1 ∧
      (fs'.inode_table P).indirect_pt = X * 4096 ∧
      find_last_block fs' P = Y ∧
      (fs'.inode_table P).links
        = (if dir then (fs.inode_table P).links + 1 else (fs.inode_table P).links) ∧
      (fs'.inode_table P).size = 256 := by
  obtain ⟨hav0, hav1, m3, hm, hfs⟩ := add_first_entry_ok h fs fs' P new_inode name g dir hr
  obtain ⟨hX1, hX2, _, _⟩ := alloc_one h fs hsp hav0
  obtain ⟨hY1, hY2, hYX, hav2⟩ := alloc_two h fs hsp hav0 hav1
  rw [hX] at hm hfs hX1 hX2 hY1 hY2 hYX
  rw [hY] at hm hfs hY1 hY2 hYX
  obtain ⟨hs, hsize, hlinks, hempty, _⟩ := hwf
  obtain ⟨he0, hl2⟩ := hempty hn0
  have hN := hsp.1
  rw [hs] at hm hfs
  have hgY : get_addr_of_block Y + 0 * 256 = Y * 4096 := by
    unfold get_addr_of_block A1FS_BLOCK_SIZE; omega
  have hgX : get_addr_of_block X = X * 4096 := by
    unfold get_addr_of_block A1FS_BLOCK_SIZE; rfl
  rw [hgY, hgX] at hm
  rw [hgX] at hfs
  have hse : sizeof_extent * 0 = 0 := rfl
  rw [hse, Nat.add_zero] at hm
  obtain ⟨hfit, hframe, hino, hnm⟩ := store_new_entry_spec h hs _ m3 _ g new_inode name hnew hm
  -- the extent written
  have hes : extent_start m3 (X * 4096) 0 = Y := by
    rw [extent_start_zero, read32_frame m3 _ (X * 4096) (Y * 4096) 256 hframe (by omega),
      read32_write32_other _ _ _ _ (by omega), read32_write32_same]
    omega
  have hec : extent_count m3 (X * 4096) 0 = 1 := by
    rw [extent_count_zero, read32_frame m3 _ (X * 4096 + 4) (Y * 4096) 256 hframe (by omega),
      read32_write32_same]
  -- the record of the parent
  have hrec : fs'.inode_table P
      = ⟨(fs.inode_table P).mode,
          if dir then (fs.inode_table P).links + 1 else (fs.inode_table P).links,
          256, (fs.inode_table P).mtime, 1, 1, X * 4096⟩ := by
    rw [hfs]
    simp only [set_inode, if_true]
    rw [hn0, he0, hsize, hn0]
    have e1 : u64 (0 * 256 + 256) = 256 := by decide
    have e2 : u32 (0 + 1) = 1 := by decide
    have e3 : u32 ((fs.inode_table P).links + 1) = (fs.inode_table P).links + 1 := by
      unfold u32; omega
    rw [e1, e2, e3]
  have hdata : fs'.data = m3 := by rw [hfs]
  have hblocks : dir_blocks fs' P = [Y] := by
    unfold dir_blocks
    rw [hrec, hdata]
    simp only
    rw [show List.range 1 = [0] from rfl]
    simp only [List.flatMap_cons, List.flatMap_nil, List.append_nil, hes, hec]
    rfl
  have haddrs : dir_entry_addrs h fs' P = block_slots h Y := by
    unfold dir_entry_addrs
    rw [hblocks]
    simp
  have hentries' : dir_entries h fs' P = [Y * 4096] := by
    unfold dir_entries
    rw [haddrs, hrec, block_slots_eq h hs]
    simp [List.range_succ_eq_map]
  have hentries : dir_entries h fs P = [] := by
    unfold dir_entries
    rw [hn0]
    rfl
  have hflb : find_last_block fs' P = Y := by
    rw [find_last_block_eq, hrec, hdata]
    simp only
    have : sub32 1 1 = 0 := by decide
    rw [this, hes, hec]
    unfold u32; omega
  have hbm : fs'.data_bitmap = set_bitmap (set_bitmap fs.data_bitmap X) Y := by rw [hfs]
  refine ⟨⟨?_, ?_, ?_, ?_, ?_, ?_, ?_, ?_, ?_, ?_, ?_, ?_, ?_, ?_, ?_⟩, hbm, ?_, hX2, hY2,
    fun e => hYX e.symm, ?_, ?_, hflb, ?_, ?_⟩
  · rw [hentries', hentries]; rfl
  · unfold last_entry_addr
    simp only
    rw [hflb, hrec, hs]
    simp only
    have e1 : A1FS_BLOCK_SIZE / 256 = 16 := by decide
    rw [e1]
    have e2 : u32 (1 % 16) = 1 := by decide
    rw [e2]
    simp only [Nat.one_ne_zero, if_false]
    have e3 : sub32 1 1 = 0 := by decide
    rw [e3]
    unfold get_addr_of_block A1FS_BLOCK_SIZE
    omega
  · rw [hdata]; exact hino
  · rw [hdata]; exact hnm
  · intro x hx
    rw [hentries] at hx
    simp at hx
  · intro x hbit hown
    have hxX : x / 4096 ≠ X := by
      intro e
      unfold A1FS_BLOCK_SIZE at hbit
      rw [e, hX2] at hbit
      omega
    have hxY : x / 4096 ≠ Y := by
      intro e
      unfold A1FS_BLOCK_SIZE at hbit
      rw [e, hY2] at hbit
      omega
    rw [hdata, hframe x (by omega), write32_other _ _ _ _ (by omega),
      write32_other _ _ _ _ (by omega)]
  · intro k hk
    rw [hfs]
    simp only [set_inode, hk, if_false]
  · rw [hrec]
  · rw [hrec]
  · rw [hrec, hn0]
  · rw [hfs]
  · rw [hfs]
  · rw [hfs]
  · rw [hfs]
  · -- the directory is well formed again
    have hNs : fs'.num_of_data_blocks = fs.num_of_data_blocks := by rw [hfs]
    refine ⟨hs, by rw [hrec]; simp, ?_, ?_, ?_⟩
    · rw [hrec]
      simp only
      split_ifs <;> omega
    · intro h0
      rw [hrec] at h0
      simp at h0
    · intro _
      rw [hblocks, hrec, hdata, hbm, hNs]
      simp only
      have hxd : X * 4096 / A1FS_BLOCK_SIZE = X := by unfold A1FS_BLOCK_SIZE; omega
      have hxm : X * 4096 % A1FS_BLOCK_SIZE = 0 := by unfold A1FS_BLOCK_SIZE; omega
      rw [hxd, hxm]
      refine ⟨by omega, rfl, hX1, ?_, ?_, by simp, by simp, by simp, ?_⟩
      · rw [is_bit_set_set_other _ _ _ (fun e => hYX e.symm), is_bit_set_set_same]
      · intro i hi
        have : i = 0 := by omega
        rw [this, hec]
      · intro b hb
        simp only [List.mem_singleton] at hb
        rw [hb]
        exact ⟨hY1, is_bit_set_set_same _ _, hYX⟩
  · rw [hfs]
    simp only
    omega
  · rw [hrec]
  · rw [hrec]
  · rw [hrec]
  · rw [hrec]

theorem nodup_take_getElem (l : List Nat) (n a : Nat) (hl : l.Nodup) (hn : l[n]? = some a) :
    a ∉ l.take n := by
  intro hm
  obtain ⟨hlt, rfl⟩ := List.getElem?_eq_some_iff.mp hn
  rw [List.mem_take_iff_getElem] at hm
  obtain ⟨i, hi, hia⟩ := hm
  have := (List.Nodup.getElem_inj_iff hl).mp hia
  omega

theorem getElem?_flatMap_block_slots_last (h : a1fs_h) (hs : h.sizeof_dentry = 256)
    (F : List Nat) (L r : Nat) (hr : r < 16) :
    ((F ++ [L]).flatMap (block_slots h))[F.length * 16 + r]? = some (L * 4096 + r * 256) := by
  rw [List.flatMap_append, List.getElem?_append_right
    (by rw [length_flatMap_block_slots h hs]; omega)]
  rw [length_flatMap_block_slots h hs]
  simp only [List.flatMap_cons, List.flatMap_nil, List.append_nil, Nat.add_sub_cancel_left]
  rw [block_slots_eq h hs, List.getElem?_map, List.getElem?_range hr]
  rfl

theorem is_bit_set_set_mono (bm : Mem) (i j : Nat) (hj : is_bit_set j bm = 1) :
    is_bit_set j (set_bitmap bm i) = 1 := by
  by_cases hji : j = i
  · rw [hji]; exact is_bit_set_set_same bm i
  · rw [is_bit_set_set_other bm i j hji]; exact hj

/-- The entry added to a directory that has entries, from the shape of the
state reached: the block list is the old one, or the old one and a block that
was free; the record of the entry is written; nothing else changes outside the
block of the extent array. -/
theorem entry_added_of_shape (h : a1fs_h) (fs fs' : fs_ctx) (P new_inode : Nat)
    (name : List Char) (a : Nat) (F : List Nat) (L : Nat)
    (hwf : directory_wf h fs P)
    (hpos : 0 < (fs.inode_table P).num_dir_entry)
    (hmode : (fs'.inode_table P).mode = (fs.inode_table P).mode)
    (hmtime : (fs'.inode_table P).mtime = (fs.inode_table P).mtime)
    (hsize : (fs'.inode_table P).size = (fs.inode_table P).num_dir_entry * 256 + 256)
    (hnum : (fs'.inode_table P).num_dir_entry = (fs.inode_table P).num_dir_entry + 1)
    (hpt : (fs'.inode_table P).indirect_pt = (fs.inode_table P).indirect_pt)
    (he512 : (fs'.inode_table P).extent_num ≤ 512)
    (hlinks : (fs'.inode_table P).links < 4294967296)
    (hother : ∀ k, k ≠ P → fs'.inode_table k = fs.inode_table k)
    (hib : fs'.inode_bitmap = fs.inode_bitmap)
    (hai : fs'.available_inodes = fs.available_inodes)
    (hni : fs'.num_inodes = fs.num_inodes)
    (hnb : fs'.num_of_data_blocks = fs.num_of_data_blocks)
    (hblocks : dir_blocks fs' P = F ++ [L])
    (hcase : (F ++ [L] = dir_blocks fs P ∧ (fs.inode_table P).num_dir_entry % 16 ≠ 0 ∧
          fs'.data_bitmap = fs.data_bitmap) ∨
        (F = dir_blocks fs P ∧ (fs.inode_table P).num_dir_entry % 16 = 0 ∧
          L < fs.num_of_data_blocks ∧ is_bit_set L fs.data_bitmap = 0 ∧
          fs'.data_bitmap = set_bitmap fs.data_bitmap L))
    (ha : a = L * 4096 + (fs.inode_table P).num_dir_entry % 16 * 256)
    (hino : read32 fs'.data a = new_inode)
    (hnm : name_equals fs'.data (a + 4) name = true)
    (hframe : ∀ x, ¬ (a ≤ x ∧ x < a + 256) →
      x / 4096 ≠ (fs.inode_table P).indirect_pt / 4096 → fs'.data x = fs.data x)
    (hcnt : ∀ i, i < (fs'.inode_table P).extent_num →
      1 ≤ extent_count fs'.data (fs.inode_table P).indirect_pt i)
    (hflb : find_last_block fs' P = L) :
    entry_added h fs fs' P new_inode name a := by
  have hwf0 := hwf
  obtain ⟨hs, hsz, hl, hempty, hd⟩ := hwf
  obtain ⟨_, hpm, hXN, hXbit, _, hle, hlt, hnd, hblk⟩ := hd hpos
  unfold A1FS_BLOCK_SIZE at hpm hXN hXbit hblk
  -- the position of the new entry
  have hnF : (fs.inode_table P).num_dir_entry
      = F.length * 16 + (fs.inode_table P).num_dir_entry % 16 := by
    rcases hcase with ⟨hF, hr, _⟩ | ⟨hF, hr, _⟩
    · rw [← hF, List.length_append, List.length_singleton] at hle hlt
      omega
    · rw [← hF] at hle hlt
      omega
  have hget : (dir_entry_addrs h fs' P)[(fs.inode_table P).num_dir_entry]? = some a := by
    unfold dir_entry_addrs
    rw [hblocks, ha]
    conv_lhs => rw [hnF]
    exact getElem?_flatMap_block_slots_last h hs F L _ (Nat.mod_lt _ (by decide))
  have htake : (dir_entry_addrs h fs' P).take (fs.inode_table P).num_dir_entry
      = dir_entries h fs P := by
    unfold dir_entries dir_entry_addrs
    rw [hblocks]
    rcases hcase with ⟨hF, _, _⟩ | ⟨hF, hr, _⟩
    · rw [hF]
    · rw [List.flatMap_append, hF]
      apply List.take_append_of_le_length
      rw [length_flatMap_block_slots h hs]
      exact hle
  have hnd' : (dir_blocks fs' P).Nodup := by
    rw [hblocks]
    rcases hcase with ⟨hF, _, _⟩ | ⟨hF, _, _, hbit, _⟩
    · rw [hF]; exact hnd
    · rw [hF, List.nodup_append]
      refine ⟨hnd, List.nodup_singleton _, ?_⟩
      intro b hb hb2
      simp only [List.mem_singleton] at hb2
      have := (hblk b hb).2.1
      rw [hb2, hbit] at this
      omega
  have hnda : (dir_entry_addrs h fs' P).Nodup := nodup_flatMap_block_slots h hs _ hnd'
  have hold : ∀ x, x ∈ dir_entries h fs P → x ≠ a := by
    intro x hx e
    rw [← htake, e] at hx
    exact nodup_take_getElem _ _ _ hnda hget hx
  have hentries : dir_entries h fs' P = dir_entries h fs P ++ [a] := by
    unfold dir_entries
    rw [hnum, List.take_succ, hget]
    unfold dir_entries at htake
    rw [htake]
    rfl
  have hLX : L ≠ (fs.inode_table P).indirect_pt / 4096 := by
    rcases hcase with ⟨hF, _, _⟩ | ⟨hF, _, _, hbit, _⟩
    · exact (hblk L (by rw [← hF]; simp)).2.2
    · intro e
      rw [e, hXbit] at hbit
      omega
  have hr16 : (fs.inode_table P).num_dir_entry % 16 < 16 := Nat.mod_lt _ (by decide)
  refine ⟨hentries, ?_, hino, hnm, ?_, ?_, hother, hmode, hmtime, hnum, hib, hai, hni, hnb, ?_⟩
  · unfold last_entry_addr
    simp only
    rw [hflb, hnum, hs, ha]
    have e1 : A1FS_BLOCK_SIZE / 256 = 16 := by decide
    rw [e1]
    unfold get_addr_of_block A1FS_BLOCK_SIZE
    have e2 : sub32 (if u32 (((fs.inode_table P).num_dir_entry + 1) % 16) = 0 then u32 16
          else u32 (((fs.inode_table P).num_dir_entry + 1) % 16)) 1
        = (fs.inode_table P).num_dir_entry % 16 := by
      unfold sub32 u32
      split_ifs <;> omega
    rw [e2]
  · intro x hx off hoff
    obtain ⟨hxb, hx256, _⟩ := mem_dir_entries h hs fs P x hx
    have hxa := hold x hx
    have hxX := (hblk _ hxb).2.2
    apply hframe
    · rw [ha] at hxa ⊢
      omega
    · omega
  · intro x hbit hown
    unfold A1FS_BLOCK_SIZE at hbit hown
    have hxX : x / 4096 ≠ (fs.inode_table P).indirect_pt / 4096 := by
      intro e
      exact hown (Or.inr ⟨hpos, by unfold A1FS_BLOCK_SIZE; exact e⟩)
    have hxL : x / 4096 ≠ L := by
      rcases hcase with ⟨hF, _, _⟩ | ⟨hF, _, _, hbit2, _⟩
      · intro e
        apply hown
        left
        rw [e, ← hF]
        simp
      · intro e
        rw [e, hbit2] at hbit
        omega
    apply hframe
    · rw [ha]; omega
    · exact hxX
  · -- the directory is well formed again
    refine ⟨hs, by rw [hsize, hnum]; omega, hlinks, by rw [hnum]; omega, ?_⟩
    intro _
    rw [hpt, hnb, hnum]
    unfold A1FS_BLOCK_SIZE
    refine ⟨he512, hpm, hXN, ?_, hcnt, ?_, ?_, hnd', ?_⟩
    · rcases hcase with ⟨_, _, hbm⟩ | ⟨_, _, _, _, hbm⟩
      · rw [hbm]; exact hXbit
      · rw [hbm]; exact is_bit_set_set_mono _ _ _ hXbit
    · rw [hblocks, List.length_append, List.length_singleton]
      omega
    · rw [hblocks, List.length_append, List.length_singleton]
      omega
    · intro b hb
      rw [hblocks] at hb
      rcases hcase with ⟨hF, _, hbm⟩ | ⟨hF, _, hLN, hbit, hbm⟩
      · rw [hF] at hb
        rw [hbm]
        exact hblk b hb
      · rw [hbm]
        rw [List.mem_append, List.mem_singleton] at hb
        rcases hb with hb | hb
        · rw [hF] at hb
          obtain ⟨h1, h2, h3⟩ := hblk b hb
          exact ⟨h1, is_bit_set_set_mono _ _ _ h2, h3⟩
        · rw [hb]
          exact ⟨hLN, is_bit_set_set_same _ _, hLX⟩

theorem extent_frame (m1 m2 : Mem) (p i : Nat) (hp : p % 4096 = 0) (hi : i < 512)
    (hf : ∀ x, x / 4096 = p / 4096 → m1 x = m2 x) :
    extent_start m1 p i = extent_start m2 p i ∧ extent_count m1 p i = extent_count m2 p i := by
  unfold extent_start extent_count sizeof_extent
  constructor
  · exact read32_congr _ _ _ (fun k hk => hf _ (by omega))
  · exact read32_congr _ _ _ (fun k hk => hf _ (by omega))

theorem add_entry_room_ok (h : a1fs_h) (fs fs' : fs_ctx) (P new_inode : Nat)
    (name : List Char) (g : Mem) (dir : Bool)
    (hn : (fs.inode_table P).num_dir_entry ≠ 0)
    (hroom : (fs.inode_table P).size % A1FS_BLOCK_SIZE ≠ 0)
    (hr : add_entry h fs P new_inode name g dir = some (0, fs')) :
    ∃ m1, store_new_entry h fs.data
        (get_addr_of_block (find_last_block fs P)
          + (fs.inode_table P).num_dir_entry % (A1FS_BLOCK_SIZE / h.sizeof_dentry)
            * h.sizeof_dentry) g new_inode name = some m1 ∧
      fs' = { fs with
        data := m1
        inode_table := set_inode fs.inode_table P
          { fs.inode_table P with
              size := u64 ((fs.inode_table P).size + h.sizeof_dentry)
              links := if dir then u32 ((fs.inode_table P).links + 1) else (fs.inode_table P).links
              num_dir_entry := u32 ((fs.inode_table P).num_dir_entry + 1) } } := by
  unfold add_entry at hr
  rw [if_neg hn] at hr
  unfold place_entry at hr
  dsimp only at hr
  rw [if_pos hroom] at hr
  cases hm : store_new_entry h fs.data
      (get_addr_of_block (find_last_block fs P)
        + (fs.inode_table P).num_dir_entry % (A1FS_BLOCK_SIZE / h.sizeof_dentry)
          * h.sizeof_dentry) g new_inode name with
  | none => rw [hm] at hr; simp at hr
  | some m1 =>
    rw [hm] at hr
    simp only [Option.some.injEq, Prod.mk.injEq, true_and] at hr
    exact ⟨m1, rfl, hr.symm⟩

theorem length_le_of_nodup_lt (l : List Nat) (N : Nat) (hnd : l.Nodup) (hlt : ∀ b ∈ l, b < N) :
    l.length ≤ N := by
  have hsub : l ⊆ List.range N := fun b hb => List.mem_range.mpr (hlt b hb)
  have := (hnd.subperm hsub).length_le
  simpa using this

theorem directory_wf_bound (h : a1fs_h) (fs : fs_ctx) (dir : Nat)
    (hN : fs.num_of_data_blocks < 1048576) (hwf : directory_wf h fs dir) :
    (fs.inode_table dir).num_dir_entry < 16777216 := by
  obtain ⟨_, _, _, _, hd⟩ := hwf
  by_cases hpos : 0 < (fs.inode_table dir).num_dir_entry
  · obtain ⟨_, _, _, _, _, hle, _, hnd, hblk⟩ := hd hpos
    have := length_le_of_nodup_lt _ _ hnd (fun b hb => (hblk b hb).1)
    omega
  · omega

theorem find_last_block_congr (fs fs2 : fs_ctx) (dir : Nat)
    (he : (fs2.inode_table dir).extent_num = (fs.inode_table dir).extent_num)
    (hs : extent_start fs2.data (fs2.inode_table dir).indirect_pt
        (sub32 (fs.inode_table dir).extent_num 1)
      = extent_start fs.data (fs.inode_table dir).indirect_pt
        (sub32 (fs.inode_table dir).extent_num 1))
    (hc : extent_count fs2.data (fs2.inode_table dir).indirect_pt
        (sub32 (fs.inode_table dir).extent_num 1)
      = extent_count fs.data (fs.inode_table dir).indirect_pt
        (sub32 (fs.inode_table dir).extent_num 1)) :
    find_last_block fs2 dir = find_last_block fs dir := by
  rw [find_last_block_eq, find_last_block_eq, he, hs, hc]

/-- The state after an entry was added to a last block that has room. -/
theorem add_entry_room_added (h : a1fs_h) (fs fs' : fs_ctx) (P new_inode : Nat)
    (name : List Char) (g : Mem) (dir : Bool)
    (hN : fs.num_of_data_blocks < 1048576) (hwf : directory_wf h fs P)
    (hnew : new_inode < 4294967296)
    (hpos : 0 < (fs.inode_table P).num_dir_entry)
    (hroom : (fs.inode_table P).num_dir_entry % 16 ≠ 0)
    (hr : add_entry h fs P new_inode name g dir = some (0, fs')) :
    entry_added h fs fs' P new_inode name
        (find_last_block fs P * 4096 + (fs.inode_table P).num_dir_entry % 16 * 256) ∧
      fs'.data_bitmap = fs.data_bitmap ∧
      fs'.available_blocks = fs.available_blocks ∧
      (fs'.inode_table P).extent_num = (fs.inode_table P).extent_num ∧
      (fs'.inode_table P).links
        = (if dir then u32 ((fs.inode_table P).links + 1) else (fs.inode_table P).links) ∧
      (fs'.inode_table P).indirect_pt = (fs.inode_table P).indirect_pt := by
  have hbound := directory_wf_bound h fs P hN hwf
  have hwf0 := hwf
  obtain ⟨F, hF, hL1⟩ := dir_blocks_last h fs P hN hwf hpos
  obtain ⟨hs, hsz, hl, hempty, hd⟩ := hwf
  obtain ⟨he512, hpm, hXN, hXbit, hcnt, hle, hlt, hnd, hblk⟩ := hd hpos
  unfold A1FS_BLOCK_SIZE at hpm hXN hXbit hblk
  have hepos := directory_wf_extents_pos h fs P hwf0 hpos
  have hroom2 : (fs.inode_table P).size % A1FS_BLOCK_SIZE ≠ 0 := by
    rw [hsz]; unfold A1FS_BLOCK_SIZE; omega
  obtain ⟨m1, hm, hfs⟩ := add_entry_room_ok h fs fs' P new_inode name g dir (by omega) hroom2 hr
  rw [hs] at hm hfs
  have e16 : A1FS_BLOCK_SIZE / 256 = 16 := by decide
  rw [e16] at hm
  have hga : get_addr_of_block (find_last_block fs P)
        + (fs.inode_table P).num_dir_entry % 16 * 256
      = find_last_block fs P * 4096 + (fs.inode_table P).num_dir_entry % 16 * 256 := by
    unfold get_addr_of_block A1FS_BLOCK_SIZE; rfl
  rw [hga] at hm
  obtain ⟨hfit, hframe, hino, hnm⟩ := store_new_entry_spec h hs _ m1 _ g new_inode name hnew hm
  have hLX : find_last_block fs P ≠ (fs.inode_table P).indirect_pt / 4096 :=
    (hblk _ (by rw [hF]; simp)).2.2
  have hdata : fs'.data = m1 := by rw [hfs]
  have hrec : fs'.inode_table P
      = ⟨(fs.inode_table P).mode,
          if dir then u32 ((fs.inode_table P).links + 1) else (fs.inode_table P).links,
          (fs.inode_table P).num_dir_entry * 256 + 256, (fs.inode_table P).mtime,
          (fs.inode_table P).extent_num, (fs.inode_table P).num_dir_entry + 1,
          (fs.inode_table P).indirect_pt⟩ := by
    rw [hfs]
    simp only [set_inode, if_true]
    rw [hsz]
    have e1 : u64 ((fs.inode_table P).num_dir_entry * 256 + 256)
        = (fs.inode_table P).num_dir_entry * 256 + 256 := by unfold u64; omega
    have e2 : u32 ((fs.inode_table P).num_dir_entry + 1)
        = (fs.inode_table P).num_dir_entry + 1 := by unfold u32; omega
    rw [e1, e2]
  have hext : ∀ i, i < 512 →
      extent_start fs'.data (fs.inode_table P).indirect_pt i
          = extent_start fs.data (fs.inode_table P).indirect_pt i ∧
        extent_count fs'.data (fs.inode_table P).indirect_pt i
          = extent_count fs.data (fs.inode_table P).indirect_pt i := by
    intro i hi
    apply extent_frame _ _ _ _ hpm hi
    intro x hx
    rw [hdata]
    apply hframe
    omega
  have hblocks : dir_blocks fs' P = F ++ [find_last_block fs P] := by
    rw [← hF]
    apply dir_blocks_congr
    · rw [hrec]
    · intro i hi
      rw [hrec]
      exact hext i (by omega)
  refine ⟨?_, by rw [hfs], by rw [hfs], by rw [hrec], by rw [hrec], by rw [hrec]⟩
  apply entry_added_of_shape h fs fs' P new_inode name _ F (find_last_block fs P) hwf0 hpos
  · rw [hrec]
  · rw [hrec]
  · rw [hrec]
  · rw [hrec]
  · rw [hrec]
  · rw [hrec]; exact he512
  · rw [hrec]
    simp only
    unfold u32
    split_ifs <;> omega
  · intro k hk
    rw [hfs]
    simp only [set_inode, hk, if_false]
  · rw [hfs]
  · rw [hfs]
  · rw [hfs]
  · rw [hfs]
  · exact hblocks
  · left
    exact ⟨hF.symm, hroom, by rw [hfs]⟩
  · rfl
  · rw [hdata]; exact hino
  · rw [hdata]; exact hnm
  · intro x hx _
    rw [hdata]
    apply hframe
    omega
  · intro i hi
    rw [hrec] at hi
    simp only at hi
    rw [(hext i (by omega)).2]
    exact hcnt i hi
  · apply find_last_block_congr
    · rw [hrec]
    · rw [hrec]
      exact (hext _ (by unfold sub32 u32; omega)).1
    · rw [hrec]
      exact (hext _ (by unfold sub32 u32; omega)).2

theorem add_entry_next_ok (h : a1fs_h) (fs fs' : fs_ctx) (P new_inode : Nat)
    (name : List Char) (g : Mem) (dir : Bool)
    (hn : (fs.inode_table P).num_dir_entry ≠ 0)
    (hfull : (fs.inode_table P).size % A1FS_BLOCK_SIZE = 0)
    (hbit : is_bit_set (u32 (find_last_block fs P + 1)) fs.data_bitmap = 0)
    (hr : add_entry h fs P new_inode name g dir = some (0, fs')) :
    ∃ m1, store_new_entry h fs.data
        (get_addr_of_block (u32 (find_last_block fs P + 1)) + 0 * h.sizeof_dentry)
        g new_inode name = some m1 ∧
      fs' = { fs with
        data_bitmap := set_bitmap fs.data_bitmap (u32 (find_last_block fs P + 1))
        available_blocks := sub32 fs.available_blocks 1
        data := write32 m1
          ((fs.inode_table P).indirect_pt
            + sizeof_extent * sub32 (fs.inode_table P).extent_num 1 + 4)
          (u32 (extent_count m1 (fs.inode_table P).indirect_pt
            (sub32 (fs.inode_table P).extent_num 1) + 1))
        inode_table := set_inode fs.inode_table P
          { fs.inode_table P with
              size := u64 ((fs.inode_table P).size + h.sizeof_dentry)
              links := if dir then u32 ((fs.inode_table P).links + 1) else (fs.inode_table P).links
              num_dir_entry := u32 ((fs.inode_table P).num_dir_entry + 1) } } := by
  unfold add_entry at hr
  rw [if_neg hn] at hr
  unfold place_entry at hr
  dsimp only at hr
  rw [if_neg (by rw [hfull]; simp), if_pos hbit] at hr
  by_cases hout : fs.size
      < fs.data_block + get_addr_of_block (u32 (find_last_block fs P + 1)) + h.sizeof_dentry
  · rw [if_pos hout] at hr
    simp at hr
  rw [if_neg hout] at hr
  cases hm : store_new_entry h fs.data
      (get_addr_of_block (u32 (find_last_block fs P + 1)) + 0 * h.sizeof_dentry)
      g new_inode name with
  | none => rw [hm] at hr; simp at hr
  | some m1 =>
    rw [hm] at hr
    simp only [Option.some.injEq, Prod.mk.injEq, true_and] at hr
    exact ⟨m1, rfl, hr.symm⟩

theorem add_entry_extent_ok (h : a1fs_h) (fs fs' : fs_ctx) (P new_inode : Nat)
    (name : List Char) (g : Mem) (dir : Bool)
    (hn : (fs.inode_table P).num_dir_entry ≠ 0)
    (hfull : (fs.inode_table P).size % A1FS_BLOCK_SIZE = 0)
    (hbit : is_bit_set (u32 (find_last_block fs P + 1)) fs.data_bitmap ≠ 0)
    (hr : add_entry h fs P new_inode name g dir = some (0, fs')) :
    fs.available_blocks ≠ 0 ∧
    ∃ m3, store_new_entry h
        (write32 (write32 fs.data
          ((fs.inode_table P).indirect_pt + sizeof_extent * (fs.inode_table P).extent_num)
          (get_first_available_position h fs.num_of_data_blocks fs.data_bitmap))
          ((fs.inode_table P).indirect_pt + sizeof_extent * (fs.inode_table P).extent_num + 4) 1)
        (get_addr_of_block (get_first_available_position h fs.num_of_data_blocks fs.data_bitmap)
          + 0 * h.sizeof_dentry)
        g new_inode name = some m3 ∧
      fs' = { fs with
        data_bitmap := set_bitmap fs.data_bitmap
          (get_first_available_position h fs.num_of_data_blocks fs.data_bitmap)
        available_blocks := sub32 fs.available_blocks 1
        data := m3
        inode_table := set_inode fs.inode_table P
          { fs.inode_table P with
              extent_num := u32 ((fs.inode_table P).extent_num + 1)
              size := u64 ((fs.inode_table P).size + h.sizeof_dentry)
              links := if dir then u32 ((fs.inode_table P).links + 1) else (fs.inode_table P).links
              num_dir_entry := u32 ((fs.inode_table P).num_dir_entry + 1) } } := by
  unfold add_entry at hr
  rw [if_neg hn] at hr
  unfold place_entry at hr
  dsimp only at hr
  rw [if_neg (by rw [hfull]; simp), if_neg hbit] at hr
  have hne : (-ENOSPC : Int) ≠ 0 := by decide
  by_cases h1 : fs.available_inodes = 0 ∨ fs.available_blocks = 0
  · rw [if_pos h1] at hr
    simp only [Option.some.injEq, Prod.mk.injEq] at hr
    exact absurd hr.1 hne
  · rw [if_neg h1] at hr
    refine ⟨fun e => h1 (Or.inr e), ?_⟩
    cases hm : store_new_entry h
        (write32 (write32 fs.data
          ((fs.inode_table P).indirect_pt + sizeof_extent * (fs.inode_table P).extent_num)
          (get_first_available_position h fs.num_of_data_blocks fs.data_bitmap))
          ((fs.inode_table P).indirect_pt + sizeof_extent * (fs.inode_table P).extent_num + 4) 1)
        (get_addr_of_block (get_first_available_position h fs.num_of_data_blocks fs.data_bitmap)
          + 0 * h.sizeof_dentry)
        g new_inode name with
    | none => rw [hm] at hr; simp at hr
    | some m3 =>
      rw [hm] at hr
      simp only [Option.some.injEq, Prod.mk.injEq, true_and] at hr
      refine ⟨m3, rfl, ?_⟩
      rw [← hr]
      congr 1
      funext k
      simp only [set_inode]
      split_ifs <;> rfl

/-- The block list after the last extent got one block longer. -/
theorem dir_blocks_grow_last (fs fs2 : fs_ctx) (dir e : Nat)
    (he : (fs.inode_table dir).extent_num = e + 1)
    (he2 : (fs2.inode_table dir).extent_num = e + 1)
    (hlow : ∀ i, i < e →
      extent_start fs2.data (fs2.inode_table dir).indirect_pt i
          = extent_start fs.data (fs.inode_table dir).indirect_pt i ∧
        extent_count fs2.data (fs2.inode_table dir).indirect_pt i
          = extent_count fs.data (fs.inode_table dir).indirect_pt i)
    (hs : extent_start fs2.data (fs2.inode_table dir).indirect_pt e
      = extent_start fs.data (fs.inode_table dir).indirect_pt e)
    (hc : extent_count fs2.data (fs2.inode_table dir).indirect_pt e
      = extent_count fs.data (fs.inode_table dir).indirect_pt e + 1) :
    dir_blocks fs2 dir = dir_blocks fs dir ++
      [extent_start fs.data (fs.inode_table dir).indirect_pt e
        + extent_count fs.data (fs.inode_table dir).indirect_pt e] := by
  rw [dir_blocks_succ fs2 dir e he2, dir_blocks_succ fs dir e he, hs, hc, List.range_succ,
    List.map_append, List.append_assoc]
  congr 1
  apply List.flatMap_congr
  intro i hi
  rw [List.mem_range] at hi
  rw [(hlow i hi).1, (hlow i hi).2]

/-- The block list after an extent of one block was appended. -/
theorem dir_blocks_new_extent (fs fs2 : fs_ctx) (dir e Z : Nat)
    (he : (fs.inode_table dir).extent_num = e)
    (he2 : (fs2.inode_table dir).extent_num = e + 1)
    (hlow : ∀ i, i < e →
      extent_start fs2.data (fs2.inode_table dir).indirect_pt i
          = extent_start fs.data (fs.inode_table dir).indirect_pt i ∧
        extent_count fs2.data (fs2.inode_table dir).indirect_pt i
          = extent_count fs.data (fs.inode_table dir).indirect_pt i)
    (hs : extent_start fs2.data (fs2.inode_table dir).indirect_pt e = Z)
    (hc : extent_count fs2.data (fs2.inode_table dir).indirect_pt e = 1) :
    dir_blocks fs2 dir = dir_blocks fs dir ++ [Z] := by
  rw [dir_blocks_succ fs2 dir e he2, hs, hc]
  unfold dir_blocks
  rw [he]
  congr 1
  · apply List.flatMap_congr
    intro i hi
    rw [List.mem_range] at hi
    rw [(hlow i hi).1, (hlow i hi).2]

theorem store_new_entry_fits (h : a1fs_h) (m m1 : Mem) (a : Nat) (g : Mem) (ino : Nat)
    (name : List Char) (hst : store_new_entry h m a g ino name = some m1) :
    4 + name.length + 3 ≤ h.sizeof_dentry := by
  unfold store_new_entry at hst
  split_ifs at hst with hfit
  exact hfit

/-- The state after an entry was added to a directory whose last block is full,
in the block that follows the last one. -/
theorem add_entry_next_added (h : a1fs_h) (fs fs' : fs_ctx) (P new_inode : Nat)
    (name : List Char) (g : Mem) (dir : Bool)
    (hN : fs.num_of_data_blocks < 1048576) (hwf : directory_wf h fs P)
    (hnew : new_inode < 4294967296)
    (hpos : 0 < (fs.inode_table P).num_dir_entry)
    (hfull : (fs.inode_table P).num_dir_entry % 16 = 0)
    (hLN : find_last_block fs P + 1 < fs.num_of_data_blocks)
    (hbit : is_bit_set (find_last_block fs P + 1) fs.data_bitmap = 0)
    (hr : add_entry h fs P new_inode name g dir = some (0, fs')) :
    entry_added h fs fs' P new_inode name ((find_last_block fs P + 1) * 4096) ∧
      fs'.data_bitmap = set_bitmap fs.data_bitmap (find_last_block fs P + 1) ∧
      fs'.available_blocks = sub32 fs.available_blocks 1 ∧
      (fs'.inode_table P).extent_num = (fs.inode_table P).extent_num ∧
      (fs'.inode_table P).links
        = (if dir then u32 ((fs.inode_table P).links + 1) else (fs.inode_table P).links) ∧
      1 < extent_count fs'.data (fs.inode_table P).indirect_pt
        ((fs.inode_table P).extent_num - 1) ∧
      find_last_block fs' P = find_last_block fs P + 1 ∧
      (fs'.inode_table P).indirect_pt = (fs.inode_table P).indirect_pt := by
  have hbound := directory_wf_bound h fs P hN hwf
  have hwf0 := hwf
  obtain ⟨F, hF, hL1⟩ := dir_blocks_last h fs P hN hwf hpos
  obtain ⟨hs, hsz, hl, hempty, hd⟩ := hwf
  obtain ⟨he512, hpm, hXN, hXbit, hcnt, hle, hlt, hnd, hblk⟩ := hd hpos
  unfold A1FS_BLOCK_SIZE at hpm hXN hXbit hblk
  have hepos := directory_wf_extents_pos h fs P hwf0 hpos
  have hfull2 : (fs.inode_table P).size % A1FS_BLOCK_SIZE = 0 := by
    rw [hsz]; unfold A1FS_BLOCK_SIZE; omega
  have hu : u32 (find_last_block fs P + 1) = find_last_block fs P + 1 := by
    unfold u32; omega
  obtain ⟨m1, hm, hfs⟩ := add_entry_next_ok h fs fs' P new_inode name g dir (by omega) hfull2
    (by rw [hu]; exact hbit) hr
  rw [hs, hu] at hm
  rw [hs, hu] at hfs
  have hga : get_addr_of_block (find_last_block fs P + 1) + 0 * 256
      = (find_last_block fs P + 1) * 4096 := by
    unfold get_addr_of_block A1FS_BLOCK_SIZE; omega
  rw [hga] at hm
  obtain ⟨hfit, hframe, hino, hnm⟩ := store_new_entry_spec h hs _ m1 _ g new_inode name hnew hm
  have hLX : find_last_block fs P + 1 ≠ (fs.inode_table P).indirect_pt / 4096 := by
    intro hc
    rw [hc, hXbit] at hbit
    exact absurd hbit (by decide)
  have hsub : sub32 (fs.inode_table P).extent_num 1 = (fs.inode_table P).extent_num - 1 := by
    unfold sub32 u32; omega
  rw [hsub] at hfs
  have hse : sizeof_extent = 8 := rfl
  rw [hse] at hfs
  -- the extents as `m1` holds them
  have hext1 : ∀ i, i < 512 →
      extent_start m1 (fs.inode_table P).indirect_pt i
          = extent_start fs.data (fs.inode_table P).indirect_pt i ∧
        extent_count m1 (fs.inode_table P).indirect_pt i
          = extent_count fs.data (fs.inode_table P).indirect_pt i := by
    intro i hi
    apply extent_frame _ _ _ _ hpm hi
    intro x hx
    apply hframe
    omega
  have hc1 := hcnt ((fs.inode_table P).extent_num - 1) (by omega)
  have hcN : extent_count fs.data (fs.inode_table P).indirect_pt
      ((fs.inode_table P).extent_num - 1) < 1048576 := by omega
  rw [(hext1 _ (by omega)).2] at hfs
  have hucnt : u32 (extent_count fs.data (fs.inode_table P).indirect_pt
      ((fs.inode_table P).extent_num - 1) + 1)
      = extent_count fs.data (fs.inode_table P).indirect_pt
        ((fs.inode_table P).extent_num - 1) + 1 := by
    unfold u32; omega
  rw [hucnt] at hfs
  have hdata : fs'.data = write32 m1
      ((fs.inode_table P).indirect_pt + 8 * ((fs.inode_table P).extent_num - 1) + 4)
      (extent_count fs.data (fs.inode_table P).indirect_pt
        ((fs.inode_table P).extent_num - 1) + 1) := by rw [hfs]
  have hrec : fs'.inode_table P
      = ⟨(fs.inode_table P).mode,
          if dir then u32 ((fs.inode_table P).links + 1) else (fs.inode_table P).links,
          (fs.inode_table P).num_dir_entry * 256 + 256, (fs.inode_table P).mtime,
          (fs.inode_table P).extent_num, (fs.inode_table P).num_dir_entry + 1,
          (fs.inode_table P).indirect_pt⟩ := by
    rw [hfs]
    simp only [set_inode, if_true]
    rw [hsz]
    have e1 : u64 ((fs.inode_table P).num_dir_entry * 256 + 256)
        = (fs.inode_table P).num_dir_entry * 256 + 256 := by unfold u64; omega
    have e2 : u32 ((fs.inode_table P).num_dir_entry + 1)
        = (fs.inode_table P).num_dir_entry + 1 := by unfold u32; omega
    rw [e1, e2]
  -- the extents after the operation
  have hlow : ∀ i, i < (fs.inode_table P).extent_num - 1 →
      extent_start fs'.data (fs.inode_table P).indirect_pt i
          = extent_start fs.data (fs.inode_table P).indirect_pt i ∧
        extent_count fs'.data (fs.inode_table P).indirect_pt i
          = extent_count fs.data (fs.inode_table P).indirect_pt i := by
    intro i hi
    rw [← (hext1 i (by omega)).1, ← (hext1 i (by omega)).2, hdata]
    unfold extent_start extent_count
    rw [hse]
    constructor
    · exact read32_write32_other _ _ _ _ (by omega)
    · exact read32_write32_other _ _ _ _ (by omega)
  have hst : extent_start fs'.data (fs.inode_table P).indirect_pt
        ((fs.inode_table P).extent_num - 1)
      = extent_start fs.data (fs.inode_table P).indirect_pt
        ((fs.inode_table P).extent_num - 1) := by
    rw [← (hext1 _ (by omega)).1, hdata]
    unfold extent_start
    rw [hse]
    exact read32_write32_other _ _ _ _ (by omega)
  have hct : extent_count fs'.data (fs.inode_table P).indirect_pt
        ((fs.inode_table P).extent_num - 1)
      = extent_count fs.data (fs.inode_table P).indirect_pt
        ((fs.inode_table P).extent_num - 1) + 1 := by
    rw [hdata]
    unfold extent_count
    rw [hse, read32_write32_same]
    unfold extent_count at hcN
    rw [hse] at hcN
    omega
  have hflb : find_last_block fs' P = find_last_block fs P + 1 := by
    rw [find_last_block_eq, hrec]
    simp only
    rw [hsub, hst, hct]
    unfold u32
    omega
  have hblocks : dir_blocks fs' P = dir_blocks fs P ++ [find_last_block fs P + 1] := by
    rw [hL1]
    apply dir_blocks_grow_last fs fs' P ((fs.inode_table P).extent_num - 1)
    · omega
    · rw [hrec]; simp only; omega
    · intro i hi
      rw [hrec]
      exact hlow i hi
    · rw [hrec]; exact hst
    · rw [hrec]; exact hct
  refine ⟨?_, by rw [hfs], by rw [hfs], by rw [hrec], by rw [hrec], by rw [hct]; omega, hflb,
    by rw [hrec]⟩
  apply entry_added_of_shape h fs fs' P new_inode name _ (dir_blocks fs P)
    (find_last_block fs P + 1) hwf0 hpos
  · rw [hrec]
  · rw [hrec]
  · rw [hrec]
  · rw [hrec]
  · rw [hrec]
  · rw [hrec]; exact he512
  · rw [hrec]
    simp only
    unfold u32
    split_ifs <;> omega
  · intro k hk
    rw [hfs]
    simp only [set_inode, hk, if_false]
  · rw [hfs]
  · rw [hfs]
  · rw [hfs]
  · rw [hfs]
  · exact hblocks
  · right
    exact ⟨rfl, hfull, hLN, hbit, by rw [hfs]⟩
  · omega
  · rw [hdata, read32_write32_other _ _ _ _ (by omega)]; exact hino
  · rw [hdata]
    rw [name_equals_congr _ m1 _ name (fun i hi => write32_other _ _ _ _ (by omega))]
    exact hnm
  · intro x hx hxX
    rw [hdata, write32_other _ _ _ _ (by omega)]
    apply hframe
    omega
  · intro i hi
    rw [hrec] at hi
    simp only at hi
    by_cases hie : i = (fs.inode_table P).extent_num - 1
    · rw [hie, hct]; omega
    · rw [(hlow i (by omega)).2]
      exact hcnt i hi
  · exact hflb

/-- The state after an entry was added to a directory whose last block is full,
in a new extent of one block. -/
theorem add_entry_extent_added (h : a1fs_h) (fs fs' : fs_ctx) (P new_inode : Nat)
    (name : List Char) (g : Mem) (dir : Bool) (Z : Nat)
    (hsp : space_wf fs) (hwf : directory_wf h fs P)
    (hnew : new_inode < 4294967296)
    (hpos : 0 < (fs.inode_table P).num_dir_entry)
    (hfull : (fs.inode_table P).num_dir_entry % 16 = 0)
    (hcap : (fs.inode_table P).extent_num < 512)
    (hLN : find_last_block fs P + 1 < fs.num_of_data_blocks)
    (hbit : is_bit_set (find_last_block fs P + 1) fs.data_bitmap ≠ 0)
    (hZ : get_first_available_position h fs.num_of_data_blocks fs.data_bitmap = Z)
    (hr : add_entry h fs P new_inode name g dir = some (0, fs')) :
    entry_added h fs fs' P new_inode name (Z * 4096) ∧
      Z < fs.num_of_data_blocks ∧ is_bit_set Z fs.data_bitmap = 0 ∧
      fs'.data_bitmap = set_bitmap fs.data_bitmap Z ∧
      fs'.available_blocks + 1 = fs.available_blocks ∧
      (fs'.inode_table P).extent_num = (fs.inode_table P).extent_num + 1 ∧
      (fs'.inode_table P).links
        = (if dir then u32 ((fs.inode_table P).links + 1) else (fs.inode_table P).links) ∧
      extent_count fs'.data (fs.inode_table P).indirect_pt (fs.inode_table P).extent_num = 1 ∧
      find_last_block fs' P = Z ∧
      (fs'.inode_table P).indirect_pt = (fs.inode_table P).indirect_pt := by
  have hN := hsp.1
  have hbound := directory_wf_bound h fs P hN hwf
  have hwf0 := hwf
  obtain ⟨hs, hsz, hl, hempty, hd⟩ := hwf
  obtain ⟨he512, hpm, hXN, hXbit, hcnt, hle, hlt, hnd, hblk⟩ := hd hpos
  unfold A1FS_BLOCK_SIZE at hpm hXN hXbit hblk
  have hepos := directory_wf_extents_pos h fs P hwf0 hpos
  have hfull2 : (fs.inode_table P).size % A1FS_BLOCK_SIZE = 0 := by
    rw [hsz]; unfold A1FS_BLOCK_SIZE; omega
  have hu : u32 (find_last_block fs P + 1) = find_last_block fs P + 1 := by
    unfold u32; omega
  obtain ⟨hav, m3, hm, hfs⟩ := add_entry_extent_ok h fs fs' P new_inode name g dir (by omega)
    hfull2 (by rw [hu]; exact hbit) hr
  obtain ⟨hZN, hZbit, hsub1, _⟩ := alloc_one h fs hsp hav
  rw [hZ] at hm hfs hZN hZbit
  rw [hs] at hm hfs
  have hse : sizeof_extent = 8 := rfl
  rw [hse] at hm
  have hga : get_addr_of_block Z + 0 * 256 = Z * 4096 := by
    unfold get_addr_of_block A1FS_BLOCK_SIZE; omega
  rw [hga] at hm
  obtain ⟨hfit, hframe, hino, hnm⟩ := store_new_entry_spec h hs _ m3 _ g new_inode name hnew hm
  have hZX : Z ≠ (fs.inode_table P).indirect_pt / 4096 := by
    intro hc
    rw [hc, hXbit] at hZbit
    exact absurd hZbit (by decide)
  have hdata : fs'.data = m3 := by rw [hfs]
  have hrec : fs'.inode_table P
      = ⟨(fs.inode_table P).mode,
          if dir then u32 ((fs.inode_table P).links + 1) else (fs.inode_table P).links,
          (fs.inode_table P).num_dir_entry * 256 + 256, (fs.inode_table P).mtime,
          (fs.inode_table P).extent_num + 1, (fs.inode_table P).num_dir_entry + 1,
          (fs.inode_table P).indirect_pt⟩ := by
    rw [hfs]
    simp only [set_inode, if_true]
    rw [hsz]
    have e1 : u64 ((fs.inode_table P).num_dir_entry * 256 + 256)
        = (fs.inode_table P).num_dir_entry * 256 + 256 := by unfold u64; omega
    have e2 : u32 ((fs.inode_table P).num_dir_entry + 1)
        = (fs.inode_table P).num_dir_entry + 1 := by unfold u32; omega
    have e3 : u32 ((fs.inode_table P).extent_num + 1)
        = (fs.inode_table P).extent_num + 1 := by unfold u32; omega
    rw [e1, e2, e3]
  -- a word of the extent array, as the operation leaves it
  have hword : ∀ w, w + 4 ≤ 4096 →
      read32 m3 ((fs.inode_table P).indirect_pt + w)
        = read32 (write32 (write32 fs.data
            ((fs.inode_table P).indirect_pt + 8 * (fs.inode_table P).extent_num) Z)
            ((fs.inode_table P).indirect_pt + 8 * (fs.inode_table P).extent_num + 4) 1)
          ((fs.inode_table P).indirect_pt + w) := by
    intro w hw
    apply read32_congr
    intro k hk
    apply hframe
    omega
  have hlow : ∀ i, i < (fs.inode_table P).extent_num →
      extent_start fs'.data (fs.inode_table P).indirect_pt i
          = extent_start fs.data (fs.inode_table P).indirect_pt i ∧
        extent_count fs'.data (fs.inode_table P).indirect_pt i
          = extent_count fs.data (fs.inode_table P).indirect_pt i := by
    intro i hi
    rw [hdata]
    unfold extent_start extent_count
    rw [hse, Nat.add_assoc, hword (8 * i) (by omega), hword (8 * i + 4) (by omega)]
    constructor
    · rw [read32_write32_other _ _ _ _ (by omega), read32_write32_other _ _ _ _ (by omega)]
    · rw [read32_write32_other _ _ _ _ (by omega), read32_write32_other _ _ _ _ (by omega)]
  have hst : extent_start fs'.data (fs.inode_table P).indirect_pt (fs.inode_table P).extent_num
      = Z := by
    rw [hdata]
    unfold extent_start
    rw [hse, hword _ (by omega), read32_write32_other _ _ _ _ (by omega), read32_write32_same]
    omega
  have hct : extent_count fs'.data (fs.inode_table P).indirect_pt (fs.inode_table P).extent_num
      = 1 := by
    rw [hdata]
    unfold extent_count
    rw [hse, Nat.add_assoc, hword _ (by omega), ← Nat.add_assoc, read32_write32_same]
  have hsubx : sub32 ((fs.inode_table P).extent_num + 1) 1 = (fs.inode_table P).extent_num := by
    unfold sub32 u32; omega
  have hflb : find_last_block fs' P = Z := by
    rw [find_last_block_eq, hrec]
    simp only
    rw [hsubx, hst, hct]
    unfold u32
    omega
  have hblocks : dir_blocks fs' P = dir_blocks fs P ++ [Z] := by
    apply dir_blocks_new_extent fs fs' P (fs.inode_table P).extent_num Z rfl
    · rw [hrec]
    · intro i hi
      rw [hrec]
      exact hlow i hi
    · rw [hrec]; exact hst
    · rw [hrec]; exact hct
  refine ⟨?_, hZN, hZbit, by rw [hfs], by rw [hfs]; exact hsub1, by rw [hrec], by rw [hrec],
    hct, hflb, by rw [hrec]⟩
  apply entry_added_of_shape h fs fs' P new_inode name _ (dir_blocks fs P) Z hwf0 hpos
  · rw [hrec]
  · rw [hrec]
  · rw [hrec]
  · rw [hrec]
  · rw [hrec]
  · rw [hrec]; simp only; omega
  · rw [hrec]
    simp only
    unfold u32
    split_ifs <;> omega
  · intro k hk
    rw [hfs]
    simp only [set_inode, hk, if_false]
  · rw [hfs]
  · rw [hfs]
  · rw [hfs]
  · rw [hfs]
  · exact hblocks
  · right
    exact ⟨rfl, hfull, hZN, hZbit, by rw [hfs]⟩
  · omega
  · rw [hdata]; exact hino
  · rw [hdata]; exact hnm
  · intro x hx hxX
    rw [hdata, hframe x (by omega), write32_other _ _ _ _ (by omega),
      write32_other _ _ _ _ (by omega)]
  · intro i hi
    rw [hrec] at hi
    simp only at hi
    by_cases hie : i = (fs.inode_table P).extent_num
    · rw [hie, hct]
    · rw [(hlow i (by omega)).2]
      exact hcnt i (by omega)
  · exact hflb

theorem add_entry_name_fits (h : a1fs_h) (fs fs' : fs_ctx) (P new_inode : Nat)
    (name : List Char) (g : Mem) (dir : Bool)
    (hr : add_entry h fs P new_inode name g dir = some (0, fs')) :
    4 + name.length + 3 ≤ h.sizeof_dentry := by
  by_cases hn : (fs.inode_table P).num_dir_entry = 0
  · unfold add_entry at hr
    rw [if_pos hn] at hr
    obtain ⟨_, _, m3, hm, _⟩ := add_first_entry_ok h fs fs' P new_inode name g dir hr
    exact store_new_entry_fits h _ m3 _ g new_inode name hm
  · by_cases hroom : (fs.inode_table P).size % A1FS_BLOCK_SIZE = 0
    · by_cases hbit : is_bit_set (u32 (find_last_block fs P + 1)) fs.data_bitmap = 0
      · obtain ⟨m1, hm, _⟩ := add_entry_next_ok h fs fs' P new_inode name g dir hn hroom hbit hr
        exact store_new_entry_fits h _ m1 _ g new_inode name hm
      · obtain ⟨_, m1, hm, _⟩ :=
          add_entry_extent_ok h fs fs' P new_inode name g dir hn hroom hbit hr
        exact store_new_entry_fits h _ m1 _ g new_inode name hm
    · obtain ⟨m1, hm, _⟩ := add_entry_room_ok h fs fs' P new_inode name g dir hn hroom hr
      exact store_new_entry_fits h _ m1 _ g new_inode name hm

/-- The state after a successful insertion of an entry in a well-formed
directory. -/
theorem add_entry_added (h : a1fs_h) (fs fs' : fs_ctx) (P new_inode : Nat)
    (name : List Char) (g : Mem) (dir : Bool)
    (hsp : space_wf fs) (hwf : directory_wf h fs P) (hgrow : dir_can_grow fs P)
    (hnew : new_inode < 4294967296)
    (hr : add_entry h fs P new_inode name g dir = some (0, fs')) :
    ∃ a, entry_added h fs fs' P new_inode name a ∧ entry_blocks fs fs' P ∧
      (fs'.inode_table P).links
        = (if dir then u32 ((fs.inode_table P).links + 1) else (fs.inode_table P).links) ∧
      name.length + 7 ≤ 256 := by
  have hfit := add_entry_name_fits h fs fs' P new_inode name g dir hr
  have hs := hwf.1
  rw [hs] at hfit
  have hN := hsp.1
  by_cases hn : (fs.inode_table P).num_dir_entry = 0
  · have hr0 := hr
    unfold add_entry at hr0
    rw [if_pos hn] at hr0
    obtain ⟨hav, _, _⟩ := add_first_entry_ok h fs fs' P new_inode name g dir hr0
    obtain ⟨hXN, _, _, _⟩ := alloc_one h fs hsp hav
    obtain ⟨ha, hbm, havl, hX, hY, hXY, he, hp, hflb, hlinks, _⟩ :=
      add_first_entry_added h fs fs' P new_inode name g dir _ _ hsp hwf hnew hn rfl rfl hr0
    refine ⟨_, ha, Or.inl ⟨hn, _, _, hXY, hXN, hX, hY, hbm, havl, he, hp, hflb⟩, ?_, by omega⟩
    rw [hlinks]
    have hl2 := (hwf.2.2.2.1 hn).2
    rw [hl2]
    cases dir <;> rfl
  · have hpos : 0 < (fs.inode_table P).num_dir_entry := by omega
    by_cases hroom : (fs.inode_table P).num_dir_entry % 16 = 0
    · obtain ⟨hLN, hcap⟩ := hgrow hpos hroom
      by_cases hbit : is_bit_set (find_last_block fs P + 1) fs.data_bitmap = 0
      · obtain ⟨ha, hbm, havl, he, hlinks, hc, hflb, hpt⟩ :=
          add_entry_next_added h fs fs' P new_inode name g dir hN hwf hnew hpos hroom hLN hbit hr
        refine ⟨_, ha,
          Or.inr (Or.inr ⟨hpos, hroom, _, hbit, hbm, ?_, hflb, hpt, Or.inl ⟨he, hc⟩⟩),
          hlinks, by omega⟩
        rw [havl]
        unfold sub32 u32
        omega
      · obtain ⟨ha, hZN, hZ, hbm, havl, he, hlinks, hc, hflb, hpt⟩ :=
          add_entry_extent_added h fs fs' P new_inode name g dir _ hsp hwf hnew hpos hroom
            (hcap hbit) hLN hbit rfl hr
        refine ⟨_, ha,
          Or.inr (Or.inr ⟨hpos, hroom, _, hZ, hbm, ?_, hflb, hpt, Or.inr ⟨he, hc⟩⟩),
          hlinks, by omega⟩
        rw [← havl]
    · obtain ⟨ha, hbm, havl, he, hlinks, hpt⟩ :=
        add_entry_room_added h fs fs' P new_inode name g dir hN hwf hnew hpos hroom hr
      exact ⟨_, ha, Or.inr (Or.inl ⟨hpos, hroom, hbm, havl, he, hpt⟩), hlinks, by omega⟩

/-! ## The new entry resolves -/

theorem directory_wf_congr (h : a1fs_h) (fs fs2 : fs_ctx) (dir : Nat)
    (hd : fs2.data = fs.data) (hb : fs2.data_bitmap = fs.data_bitmap)
    (hN : fs2.num_of_data_blocks = fs.num_of_data_blocks)
    (hsz : (fs2.inode_table dir).size = (fs.inode_table dir).size)
    (hl : (fs2.inode_table dir).links = (fs.inode_table dir).links)
    (he : (fs2.inode_table dir).extent_num = (fs.inode_table dir).extent_num)
    (hn : (fs2.inode_table dir).num_dir_entry = (fs.inode_table dir).num_dir_entry)
    (hp : (fs2.inode_table dir).indirect_pt = (fs.inode_table dir).indirect_pt)
    (hwf : directory_wf h fs dir) : directory_wf h fs2 dir := by
  have hblocks : dir_blocks fs2 dir = dir_blocks fs dir := by
    apply dir_blocks_congr fs fs2 dir he
    intro i _
    rw [hd, hp]
    exact ⟨rfl, rfl⟩
  unfold directory_wf at hwf ⊢
  rw [hblocks, hd, hb, hN, hsz, hl, he, hn, hp]
  exact hwf

theorem dir_owns_congr (fs fs2 : fs_ctx) (dir b : Nat)
    (hd : fs2.data = fs.data)
    (he : (fs2.inode_table dir).extent_num = (fs.inode_table dir).extent_num)
    (hn : (fs2.inode_table dir).num_dir_entry = (fs.inode_table dir).num_dir_entry)
    (hp : (fs2.inode_table dir).indirect_pt = (fs.inode_table dir).indirect_pt)
    (ho : dir_owns fs2 dir b) : dir_owns fs dir b := by
  have hblocks : dir_blocks fs2 dir = dir_blocks fs dir := by
    apply dir_blocks_congr fs fs2 dir he
    intro i _
    rw [hd, hp]
    exact ⟨rfl, rfl⟩
  unfold dir_owns at ho ⊢
  rw [hblocks, hn, hp] at ho
  exact ho

theorem dir_find_congr (h : a1fs_h) (fs fs2 : fs_ctx) (dir : Nat) (name : List Char)
    (hd : fs2.data = fs.data)
    (he : (fs2.inode_table dir).extent_num = (fs.inode_table dir).extent_num)
    (hn : (fs2.inode_table dir).num_dir_entry = (fs.inode_table dir).num_dir_entry)
    (hp : (fs2.inode_table dir).indirect_pt = (fs.inode_table dir).indirect_pt) :
    dir_find h fs2 dir name = dir_find h fs dir name := by
  have hblocks : dir_blocks fs2 dir = dir_blocks fs dir := by
    apply dir_blocks_congr fs fs2 dir he
    intro i _
    rw [hd, hp]
    exact ⟨rfl, rfl⟩
  unfold dir_find dir_entries dir_entry_addrs
  rw [hblocks, hd, hn]

/-- In a well-formed directory the scan of `path_lookup` finds what `dir_find`
finds. -/
theorem directory_wf_scan (h : a1fs_h) (fs : fs_ctx) (dir : Nat) (token : List Char) (ino : Nat)
    (hN : fs.num_of_data_blocks < 1048576) (hwf : directory_wf h fs dir)
    (hfind : dir_find h fs dir token = some ino) :
    scan_dir h fs dir token (fs.inode_table dir).extent_num 0 0 = scan_result.found ino := by
  have hbound := directory_wf_bound h fs dir hN hwf
  have hpos := dir_find_pos h fs dir token ino hfind
  obtain ⟨hs, _, _, _, hd⟩ := hwf
  obtain ⟨_, _, _, _, hcnt, _, _, _, hblk⟩ := hd hpos
  apply dir_find_scan h fs dir token ino _ hN (by omega) _ hfind
  · rw [hs]; decide
  · intro x hx
    have hc := hcnt x hx
    have hmem : extent_start fs.data (fs.inode_table dir).indirect_pt x
        + (extent_count fs.data (fs.inode_table dir).indirect_pt x - 1) ∈ dir_blocks fs dir := by
      unfold dir_blocks
      rw [List.mem_flatMap]
      refine ⟨x, List.mem_range.mpr hx, ?_⟩
      rw [List.mem_map]
      exact ⟨_, List.mem_range.mpr (by omega), rfl⟩
    have := (hblk _ hmem).1
    omega

/-- The entry that an insertion appended is the one `dir_find` finds for its
name when the name was not there before. -/
theorem dir_find_added (h : a1fs_h) (fs fs' : fs_ctx) (dir new_inode : Nat) (name : List Char)
    (a : Nat) (hadd : entry_added h fs fs' dir new_inode name a) (hfit : name.length + 7 ≤ 256)
    (habs : dir_find h fs dir name = none) :
    dir_find h fs' dir name = some new_inode := by
  obtain ⟨hent, _, hino, hnm, hkeep, _⟩ := hadd
  unfold dir_find at habs ⊢
  rw [hent, List.find?_append]
  have hnone : (dir_entries h fs dir).find? (fun a => name_equals fs'.data (a + 4) name)
      = none := by
    rw [List.find?_eq_none]
    intro x hx
    have h0 : (dir_entries h fs dir).find? (fun a => name_equals fs.data (a + 4) name)
        = none := by
      cases hf : (dir_entries h fs dir).find? (fun a => name_equals fs.data (a + 4) name) with
      | none => rfl
      | some v => rw [hf] at habs; simp at habs
    rw [List.find?_eq_none] at h0
    have := h0 x hx
    rw [name_equals_record_congr fs'.data fs.data x name (by omega) (hkeep x hx)]
    exact this
  rw [hnone]
  simp only [Option.none_or, List.find?_cons, hnm, List.find?_nil, Option.map_some', hino]

theorem parent_head (path parent_dir : List Char) (cap : Nat)
    (hp : extract_parent_path path cap = some parent_dir) :
    path.head? = some '/' ↔ parent_dir.head? = some '/' := by
  unfold extract_parent_path at hp
  cases hl : last_slash path with
  | none => rw [hl] at hp; simp at hp
  | some diff =>
    rw [hl] at hp
    simp only at hp
    obtain ⟨hsplit, _⟩ := last_slash_spec path diff hl
    by_cases hd : diff = 0
    · rw [if_pos hd] at hp
      split_ifs at hp
      simp only [Option.some.injEq] at hp
      rw [← hp, hsplit, hd]
      simp
    · rw [if_neg hd] at hp
      split_ifs at hp
      simp only [Option.some.injEq] at hp
      rw [← hp]
      cases path with
      | nil => simp at hsplit
      | cons c cs =>
        obtain ⟨d, rfl⟩ : ∃ d, diff = d + 1 := ⟨diff - 1, by omega⟩
        simp

theorem free_count_le (bm : Mem) (n : Nat) : free_count bm n ≤ n := by
  induction n with
  | zero => simp [free_count]
  | succ n ih => unfold free_count; split_ifs <;> omega

/-- The first free inode, when the counter of available inodes is not zero. -/
theorem alloc_inode (h : a1fs_h) (fs : fs_ctx) (hsp : space_wf fs)
    (h0 : fs.available_inodes ≠ 0) :
    get_first_available_position h fs.num_inodes fs.inode_bitmap < fs.num_inodes ∧
      is_bit_set (get_first_available_position h fs.num_inodes fs.inode_bitmap)
        fs.inode_bitmap = 0 ∧
      sub32 fs.available_inodes 1 + 1 = fs.available_inodes ∧
      fs.num_inodes ≤ 2147483648 := by
  obtain ⟨_, _, hN, hav⟩ := hsp
  have hfc := free_count_le fs.inode_bitmap fs.num_inodes
  obtain ⟨h1, h2⟩ := get_first_available_position_spec h fs.inode_bitmap fs.num_inodes
    (by omega)
  refine ⟨h1, h2, ?_, hN⟩
  unfold sub32 u32
  omega

theorem take_inode_parent (h : a1fs_h) (fs : fs_ctx) (new_dir : a1fs_inode) (P : Nat)
    (now : timespec)
    (hP : P ≠ get_first_available_position h fs.num_inodes fs.inode_bitmap) :
    (set_mtime (take_inode h fs new_dir) P now).inode_table P
      = ⟨(fs.inode_table P).mode, (fs.inode_table P).links, (fs.inode_table P).size, now,
          (fs.inode_table P).extent_num, (fs.inode_table P).num_dir_entry,
          (fs.inode_table P).indirect_pt⟩ := by
  simp only [set_mtime, take_inode, set_inode, if_true, if_neg hP]

theorem take_inode_other (h : a1fs_h) (fs : fs_ctx) (new_dir : a1fs_inode) (P k : Nat)
    (now : timespec) (hk : k ≠ P) :
    (set_mtime (take_inode h fs new_dir) P now).inode_table k
      = if k = get_first_available_position h fs.num_inodes fs.inode_bitmap then new_dir
        else fs.inode_table k := by
  simp only [set_mtime, take_inode, set_inode, if_neg hk]

theorem take_inode_space (h : a1fs_h) (fs : fs_ctx) (new_dir : a1fs_inode) (P : Nat)
    (now : timespec) (hsp : space_wf fs) (h0 : fs.available_inodes ≠ 0) :
    space_wf (set_mtime (take_inode h fs new_dir) P now) := by
  obtain ⟨_, _, hsub, _⟩ := alloc_inode h fs hsp h0
  obtain ⟨h1, h2, h3, h4⟩ := hsp
  refine ⟨h1, h2, h3, ?_⟩
  have := free_count_set_bitmap fs.inode_bitmap
    (get_first_available_position h fs.num_inodes fs.inode_bitmap) fs.num_inodes
  simp only [set_mtime, take_inode]
  split_ifs at this
  all_goals omega

/-- The state that `a1fs_mkdir` and `a1fs_create` reach when they have taken
the first free inode and added its entry to the directory `P` that the parent
path resolves to: the path resolves to the new inode, the parent path still
resolves to `P`, and the record stored in the new inode is still there. -/
theorem new_entry_resolves (h : a1fs_h) (fs fs' : fs_ctx) (new_dir : a1fs_inode)
    (P : Nat) (name : List Char) (g : Mem) (dir : Bool) (now : timespec)
    (parent_dir : List Char) (path : String) (cap : Nat)
    (hsp : space_wf fs) (hav : fs.available_inodes ≠ 0)
    (hP : path_lookup h fs (String.mk parent_dir) = some (P : Int))
    (hPuse : is_bit_set P fs.inode_bitmap = 1)
    (hPdir : S_ISREG (fs.inode_table P).mode = false)
    (hwf : directory_wf h fs P) (hgrow : dir_can_grow fs P)
    (hind : path_independent_of_dir h fs (String.mk parent_dir) P)
    (hpar : extract_parent_path path.toList cap = some parent_dir)
    (hname : extract_child_path path.toList = some name) (hne : name ≠ [])
    (habs : dir_find h fs P name = none)
    (hr : add_entry h (set_mtime (take_inode h fs new_dir) P now) P
      (get_first_available_position h fs.num_inodes fs.inode_bitmap) name g dir
        = some (0, fs')) :
    get_first_available_position h fs.num_inodes fs.inode_bitmap < fs.num_inodes ∧
      is_bit_set (get_first_available_position h fs.num_inodes fs.inode_bitmap)
        fs.inode_bitmap = 0 ∧
      path_lookup h fs' path
        = some ((get_first_available_position h fs.num_inodes fs.inode_bitmap : Nat) : Int) ∧
      path_lookup h fs' (String.mk parent_dir) = some (P : Int) ∧
      fs'.inode_table (get_first_available_position h fs.num_inodes fs.inode_bitmap)
        = new_dir ∧
      ∃ a, entry_added h (set_mtime (take_inode h fs new_dir) P now) fs' P
          (get_first_available_position h fs.num_inodes fs.inode_bitmap) name a ∧
        entry_blocks (set_mtime (take_inode h fs new_dir) P now) fs' P ∧
        (fs'.inode_table P).links
          = (if dir then u32 ((fs.inode_table P).links + 1) else (fs.inode_table P).links) ∧
        space_wf (set_mtime (take_inode h fs new_dir) P now) ∧
        directory_wf h (set_mtime (take_inode h fs new_dir) P now) P := by
  obtain ⟨hnewN, hnewbit, hsub, hN31⟩ := alloc_inode h fs hsp hav
  have hPnew : P ≠ get_first_available_position h fs.num_inodes fs.inode_bitmap := by
    intro e
    rw [← e, hPuse] at hnewbit
    exact absurd hnewbit (by decide)
  have hrecP := take_inode_parent h fs new_dir P now hPnew
  have hsp0 := take_inode_space h fs new_dir P now hsp hav
  have hwf0 : directory_wf h (set_mtime (take_inode h fs new_dir) P now) P := by
    apply directory_wf_congr h fs (set_mtime (take_inode h fs new_dir) P now) P rfl rfl rfl
      _ _ _ _ _ hwf
    all_goals rw [hrecP]
  have hflb0 : find_last_block (set_mtime (take_inode h fs new_dir) P now) P
      = find_last_block fs P := by
    apply find_last_block_congr
    · rw [hrecP]
    · rw [hrecP]; rfl
    · rw [hrecP]; rfl
  have hgrow0 : dir_can_grow (set_mtime (take_inode h fs new_dir) P now) P := by
    unfold dir_can_grow at hgrow ⊢
    rw [hflb0, hrecP]
    exact hgrow
  have habs0 : dir_find h (set_mtime (take_inode h fs new_dir) P now) P name = none := by
    rw [← habs]
    apply dir_find_congr h fs (set_mtime (take_inode h fs new_dir) P now) P name rfl
    all_goals rw [hrecP]
  obtain ⟨a, hadd, hblocks, hlinks, hfit⟩ :=
    add_entry_added h _ fs' P _ name g dir hsp0 hwf0 hgrow0 (by omega) hr
  have hfind := dir_find_added h _ fs' P _ name a hadd hfit habs0
  have hadd0 := hadd
  obtain ⟨_, _, _, _, _, hframe, hother, hmode, _, hnum, _, _, _, hnb, hwf'⟩ := hadd
  have hnew' : fs'.inode_table (get_first_available_position h fs.num_inodes fs.inode_bitmap)
      = new_dir := by
    rw [hother _ (Ne.symm hPnew), take_inode_other h fs new_dir P _ now (Ne.symm hPnew),
      if_pos rfl]
  have hscan := directory_wf_scan h fs' P name _ (by rw [hnb]; exact hsp0.1) hwf' hfind
  -- the parent path resolves as before
  have hpl : path_lookup h fs' (String.mk parent_dir) = some (P : Int) := by
    rw [← hP]
    apply hind
    · intro k hk hbit
      rw [hother k hk, take_inode_other h fs new_dir P k now hk]
      have hkn : k ≠ get_first_available_position h fs.num_inodes fs.inode_bitmap := by
        intro e
        rw [e, hnewbit] at hbit
        exact absurd hbit (by decide)
      rw [if_neg hkn]
    · intro x hbit hown
      apply hframe x hbit
      intro hc
      apply hown
      apply dir_owns_congr fs (set_mtime (take_inode h fs new_dir) P now) P _ rfl _ _ _ hc
      all_goals rw [hrecP]
  have hhead : parent_dir.head? = some '/' := by
    by_contra hc
    have e : (String.mk parent_dir).toList = parent_dir := rfl
    rw [path_lookup_eq_tokens, e, if_pos hc] at hP
    simp only [Option.some.injEq] at hP
    omega
  have hhead2 := (parent_head path.toList parent_dir cap hpar).mpr hhead
  obtain ⟨htok, _⟩ := tokens_parent_child path.toList parent_dir name cap hpar hname hne
  have hlt : lookup_tokens h fs' (strtok_tokens parent_dir []) = some (P : Int) := by
    have e : (String.mk parent_dir).toList = parent_dir := rfl
    rw [path_lookup_eq_tokens, e] at hpl
    rw [if_neg (by rw [hhead]; simp)] at hpl
    exact hpl
  have hsize' : (fs'.inode_table P).size ≠ 0 := by
    rw [hwf'.2.1, hnum]
    omega
  have hreg' : S_ISREG (fs'.inode_table P).mode = false := by
    rw [hmode, hrecP]
    exact hPdir
  refine ⟨hnewN, hnewbit, ?_, hpl, hnew', a, ?_, hblocks, ?_, hsp0, hwf0⟩
  · rw [path_lookup_eq_tokens, if_neg (by rw [hhead2]; simp), htok,
      lookup_tokens_snoc_found h fs' _ name P _ hlt hsize' hreg' hscan]
    unfold int_of
    have e : get_first_available_position h fs.num_inodes fs.inode_bitmap % 4294967296
        = get_first_available_position h fs.num_inodes fs.inode_bitmap :=
      Nat.mod_eq_of_lt (by omega)
    rw [e, if_pos (by omega)]
  · exact hadd0
  · rw [hlinks, hrecP]

theorem eq_some_of_value (r : Option (Int × fs_ctx)) (fs : fs_ctx) (v : Int)
    (hs : r.isSome = true) (hv : value_of r fs = v) : r = some (v, state_after r fs) := by
  rw [← hv]
  exact eq_some_of_isSome r fs hs

/-- The steps of a successful `a1fs_mkdir`. -/
theorem mkdir_ok (h : a1fs_h) (fs fs' : fs_ctx) (now_child now_parent : timespec) (g : locals)
    (path : String) (mode : Nat)
    (hr : a1fs_mkdir h fs now_child now_parent g path mode = some (0, fs')) :
    fs.available_inodes ≠ 0 ∧ fs.available_blocks ≠ 0 ∧
    ∃ parent_dir name r,
      extract_parent_path path.toList h.A1FS_PATH_MAX = some parent_dir ∧
      extract_child_path path.toList = some name ∧
      path_lookup h
        (take_inode h fs ⟨u32 (mode ||| S_IFDIR), 2, 0, now_child, 0, 0, g.new_dir.indirect_pt⟩)
        (String.mk parent_dir) = some r ∧
      0 ≤ r ∧
      add_entry h
        (set_mtime
          (take_inode h fs ⟨u32 (mode ||| S_IFDIR), 2, 0, now_child, 0, 0, g.new_dir.indirect_pt⟩)
          r.toNat now_parent)
        r.toNat (get_first_available_position h fs.num_inodes fs.inode_bitmap) name
        g.new_entry true = some (0, fs') := by
  unfold a1fs_mkdir at hr
  dsimp only at hr
  have hne : (-ENOSPC : Int) ≠ 0 := by decide
  by_cases h0 : fs.available_inodes = 0 ∨ fs.available_blocks = 0
  · rw [if_pos h0] at hr
    simp only [Option.some.injEq, Prod.mk.injEq] at hr
    exact absurd hr.1 hne
  · rw [if_neg h0] at hr
    refine ⟨fun e => h0 (Or.inl e), fun e => h0 (Or.inr e), ?_⟩
    cases hp : extract_parent_path path.toList h.A1FS_PATH_MAX with
    | none => rw [hp] at hr; simp at hr
    | some parent_dir =>
      cases hc : extract_child_path path.toList with
      | none => rw [hp, hc] at hr; simp at hr
      | some name =>
        rw [hp, hc] at hr
        simp only at hr
        cases hl : path_lookup h
            (take_inode h fs
              ⟨u32 (mode ||| S_IFDIR), 2, 0, now_child, 0, 0, g.new_dir.indirect_pt⟩)
            (String.mk parent_dir) with
        | none =>
          unfold take_inode at hl
          rw [hl] at hr
          simp at hr
        | some r =>
          have hl0 := hl
          unfold take_inode at hl
          rw [hl] at hr
          simp only at hr
          by_cases hneg : r < 0
          · rw [if_pos hneg] at hr; simp at hr
          · rw [if_neg hneg] at hr
            exact ⟨parent_dir, name, r, rfl, rfl, hl0, by omega, hr⟩

/-- The steps of a successful `a1fs_create`. -/
theorem create_ok (h : a1fs_h) (fs fs' : fs_ctx) (now : timespec) (g : locals)
    (path : String) (mode : Nat)
    (hr : a1fs_create h fs now g path mode = some (0, fs')) :
    fs.available_inodes ≠ 0 ∧ fs.available_blocks ≠ 0 ∧
    ∃ parent_dir name r,
      extract_parent_path path.toList h.A1FS_NAME_MAX = some parent_dir ∧
      extract_child_path path.toList = some name ∧
      path_lookup h
        (take_inode h fs ⟨u32 mode, 1, 0, g.new_dir.mtime, 0, 0, g.new_dir.indirect_pt⟩)
        (String.mk parent_dir) = some r ∧
      0 ≤ r ∧
      add_entry h
        (set_mtime
          (take_inode h fs ⟨u32 mode, 1, 0, g.new_dir.mtime, 0, 0, g.new_dir.indirect_pt⟩)
          r.toNat now)
        r.toNat (get_first_available_position h fs.num_inodes fs.inode_bitmap) name
        g.new_entry false = some (0, fs') := by
  unfold a1fs_create at hr
  dsimp only at hr
  have hne : (-ENOSPC : Int) ≠ 0 := by decide
  by_cases hm : S_ISREG (u32 mode) = false
  · rw [if_pos hm] at hr; simp at hr
  rw [if_neg hm] at hr
  by_cases h0 : fs.available_inodes = 0 ∨ fs.available_blocks = 0
  · rw [if_pos h0] at hr
    simp only [Option.some.injEq, Prod.mk.injEq] at hr
    exact absurd hr.1 hne
  · rw [if_neg h0] at hr
    refine ⟨fun e => h0 (Or.inl e), fun e => h0 (Or.inr e), ?_⟩
    cases hp : extract_parent_path path.toList h.A1FS_NAME_MAX with
    | none => rw [hp] at hr; simp at hr
    | some parent_dir =>
      cases hc : extract_child_path path.toList with
      | none => rw [hp, hc] at hr; simp at hr
      | some name =>
        rw [hp, hc] at hr
        simp only at hr
        cases hl : path_lookup h
            (take_inode h fs ⟨u32 mode, 1, 0, g.new_dir.mtime, 0, 0, g.new_dir.indirect_pt⟩)
            (String.mk parent_dir) with
        | none =>
          unfold take_inode at hl
          rw [hl] at hr
          simp at hr
        | some r =>
          have hl0 := hl
          unfold take_inode at hl
          rw [hl] at hr
          simp only at hr
          by_cases hneg : r < 0
          · rw [if_pos hneg] at hr; simp at hr
          · rw [if_neg hneg] at hr
            exact ⟨parent_dir, name, r, rfl, rfl, hl0, by omega, hr⟩

/-- The parent path resolves in the state with the new inode taken as it did
before. -/
theorem take_inode_lookup (h : a1fs_h) (fs : fs_ctx) (new_dir : a1fs_inode) (P : Nat)
    (parent : String) (hsp : space_wf fs) (hav : fs.available_inodes ≠ 0)
    (hind : path_independent_of_dir h fs parent P) :
    path_lookup h (take_inode h fs new_dir) parent = path_lookup h fs parent := by
  obtain ⟨_, hnewbit, _, _⟩ := alloc_inode h fs hsp hav
  apply hind
  · intro k _ hbit
    have hkn : k ≠ get_first_available_position h fs.num_inodes fs.inode_bitmap := by
      intro e
      rw [e, hnewbit] at hbit
      exact absurd hbit (by decide)
    simp only [take_inode, set_inode, if_neg hkn]
  · intro a _ _
    rfl

set_option maxRecDepth 100000 in
theorem space_wf_fs_a : space_wf fs_a := by
  unfold space_wf
  decide

set_option maxRecDepth 100000 in
theorem directory_wf_fs_a : directory_wf hdr fs_a ROOT_INODE := by
  unfold directory_wf
  decide

theorem dir_can_grow_fs_a : dir_can_grow fs_a ROOT_INODE :=
  fun _ hc => absurd hc (by decide)

theorem path_independent_root (h : a1fs_h) (fs : fs_ctx) (dir : Nat) :
    path_independent_of_dir h fs "/" dir :=
  fun _ _ _ => rfl

/-! ## Removing the entry that was just added -/

theorem set_mtime_record (fs : fs_ctx) (P : Nat) (t : timespec) :
    (set_mtime fs P t).inode_table P
      = ⟨(fs.inode_table P).mode, (fs.inode_table P).links, (fs.inode_table P).size, t,
          (fs.inode_table P).extent_num, (fs.inode_table P).num_dir_entry,
          (fs.inode_table P).indirect_pt⟩ := by
  simp only [set_mtime, set_inode, if_true]

theorem set_mtime_other (fs : fs_ctx) (P k : Nat) (t : timespec) (hk : k ≠ P) :
    (set_mtime fs P t).inode_table k = fs.inode_table k := by
  simp only [set_mtime, set_inode, if_neg hk]

theorem find_last_block_set_mtime (fs : fs_ctx) (P : Nat) (t : timespec) :
    find_last_block (set_mtime fs P t) P = find_last_block fs P := by
  apply find_last_block_congr
  · rw [set_mtime_record]
  · rw [set_mtime_record]; rfl
  · rw [set_mtime_record]; rfl

theorem last_entry_addr_set_mtime (h : a1fs_h) (fs : fs_ctx) (P : Nat) (t : timespec) :
    last_entry_addr h (set_mtime fs P t) P = last_entry_addr h fs P := by
  unfold last_entry_addr
  simp only
  rw [find_last_block_set_mtime, set_mtime_record]

theorem is_bit_set_unset_set (bm : Mem) (Z i : Nat) (hZ : is_bit_set Z bm = 0) :
    is_bit_set i (unset_bitmap (set_bitmap bm Z) Z) = is_bit_set i bm := by
  by_cases hi : i = Z
  · rw [hi, is_bit_set_unset_same, hZ]
  · rw [is_bit_set_unset_other _ _ _ hi, is_bit_set_set_other _ _ _ hi]

theorem is_bit_set_unset_set_two (bm : Mem) (X Y i : Nat) (hX : is_bit_set X bm = 0)
    (hY : is_bit_set Y bm = 0) :
    is_bit_set i (unset_bitmap (unset_bitmap (set_bitmap (set_bitmap bm X) Y) Y) X)
      = is_bit_set i bm := by
  by_cases hi : i = X
  · rw [hi, is_bit_set_unset_same, hX]
  · rw [is_bit_set_unset_other _ _ _ hi]
    by_cases hj : i = Y
    · rw [hj, is_bit_set_unset_same, hY]
    · rw [is_bit_set_unset_other _ _ _ hj, is_bit_set_set_other _ _ _ hj,
        is_bit_set_set_other _ _ _ hi]

/-- The result of `remove_entry` when the last entry of the directory is the
entry of the target. -/
theorem remove_entry_last (h : a1fs_h) (fs : fs_ctx) (P t : Nat) (dir : Bool)
    (hlast : read32 fs.data (last_entry_addr h fs P) = t) :
    remove_entry h fs P t dir =
      if (fs.inode_table P).num_dir_entry = 1 then
        some (0, { fs with
          inode_bitmap := unset_bitmap fs.inode_bitmap t
          available_inodes := u32 (fs.available_inodes + 1)
          data_bitmap := unset_bitmap (unset_bitmap fs.data_bitmap (find_last_block fs P))
            (get_num_of_block (fs.inode_table P).indirect_pt)
          available_blocks := u32 (u32 (fs.available_blocks + 1) + 1)
          data := fs.data
          inode_table := set_inode fs.inode_table P
            { fs.inode_table P with extent_num := 0, links := 2, num_dir_entry := 0, size := 0 } })
      else if (fs.inode_table P).num_dir_entry % (A1FS_BLOCK_SIZE / h.sizeof_dentry) ≠ 1 then
        some (0, { fs with
          inode_bitmap := unset_bitmap fs.inode_bitmap t
          available_inodes := u32 (fs.available_inodes + 1)
          data := fs.data
          inode_table := set_inode fs.inode_table P
            { fs.inode_table P with
                links := if dir then sub32 (fs.inode_table P).links 1 else (fs.inode_table P).links
                num_dir_entry := sub32 (fs.inode_table P).num_dir_entry 1
                size := sub64 (fs.inode_table P).size h.sizeof_dentry } })
      else if extent_count fs.data (fs.inode_table P).indirect_pt
          (sub32 (fs.inode_table P).extent_num 1) > 1 then
        some (0, { fs with
          inode_bitmap := unset_bitmap fs.inode_bitmap t
          available_inodes := u32 (fs.available_inodes + 1)
          data_bitmap := unset_bitmap fs.data_bitmap (find_last_block fs P)
          available_blocks := u32 (fs.available_blocks + 1)
          data := write32 fs.data
            ((fs.inode_table P).indirect_pt + sizeof_extent * sub32 (fs.inode_table P).extent_num 1
              + 4)
            (sub32 (extent_count fs.data (fs.inode_table P).indirect_pt
              (sub32 (fs.inode_table P).extent_num 1)) 1)
          inode_table := set_inode fs.inode_table P
            { fs.inode_table P with
                links := if dir then sub32 (fs.inode_table P).links 1 else (fs.inode_table P).links
                num_dir_entry := sub32 (fs.inode_table P).num_dir_entry 1
                size := sub64 (fs.inode_table P).size h.sizeof_dentry } })
      else
        some (0, { fs with
          inode_bitmap := unset_bitmap fs.inode_bitmap t
          available_inodes := u32 (fs.available_inodes + 1)
          data_bitmap := unset_bitmap fs.data_bitmap (find_last_block fs P)
          available_blocks := u32 (fs.available_blocks + 1)
          data := fs.data
          inode_table := set_inode fs.inode_table P
            { fs.inode_table P with
                extent_num := sub32 (fs.inode_table P).extent_num 1
                links := if dir then sub32 (fs.inode_table P).links 1 else (fs.inode_table P).links
                num_dir_entry := sub32 (fs.inode_table P).num_dir_entry 1
                size := sub64 (fs.inode_table P).size h.sizeof_dentry } }) := by
  have ht : take_entry h fs P t = some (t, fs.data) := by
    unfold take_entry
    simp only
    rw [if_pos hlast, hlast]
  unfold remove_entry
  simp only [ht]

/-- The removal of the entry that was just added: `remove_entry` finds it as
the last entry of the directory and gives back the blocks that the insertion
took. -/
theorem remove_added_entry (h : a1fs_h) (fs0 fs1 : fs_ctx) (P new_inode : Nat)
    (name : List Char) (a : Nat) (dir : Bool) (now : timespec)
    (hsp : space_wf fs0) (hwf : directory_wf h fs0 P)
    (hadd : entry_added h fs0 fs1 P new_inode name a)
    (hblk : entry_blocks fs0 fs1 P)
    (hlinks : (fs1.inode_table P).links
      = (if dir then u32 ((fs0.inode_table P).links + 1) else (fs0.inode_table P).links)) :
    ∃ fs2, remove_entry h (set_mtime fs1 P now) P new_inode dir = some (0, fs2) ∧
      fs2.inode_bitmap = unset_bitmap fs1.inode_bitmap new_inode ∧
      fs2.available_inodes = u32 (fs1.available_inodes + 1) ∧
      fs2.available_blocks = fs0.available_blocks ∧
      (∀ i, is_bit_set i fs2.data_bitmap = is_bit_set i fs0.data_bitmap) ∧
      (fs2.inode_table P).size = (fs0.inode_table P).size ∧
      (fs2.inode_table P).num_dir_entry = (fs0.inode_table P).num_dir_entry ∧
      (fs2.inode_table P).extent_num = (fs0.inode_table P).extent_num ∧
      (fs2.inode_table P).links = (fs0.inode_table P).links := by
  have hbound := directory_wf_bound h fs0 P hsp.1 hwf
  obtain ⟨_, hlasta, hino, _, _, _, _, _, _, hnum, _, _, _, _, hwf1⟩ := hadd
  have hlast : read32 (set_mtime fs1 P now).data (last_entry_addr h (set_mtime fs1 P now) P)
      = new_inode := by
    rw [last_entry_addr_set_mtime, hlasta]
    exact hino
  obtain ⟨hs, hsz0, hl0, hempty, hd0⟩ := hwf
  have hsz1 := hwf1.2.1
  have hav0 : fs0.available_blocks < 1048576 := by
    have := free_count_le fs0.data_bitmap fs0.num_of_data_blocks
    have := hsp.1
    have := hsp.2.1
    omega
  have e16 : A1FS_BLOCK_SIZE / 256 = 16 := by decide
  have hl1 : (if dir then sub32 (fs1.inode_table P).links 1 else (fs1.inode_table P).links)
      = (fs0.inode_table P).links := by
    rw [hlinks]
    cases dir
    · rfl
    · simp only [if_true]
      unfold sub32 u32
      omega
  rw [remove_entry_last h _ P new_inode dir hlast, find_last_block_set_mtime, set_mtime_record,
    hs, e16]
  simp only
  rcases hblk with ⟨hn0, X, Y, hXY, hXN, hX, hY, hbm, havl, he, hp, hflb⟩ |
    ⟨hpos, hroom, hbm, havl, he, hp⟩ | ⟨hpos, hfull, Z, hZ, hbm, havl, hflb, hp, hcase⟩
  · -- the directory was empty
    rw [if_pos (by omega)]
    refine ⟨_, rfl, rfl, rfl, ?_, ?_, ?_, ?_, ?_, ?_⟩
    · show u32 (u32 (fs1.available_blocks + 1) + 1) = fs0.available_blocks
      unfold u32
      omega
    · intro i
      show is_bit_set i (unset_bitmap (unset_bitmap fs1.data_bitmap (find_last_block fs1 P))
        (get_num_of_block (fs1.inode_table P).indirect_pt)) = is_bit_set i fs0.data_bitmap
      have hg : get_num_of_block (X * 4096) = X := by
        unfold get_num_of_block A1FS_BLOCK_SIZE u32
        have := hsp.1
        omega
      rw [hflb, hp, hg, hbm]
      exact is_bit_set_unset_set_two _ X Y i hX hY
    · simp only [set_inode, if_true]
      omega
    · simp only [set_inode, if_true]
      omega
    · simp only [set_inode, if_true]
      exact (hempty hn0).1.symm
    · simp only [set_inode, if_true]
      exact (hempty hn0).2.symm
  · -- the last block had room
    rw [if_neg (by omega), if_pos (by omega)]
    refine ⟨_, rfl, rfl, rfl, ?_, ?_, ?_, ?_, ?_, ?_⟩
    · exact havl
    · intro i
      show is_bit_set i fs1.data_bitmap = is_bit_set i fs0.data_bitmap
      rw [hbm]
    · simp only [set_inode, if_true]
      rw [hsz1, hsz0, hnum]
      unfold sub64 u64
      omega
    · simp only [set_inode, if_true]
      rw [hnum]
      unfold sub32 u32
      omega
    · simp only [set_inode, if_true]
      exact he
    · simp only [set_inode, if_true]
      exact hl1
  · -- the last block was full
    have he512 := (hd0 hpos).1
    have hepos := directory_wf_extents_pos h fs0 P ⟨hs, hsz0, hl0, hempty, hd0⟩ hpos
    rw [if_neg (by omega), if_neg (by omega)]
    have hbits : ∀ i, is_bit_set i (unset_bitmap fs1.data_bitmap (find_last_block fs1 P))
        = is_bit_set i fs0.data_bitmap := by
      intro i
      rw [hflb, hbm]
      exact is_bit_set_unset_set _ Z i hZ
    have havl2 : u32 (fs1.available_blocks + 1) = fs0.available_blocks := by
      rw [havl]
      unfold u32
      omega
    rcases hcase with ⟨he, hc⟩ | ⟨he, hc⟩
    · have hsub : sub32 (fs1.inode_table P).extent_num 1 = (fs0.inode_table P).extent_num - 1 := by
        rw [he]
        unfold sub32 u32
        omega
      have hc2 : extent_count (set_mtime fs1 P now).data (fs0.inode_table P).indirect_pt
          ((fs0.inode_table P).extent_num - 1) > 1 := hc
      rw [hsub, hp, if_pos hc2]
      refine ⟨_, rfl, rfl, rfl, havl2, hbits, ?_, ?_, ?_, ?_⟩
      · simp only [set_inode, if_true]
        rw [hsz1, hsz0, hnum]
        unfold sub64 u64
        omega
      · simp only [set_inode, if_true]
        rw [hnum]
        unfold sub32 u32
        omega
      · simp only [set_inode, if_true]
        exact he
      · simp only [set_inode, if_true]
        exact hl1
    · have hsub : sub32 (fs1.inode_table P).extent_num 1 = (fs0.inode_table P).extent_num := by
        rw [he]
        unfold sub32 u32
        omega
      have hc2 : ¬ extent_count (set_mtime fs1 P now).data (fs0.inode_table P).indirect_pt
          (fs0.inode_table P).extent_num > 1 := by
        show ¬ extent_count fs1.data (fs0.inode_table P).indirect_pt
          (fs0.inode_table P).extent_num > 1
        rw [hc]
        decide
      rw [hsub, hp, if_neg hc2]
      refine ⟨_, rfl, rfl, rfl, havl2, hbits, ?_, ?_, ?_, ?_⟩
      · simp only [set_inode, if_true]
        rw [hsz1, hsz0, hnum]
        unfold sub64 u64
        omega
      · simp only [set_inode, if_true]
        rw [hnum]
        unfold sub32 u32
        omega
      · simp only [set_inode, if_true]
      · simp only [set_inode, if_true]
        exact hl1

theorem extract_parent_path_mono (path parent_dir : List Char) (cap cap2 : Nat) (hc : cap ≤ cap2)
    (hp : extract_parent_path path cap = some parent_dir) :
    extract_parent_path path cap2 = some parent_dir := by
  unfold extract_parent_path at hp ⊢
  cases hl : last_slash path with
  | none => rw [hl] at hp; simp at hp
  | some diff =>
    rw [hl] at hp
    simp only at hp ⊢
    by_cases hd : diff = 0
    · rw [if_pos hd] at hp ⊢
      split_ifs at hp with h2
      rw [if_pos (by omega)]
      exact hp
    · rw [if_neg hd] at hp ⊢
      split_ifs at hp with h2
      rw [if_pos (by omega)]
      exact hp

/-- The state that `a1fs_mkdir` and `a1fs_create` reach, followed by the removal
of the new entry: the accounting state is that of the start. -/
theorem new_entry_removed (h : a1fs_h) (fs fs' : fs_ctx) (new_dir : a1fs_inode)
    (P : Nat) (name : List Char) (g : Mem) (dir : Bool) (now now2 : timespec)
    (parent_dir : List Char) (path : String) (cap : Nat)
    (hsp : space_wf fs) (hav : fs.available_inodes ≠ 0)
    (hP : path_lookup h fs (String.mk parent_dir) = some (P : Int))
    (hPuse : is_bit_set P fs.inode_bitmap = 1)
    (hPdir : S_ISREG (fs.inode_table P).mode = false)
    (hwf : directory_wf h fs P) (hgrow : dir_can_grow fs P)
    (hind : path_independent_of_dir h fs (String.mk parent_dir) P)
    (hpar : extract_parent_path path.toList cap = some parent_dir)
    (hname : extract_child_path path.toList = some name) (hne : name ≠ [])
    (habs : dir_find h fs P name = none)
    (hr : add_entry h (set_mtime (take_inode h fs new_dir) P now) P
      (get_first_available_position h fs.num_inodes fs.inode_bitmap) name g dir
        = some (0, fs')) :
    get_first_available_position h fs.num_inodes fs.inode_bitmap < 2147483648 ∧
      P ≠ get_first_available_position h fs.num_inodes fs.inode_bitmap ∧
      path_lookup h fs' path
        = some ((get_first_available_position h fs.num_inodes fs.inode_bitmap : Nat) : Int) ∧
      path_lookup h fs' (String.mk parent_dir) = some (P : Int) ∧
      fs'.inode_table (get_first_available_position h fs.num_inodes fs.inode_bitmap)
        = new_dir ∧
      ∃ fs2, remove_entry h (set_mtime fs' P now2) P
          (get_first_available_position h fs.num_inodes fs.inode_bitmap) dir = some (0, fs2) ∧
        accounting_restored fs fs2 P := by
  obtain ⟨hnewN, hnewbit, hlook, hpl, hrec, a, hadd, hblk, hlinks, hsp0, hwf0⟩ :=
    new_entry_resolves h fs fs' new_dir P name g dir now parent_dir path cap hsp hav hP hPuse
      hPdir hwf hgrow hind hpar hname hne habs hr
  obtain ⟨_, _, hsub, hN31⟩ := alloc_inode h fs hsp hav
  have hPnew : P ≠ get_first_available_position h fs.num_inodes fs.inode_bitmap := by
    intro e
    rw [← e, hPuse] at hnewbit
    exact absurd hnewbit (by decide)
  have hrecP := take_inode_parent h fs new_dir P now hPnew
  have hlinks0 : (fs'.inode_table P).links
      = (if dir then u32 (((set_mtime (take_inode h fs new_dir) P now).inode_table P).links + 1)
          else ((set_mtime (take_inode h fs new_dir) P now).inode_table P).links) := by
    rw [hlinks, hrecP]
  obtain ⟨fs2, hrem, hib, hai, hab, hdb, hsz, hn, he, hl⟩ :=
    remove_added_entry h _ fs' P _ name a dir now2 hsp0 hwf0 hadd hblk hlinks0
  refine ⟨by omega, hPnew, hlook, hpl, hrec, fs2, hrem, ?_, hab, ?_, hdb, ?_, ?_, ?_, ?_⟩
  · rw [hai, hadd.2.2.2.2.2.2.2.2.2.2.2.1]
    show u32 (sub32 fs.available_inodes 1 + 1) = fs.available_inodes
    rw [hsub]
    unfold u32
    have := free_count_le fs.inode_bitmap fs.num_inodes
    have := hsp.2.2.2
    omega
  · intro i
    rw [hib, hadd.2.2.2.2.2.2.2.2.2.2.1]
    exact is_bit_set_unset_set _ _ i hnewbit
  · rw [hsz, hrecP]
  · rw [hn, hrecP]
  · rw [he, hrecP]
  · rw [hl, hrecP]

/-! ## What `a1fs_readdir` lists -/

theorem list_extent_through (h : a1fs_h) (m : Mem) (base n : Nat) (hn : n < 4294967296)
    (k j dc : Nat) (hk : dc + k < n)
    (hread : ∀ a ∈ (List.range' j k).map (fun j => base + j * h.sizeof_dentry),
      (c_string m (h.sizeof_dentry - 4) (a + 4)).isSome = true) :
    list_extent h m base n k j dc
      = some (((List.range' j k).map (fun j => base + j * h.sizeof_dentry)).map (entry_name h m),
          some (dc + k)) := by
  induction k generalizing j dc with
  | zero => rfl
  | succ k ih =>
    rw [List.range'_succ, List.map_cons] at hread ⊢
    have h0 := hread _ (List.mem_cons_self _ _)
    unfold list_extent
    cases hc : c_string m (h.sizeof_dentry - 4) (base + j * h.sizeof_dentry + 4) with
    | none => rw [hc] at h0; simp at h0
    | some name =>
      simp only
      have hu : u32 (dc + 1) = dc + 1 := by unfold u32; omega
      rw [hu, if_neg (by omega),
        ih (j + 1) (dc + 1) (by omega) (fun a ha => hread a (List.mem_cons_of_mem _ ha))]
      simp only [List.map_cons, entry_name, hc, Option.getD_some]
      congr 3
      omega

theorem list_extent_stop (h : a1fs_h) (m : Mem) (base n : Nat) (hn : n < 4294967296)
    (k j dc : Nat) (hdc : dc < n) (hk : n ≤ dc + k)
    (hread : ∀ a ∈ ((List.range' j k).map (fun j => base + j * h.sizeof_dentry)).take (n - dc),
      (c_string m (h.sizeof_dentry - 4) (a + 4)).isSome = true) :
    list_extent h m base n k j dc
      = some ((((List.range' j k).map (fun j => base + j * h.sizeof_dentry)).take (n - dc)).map
          (entry_name h m), none) := by
  induction k generalizing j dc with
  | zero => omega
  | succ k ih =>
    have e : n - dc = (n - (dc + 1)) + 1 := by omega
    rw [List.range'_succ, List.map_cons, e, List.take_succ_cons] at hread ⊢
    have h0 := hread _ (List.mem_cons_self _ _)
    unfold list_extent
    cases hc : c_string m (h.sizeof_dentry - 4) (base + j * h.sizeof_dentry + 4) with
    | none => rw [hc] at h0; simp at h0
    | some name =>
      simp only
      have hu : u32 (dc + 1) = dc + 1 := by unfold u32; omega
      rw [hu]
      by_cases hge : dc + 1 ≥ n
      · rw [if_pos hge]
        have : n - (dc + 1) = 0 := by omega
        rw [this]
        simp only [List.take_zero, List.map_cons, List.map_nil, entry_name, hc, Option.getD_some]
      · rw [if_neg hge,
          ih (j + 1) (dc + 1) (by omega) (by omega)
            (fun a ha => hread a (List.mem_cons_of_mem _ ha))]
        simp only [List.map_cons, entry_name, hc, Option.getD_some]

theorem list_dir_flat (h : a1fs_h) (fs : fs_ctx) (dir : Nat)
    (hdiv : h.sizeof_dentry ∣ A1FS_BLOCK_SIZE)
    (hN : fs.num_of_data_blocks < 1048576)
    (hn : (fs.inode_table dir).num_dir_entry < 4294967296) (k i dc : Nat)
    (hb : ∀ x, i ≤ x → x < i + k →
      extent_start fs.data (fs.inode_table dir).indirect_pt x
        + extent_count fs.data (fs.inode_table dir).indirect_pt x ≤ fs.num_of_data_blocks)
    (hdc : dc < (fs.inode_table dir).num_dir_entry)
    (hlen : (fs.inode_table dir).num_dir_entry
      ≤ dc + ((List.range' i k).flatMap
          (extent_slots h fs.data (fs.inode_table dir).indirect_pt)).length)
    (hread : ∀ a ∈ ((List.range' i k).flatMap
        (extent_slots h fs.data (fs.inode_table dir).indirect_pt)).take
          ((fs.inode_table dir).num_dir_entry - dc),
      (c_string fs.data (h.sizeof_dentry - 4) (a + 4)).isSome = true) :
    list_dir h fs dir k i dc
      = some ((((List.range' i k).flatMap
          (extent_slots h fs.data (fs.inode_table dir).indirect_pt)).take
            ((fs.inode_table dir).num_dir_entry - dc)).map (entry_name h fs.data)) := by
  induction k generalizing i dc with
  | zero =>
    simp only [List.range'_zero, List.flatMap_nil, List.length_nil] at hlen
    omega
  | succ k ih =>
    have hbi := hb i (Nat.le_refl _) (by omega)
    have hper : A1FS_BLOCK_SIZE / h.sizeof_dentry * h.sizeof_dentry = A1FS_BLOCK_SIZE :=
      Nat.div_mul_cancel hdiv
    have hperle : A1FS_BLOCK_SIZE / h.sizeof_dentry ≤ A1FS_BLOCK_SIZE :=
      Nat.div_le_self _ _
    have e1 : u32 (extent_start fs.data (fs.inode_table dir).indirect_pt i * A1FS_BLOCK_SIZE)
        = extent_start fs.data (fs.inode_table dir).indirect_pt i * A1FS_BLOCK_SIZE := by
      unfold u32 A1FS_BLOCK_SIZE; omega
    have e2 : u32 (u32 (extent_count fs.data (fs.inode_table dir).indirect_pt i * A1FS_BLOCK_SIZE)
          / h.sizeof_dentry)
        = extent_count fs.data (fs.inode_table dir).indirect_pt i
            * (A1FS_BLOCK_SIZE / h.sizeof_dentry) := by
      have e3 : u32 (extent_count fs.data (fs.inode_table dir).indirect_pt i * A1FS_BLOCK_SIZE)
          = extent_count fs.data (fs.inode_table dir).indirect_pt i * A1FS_BLOCK_SIZE := by
        unfold u32 A1FS_BLOCK_SIZE; omega
      rw [e3, Nat.mul_div_assoc _ hdiv]
      have : extent_count fs.data (fs.inode_table dir).indirect_pt i
          * (A1FS_BLOCK_SIZE / h.sizeof_dentry)
          ≤ extent_count fs.data (fs.inode_table dir).indirect_pt i * A1FS_BLOCK_SIZE :=
        Nat.mul_le_mul_left _ hperle
      unfold u32
      unfold A1FS_BLOCK_SIZE at this ⊢
      omega
    rw [List.range'_succ, List.flatMap_cons, extent_slots_flat h _ _ _] at hlen hread ⊢
    rw [List.length_append, List.length_map, List.length_range'] at hlen
    rw [List.take_append_eq_append_take, List.length_map, List.length_range'] at hread ⊢
    unfold list_dir
    simp only [e1, e2]
    by_cases hstop : (fs.inode_table dir).num_dir_entry
        ≤ dc + extent_count fs.data (fs.inode_table dir).indirect_pt i
          * (A1FS_BLOCK_SIZE / h.sizeof_dentry)
    · rw [list_extent_stop h fs.data _ _ hn _ 0 dc hdc hstop
        (fun a ha => hread a (List.mem_append_left _ ha))]
      simp only
      have : (fs.inode_table dir).num_dir_entry - dc
          - extent_count fs.data (fs.inode_table dir).indirect_pt i
            * (A1FS_BLOCK_SIZE / h.sizeof_dentry) = 0 := by omega
      rw [this]
      simp
    · have htake : ((List.range' 0 (extent_count fs.data (fs.inode_table dir).indirect_pt i
          * (A1FS_BLOCK_SIZE / h.sizeof_dentry))).map
          (fun j => extent_start fs.data (fs.inode_table dir).indirect_pt i * A1FS_BLOCK_SIZE
            + j * h.sizeof_dentry)).take ((fs.inode_table dir).num_dir_entry - dc)
          = (List.range' 0 (extent_count fs.data (fs.inode_table dir).indirect_pt i
          * (A1FS_BLOCK_SIZE / h.sizeof_dentry))).map
          (fun j => extent_start fs.data (fs.inode_table dir).indirect_pt i * A1FS_BLOCK_SIZE
            + j * h.sizeof_dentry) := by
        apply List.take_of_length_le
        simp only [List.length_map, List.length_range']
        omega
      rw [htake] at hread ⊢
      rw [list_extent_through h fs.data _ _ hn _ 0 dc (by omega)
        (fun a ha => hread a (List.mem_append_left _ ha))]
      simp only
      have e4 : (fs.inode_table dir).num_dir_entry - dc
          - extent_count fs.data (fs.inode_table dir).indirect_pt i
            * (A1FS_BLOCK_SIZE / h.sizeof_dentry)
          = (fs.inode_table dir).num_dir_entry
            - (dc + extent_count fs.data (fs.inode_table dir).indirect_pt i
              * (A1FS_BLOCK_SIZE / h.sizeof_dentry)) := by omega
      rw [e4] at hread ⊢
      rw [ih (i + 1) _ (fun x hx1 hx2 => hb x (by omega) (by omega)) (by omega) (by omega)
        (fun a ha => hread a (List.mem_append_right _ ha))]
      simp only [Option.map_some', List.map_append]

/-- What `a1fs_readdir` lists for a well-formed directory whose entries hold
strings: the names of the entries, in their order. -/
theorem list_dir_names (h : a1fs_h) (fs : fs_ctx) (dir : Nat)
    (hN : fs.num_of_data_blocks < 1048576) (hwf : directory_wf h fs dir)
    (hread : names_readable h fs dir) :
    list_dir h fs dir (fs.inode_table dir).extent_num 0 0 = some (dir_names h fs dir) := by
  have hbound := directory_wf_bound h fs dir hN hwf
  have hwf0 := hwf
  obtain ⟨hs, _, _, hempty, hd⟩ := hwf
  have hdiv : h.sizeof_dentry ∣ A1FS_BLOCK_SIZE := by rw [hs]; decide
  by_cases hn0 : (fs.inode_table dir).num_dir_entry = 0
  · rw [(hempty hn0).1]
    unfold dir_names dir_entries
    rw [hn0]
    rfl
  · have hpos : 0 < (fs.inode_table dir).num_dir_entry := by omega
    obtain ⟨_, _, _, _, hcnt, hle, _, _, hblk⟩ := hd hpos
    have hflat := dir_entry_addrs_extents h fs dir hdiv
    rw [List.range_eq_range'] at hflat
    unfold dir_names dir_entries
    rw [hflat]
    unfold names_readable dir_entries at hread
    rw [hflat] at hread
    have hlen := length_dir_entry_addrs h hs fs dir
    rw [hflat] at hlen
    apply list_dir_flat h fs dir hdiv hN (by omega) _ 0 0 _ hpos (by omega) hread
    intro x _ hx
    have hc := hcnt x (by omega)
    have hmem : extent_start fs.data (fs.inode_table dir).indirect_pt x
        + (extent_count fs.data (fs.inode_table dir).indirect_pt x - 1) ∈ dir_blocks fs dir := by
      unfold dir_blocks
      rw [List.mem_flatMap]
      refine ⟨x, List.mem_range.mpr (by omega), ?_⟩
      rw [List.mem_map]
      exact ⟨_, List.mem_range.mpr (by omega), rfl⟩
    have := (hblk _ hmem).1
    omega

theorem load_bytes_succ (m : Mem) (a n : Nat) :
    load_bytes m a (n + 1) = m a :: load_bytes m (a + 1) n := by
  unfold load_bytes
  rw [List.range_succ_eq_map]
  simp only [List.map_cons, Nat.add_zero, List.map_map, List.cons.injEq, true_and]
  apply List.map_congr_left
  intro i _
  simp only [Function.comp, Nat.succ_eq_add_one]
  congr 1
  omega

theorem mem_of_getElem?_some (l : List Nat) (i b : Nat) (hg : l[i]? = some b) : b ∈ l := by
  obtain ⟨hi, rfl⟩ := List.getElem?_eq_some_iff.mp hg
  exact List.getElem_mem hi

theorem mem_of_getElem?_char (l : List Char) (i : Nat) (c : Char) (hg : l[i]? = some c) :
    c ∈ l := by
  obtain ⟨hi, rfl⟩ := List.getElem?_eq_some_iff.mp hg
  exact List.getElem_mem hi

theorem bytes_of_c_string (m : Mem) (k a : Nat) (s : List Nat) (hc : c_string m k a = some s) :
    s.length < k ∧ load_bytes m a s.length = s ∧ (∀ b ∈ s, b ≠ 0) ∧ m (a + s.length) = 0 := by
  induction k generalizing a s with
  | zero => simp [c_string] at hc
  | succ k ih =>
    unfold c_string at hc
    by_cases h0 : m a = 0
    · rw [if_pos h0] at hc
      simp only [Option.some.injEq] at hc
      subst hc
      simp [load_bytes, h0]
    · rw [if_neg h0] at hc
      cases hr : c_string m k (a + 1) with
      | none => rw [hr] at hc; simp at hc
      | some s1 =>
        rw [hr] at hc
        simp only [Option.map_some', Option.some.injEq] at hc
        subst hc
        obtain ⟨h1, h2, h3, h4⟩ := ih (a + 1) s1 hr
        refine ⟨by simp only [List.length_cons]; omega, ?_, ?_, ?_⟩
        · simp only [List.length_cons]
          rw [load_bytes_succ, h2]
        · intro b hb
          rw [List.mem_cons] at hb
          rcases hb with hb | hb
          · rw [hb]; exact h0
          · exact h3 b hb
        · simp only [List.length_cons]
          rw [← h4]
          congr 1
          omega

theorem c_string_of_bytes (m : Mem) (k a : Nat) (s : List Nat) (hlen : s.length < k)
    (hb : load_bytes m a s.length = s) (hnz : ∀ b ∈ s, b ≠ 0) (hz : m (a + s.length) = 0) :
    c_string m k a = some s := by
  induction s generalizing a k with
  | nil =>
    obtain ⟨k1, rfl⟩ : ∃ k1, k = k1 + 1 := ⟨k - 1, by simp at hlen; omega⟩
    unfold c_string
    simp only [List.length_nil, Nat.add_zero] at hz
    rw [if_pos hz]
  | cons b s ih =>
    simp only [List.length_cons] at hlen hz hb
    obtain ⟨k1, rfl⟩ : ∃ k1, k = k1 + 1 := ⟨k - 1, by omega⟩
    rw [load_bytes_succ] at hb
    simp only [List.cons.injEq] at hb
    unfold c_string
    have hb0 : m a ≠ 0 := by
      rw [hb.1]
      exact hnz b (List.mem_cons_self _ _)
    rw [if_neg hb0, ih k1 (a + 1) (by omega) hb.2 (fun c hc => hnz c (List.mem_cons_of_mem _ hc))
      (by rw [← hz]; congr 1; omega)]
    simp only [Option.map_some', hb.1]

theorem name_equals_iff (m : Mem) (a : Nat) (name : List Char) :
    name_equals m a name = true
      ↔ load_bytes m a name.length = name.map Char.toNat ∧ m (a + name.length) = 0 := by
  unfold name_equals
  simp only [Bool.and_eq_true, beq_iff_eq]

theorem load_bytes_getElem (m : Mem) (a n i : Nat) (hi : i < n) :
    (load_bytes m a n)[i]? = some (m (a + i)) := by
  unfold load_bytes
  rw [List.getElem?_map, List.getElem?_range hi]
  rfl

theorem char_toNat_injective : Function.Injective Char.toNat := by
  intro c d hcd
  apply Char.ext
  apply UInt32.ext
  exact hcd

/-- Reading the name field as a string gives `name` exactly when the field
holds the bytes of `name` and a NUL, for a name without NUL. -/
theorem name_equals_iff_entry_name (h : a1fs_h) (m : Mem) (a : Nat) (name : List Char)
    (hnul : ∀ c ∈ name, c.toNat ≠ 0)
    (hread : (c_string m (h.sizeof_dentry - 4) (a + 4)).isSome = true) :
    name_equals m (a + 4) name = true ↔ entry_name h m a = name.map Char.toNat := by
  cases hc : c_string m (h.sizeof_dentry - 4) (a + 4) with
  | none => rw [hc] at hread; simp at hread
  | some s =>
    obtain ⟨h1, h2, h3, h4⟩ := bytes_of_c_string m _ _ s hc
    unfold entry_name
    rw [hc, Option.getD_some, name_equals_iff]
    constructor
    · rintro ⟨hb, hz⟩
      have hlen : s.length = name.length := by
        rcases Nat.lt_trichotomy s.length name.length with hlt | heq | hgt
        · exfalso
          have e1 := load_bytes_getElem m (a + 4) name.length s.length hlt
          rw [hb, List.getElem?_map, h4] at e1
          cases hg : name[s.length]? with
          | none => rw [hg] at e1; simp at e1
          | some c =>
            rw [hg] at e1
            simp only [Option.map_some', Option.some.injEq] at e1
            exact hnul c (mem_of_getElem?_char _ _ _ hg) e1
        · exact heq
        · exfalso
          have e1 := load_bytes_getElem m (a + 4) s.length name.length hgt
          rw [h2, hz] at e1
          exact h3 0 (mem_of_getElem?_some _ _ _ e1) rfl
      rw [← h2, hlen, hb]
    · intro hs
      subst hs
      rw [List.length_map] at h2 h4
      exact ⟨h2, h4⟩

theorem c_string_of_name_equals (m : Mem) (k a : Nat) (name : List Char)
    (hnul : ∀ c ∈ name, c.toNat ≠ 0) (hlen : name.length < k)
    (he : name_equals m a name = true) : c_string m k a = some (name.map Char.toNat) := by
  rw [name_equals_iff] at he
  apply c_string_of_bytes
  · rw [List.length_map]; exact hlen
  · rw [List.length_map]; exact he.1
  · intro b hb
    rw [List.mem_map] at hb
    obtain ⟨c, hc, rfl⟩ := hb
    exact hnul c hc
  · rw [List.length_map]; exact he.2

theorem name_field_congr (h : a1fs_h) (hs : h.sizeof_dentry = 256) (m1 m2 : Mem) (a : Nat)
    (hb : ∀ off, off < 256 → m1 (a + off) = m2 (a + off)) :
    c_string m1 (h.sizeof_dentry - 4) (a + 4) = c_string m2 (h.sizeof_dentry - 4) (a + 4) := by
  rw [hs]
  exact c_string_record_congr m1 m2 a hb

theorem entry_name_congr (h : a1fs_h) (hs : h.sizeof_dentry = 256) (m1 m2 : Mem) (a : Nat)
    (hb : ∀ off, off < 256 → m1 (a + off) = m2 (a + off)) :
    entry_name h m1 a = entry_name h m2 a := by
  unfold entry_name
  rw [name_field_congr h hs m1 m2 a hb]

/-- A name that `dir_find` does not find is not among the names listed. -/
theorem not_listed_of_dir_find_none (h : a1fs_h) (fs : fs_ctx) (dir : Nat) (name : List Char)
    (hnul : ∀ c ∈ name, c.toNat ≠ 0) (hread : names_readable h fs dir)
    (habs : dir_find h fs dir name = none) : name.map Char.toNat ∉ dir_names h fs dir := by
  intro hmem
  unfold dir_names at hmem
  rw [List.mem_map] at hmem
  obtain ⟨a, ha, hname⟩ := hmem
  have hne := (name_equals_iff_entry_name h fs.data a name hnul (hread a ha)).mpr hname
  unfold dir_find at habs
  cases hf : (dir_entries h fs dir).find? (fun a => name_equals fs.data (a + 4) name) with
  | some v => rw [hf] at habs; simp at habs
  | none =>
    rw [List.find?_eq_none] at hf
    have := hf a ha
    rw [hne] at this
    exact this rfl

/-- The names and the inode numbers of a directory after the insertion of an
entry: those of before, followed by the new entry. -/
theorem names_after_add (h : a1fs_h) (fs0 fs1 : fs_ctx) (P new_inode : Nat) (name : List Char)
    (a : Nat) (hadd : entry_added h fs0 fs1 P new_inode name a) (hfit : name.length + 7 ≤ 256)
    (hnul : ∀ c ∈ name, c.toNat ≠ 0) (hread : names_readable h fs0 P) :
    names_readable h fs1 P ∧
      dir_names h fs1 P = dir_names h fs0 P ++ [name.map Char.toNat] ∧
      dir_pairs h fs1 P = dir_pairs h fs0 P ++ [(name.map Char.toNat, new_inode)] := by
  obtain ⟨hent, _, hino, hnm, hkeep, _, _, _, _, _, _, _, _, _, hwf1⟩ := hadd
  have hs := hwf1.1
  have hnew : c_string fs1.data (h.sizeof_dentry - 4) (a + 4) = some (name.map Char.toNat) :=
    c_string_of_name_equals fs1.data _ _ name hnul (by rw [hs]; omega) hnm
  have hnewname : entry_name h fs1.data a = name.map Char.toNat := by
    unfold entry_name
    rw [hnew]
    rfl
  refine ⟨?_, ?_, ?_⟩
  · intro x hx
    rw [hent, List.mem_append, List.mem_singleton] at hx
    rcases hx with hx | hx
    · rw [name_field_congr h hs fs1.data fs0.data x (hkeep x hx)]
      exact hread x hx
    · rw [hx, hnew]
      rfl
  · unfold dir_names
    rw [hent, List.map_append, List.map_singleton, hnewname]
    congr 1
    apply List.map_congr_left
    intro x hx
    exact entry_name_congr h hs _ _ x (hkeep x hx)
  · unfold dir_pairs
    rw [hent, List.map_append, List.map_singleton, hnewname, hino]
    congr 1
    apply List.map_congr_left
    intro x hx
    rw [entry_name_congr h hs _ _ x (hkeep x hx), read32_record_congr _ _ x (hkeep x hx)]

/-! ## The removal of an entry -/

theorem find_in_block_eq (h : a1fs_h) (m : Mem) (t base k s : Nat) :
    find_in_block h m t base k s
      = ((List.range' s k).map (fun s => base + s * h.sizeof_dentry)).find?
          (fun a => decide (read32 m a = t)) := by
  induction k generalizing s with
  | zero => rfl
  | succ k ih =>
    unfold find_in_block
    rw [List.range'_succ, List.map_cons, List.find?_cons]
    by_cases hm : read32 m (base + s * h.sizeof_dentry) = t
    · rw [if_pos hm]
      simp [hm]
    · rw [if_neg hm, ih (s + 1)]
      simp [hm]

theorem find_in_extent_eq (h : a1fs_h) (m : Mem) (t start k j : Nat)
    (hb : ∀ x, j ≤ x → x < j + k → start + x < 4294967296) :
    find_in_extent h m t start k j
      = ((List.range' j k).flatMap (fun j => block_slots h (start + j))).find?
          (fun a => decide (read32 m a = t)) := by
  induction k generalizing j with
  | zero => rfl
  | succ k ih =>
    unfold find_in_extent
    have hu : u32 (start + j) = start + j := by
      have := hb j (Nat.le_refl _) (by omega)
      unfold u32
      omega
    rw [List.range'_succ, List.flatMap_cons, List.find?_append, find_in_block_eq, hu,
      ih (j + 1) (fun x hx1 hx2 => hb x (by omega) (by omega))]
    have e : (List.range' 0 (A1FS_BLOCK_SIZE / h.sizeof_dentry)).map
        (fun s => get_addr_of_block (start + j) + s * h.sizeof_dentry)
        = block_slots h (start + j) := by
      unfold block_slots get_addr_of_block
      rw [List.range_eq_range']
    rw [e]
    cases (block_slots h (start + j)).find? (fun a => decide (read32 m a = t)) <;> rfl

theorem find_in_dir_eq (h : a1fs_h) (m : Mem) (p t k i : Nat)
    (hb : ∀ x, i ≤ x → x < i + k → extent_start m p x + extent_count m p x ≤ 4294967296) :
    find_in_dir h m p t k i
      = ((List.range' i k).flatMap (fun i =>
          (List.range (extent_count m p i)).flatMap (fun j =>
            block_slots h (extent_start m p i + j)))).find?
          (fun a => decide (read32 m a = t)) := by
  induction k generalizing i with
  | zero => rfl
  | succ k ih =>
    unfold find_in_dir
    have hbi := hb i (Nat.le_refl _) (by omega)
    rw [List.range'_succ, List.flatMap_cons, List.find?_append,
      find_in_extent_eq h m t _ _ 0 (fun x _ hx => by omega),
      ih (i + 1) (fun x hx1 hx2 => hb x (by omega) (by omega)), List.range_eq_range']
    cases ((List.range' 0 (extent_count m p i)).flatMap
      (fun j => block_slots h (extent_start m p i + j))).find?
        (fun a => decide (read32 m a = t)) <;> rfl

/-- The search of `a1fs_rmdir` and `a1fs_unlink` for the entry of an inode goes
through the entry slots of the directory in their order. -/
theorem find_in_dir_addrs (h : a1fs_h) (fs : fs_ctx) (dir t : Nat)
    (hb : ∀ x, x < (fs.inode_table dir).extent_num →
      extent_start fs.data (fs.inode_table dir).indirect_pt x
        + extent_count fs.data (fs.inode_table dir).indirect_pt x ≤ 4294967296) :
    find_in_dir h fs.data (fs.inode_table dir).indirect_pt t (fs.inode_table dir).extent_num 0
      = (dir_entry_addrs h fs dir).find? (fun a => decide (read32 fs.data a = t)) := by
  have hb2 : ∀ x, 0 ≤ x → x < 0 + (fs.inode_table dir).extent_num →
      extent_start fs.data (fs.inode_table dir).indirect_pt x
        + extent_count fs.data (fs.inode_table dir).indirect_pt x ≤ 4294967296 := by
    intro x _ hx
    rw [Nat.zero_add] at hx
    exact hb x hx
  refine (find_in_dir_eq h fs.data (fs.inode_table dir).indirect_pt t
    (fs.inode_table dir).extent_num 0 hb2).trans ?_
  have e : dir_entry_addrs h fs dir
      = (List.range' 0 (fs.inode_table dir).extent_num).flatMap (fun i =>
          (List.range (extent_count fs.data (fs.inode_table dir).indirect_pt i)).flatMap (fun j =>
            block_slots h (extent_start fs.data (fs.inode_table dir).indirect_pt i + j))) := by
    unfold dir_entry_addrs dir_blocks
    rw [List.flatMap_assoc, List.range_eq_range']
    apply List.flatMap_congr
    intro i _
    rw [List.flatMap_map]
  rw [e]

theorem find?_unique (l : List Nat) (f : Nat → Nat) (a t : Nat) (hnd : (l.map f).Nodup)
    (ha : a ∈ l) (hf : f a = t) : l.find? (fun x => decide (f x = t)) = some a := by
  induction l with
  | nil => simp at ha
  | cons b l ih =>
    rw [List.map_cons, List.nodup_cons] at hnd
    rw [List.find?_cons]
    by_cases hb : f b = t
    · simp only [hb, decide_True]
      rw [List.mem_cons] at ha
      rcases ha with ha | ha
      · rw [ha]
      · exfalso
        apply hnd.1
        rw [hb, ← hf]
        exact List.mem_map_of_mem f ha
    · simp only [hb, decide_False]
      rw [List.mem_cons] at ha
      rcases ha with ha | ha
      · exact absurd (ha ▸ hf) hb
      · exact ih hnd.2 ha

/-- The address of `parent_last_dentry` is that of the last entry of a
well-formed directory. -/
theorem last_entry_addr_spec (h : a1fs_h) (fs : fs_ctx) (dir : Nat)
    (hN : fs.num_of_data_blocks < 1048576) (hwf : directory_wf h fs dir)
    (hpos : 0 < (fs.inode_table dir).num_dir_entry) :
    (dir_entry_addrs h fs dir)[(fs.inode_table dir).num_dir_entry - 1]?
        = some (last_entry_addr h fs dir) ∧
      dir_entries h fs dir
        = (dir_entry_addrs h fs dir).take ((fs.inode_table dir).num_dir_entry - 1)
          ++ [last_entry_addr h fs dir] := by
  have hbound := directory_wf_bound h fs dir hN hwf
  obtain ⟨F, hF, _⟩ := dir_blocks_last h fs dir hN hwf hpos
  obtain ⟨hs, _, _, _, hd⟩ := hwf
  obtain ⟨_, _, _, _, _, hle, hlt, _, _⟩ := hd hpos
  rw [hF, List.length_append, List.length_singleton] at hle hlt
  have hlast : last_entry_addr h fs dir
      = find_last_block fs dir * 4096 + ((fs.inode_table dir).num_dir_entry - 1) % 16 * 256 := by
    unfold last_entry_addr
    simp only
    rw [hs]
    have e1 : A1FS_BLOCK_SIZE / 256 = 16 := by decide
    rw [e1]
    unfold get_addr_of_block A1FS_BLOCK_SIZE
    have e2 : sub32 (if u32 ((fs.inode_table dir).num_dir_entry % 16) = 0 then u32 16
          else u32 ((fs.inode_table dir).num_dir_entry % 16)) 1
        = ((fs.inode_table dir).num_dir_entry - 1) % 16 := by
      unfold sub32 u32
      split_ifs <;> omega
    rw [e2]
  have hidx : (fs.inode_table dir).num_dir_entry - 1
      = F.length * 16 + ((fs.inode_table dir).num_dir_entry - 1) % 16 := by omega
  have hget : (dir_entry_addrs h fs dir)[(fs.inode_table dir).num_dir_entry - 1]?
      = some (last_entry_addr h fs dir) := by
    unfold dir_entry_addrs
    rw [hF, hlast]
    conv_lhs => rw [hidx]
    exact getElem?_flatMap_block_slots_last h hs F _ _ (Nat.mod_lt _ (by decide))
  refine ⟨hget, ?_⟩
  unfold dir_entries
  have e : (fs.inode_table dir).num_dir_entry = ((fs.inode_table dir).num_dir_entry - 1) + 1 := by
    omega
  conv_lhs => rw [e]
  rw [List.take_succ, hget]
  rfl

theorem entries_nodup (h : a1fs_h) (fs : fs_ctx) (dir : Nat) (hwf : directory_wf h fs dir) :
    (dir_entries h fs dir).Nodup := by
  obtain ⟨hs, _, _, hempty, hd⟩ := hwf
  by_cases hn0 : (fs.inode_table dir).num_dir_entry = 0
  · unfold dir_entries
    rw [hn0]
    simp
  · obtain ⟨_, _, _, _, _, _, _, hnd, _⟩ := hd (by omega)
    unfold dir_entries dir_entry_addrs
    exact (nodup_flatMap_block_slots h hs _ hnd).sublist (List.take_sublist _ _)

/-- The entry that `take_entry` takes out: the one of inode `t`, at address
`a`; the last entry is copied over it. -/
theorem take_entry_spec (h : a1fs_h) (fs : fs_ctx) (dir t a : Nat)
    (hN : fs.num_of_data_blocks < 1048576) (hwf : directory_wf h fs dir)
    (hinos : ((dir_entries h fs dir).map (read32 fs.data)).Nodup)
    (ha : a ∈ dir_entries h fs dir) (hat : read32 fs.data a = t) :
    ∃ m, take_entry h fs dir t = some (t, m) ∧
      (∀ x, ¬ (a ≤ x ∧ x < a + 256) → m x = fs.data x) ∧
      (∀ off, off < 256 → m (a + off) = fs.data (last_entry_addr h fs dir + off)) := by
  have hs := hwf.1
  have hpos : 0 < (fs.inode_table dir).num_dir_entry := by
    by_contra hc
    have : (fs.inode_table dir).num_dir_entry = 0 := by omega
    unfold dir_entries at ha
    rw [this] at ha
    simp at ha
  obtain ⟨_, hsplit⟩ := last_entry_addr_spec h fs dir hN hwf hpos
  have hlastmem : last_entry_addr h fs dir ∈ dir_entries h fs dir := by
    rw [hsplit]
    simp
  unfold take_entry
  simp only
  by_cases hl : read32 fs.data (last_entry_addr h fs dir) = t
  · rw [if_pos hl, hl]
    have hal : a = last_entry_addr h fs dir :=
      List.inj_on_of_nodup_map hinos ha hlastmem (by rw [hat, hl])
    refine ⟨fs.data, rfl, fun _ _ => rfl, ?_⟩
    intro off _
    rw [hal]
  · rw [if_neg hl]
    have hb : ∀ x, x < (fs.inode_table dir).extent_num →
        extent_start fs.data (fs.inode_table dir).indirect_pt x
          + extent_count fs.data (fs.inode_table dir).indirect_pt x ≤ 4294967296 := by
      intro x hx
      obtain ⟨_, _, _, _, hd⟩ := hwf
      obtain ⟨_, _, _, _, hcnt, _, _, _, hblk⟩ := hd hpos
      have hc := hcnt x hx
      have hmem : extent_start fs.data (fs.inode_table dir).indirect_pt x
          + (extent_count fs.data (fs.inode_table dir).indirect_pt x - 1) ∈ dir_blocks fs dir := by
        unfold dir_blocks
        rw [List.mem_flatMap]
        refine ⟨x, List.mem_range.mpr hx, ?_⟩
        rw [List.mem_map]
        exact ⟨_, List.mem_range.mpr (by omega), rfl⟩
      have := (hblk _ hmem).1
      omega
    have hfind : (dir_entry_addrs h fs dir).find? (fun x => decide (read32 fs.data x = t))
        = some a := by
      have e : dir_entry_addrs h fs dir
          = dir_entries h fs dir
            ++ (dir_entry_addrs h fs dir).drop (fs.inode_table dir).num_dir_entry := by
        unfold dir_entries
        rw [List.take_append_drop]
      rw [e, List.find?_append, find?_unique _ _ a t hinos ha hat]
      rfl
    rw [find_in_dir_addrs h fs dir t hb, hfind]
    simp only
    rw [hat]
    refine ⟨_, rfl, ?_, ?_⟩
    · intro x hx
      unfold copy_dentry
      rw [hs, if_neg hx]
    · intro off hoff
      unfold copy_dentry
      have e : a + off - a = off := by omega
      rw [hs, if_pos (by omega), e]

/-- The entry removed from a directory, from the shape of the state reached: the
block list is the old one, or the old one without its last block; the last
entry is copied over the record at `a`; nothing else changes outside the block
of the extent array. -/
theorem entry_removed_of_shape (h : a1fs_h) (fs fs' : fs_ctx) (P a : Nat) (m : Mem)
    (hN : fs.num_of_data_blocks < 1048576)
    (hwf : directory_wf h fs P)
    (ha : a ∈ dir_entries h fs P)
    (hmo : ∀ x, ¬ (a ≤ x ∧ x < a + 256) → m x = fs.data x)
    (hmi : ∀ off, off < 256 → m (a + off) = fs.data (last_entry_addr h fs P + off))
    (hframe : ∀ x, x / 4096 ≠ (fs.inode_table P).indirect_pt / 4096 → fs'.data x = m x)
    (hmode : (fs'.inode_table P).mode = (fs.inode_table P).mode)
    (hsize : (fs'.inode_table P).size + 256 = (fs.inode_table P).num_dir_entry * 256)
    (hnum : (fs'.inode_table P).num_dir_entry + 1 = (fs.inode_table P).num_dir_entry)
    (hpt : (fs'.inode_table P).indirect_pt = (fs.inode_table P).indirect_pt)
    (hlinks : (fs'.inode_table P).links < 4294967296)
    (hone : (fs.inode_table P).num_dir_entry = 1 →
      (fs'.inode_table P).extent_num = 0 ∧ (fs'.inode_table P).links = 2)
    (he512 : (fs'.inode_table P).extent_num ≤ 512)
    (hother : ∀ k, k ≠ P → fs'.inode_table k = fs.inode_table k)
    (hnb : fs'.num_of_data_blocks = fs.num_of_data_blocks)
    (hcase : (dir_blocks fs' P = dir_blocks fs P ∧ (fs.inode_table P).num_dir_entry % 16 ≠ 1) ∨
      (dir_blocks fs' P ++ [find_last_block fs P] = dir_blocks fs P ∧
        (fs.inode_table P).num_dir_entry % 16 = 1))
    (hbits : 1 < (fs.inode_table P).num_dir_entry → ∀ i,
      ((fs.inode_table P).num_dir_entry % 16 = 1 → i ≠ find_last_block fs P) →
      is_bit_set i fs'.data_bitmap = is_bit_set i fs.data_bitmap)
    (hcnt : 1 < (fs.inode_table P).num_dir_entry → ∀ i, i < (fs'.inode_table P).extent_num →
      1 ≤ extent_count fs'.data (fs.inode_table P).indirect_pt i) :
    entry_removed h fs fs' P a := by
  have hwf0 := hwf
  have hpos : 0 < (fs.inode_table P).num_dir_entry := by
    by_contra hc
    have : (fs.inode_table P).num_dir_entry = 0 := by omega
    unfold dir_entries at ha
    rw [this] at ha
    simp at ha
  obtain ⟨hgetlast, hsplit⟩ := last_entry_addr_spec h fs P hN hwf hpos
  have hndE := entries_nodup h fs P hwf
  obtain ⟨hs, hsz, hl, hempty, hd⟩ := hwf
  obtain ⟨_, hpm, hXN, hXbit, _, hle, hlt, hnd, hblk⟩ := hd hpos
  unfold A1FS_BLOCK_SIZE at hpm hXN hXbit hblk
  have hlenA := length_dir_entry_addrs h hs fs P
  have hn' : (fs'.inode_table P).num_dir_entry = (fs.inode_table P).num_dir_entry - 1 := by omega
  -- the entries after the removal
  have htake : (dir_entry_addrs h fs' P).take ((fs.inode_table P).num_dir_entry - 1)
      = (dir_entry_addrs h fs P).take ((fs.inode_table P).num_dir_entry - 1) := by
    unfold dir_entry_addrs
    rcases hcase with ⟨hB, _⟩ | ⟨hB, hr⟩
    · rw [hB]
    · rw [← hB, List.flatMap_append]
      have hlen : (fs.inode_table P).num_dir_entry - 1
          = ((dir_blocks fs' P).flatMap (block_slots h)).length := by
        rw [length_flatMap_block_slots h hs]
        rw [← hB, List.length_append, List.length_singleton] at hle hlt
        omega
      rw [List.take_left' hlen.symm, hlen, List.take_length]
  have hentries : dir_entries h fs' P = (dir_entries h fs P).dropLast := by
    rw [hsplit, List.dropLast_concat]
    unfold dir_entries
    rw [hn', htake]
  have hmem' : ∀ s, s ∈ dir_entries h fs' P → s ∈ dir_entries h fs P := by
    intro s hsm
    rw [hentries] at hsm
    exact List.dropLast_subset _ hsm
  have hablk := mem_dir_entries h hs fs P a ha
  refine ⟨hentries, ?_, ?_, hother, hmode, hnum, hnb, ?_⟩
  · intro s hsm off hoff
    obtain ⟨hsb, hs256, hsin⟩ := mem_dir_entries h hs fs P s (hmem' s hsm)
    have hsX := (hblk _ hsb).2.2
    rw [hframe _ (by omega)]
    by_cases hsa : s = a
    · rw [if_pos hsa, hsa]
      exact hmi off hoff
    · rw [if_neg hsa]
      apply hmo
      omega
  · intro x hbit hown
    unfold A1FS_BLOCK_SIZE at hbit hown
    have hxX : x / 4096 ≠ (fs.inode_table P).indirect_pt / 4096 := by
      intro e
      exact hown (Or.inr ⟨hpos, by unfold A1FS_BLOCK_SIZE; exact e⟩)
    rw [hframe x hxX]
    apply hmo
    intro hc
    apply hown
    left
    have : x / 4096 = a / 4096 := by omega
    rw [this]
    exact hablk.1
  · -- the directory is well formed again
    refine ⟨hs, by omega, hlinks, ?_, ?_⟩
    · intro h0
      exact hone (by omega)
    · intro hpos'
      have h1 : 1 < (fs.inode_table P).num_dir_entry := by omega
      rw [hpt, hnb]
      unfold A1FS_BLOCK_SIZE
      have hsub : ∀ b, b ∈ dir_blocks fs' P → b ∈ dir_blocks fs P ∧
          ((fs.inode_table P).num_dir_entry % 16 = 1 → b ≠ find_last_block fs P) := by
        intro b hb
        rcases hcase with ⟨hB, hr⟩ | ⟨hB, hr⟩
        · rw [hB] at hb
          exact ⟨hb, fun hc => absurd hc hr⟩
        · refine ⟨by rw [← hB]; exact List.mem_append_left _ hb, fun _ hc => ?_⟩
          rw [← hB, List.nodup_append] at hnd
          have hmem : b ∈ [find_last_block fs P] := by
            rw [hc]
            exact List.mem_singleton_self _
          exact hnd.2.2 hb hmem
      refine ⟨he512, hpm, hXN, ?_, hcnt h1, ?_, ?_, ?_, ?_⟩
      · rw [hbits h1]
        · exact hXbit
        · intro hr hc
          rcases hcase with ⟨_, hr2⟩ | ⟨hB, _⟩
          · exact hr2 hr
          · have := (hblk (find_last_block fs P) (by rw [← hB]; simp)).2.2
            exact this hc.symm
      · rcases hcase with ⟨hB, hr⟩ | ⟨hB, hr⟩
        · rw [hB]; omega
        · rw [← hB, List.length_append, List.length_singleton] at hle hlt
          omega
      · rcases hcase with ⟨hB, hr⟩ | ⟨hB, hr⟩
        · rw [hB]; omega
        · rw [← hB, List.length_append, List.length_singleton] at hle hlt
          omega
      · rcases hcase with ⟨hB, hr⟩ | ⟨hB, hr⟩
        · rw [hB]; exact hnd
        · rw [← hB, List.nodup_append] at hnd
          exact hnd.1
      · intro b hb
        obtain ⟨hb1, hb2⟩ := hsub b hb
        obtain ⟨h1b, h2b, h3b⟩ := hblk b hb1
        refine ⟨h1b, ?_, h3b⟩
        rw [hbits h1 b hb2]
        exact h2b

/-- The result of `remove_entry` from what `take_entry` gives. -/
theorem remove_entry_of_take (h : a1fs_h) (fs : fs_ctx) (P t : Nat) (dir : Bool) (m : Mem)
    (ht : take_entry h fs P t = some (t, m)) :
    remove_entry h fs P t dir =
      if (fs.inode_table P).num_dir_entry = 1 then
        some (0, { fs with
          inode_bitmap := unset_bitmap fs.inode_bitmap t
          available_inodes := u32 (fs.available_inodes + 1)
          data_bitmap := unset_bitmap (unset_bitmap fs.data_bitmap (find_last_block fs P))
            (get_num_of_block (fs.inode_table P).indirect_pt)
          available_blocks := u32 (u32 (fs.available_blocks + 1) + 1)
          data := m
          inode_table := set_inode fs.inode_table P
            { fs.inode_table P with extent_num := 0, links := 2, num_dir_entry := 0, size := 0 } })
      else if (fs.inode_table P).num_dir_entry % (A1FS_BLOCK_SIZE / h.sizeof_dentry) ≠ 1 then
        some (0, { fs with
          inode_bitmap := unset_bitmap fs.inode_bitmap t
          available_inodes := u32 (fs.available_inodes + 1)
          data := m
          inode_table := set_inode fs.inode_table P
            { fs.inode_table P with
                links := if dir then sub32 (fs.inode_table P).links 1 else (fs.inode_table P).links
                num_dir_entry := sub32 (fs.inode_table P).num_dir_entry 1
                size := sub64 (fs.inode_table P).size h.sizeof_dentry } })
      else if extent_count m (fs.inode_table P).indirect_pt
          (sub32 (fs.inode_table P).extent_num 1) > 1 then
        some (0, { fs with
          inode_bitmap := unset_bitmap fs.inode_bitmap t
          available_inodes := u32 (fs.available_inodes + 1)
          data_bitmap := unset_bitmap fs.data_bitmap (find_last_block fs P)
          available_blocks := u32 (fs.available_blocks + 1)
          data := write32 m
            ((fs.inode_table P).indirect_pt + sizeof_extent * sub32 (fs.inode_table P).extent_num 1
              + 4)
            (sub32 (extent_count m (fs.inode_table P).indirect_pt
              (sub32 (fs.inode_table P).extent_num 1)) 1)
          inode_table := set_inode fs.inode_table P
            { fs.inode_table P with
                links := if dir then sub32 (fs.inode_table P).links 1 else (fs.inode_table P).links
                num_dir_entry := sub32 (fs.inode_table P).num_dir_entry 1
                size := sub64 (fs.inode_table P).size h.sizeof_dentry } })
      else
        some (0, { fs with
          inode_bitmap := unset_bitmap fs.inode_bitmap t
          available_inodes := u32 (fs.available_inodes + 1)
          data_bitmap := unset_bitmap fs.data_bitmap (find_last_block fs P)
          available_blocks := u32 (fs.available_blocks + 1)
          data := m
          inode_table := set_inode fs.inode_table P
            { fs.inode_table P with
                extent_num := sub32 (fs.inode_table P).extent_num 1
                links := if dir then sub32 (fs.inode_table P).links 1 else (fs.inode_table P).links
                num_dir_entry := sub32 (fs.inode_table P).num_dir_entry 1
                size := sub64 (fs.inode_table P).size h.sizeof_dentry } }) := by
  unfold remove_entry
  simp only [ht]

/-- The removal of the entry of inode `t`, at address `a`, from a well-formed
directory succeeds and leaves the directory without that entry. -/
theorem remove_entry_removed (h : a1fs_h) (fs : fs_ctx) (P t a : Nat) (dir : Bool)
    (hN : fs.num_of_data_blocks < 1048576) (hwf : directory_wf h fs P)
    (hinos : ((dir_entries h fs P).map (read32 fs.data)).Nodup)
    (ha : a ∈ dir_entries h fs P) (hat : read32 fs.data a = t) :
    ∃ fs', remove_entry h fs P t dir = some (0, fs') ∧ entry_removed h fs fs' P a := by
  have hbound := directory_wf_bound h fs P hN hwf
  have hpos : 0 < (fs.inode_table P).num_dir_entry := by
    by_contra hc
    have : (fs.inode_table P).num_dir_entry = 0 := by omega
    unfold dir_entries at ha
    rw [this] at ha
    simp at ha
  obtain ⟨m, htake, hmo, hmi⟩ := take_entry_spec h fs P t a hN hwf hinos ha hat
  obtain ⟨F, hF, hL1⟩ := dir_blocks_last h fs P hN hwf hpos
  have hepos := directory_wf_extents_pos h fs P hwf hpos
  have hwf0 := hwf
  obtain ⟨hs, hsz, hl, hempty, hd⟩ := hwf
  obtain ⟨he512, hpm, hXN, hXbit, hcnt, hle, hlt, hnd, hblk⟩ := hd hpos
  unfold A1FS_BLOCK_SIZE at hpm hXN hXbit hblk
  obtain ⟨hab, ha256, hain⟩ := mem_dir_entries h hs fs P a ha
  have haX := (hblk _ hab).2.2
  have hext : ∀ i, i < 512 →
      extent_start m (fs.inode_table P).indirect_pt i
          = extent_start fs.data (fs.inode_table P).indirect_pt i ∧
        extent_count m (fs.inode_table P).indirect_pt i
          = extent_count fs.data (fs.inode_table P).indirect_pt i := by
    intro i hi
    apply extent_frame _ _ _ _ hpm hi
    intro x hx
    apply hmo
    omega
  have hsub : sub32 (fs.inode_table P).extent_num 1 = (fs.inode_table P).extent_num - 1 := by
    unfold sub32 u32; omega
  have hsubn : sub32 (fs.inode_table P).num_dir_entry 1 + 1 = (fs.inode_table P).num_dir_entry := by
    unfold sub32 u32; omega
  have hsubs : sub64 ((fs.inode_table P).num_dir_entry * 256) 256 + 256
      = (fs.inode_table P).num_dir_entry * 256 := by
    unfold sub64 u64; omega
  have hlk : (if dir then sub32 (fs.inode_table P).links 1 else (fs.inode_table P).links)
      < 4294967296 := by
    unfold sub32 u32
    split_ifs <;> omega
  have e16 : A1FS_BLOCK_SIZE / 256 = 16 := by decide
  have hse : sizeof_extent = 8 := rfl
  rw [remove_entry_of_take h fs P t dir m htake, hs, e16, hsz, hsub, hse]
  by_cases h1 : (fs.inode_table P).num_dir_entry = 1
  · rw [if_pos h1]
    refine ⟨_, rfl, ?_⟩
    rw [hF, List.length_append, List.length_singleton] at hle hlt
    have hF0 : F = [] := List.length_eq_zero.mp (by omega)
    apply entry_removed_of_shape h fs _ P a m hN hwf0 ha hmo hmi
    · intro x _; rfl
    · simp only [set_inode, if_true]
    · simp only [set_inode, if_true]; omega
    · simp only [set_inode, if_true]; omega
    · simp only [set_inode, if_true]
    · simp only [set_inode, if_true]; omega
    · intro _
      simp only [set_inode, if_true, and_self]
    · simp only [set_inode, if_true]; omega
    · intro k hk
      simp only [set_inode, if_neg hk]
    · rfl
    · right
      refine ⟨?_, by omega⟩
      rw [dir_blocks_nil _ P (by simp only [set_inode, if_true]), hF, hF0]
    · intro hc; omega
    · intro hc; omega
  · rw [if_neg h1]
    by_cases hr : (fs.inode_table P).num_dir_entry % 16 ≠ 1
    · rw [if_pos hr]
      refine ⟨_, rfl, ?_⟩
      apply entry_removed_of_shape h fs _ P a m hN hwf0 ha hmo hmi
      · intro x _; rfl
      · simp only [set_inode, if_true]
      · simp only [set_inode, if_true]; exact hsubs
      · simp only [set_inode, if_true]; exact hsubn
      · simp only [set_inode, if_true]
      · simp only [set_inode, if_true]; exact hlk
      · intro hc; exact absurd hc h1
      · simp only [set_inode, if_true]; exact he512
      · intro k hk
        simp only [set_inode, if_neg hk]
      · rfl
      · left
        refine ⟨?_, hr⟩
        apply dir_blocks_congr
        · simp only [set_inode, if_true]
        · intro i hi
          simp only [set_inode, if_true]
          exact hext i (by omega)
      · intro _ i _; rfl
      · intro _ i hi
        simp only [set_inode, if_true] at hi
        show 1 ≤ extent_count m (fs.inode_table P).indirect_pt i
        rw [(hext i (by omega)).2]
        exact hcnt i hi
    · rw [if_neg hr]
      have hr1 : (fs.inode_table P).num_dir_entry % 16 = 1 := by omega
      have hc1 := hcnt ((fs.inode_table P).extent_num - 1) (by omega)
      have hLN := (hblk (find_last_block fs P) (by rw [hF]; simp)).1
      have hcN : extent_count fs.data (fs.inode_table P).indirect_pt
          ((fs.inode_table P).extent_num - 1) < 1048577 := by omega
      rw [(hext _ (by omega)).2]
      by_cases hc : extent_count fs.data (fs.inode_table P).indirect_pt
          ((fs.inode_table P).extent_num - 1) > 1
      · rw [if_pos hc]
        refine ⟨_, rfl, ?_⟩
        have hsubc : sub32 (extent_count fs.data (fs.inode_table P).indirect_pt
            ((fs.inode_table P).extent_num - 1)) 1
            = extent_count fs.data (fs.inode_table P).indirect_pt
              ((fs.inode_table P).extent_num - 1) - 1 := by
          unfold sub32 u32; omega
        rw [hsubc]
        have hlow : ∀ i, i < (fs.inode_table P).extent_num - 1 →
            extent_start (write32 m
                ((fs.inode_table P).indirect_pt + 8 * ((fs.inode_table P).extent_num - 1) + 4)
                (extent_count fs.data (fs.inode_table P).indirect_pt
                  ((fs.inode_table P).extent_num - 1) - 1))
                (fs.inode_table P).indirect_pt i
              = extent_start fs.data (fs.inode_table P).indirect_pt i ∧
            extent_count (write32 m
                ((fs.inode_table P).indirect_pt + 8 * ((fs.inode_table P).extent_num - 1) + 4)
                (extent_count fs.data (fs.inode_table P).indirect_pt
                  ((fs.inode_table P).extent_num - 1) - 1))
                (fs.inode_table P).indirect_pt i
              = extent_count fs.data (fs.inode_table P).indirect_pt i := by
          intro i hi
          rw [← (hext i (by omega)).1, ← (hext i (by omega)).2]
          unfold extent_start extent_count
          rw [hse]
          constructor
          · exact read32_write32_other _ _ _ _ (by omega)
          · exact read32_write32_other _ _ _ _ (by omega)
        have hst : extent_start (write32 m
              ((fs.inode_table P).indirect_pt + 8 * ((fs.inode_table P).extent_num - 1) + 4)
              (extent_count fs.data (fs.inode_table P).indirect_pt
                ((fs.inode_table P).extent_num - 1) - 1))
              (fs.inode_table P).indirect_pt ((fs.inode_table P).extent_num - 1)
            = extent_start fs.data (fs.inode_table P).indirect_pt
              ((fs.inode_table P).extent_num - 1) := by
          rw [← (hext _ (by omega)).1]
          unfold extent_start
          rw [hse]
          exact read32_write32_other _ _ _ _ (by omega)
        have hct : extent_count (write32 m
              ((fs.inode_table P).indirect_pt + 8 * ((fs.inode_table P).extent_num - 1) + 4)
              (extent_count fs.data (fs.inode_table P).indirect_pt
                ((fs.inode_table P).extent_num - 1) - 1))
              (fs.inode_table P).indirect_pt ((fs.inode_table P).extent_num - 1)
            = extent_count fs.data (fs.inode_table P).indirect_pt
              ((fs.inode_table P).extent_num - 1) - 1 := by
          unfold extent_count
          rw [hse, read32_write32_same]
          unfold extent_count at hcN
          rw [hse] at hcN
          omega
        apply entry_removed_of_shape h fs _ P a m hN hwf0 ha hmo hmi
        · intro x hx
          exact write32_other _ _ _ _ (by omega)
        · simp only [set_inode, if_true]
        · simp only [set_inode, if_true]; exact hsubs
        · simp only [set_inode, if_true]; exact hsubn
        · simp only [set_inode, if_true]
        · simp only [set_inode, if_true]; exact hlk
        · intro hc; exact absurd hc h1
        · simp only [set_inode, if_true]; exact he512
        · intro k hk
          simp only [set_inode, if_neg hk]
        · rfl
        · right
          refine ⟨?_, hr1⟩
          have hg := dir_blocks_grow_last
            { fs with
              inode_bitmap := unset_bitmap fs.inode_bitmap t
              available_inodes := u32 (fs.available_inodes + 1)
              data_bitmap := unset_bitmap fs.data_bitmap (find_last_block fs P)
              available_blocks := u32 (fs.available_blocks + 1)
              data := write32 m
                ((fs.inode_table P).indirect_pt + 8 * ((fs.inode_table P).extent_num - 1) + 4)
                (extent_count fs.data (fs.inode_table P).indirect_pt
                  ((fs.inode_table P).extent_num - 1) - 1)
              inode_table := set_inode fs.inode_table P
                { fs.inode_table P with
                    links := if dir then sub32 (fs.inode_table P).links 1
                      else (fs.inode_table P).links
                    num_dir_entry := sub32 (fs.inode_table P).num_dir_entry 1
                    size := sub64 ((fs.inode_table P).num_dir_entry * 256) 256 } }
            fs P ((fs.inode_table P).extent_num - 1)
            (by simp only [set_inode, if_true]; omega) (by omega)
            (fun i hi => by
              simp only [set_inode, if_true]
              exact ⟨(hlow i hi).1.symm, (hlow i hi).2.symm⟩)
            (by simp only [set_inode, if_true]; exact hst.symm)
            (by simp only [set_inode, if_true]; rw [hct]; omega)
          have hLs : find_last_block fs P
              = extent_start fs.data (fs.inode_table P).indirect_pt
                  ((fs.inode_table P).extent_num - 1)
                + (extent_count fs.data (fs.inode_table P).indirect_pt
                  ((fs.inode_table P).extent_num - 1) - 1) := by omega
          rw [hg]
          simp only [set_inode, if_true]
          rw [hst, hct, hLs]
        · intro _ i hi
          exact is_bit_set_unset_other _ _ _ (hi hr1)
        · intro _ i hi
          simp only [set_inode, if_true] at hi
          by_cases hie : i = (fs.inode_table P).extent_num - 1
          · rw [hie]
            show 1 ≤ extent_count (write32 m _ _) _ _
            rw [hct]
            omega
          · show 1 ≤ extent_count (write32 m _ _) _ _
            rw [(hlow i (by omega)).2]
            exact hcnt i hi
      · rw [if_neg hc]
        refine ⟨_, rfl, ?_⟩
        apply entry_removed_of_shape h fs _ P a m hN hwf0 ha hmo hmi
        · intro x _; rfl
        · simp only [set_inode, if_true]
        · simp only [set_inode, if_true]; exact hsubs
        · simp only [set_inode, if_true]; exact hsubn
        · simp only [set_inode, if_true]
        · simp only [set_inode, if_true]; exact hlk
        · intro hc; exact absurd hc h1
        · simp only [set_inode, if_true]; omega
        · intro k hk
          simp only [set_inode, if_neg hk]
        · rfl
        · right
          refine ⟨?_, hr1⟩
          have hg := dir_blocks_new_extent
            { fs with
              inode_bitmap := unset_bitmap fs.inode_bitmap t
              available_inodes := u32 (fs.available_inodes + 1)
              data_bitmap := unset_bitmap fs.data_bitmap (find_last_block fs P)
              available_blocks := u32 (fs.available_blocks + 1)
              data := m
              inode_table := set_inode fs.inode_table P
                { fs.inode_table P with
                    extent_num := (fs.inode_table P).extent_num - 1
                    links := if dir then sub32 (fs.inode_table P).links 1
                      else (fs.inode_table P).links
                    num_dir_entry := sub32 (fs.inode_table P).num_dir_entry 1
                    size := sub64 ((fs.inode_table P).num_dir_entry * 256) 256 } }
            fs P ((fs.inode_table P).extent_num - 1)
            (extent_start fs.data (fs.inode_table P).indirect_pt
              ((fs.inode_table P).extent_num - 1))
            (by simp only [set_inode, if_true]) (by omega)
            (fun i hi => by
              simp only [set_inode, if_true]
              exact ⟨(hext i (by omega)).1.symm, (hext i (by omega)).2.symm⟩)
            rfl (by omega)
          have hLs : find_last_block fs P
              = extent_start fs.data (fs.inode_table P).indirect_pt
                  ((fs.inode_table P).extent_num - 1) := by omega
          rw [hg, hLs]
        · intro _ i hi
          exact is_bit_set_unset_other _ _ _ (hi hr1)
        · intro _ i hi
          simp only [set_inode, if_true] at hi
          show 1 ≤ extent_count m (fs.inode_table P).indirect_pt i
          rw [(hext i (by omega)).2]
          exact hcnt i (by omega)

theorem perm_replace (l : List Nat) (a : Nat) (f : Nat → List Nat × Nat) (v : List Nat × Nat)
    (hnd : l.Nodup) (ha : a ∈ l) :
    (l.map f ++ [v]).Perm (f a :: l.map (fun s => if s = a then v else f s)) := by
  induction l with
  | nil => simp at ha
  | cons b l ih =>
    rw [List.nodup_cons] at hnd
    by_cases hb : b = a
    · subst hb
      have hmap : l.map (fun s => if s = b then v else f s) = l.map f := by
        apply List.map_congr_left
        intro s hs
        have : s ≠ b := fun e => hnd.1 (e ▸ hs)
        rw [if_neg this]
      simp only [List.map_cons, if_true, List.cons_append, hmap]
      exact List.Perm.cons _ (List.perm_append_singleton _ _)
    · rw [List.mem_cons] at ha
      have ha2 : a ∈ l := by
        rcases ha with ha | ha
        · exact absurd ha.symm hb
        · exact ha
      simp only [List.map_cons, if_neg hb, List.cons_append]
      exact (List.Perm.cons _ (ih hnd.2 ha2)).trans (List.Perm.swap _ _ _)

theorem c_string_move (m1 m2 : Mem) (k a1 a2 : Nat)
    (hb : ∀ i, i < k → m1 (a1 + i) = m2 (a2 + i)) : c_string m1 k a1 = c_string m2 k a2 := by
  induction k generalizing a1 a2 with
  | zero => rfl
  | succ k ih =>
    unfold c_string
    have h0 := hb 0 (by omega)
    rw [Nat.add_zero, Nat.add_zero] at h0
    rw [h0, ih (a1 + 1) (a2 + 1) (fun i hi => by
      have := hb (1 + i) (by omega)
      rw [← Nat.add_assoc, ← Nat.add_assoc] at this
      exact this)]

theorem read32_move (m1 m2 : Mem) (a1 a2 : Nat)
    (hb : ∀ k, k < 4 → m1 (a1 + k) = m2 (a2 + k)) : read32 m1 a1 = read32 m2 a2 := by
  have h0 := hb 0 (by omega)
  have h1 := hb 1 (by omega)
  have h2 := hb 2 (by omega)
  have h3 := hb 3 (by omega)
  simp only [Nat.add_zero] at h0
  unfold read32
  rw [h0, h1, h2, h3]

theorem name_field_move (h : a1fs_h) (hs : h.sizeof_dentry = 256) (m1 m2 : Mem) (a1 a2 : Nat)
    (hb : ∀ off, off < 256 → m1 (a1 + off) = m2 (a2 + off)) :
    c_string m1 (h.sizeof_dentry - 4) (a1 + 4) = c_string m2 (h.sizeof_dentry - 4) (a2 + 4) := by
  rw [hs]
  apply c_string_move
  intro i hi
  have := hb (4 + i) (by omega)
  rw [← Nat.add_assoc, ← Nat.add_assoc] at this
  exact this

/-- The names and inode numbers of a directory after the removal of the entry
at `a`: those of before without that entry, each still there once. -/
theorem pairs_after_remove (h : a1fs_h) (fs fs' : fs_ctx) (P a : Nat)
    (hN : fs.num_of_data_blocks < 1048576) (hwf : directory_wf h fs P)
    (hrem : entry_removed h fs fs' P a) (ha : a ∈ dir_entries h fs P)
    (hread : names_readable h fs P) :
    names_readable h fs' P ∧
      (dir_pairs h fs P).Perm
        ((entry_name h fs.data a, read32 fs.data a) :: dir_pairs h fs' P) := by
  have hs := hwf.1
  have hpos : 0 < (fs.inode_table P).num_dir_entry := by
    by_contra hc
    have : (fs.inode_table P).num_dir_entry = 0 := by omega
    unfold dir_entries at ha
    rw [this] at ha
    simp at ha
  obtain ⟨_, hsplit⟩ := last_entry_addr_spec h fs P hN hwf hpos
  have hndE := entries_nodup h fs P hwf
  obtain ⟨hent, hbytes, _⟩ := hrem
  have hfront : dir_entries h fs P = dir_entries h fs' P ++ [last_entry_addr h fs P] := by
    rw [hent]
    conv_lhs => rw [hsplit]
    rw [hsplit, List.dropLast_concat]
  have hlastmem : last_entry_addr h fs P ∈ dir_entries h fs P := by
    rw [hsplit]
    simp
  have hsub : ∀ s, s ∈ dir_entries h fs' P → s ∈ dir_entries h fs P := by
    intro s hsm
    rw [hfront]
    exact List.mem_append_left _ hsm
  have hsig : ∀ s, s ∈ dir_entries h fs' P →
      (if s = a then last_entry_addr h fs P else s) ∈ dir_entries h fs P := by
    intro s hsm
    split_ifs
    · exact hlastmem
    · exact hsub s hsm
  have hname : ∀ s, s ∈ dir_entries h fs' P →
      c_string fs'.data (h.sizeof_dentry - 4) (s + 4)
        = c_string fs.data (h.sizeof_dentry - 4)
            ((if s = a then last_entry_addr h fs P else s) + 4) :=
    fun s hsm => name_field_move h hs _ _ _ _ (hbytes s hsm)
  have hino : ∀ s, s ∈ dir_entries h fs' P →
      read32 fs'.data s = read32 fs.data (if s = a then last_entry_addr h fs P else s) :=
    fun s hsm => read32_move _ _ _ _ (fun k hk => hbytes s hsm k (by omega))
  have hpairs : dir_pairs h fs' P
      = (dir_entries h fs' P).map (fun s =>
          if s = a then (entry_name h fs.data (last_entry_addr h fs P),
            read32 fs.data (last_entry_addr h fs P))
          else (entry_name h fs.data s, read32 fs.data s)) := by
    unfold dir_pairs
    apply List.map_congr_left
    intro s hsm
    unfold entry_name
    rw [hname s hsm, hino s hsm]
    split_ifs <;> rfl
  refine ⟨?_, ?_⟩
  · intro s hsm
    rw [hname s hsm]
    exact hread _ (hsig s hsm)
  · rw [hpairs]
    have hpf : dir_pairs h fs P
        = (dir_entries h fs' P).map (fun s => (entry_name h fs.data s, read32 fs.data s))
          ++ [(entry_name h fs.data (last_entry_addr h fs P),
            read32 fs.data (last_entry_addr h fs P))] := by
      unfold dir_pairs
      conv_lhs => rw [hfront]
      rw [List.map_append, List.map_singleton]
    rw [hpf]
    have hnd' : (dir_entries h fs' P).Nodup := by
      rw [hfront] at hndE
      exact (List.nodup_append.mp hndE).1
    by_cases hal : a = last_entry_addr h fs P
    · have hnot : a ∉ dir_entries h fs' P := by
        rw [hfront] at hndE
        intro hc
        exact (List.nodup_append.mp hndE).2.2 hc (by rw [hal]; exact List.mem_singleton_self _)
      have hmap : (dir_entries h fs' P).map (fun s =>
            if s = a then (entry_name h fs.data (last_entry_addr h fs P),
              read32 fs.data (last_entry_addr h fs P))
            else (entry_name h fs.data s, read32 fs.data s))
          = (dir_entries h fs' P).map (fun s => (entry_name h fs.data s, read32 fs.data s)) := by
        apply List.map_congr_left
        intro s hsm
        have : s ≠ a := fun e => hnot (e ▸ hsm)
        rw [if_neg this]
      rw [hmap, ← hal]
      exact List.perm_append_singleton _ _
    · have hmem : a ∈ dir_entries h fs' P := by
        rw [hfront, List.mem_append, List.mem_singleton] at ha
        rcases ha with ha | ha
        · exact ha
        · exact absurd ha hal
      exact perm_replace (dir_entries h fs' P) a
        (fun s => (entry_name h fs.data s, read32 fs.data s)) _ hnd' hmem

/-! ## The lookup of a child of a directory -/

theorem scan_extent_stop (h : a1fs_h) (m : Mem) (token : List Char) (base n : Nat)
    (hn : n < 4294967296) (k j dc : Nat) (hdc : dc < n) (hk : n ≤ dc + k)
    (hnone : ∀ a ∈ ((List.range' j k).map (fun j => base + j * h.sizeof_dentry)).take (n - dc),
      name_equals m (a + 4) token = false) :
    scan_extent h m token base n k j dc = scan_result.not_found := by
  induction k generalizing j dc with
  | zero => omega
  | succ k ih =>
    have e : n - dc = (n - (dc + 1)) + 1 := by omega
    rw [List.range'_succ, List.map_cons, e, List.take_succ_cons] at hnone
    unfold scan_extent
    rw [strcmp_eq_iff, hnone _ (List.mem_cons_self _ _)]
    have hu : u32 (dc + 1) = dc + 1 := by unfold u32; omega
    rw [hu]
    simp only [Bool.false_eq_true, if_false]
    by_cases hge : dc + 1 ≥ n
    · rw [if_pos hge]
    · rw [if_neg hge]
      exact ih (j + 1) (dc + 1) (by omega) (by omega)
        (fun a ha => hnone a (List.mem_cons_of_mem _ ha))

theorem scan_dir_missing (h : a1fs_h) (fs : fs_ctx) (dir : Nat) (token : List Char)
    (hdiv : h.sizeof_dentry ∣ A1FS_BLOCK_SIZE)
    (hN : fs.num_of_data_blocks < 1048576)
    (hn : (fs.inode_table dir).num_dir_entry < 4294967296) (k i dc : Nat)
    (hb : ∀ x, i ≤ x → x < i + k →
      extent_start fs.data (fs.inode_table dir).indirect_pt x
        + extent_count fs.data (fs.inode_table dir).indirect_pt x ≤ fs.num_of_data_blocks)
    (hdc : dc < (fs.inode_table dir).num_dir_entry)
    (hlen : (fs.inode_table dir).num_dir_entry
      ≤ dc + ((List.range' i k).flatMap
          (extent_slots h fs.data (fs.inode_table dir).indirect_pt)).length)
    (hnone : ∀ a ∈ ((List.range' i k).flatMap
        (extent_slots h fs.data (fs.inode_table dir).indirect_pt)).take
          ((fs.inode_table dir).num_dir_entry - dc),
      name_equals fs.data (a + 4) token = false) :
    scan_dir h fs dir token k i dc = scan_result.not_found := by
  induction k generalizing i dc with
  | zero =>
    simp only [List.range'_zero, List.flatMap_nil, List.length_nil] at hlen
    omega
  | succ k ih =>
    have hbi := hb i (Nat.le_refl _) (by omega)
    have hper : A1FS_BLOCK_SIZE / h.sizeof_dentry * h.sizeof_dentry = A1FS_BLOCK_SIZE :=
      Nat.div_mul_cancel hdiv
    have hperle : A1FS_BLOCK_SIZE / h.sizeof_dentry ≤ A1FS_BLOCK_SIZE :=
      Nat.div_le_self _ _
    have e1 : u32 (extent_start fs.data (fs.inode_table dir).indirect_pt i * A1FS_BLOCK_SIZE)
        = extent_start fs.data (fs.inode_table dir).indirect_pt i * A1FS_BLOCK_SIZE := by
      unfold u32 A1FS_BLOCK_SIZE; omega
    have e2 : u32 (u32 (extent_count fs.data (fs.inode_table dir).indirect_pt i * A1FS_BLOCK_SIZE)
          / h.sizeof_dentry)
        = extent_count fs.data (fs.inode_table dir).indirect_pt i
            * (A1FS_BLOCK_SIZE / h.sizeof_dentry) := by
      have e3 : u32 (extent_count fs.data (fs.inode_table dir).indirect_pt i * A1FS_BLOCK_SIZE)
          = extent_count fs.data (fs.inode_table dir).indirect_pt i * A1FS_BLOCK_SIZE := by
        unfold u32 A1FS_BLOCK_SIZE; omega
      rw [e3, Nat.mul_div_assoc _ hdiv]
      have : extent_count fs.data (fs.inode_table dir).indirect_pt i
          * (A1FS_BLOCK_SIZE / h.sizeof_dentry)
          ≤ extent_count fs.data (fs.inode_table dir).indirect_pt i * A1FS_BLOCK_SIZE :=
        Nat.mul_le_mul_left _ hperle
      unfold u32
      unfold A1FS_BLOCK_SIZE at this ⊢
      omega
    rw [List.range'_succ, List.flatMap_cons, extent_slots_flat h _ _ _] at hlen hnone
    rw [List.length_append, List.length_map, List.length_range'] at hlen
    rw [List.take_append_eq_append_take, List.length_map, List.length_range'] at hnone
    unfold scan_dir
    simp only [e1, e2]
    by_cases hstop : (fs.inode_table dir).num_dir_entry
        ≤ dc + extent_count fs.data (fs.inode_table dir).indirect_pt i
          * (A1FS_BLOCK_SIZE / h.sizeof_dentry)
    · rw [scan_extent_stop h fs.data token _ _ hn _ 0 dc hdc hstop
        (fun a ha => hnone a (List.mem_append_left _ ha))]
    · have htake : ((List.range' 0 (extent_count fs.data (fs.inode_table dir).indirect_pt i
          * (A1FS_BLOCK_SIZE / h.sizeof_dentry))).map
          (fun j => extent_start fs.data (fs.inode_table dir).indirect_pt i * A1FS_BLOCK_SIZE
            + j * h.sizeof_dentry)).take ((fs.inode_table dir).num_dir_entry - dc)
          = (List.range' 0 (extent_count fs.data (fs.inode_table dir).indirect_pt i
          * (A1FS_BLOCK_SIZE / h.sizeof_dentry))).map
          (fun j => extent_start fs.data (fs.inode_table dir).indirect_pt i * A1FS_BLOCK_SIZE
            + j * h.sizeof_dentry) := by
        apply List.take_of_length_le
        simp only [List.length_map, List.length_range']
        omega
      rw [htake] at hnone
      rw [scan_extent_through h fs.data token _ _ hn _ 0 dc (by omega)
        (fun a ha => hnone a (List.mem_append_left _ ha))]
      simp only
      have e4 : (fs.inode_table dir).num_dir_entry - dc
          - extent_count fs.data (fs.inode_table dir).indirect_pt i
            * (A1FS_BLOCK_SIZE / h.sizeof_dentry)
          = (fs.inode_table dir).num_dir_entry
            - (dc + extent_count fs.data (fs.inode_table dir).indirect_pt i
              * (A1FS_BLOCK_SIZE / h.sizeof_dentry)) := by omega
      rw [e4] at hnone
      exact ih (i + 1) _ (fun x hx1 hx2 => hb x (by omega) (by omega)) (by omega) (by omega)
        (fun a ha => hnone a (List.mem_append_right _ ha))

/-- In a well-formed directory with entries the scan of `path_lookup` ends with
the `dir_count` test when `dir_find` finds nothing. -/
theorem directory_wf_scan_missing (h : a1fs_h) (fs : fs_ctx) (dir : Nat) (token : List Char)
    (hN : fs.num_of_data_blocks < 1048576) (hwf : directory_wf h fs dir)
    (hpos : 0 < (fs.inode_table dir).num_dir_entry)
    (hfind : dir_find h fs dir token = none) :
    scan_dir h fs dir token (fs.inode_table dir).extent_num 0 0 = scan_result.not_found := by
  have hbound := directory_wf_bound h fs dir hN hwf
  obtain ⟨hs, _, _, _, hd⟩ := hwf
  have hdiv : h.sizeof_dentry ∣ A1FS_BLOCK_SIZE := by rw [hs]; decide
  obtain ⟨_, _, _, _, hcnt, hle, _, _, hblk⟩ := hd hpos
  have hflat := dir_entry_addrs_extents h fs dir hdiv
  rw [List.range_eq_range'] at hflat
  have hlen := length_dir_entry_addrs h hs fs dir
  rw [hflat] at hlen
  have hnone : ∀ a ∈ dir_entries h fs dir, name_equals fs.data (a + 4) token = false := by
    unfold dir_find at hfind
    cases hf : (dir_entries h fs dir).find? (fun a => name_equals fs.data (a + 4) token) with
    | some v => rw [hf] at hfind; simp at hfind
    | none =>
      rw [List.find?_eq_none] at hf
      intro a ha
      simpa using hf a ha
  unfold dir_entries at hnone
  rw [hflat] at hnone
  apply scan_dir_missing h fs dir token hdiv hN (by omega) _ 0 0 _ hpos (by omega) hnone
  intro x _ hx
  have hc := hcnt x (by omega)
  have hmem : extent_start fs.data (fs.inode_table dir).indirect_pt x
      + (extent_count fs.data (fs.inode_table dir).indirect_pt x - 1) ∈ dir_blocks fs dir := by
    unfold dir_blocks
    rw [List.mem_flatMap]
    refine ⟨x, List.mem_range.mpr (by omega), ?_⟩
    rw [List.mem_map]
    exact ⟨_, List.mem_range.mpr (by omega), rfl⟩
  have := (hblk _ hmem).1
  omega

/-- The lookup of a path whose parent resolves to the well-formed directory `P`:
the inode that `dir_find` finds for the last component, or -1. -/
theorem lookup_child (h : a1fs_h) (fs : fs_ctx) (ts : List (List Char)) (y : List Char)
    (P : Nat) (hN : fs.num_of_data_blocks < 1048576)
    (hl : lookup_tokens h fs ts = some (P : Int))
    (hwf : directory_wf h fs P) (hreg : S_ISREG (fs.inode_table P).mode = false) :
    lookup_tokens h fs (ts ++ [y])
      = some (match dir_find h fs P y with
        | some ino => int_of ino
        | none => -1) := by
  cases hf : dir_find h fs P y with
  | some ino =>
    simp only
    have hpos := dir_find_pos h fs P y ino hf
    have hsize : (fs.inode_table P).size ≠ 0 := by
      rw [hwf.2.1]
      omega
    exact lookup_tokens_snoc_found h fs ts y P ino hl hsize hreg
      (directory_wf_scan h fs P y ino hN hwf hf)
  | none =>
    simp only
    by_cases hn0 : (fs.inode_table P).num_dir_entry = 0
    · have he0 := (hwf.2.2.2.1 hn0).1
      by_cases hne : ts = []
      · subst hne
        simp only [lookup_tokens, Option.some.injEq, ROOT_INODE] at hl
        have hP : P = 0 := by omega
        subst hP
        simp only [List.nil_append]
        rw [lookup_tokens_cons]
        simp only [ROOT_INODE]
        rw [he0]
        simp [scan_dir, lookup_rest]
      · rw [lookup_tokens_snoc h fs ts y P hne hl]
        apply lookup_rest_single_missing h fs P y hreg
        left
        rw [hwf.2.1, hn0]
    · have hscan := directory_wf_scan_missing h fs P y hN hwf (by omega) hf
      by_cases hne : ts = []
      · subst hne
        simp only [lookup_tokens, Option.some.injEq, ROOT_INODE] at hl
        have hP : P = 0 := by omega
        subst hP
        simp only [List.nil_append]
        rw [lookup_tokens_cons]
        simp only [ROOT_INODE]
        rw [hscan]
      · rw [lookup_tokens_snoc h fs ts y P hne hl]
        exact lookup_rest_single_missing h fs P y hreg (Or.inr hscan)

theorem find?_congr_mem (l : List Nat) (p q : Nat → Bool) (hpq : ∀ a ∈ l, p a = q a) :
    l.find? p = l.find? q := by
  induction l with
  | nil => rfl
  | cons b l ih =>
    rw [List.find?_cons, List.find?_cons, hpq b (List.mem_cons_self _ _),
      ih (fun a ha => hpq a (List.mem_cons_of_mem _ ha))]

/-- The search `dir_find` in terms of the names that `a1fs_readdir` lists. -/
theorem dir_find_eq_pairs (h : a1fs_h) (fs : fs_ctx) (dir : Nat) (y : List Char)
    (hnul : ∀ c ∈ y, c.toNat ≠ 0) (hread : names_readable h fs dir) :
    dir_find h fs dir y
      = ((dir_pairs h fs dir).find? (fun p => decide (p.1 = y.map Char.toNat))).map
          Prod.snd := by
  unfold dir_find dir_pairs
  rw [List.find?_map, Option.map_map]
  have hc : (dir_entries h fs dir).find? (fun a => name_equals fs.data (a + 4) y)
      = (dir_entries h fs dir).find?
          ((fun p : List Nat × Nat => decide (p.1 = y.map Char.toNat)) ∘
            (fun a => (entry_name h fs.data a, read32 fs.data a))) := by
    apply find?_congr_mem
    intro a ha
    simp only [Function.comp]
    have := name_equals_iff_entry_name h fs.data a y hnul (hread a ha)
    by_cases hb : name_equals fs.data (a + 4) y = true
    · rw [hb]
      simp [this.mp hb]
    · have hne : ¬ entry_name h fs.data a = y.map Char.toNat := fun e => hb (this.mpr e)
      simp only [Bool.not_eq_true] at hb
      rw [hb]
      simp [hne]
  rw [hc]
  rfl

theorem find_key_unique (l : List (List Nat × Nat)) (p : List Nat × Nat)
    (hnd : (l.map Prod.fst).Nodup) (hp : p ∈ l) :
    l.find? (fun q => decide (q.1 = p.1)) = some p := by
  induction l with
  | nil => simp at hp
  | cons b l ih =>
    rw [List.map_cons, List.nodup_cons] at hnd
    rw [List.find?_cons]
    by_cases hb : b.1 = p.1
    · simp only [hb, decide_True]
      rw [List.mem_cons] at hp
      rcases hp with hp | hp
      · rw [hp]
      · exfalso
        apply hnd.1
        rw [hb]
        exact List.mem_map_of_mem Prod.fst hp
    · simp only [hb, decide_False]
      rw [List.mem_cons] at hp
      rcases hp with hp | hp
      · exact absurd (by rw [hp]) hb
      · exact ih hnd.2 hp

theorem find_key_none (l : List (List Nat × Nat)) (y : List Nat)
    (hno : ∀ p ∈ l, p.1 ≠ y) : l.find? (fun q => decide (q.1 = y)) = none := by
  rw [List.find?_eq_none]
  intro p hp
  simpa using hno p hp

/-- Searching by name in a list of entries with distinct names, before and
after one entry is taken out. -/
theorem find_key_perm (l1 l2 : List (List Nat × Nat)) (px : List Nat × Nat)
    (hperm : l1.Perm (px :: l2)) (hnd : (l1.map Prod.fst).Nodup) :
    px.1 ∉ l2.map Prod.fst ∧ (l2.map Prod.fst).Nodup ∧
      ∀ y, y ≠ px.1 →
        (l1.find? (fun q => decide (q.1 = y))).map Prod.snd
          = (l2.find? (fun q => decide (q.1 = y))).map Prod.snd := by
  have hnd2 : ((px :: l2).map Prod.fst).Nodup := (hperm.map Prod.fst).nodup_iff.mp hnd
  rw [List.map_cons, List.nodup_cons] at hnd2
  refine ⟨hnd2.1, hnd2.2, ?_⟩
  intro y hy
  cases hf : l2.find? (fun q => decide (q.1 = y)) with
  | some p =>
    have hp2 : p ∈ l2 := List.mem_of_find?_eq_some hf
    have hpy : p.1 = y := by simpa using List.find?_some hf
    have hp1 : p ∈ l1 := hperm.mem_iff.mpr (List.mem_cons_of_mem _ hp2)
    rw [← hpy, find_key_unique l1 p hnd hp1]
  | none =>
    rw [List.find?_eq_none] at hf
    rw [find_key_none l1 y]
    intro p hp
    have := hperm.mem_iff.mp hp
    rw [List.mem_cons] at this
    rcases this with e | hm
    · rw [e]; exact fun e2 => hy e2.symm
    · simpa using hf p hm

/-! ## The listing after `a1fs_mkdir` and `a1fs_rmdir` -/

theorem u32_of_int_int_of (n : Nat) (hn : n < 4294967296) : u32_of_int (int_of n) = n := by
  unfold u32_of_int int_of
  split_ifs <;> omega

theorem dir_entries_congr (h : a1fs_h) (fs fs2 : fs_ctx) (dir : Nat)
    (hd : fs2.data = fs.data)
    (he : (fs2.inode_table dir).extent_num = (fs.inode_table dir).extent_num)
    (hn : (fs2.inode_table dir).num_dir_entry = (fs.inode_table dir).num_dir_entry)
    (hp : (fs2.inode_table dir).indirect_pt = (fs.inode_table dir).indirect_pt) :
    dir_entries h fs2 dir = dir_entries h fs dir := by
  have hblocks : dir_blocks fs2 dir = dir_blocks fs dir := by
    apply dir_blocks_congr fs fs2 dir he
    intro i _
    rw [hd, hp]
    exact ⟨rfl, rfl⟩
  unfold dir_entries dir_entry_addrs
  rw [hblocks, hn]

theorem dir_entries_set_mtime (h : a1fs_h) (fs : fs_ctx) (P : Nat) (t : timespec) :
    dir_entries h (set_mtime fs P t) P = dir_entries h fs P := by
  apply dir_entries_congr h fs (set_mtime fs P t) P rfl
  all_goals rw [set_mtime_record]

theorem directory_wf_set_mtime (h : a1fs_h) (fs : fs_ctx) (P : Nat) (t : timespec)
    (hwf : directory_wf h fs P) : directory_wf h (set_mtime fs P t) P := by
  apply directory_wf_congr h fs (set_mtime fs P t) P rfl rfl rfl _ _ _ _ _ hwf
  all_goals rw [set_mtime_record]

theorem dir_pairs_fst (h : a1fs_h) (fs : fs_ctx) (dir : Nat) :
    (dir_pairs h fs dir).map Prod.fst = dir_names h fs dir := by
  unfold dir_pairs dir_names
  rw [List.map_map]
  rfl

/-- The steps of a successful `a1fs_rmdir` of a path that resolves to the inode
`t` under the directory `P`. -/
theorem rmdir_ok (h : a1fs_h) (fs fs1 : fs_ctx) (now : timespec) (path : String)
    (parent_dir : List Char) (P t : Nat)
    (hpar : extract_parent_path path.toList h.A1FS_PATH_MAX = some parent_dir)
    (hP : path_lookup h fs (String.mk parent_dir) = some (P : Int)) (hP32 : P < 4294967296)
    (hlook : path_lookup h fs path = some (int_of t)) (ht : t < 4294967296)
    (hr : a1fs_rmdir h fs now path = some (0, fs1)) :
    remove_entry h (set_mtime fs P now) P t true = some (0, fs1) := by
  unfold a1fs_rmdir at hr
  rw [hpar] at hr
  simp only at hr
  rw [hP] at hr
  simp only at hr
  rw [u32_of_int_natCast P hP32, path_lookup_set_mtime, hlook] at hr
  simp only at hr
  rw [u32_of_int_int_of t ht] at hr
  by_cases hsz : ((set_mtime fs P now).inode_table t).size ≠ 0
  · rw [if_pos hsz] at hr
    simp only [Option.some.injEq, Prod.mk.injEq] at hr
    exact absurd hr.1 (by decide)
  · rw [if_neg hsz] at hr
    exact hr

/-- What `a1fs_readdir` returns for a path that resolves to a well-formed
directory whose entries hold strings. -/
theorem readdir_names (h : a1fs_h) (fs : fs_ctx) (path : String) (P : Nat)
    (hN : fs.num_of_data_blocks < 1048576)
    (hP : path_lookup h fs path = some (P : Int))
    (hwf : directory_wf h fs P) (hread : names_readable h fs P) :
    a1fs_readdir h fs path = some (0, [46] :: [46, 46] :: dir_names h fs P) := by
  unfold a1fs_readdir
  rw [hP]
  simp only
  rw [if_neg (by omega), Int.toNat_ofNat, list_dir_names h fs P hN hwf hread]

theorem take_inode_entries (h : a1fs_h) (fs : fs_ctx) (new_dir : a1fs_inode) (P : Nat)
    (now : timespec)
    (hP : P ≠ get_first_available_position h fs.num_inodes fs.inode_bitmap) :
    dir_entries h (set_mtime (take_inode h fs new_dir) P now) P = dir_entries h fs P := by
  apply dir_entries_congr h fs (set_mtime (take_inode h fs new_dir) P now) P rfl
  all_goals rw [take_inode_parent h fs new_dir P now hP]

/-- The listing of the parent directory after a successful `a1fs_mkdir`. -/
theorem mkdir_listing (h : a1fs_h) (fs fs' : fs_ctx) (now_child now_parent : timespec)
    (g : locals) (path : String) (mode : Nat) (parent_dir name : List Char) (P : Nat)
    (hsp : space_wf fs)
    (hpar : extract_parent_path path.toList h.A1FS_PATH_MAX = some parent_dir)
    (hname : extract_child_path path.toList = some name) (hne : name ≠ [])
    (hnul : ∀ c ∈ name, c.toNat ≠ 0)
    (hP : path_lookup h fs (String.mk parent_dir) = some (P : Int))
    (hPuse : is_bit_set P fs.inode_bitmap = 1)
    (hPdir : S_ISREG (fs.inode_table P).mode = false)
    (hwf : directory_wf h fs P) (hgrow : dir_can_grow fs P)
    (hind : path_independent_of_dir h fs (String.mk parent_dir) P)
    (hread : names_readable h fs P)
    (habs : dir_find h fs P name = none)
    (hr : a1fs_mkdir h fs now_child now_parent g path mode = some (0, fs')) :
    a1fs_readdir h fs' (String.mk parent_dir)
        = some (0, [46] :: [46, 46] :: (dir_names h fs P ++ [name.map Char.toNat])) ∧
      name.map Char.toNat ∉ dir_names h fs P := by
  obtain ⟨hav, _, pd, nm, r, hpd, hnm, hl, _, hadd⟩ :=
    mkdir_ok h fs fs' now_child now_parent g path mode hr
  rw [hpar] at hpd
  rw [hname] at hnm
  simp only [Option.some.injEq] at hpd hnm
  subst hpd
  subst hnm
  rw [take_inode_lookup h fs _ P _ hsp hav hind, hP] at hl
  simp only [Option.some.injEq] at hl
  subst hl
  rw [Int.toNat_ofNat] at hadd
  have hfit := add_entry_name_fits h _ fs' P _ name g.new_entry true hadd
  rw [hwf.1] at hfit
  obtain ⟨_, hnewbit, _, hpl, _, a, hadded, _, _, _, _⟩ :=
    new_entry_resolves h fs fs' _ P name g.new_entry true now_parent parent_dir path
      h.A1FS_PATH_MAX hsp hav hP hPuse hPdir hwf hgrow hind hpar hname hne habs hadd
  have hPnew : P ≠ get_first_available_position h fs.num_inodes fs.inode_bitmap := by
    intro e
    rw [← e, hPuse] at hnewbit
    exact absurd hnewbit (by decide)
  have hent0 : dir_entries h (set_mtime (take_inode h fs
      ⟨u32 (mode ||| S_IFDIR), 2, 0, now_child, 0, 0, g.new_dir.indirect_pt⟩) P now_parent) P
      = dir_entries h fs P := take_inode_entries h fs _ P now_parent hPnew
  have hread0 : names_readable h (set_mtime (take_inode h fs
      ⟨u32 (mode ||| S_IFDIR), 2, 0, now_child, 0, 0, g.new_dir.indirect_pt⟩) P now_parent) P := by
    unfold names_readable
    rw [hent0]
    exact hread
  have hnames0 : dir_names h (set_mtime (take_inode h fs
      ⟨u32 (mode ||| S_IFDIR), 2, 0, now_child, 0, 0, g.new_dir.indirect_pt⟩) P now_parent) P
      = dir_names h fs P := by
    unfold dir_names
    rw [hent0]
    rfl
  obtain ⟨hread1, hnames1, _⟩ := names_after_add h _ fs' P _ name a hadded (by omega) hnul hread0
  have hN1 : fs'.num_of_data_blocks < 1048576 := by
    rw [hadded.2.2.2.2.2.2.2.2.2.2.2.2.2.1]
    exact hsp.1
  have hwf1 := hadded.2.2.2.2.2.2.2.2.2.2.2.2.2.2
  refine ⟨?_, not_listed_of_dir_find_none h fs P name hnul hread habs⟩
  rw [readdir_names h fs' _ P hN1 hpl hwf1 hread1, hnames1, hnames0]

/-- The parent directory after a successful `a1fs_rmdir` of one of its
entries. -/
theorem rmdir_listing (h : a1fs_h) (fs fs1 : fs_ctx) (now : timespec) (path : String)
    (parent_dir name : List Char) (P t : Nat)
    (hsp : space_wf fs)
    (hpar : extract_parent_path path.toList h.A1FS_PATH_MAX = some parent_dir)
    (hname : extract_child_path path.toList = some name) (hne : name ≠ [])
    (hnul : ∀ c ∈ name, c.toNat ≠ 0)
    (hP : path_lookup h fs (String.mk parent_dir) = some (P : Int))
    (hPN : P < fs.num_inodes)
    (hPdir : S_ISREG (fs.inode_table P).mode = false)
    (hwf : directory_wf h fs P)
    (hind : path_independent_of_dir h fs (String.mk parent_dir) P)
    (hread : names_readable h fs P) (hdist : entries_distinct h fs P)
    (hfind : dir_find h fs P name = some t)
    (hr : a1fs_rmdir h fs now path = some (0, fs1)) :
    a1fs_readdir h fs1 (String.mk parent_dir) = some (0, [46] :: [46, 46] :: dir_names h fs1 P) ∧
      (dir_pairs h fs P).Perm ((name.map Char.toNat, t) :: dir_pairs h fs1 P) ∧
      (dir_names h fs P).Perm (name.map Char.toNat :: dir_names h fs1 P) ∧
      name.map Char.toNat ∉ dir_names h fs1 P ∧ (dir_names h fs1 P).Nodup ∧
      path_lookup h fs1 path = some (-1) ∧
      ∀ (path2 : String) (name2 : List Char),
        extract_parent_path path2.toList h.A1FS_PATH_MAX = some parent_dir →
        extract_child_path path2.toList = some name2 → name2 ≠ [] → name2 ≠ name →
        (∀ c ∈ name2, c.toNat ≠ 0) →
        path_lookup h fs1 path2 = path_lookup h fs path2 := by
  have hN := hsp.1
  have hP32 : P < 4294967296 := by
    have := hsp.2.2.1
    omega
  obtain ⟨a, hfa, ha, hat⟩ := dir_find_mem h fs P name t hfind
  have hnea : name_equals fs.data (a + 4) name = true := by
    have := List.find?_some hfa
    simpa using this
  have hnamea : entry_name h fs.data a = name.map Char.toNat :=
    (name_equals_iff_entry_name h fs.data a name hnul (hread a ha)).mp hnea
  have e : (String.mk parent_dir).toList = parent_dir := rfl
  have hhead : parent_dir.head? = some '/' := by
    by_contra hc
    rw [path_lookup_eq_tokens, e, if_pos hc] at hP
    simp only [Option.some.injEq] at hP
    omega
  have hhead2 := (parent_head path.toList parent_dir _ hpar).mpr hhead
  obtain ⟨htok, _⟩ := tokens_parent_child path.toList parent_dir name _ hpar hname hne
  have hlt : lookup_tokens h fs (strtok_tokens parent_dir []) = some (P : Int) := by
    rw [path_lookup_eq_tokens, e, if_neg (by rw [hhead]; simp)] at hP
    exact hP
  have hlook : path_lookup h fs path = some (int_of t) := by
    rw [path_lookup_eq_tokens, if_neg (by rw [hhead2]; simp), htok,
      lookup_child h fs _ name P hN hlt hwf hPdir, hfind]
  have ht32 : t < 4294967296 := by
    rw [← hat]
    exact read32_lt _ _
  have hrem0 := rmdir_ok h fs fs1 now path parent_dir P t hpar hP hP32 hlook ht32 hr
  have hwf0 := directory_wf_set_mtime h fs P now hwf
  have hent0 := dir_entries_set_mtime h fs P now
  have ha0 : a ∈ dir_entries h (set_mtime fs P now) P := by rw [hent0]; exact ha
  have hinos0 : ((dir_entries h (set_mtime fs P now) P).map
      (read32 (set_mtime fs P now).data)).Nodup := by
    rw [hent0]
    exact hdist.2
  have hread0 : names_readable h (set_mtime fs P now) P := by
    unfold names_readable
    rw [hent0]
    exact hread
  obtain ⟨fs2, hrem2, hremd⟩ :=
    remove_entry_removed h (set_mtime fs P now) P t a true hN hwf0 hinos0 ha0 hat
  rw [hrem0] at hrem2
  simp only [Option.some.injEq, Prod.mk.injEq, true_and] at hrem2
  subst hrem2
  obtain ⟨hread1, hperm0⟩ := pairs_after_remove h (set_mtime fs P now) fs1 P a hN hwf0 hremd ha0 hread0
  have hpairs0 : dir_pairs h (set_mtime fs P now) P = dir_pairs h fs P := by
    unfold dir_pairs
    rw [hent0]
    rfl
  have hperm : (dir_pairs h fs P).Perm ((name.map Char.toNat, t) :: dir_pairs h fs1 P) := by
    rw [← hpairs0, ← hnamea, ← hat]
    exact hperm0
  obtain ⟨_, _, hframe, hother, hmode, _, hnb, hwf1⟩ := hremd
  have hN1 : fs1.num_of_data_blocks < 1048576 := by
    rw [hnb]
    exact hN
  have hpl1 : path_lookup h fs1 (String.mk parent_dir) = some (P : Int) := by
    rw [← hP]
    apply hind
    · intro k hk _
      rw [hother k hk, set_mtime_other fs P k now hk]
    · intro x hbit hown
      apply hframe x hbit
      intro hc
      apply hown
      apply dir_owns_congr fs (set_mtime fs P now) P _ rfl _ _ _ hc
      all_goals rw [set_mtime_record]
  have hlt1 : lookup_tokens h fs1 (strtok_tokens parent_dir []) = some (P : Int) := by
    rw [path_lookup_eq_tokens, e, if_neg (by rw [hhead]; simp)] at hpl1
    exact hpl1
  have hreg1 : S_ISREG (fs1.inode_table P).mode = false := by
    rw [hmode, set_mtime_record]
    exact hPdir
  have hnd : ((dir_pairs h fs P).map Prod.fst).Nodup := by
    rw [dir_pairs_fst]
    exact hdist.1
  obtain ⟨hnot, hnd1, hsame⟩ := find_key_perm _ _ _ hperm hnd
  simp only at hnot hsame
  rw [dir_pairs_fst] at hnot hnd1
  have hnone1 : dir_find h fs1 P name = none := by
    rw [dir_find_eq_pairs h fs1 P name hnul hread1, find_key_none]
    · rfl
    · intro p hp hc
      apply hnot
      rw [← hc, ← dir_pairs_fst]
      exact List.mem_map_of_mem Prod.fst hp
  refine ⟨readdir_names h fs1 _ P hN1 hpl1 hwf1 hread1, hperm, ?_, hnot, hnd1, ?_, ?_⟩
  · have := hperm.map Prod.fst
    rw [List.map_cons, dir_pairs_fst, dir_pairs_fst] at this
    exact this
  · rw [path_lookup_eq_tokens, if_neg (by rw [hhead2]; simp), htok,
      lookup_child h fs1 _ name P hN1 hlt1 hwf1 hreg1, hnone1]
  · intro path2 name2 hpar2 hname2 hne2 hneq hnul2
    have hh2 := (parent_head path2.toList parent_dir _ hpar2).mpr hhead
    obtain ⟨htok2, _⟩ := tokens_parent_child path2.toList parent_dir name2 _ hpar2 hname2 hne2
    have hy : name2.map Char.toNat ≠ name.map Char.toNat := by
      intro hc
      exact hneq (List.map_injective_iff.mpr char_toNat_injective hc)
    rw [path_lookup_eq_tokens, path_lookup_eq_tokens, if_neg (by rw [hh2]; simp),
      if_neg (by rw [hh2]; simp), htok2,
      lookup_child h fs1 _ name2 P hN1 hlt1 hwf1 hreg1,
      lookup_child h fs _ name2 P hN hlt hwf hPdir,
      dir_find_eq_pairs h fs1 P name2 hnul2 hread1,
      dir_find_eq_pairs h fs P name2 hnul2 hread, hsame _ hy]

set_option maxRecDepth 100000 in
theorem space_wf_fs_two : space_wf fs_two := by
  unfold space_wf
  decide

set_option maxRecDepth 100000 in
theorem directory_wf_fs_two : directory_wf hdr fs_two ROOT_INODE := by
  unfold directory_wf
  decide

set_option maxRecDepth 100000 in
theorem names_readable_fs_two : names_readable hdr fs_two ROOT_INODE := by
  unfold names_readable
  decide

set_option maxRecDepth 100000 in
theorem entries_distinct_fs_two : entries_distinct hdr fs_two ROOT_INODE := by
  unfold entries_distinct
  decide

/-! ## The shape of a directory -/

theorem length_dir_blocks (fs : fs_ctx) (dir : Nat) :
    (dir_blocks fs dir).length = extent_blocks fs dir := by
  unfold dir_blocks extent_blocks
  rw [List.length_flatMap]
  congr 1
  apply List.map_congr_left
  intro i _
  simp

/-- A well-formed directory has the shape of a directory. -/
theorem directory_shape_of_wf (h : a1fs_h) (fs : fs_ctx) (dir : Nat)
    (hwf : directory_wf h fs dir) : directory_shape h fs dir := by
  obtain ⟨hs, hsize, _, h0, hd⟩ := hwf
  unfold directory_shape
  rw [hs, ← length_dir_blocks]
  refine ⟨hsize, ?_⟩
  unfold A1FS_BLOCK_SIZE
  by_cases hpos : 0 < (fs.inode_table dir).num_dir_entry
  · obtain ⟨_, _, _, _, _, hle, hlt, _⟩ := hd hpos
    omega
  · have hz : (fs.inode_table dir).num_dir_entry = 0 := by omega
    rw [dir_blocks_nil fs dir (h0 hz).1, hz]
    rfl

/-- The bitmap and the counter that `remove_entry` leaves when it takes the
only entry of the directory. -/
theorem remove_entry_only (h : a1fs_h) (fs fs' : fs_ctx) (P t : Nat) (dir : Bool) (r : Int)
    (hone : (fs.inode_table P).num_dir_entry = 1)
    (hr : remove_entry h fs P t dir = some (r, fs')) :
    fs'.data_bitmap = unset_bitmap (unset_bitmap fs.data_bitmap (find_last_block fs P))
        (get_num_of_block (fs.inode_table P).indirect_pt) ∧
      fs'.available_blocks = u32 (u32 (fs.available_blocks + 1) + 1) := by
  unfold remove_entry at hr
  simp only at hr
  cases hte : take_entry h fs P t with
  | none => rw [hte] at hr; simp at hr
  | some v =>
    rw [hte] at hr
    simp only at hr
    rw [if_pos hone] at hr
    simp only [Option.some.injEq, Prod.mk.injEq] at hr
    obtain ⟨_, hfs⟩ := hr
    subst hfs
    exact ⟨rfl, rfl⟩

/-- The blocks of a directory with one entry are free when the bits of its last
block and of the block of its extent array were cleared. -/
theorem owned_blocks_cleared (h : a1fs_h) (fs : fs_ctx) (P : Nat) (bm0 bm : Mem)
    (hN : fs.num_of_data_blocks < 1048576) (hwf : directory_wf h fs P)
    (hone : (fs.inode_table P).num_dir_entry = 1)
    (hbm : bm = unset_bitmap (unset_bitmap bm0 (find_last_block fs P))
        (get_num_of_block (fs.inode_table P).indirect_pt)) :
    ∀ b, dir_owns fs P b → is_bit_set b bm = 0 := by
  have hpos : 0 < (fs.inode_table P).num_dir_entry := by omega
  obtain ⟨front, hfront, _⟩ := dir_blocks_last h fs P hN hwf hpos
  obtain ⟨_, _, _, _, hd⟩ := hwf
  obtain ⟨_, _, hXN, _, _, hle, hlt, _, _⟩ := hd hpos
  have hlen : (dir_blocks fs P).length = 1 := by omega
  have hfn : front = [] := by
    rw [hfront] at hlen
    simp at hlen
    exact hlen
  rw [hfn, List.nil_append] at hfront
  have hX : get_num_of_block (fs.inode_table P).indirect_pt
      = (fs.inode_table P).indirect_pt / A1FS_BLOCK_SIZE := by
    unfold get_num_of_block u32
    exact Nat.mod_eq_of_lt (by omega)
  intro b hb
  rw [hbm, hX]
  by_cases hbX : b = (fs.inode_table P).indirect_pt / A1FS_BLOCK_SIZE
  · rw [hbX, is_bit_set_unset_same]
  · rw [is_bit_set_unset_other _ _ _ hbX]
    rcases hb with hb | hb
    · rw [hfront, List.mem_singleton] at hb
      rw [hb, is_bit_set_unset_same]
    · exact absurd hb.2 hbX

/-- The state that `a1fs_mkdir` and `a1fs_create` reach when they have taken
the first free inode and added its entry to the directory `P`. -/
theorem new_entry_added (h : a1fs_h) (fs fs' : fs_ctx) (new_dir : a1fs_inode)
    (P : Nat) (name : List Char) (g : Mem) (dir : Bool) (now : timespec)
    (hsp : space_wf fs) (hav : fs.available_inodes ≠ 0)
    (hPuse : is_bit_set P fs.inode_bitmap = 1)
    (hwf : directory_wf h fs P) (hgrow : dir_can_grow fs P)
    (hr : add_entry h (set_mtime (take_inode h fs new_dir) P now) P
      (get_first_available_position h fs.num_inodes fs.inode_bitmap) name g dir
        = some (0, fs')) :
    get_first_available_position h fs.num_inodes fs.inode_bitmap < fs.num_inodes ∧
      is_bit_set (get_first_available_position h fs.num_inodes fs.inode_bitmap)
        fs.inode_bitmap = 0 ∧
      fs'.inode_table (get_first_available_position h fs.num_inodes fs.inode_bitmap)
        = new_dir ∧
      (fs'.inode_table P).links
        = (if dir then u32 ((fs.inode_table P).links + 1) else (fs.inode_table P).links) ∧
      ∃ a, entry_added h (set_mtime (take_inode h fs new_dir) P now) fs' P
          (get_first_available_position h fs.num_inodes fs.inode_bitmap) name a := by
  obtain ⟨hnewN, hnewbit, hsub, hN31⟩ := alloc_inode h fs hsp hav
  have hPnew : P ≠ get_first_available_position h fs.num_inodes fs.inode_bitmap := by
    intro e
    rw [← e, hPuse] at hnewbit
    exact absurd hnewbit (by decide)
  have hrecP := take_inode_parent h fs new_dir P now hPnew
  have hsp0 := take_inode_space h fs new_dir P now hsp hav
  have hwf0 : directory_wf h (set_mtime (take_inode h fs new_dir) P now) P := by
    apply directory_wf_congr h fs (set_mtime (take_inode h fs new_dir) P now) P rfl rfl rfl
      _ _ _ _ _ hwf
    all_goals rw [hrecP]
  have hflb0 : find_last_block (set_mtime (take_inode h fs new_dir) P now) P
      = find_last_block fs P := by
    apply find_last_block_congr
    · rw [hrecP]
    · rw [hrecP]; rfl
    · rw [hrecP]; rfl
  have hgrow0 : dir_can_grow (set_mtime (take_inode h fs new_dir) P now) P := by
    unfold dir_can_grow at hgrow ⊢
    rw [hflb0, hrecP]
    exact hgrow
  obtain ⟨a, hadd, hblocks, hlinks, hfit⟩ :=
    add_entry_added h _ fs' P _ name g dir hsp0 hwf0 hgrow0 (by omega) hr
  have hadd0 := hadd
  obtain ⟨_, _, _, _, _, hframe, hother, hmode, _, hnum, _, _, _, hnb, hwf'⟩ := hadd
  have hnew' : fs'.inode_table (get_first_available_position h fs.num_inodes fs.inode_bitmap)
      = new_dir := by
    rw [hother _ (Ne.symm hPnew), take_inode_other h fs new_dir P _ now (Ne.symm hPnew),
      if_pos rfl]
  refine ⟨hnewN, hnewbit, hnew', ?_, a, hadd0⟩
  rw [hlinks, hrecP]

/-- A successful `a1fs_mkdir` under the directory `P` adds an entry to `P`. -/
theorem mkdir_adds (h : a1fs_h) (fs fs' : fs_ctx) (now_child now_parent : timespec)
    (g : locals) (path : String) (mode : Nat) (parent_dir : List Char) (P : Nat)
    (hsp : space_wf fs)
    (hpar : extract_parent_path path.toList h.A1FS_PATH_MAX = some parent_dir)
    (hP : path_lookup h fs (String.mk parent_dir) = some (P : Int))
    (hind : path_independent_of_dir h fs (String.mk parent_dir) P)
    (hr : a1fs_mkdir h fs now_child now_parent g path mode = some (0, fs')) :
    fs.available_inodes ≠ 0 ∧
    ∃ name, add_entry h
      (set_mtime
        (take_inode h fs ⟨u32 (mode ||| S_IFDIR), 2, 0, now_child, 0, 0, g.new_dir.indirect_pt⟩)
        P now_parent)
      P (get_first_available_position h fs.num_inodes fs.inode_bitmap) name
      g.new_entry true = some (0, fs') := by
  obtain ⟨hav, _, pd, nm, r, hpd, hnm, hl, _, hadd⟩ :=
    mkdir_ok h fs fs' now_child now_parent g path mode hr
  rw [hpar] at hpd
  simp only [Option.some.injEq] at hpd
  subst hpd
  rw [take_inode_lookup h fs _ P _ hsp hav hind, hP] at hl
  simp only [Option.some.injEq] at hl
  subst hl
  rw [Int.toNat_ofNat] at hadd
  exact ⟨hav, nm, hadd⟩

/-- A successful `a1fs_create` under the directory `P` adds an entry to `P`. -/
theorem create_adds (h : a1fs_h) (fs fs' : fs_ctx) (now : timespec)
    (g : locals) (path : String) (mode : Nat) (parent_dir : List Char) (P : Nat)
    (hsp : space_wf fs)
    (hpar : extract_parent_path path.toList h.A1FS_NAME_MAX = some parent_dir)
    (hP : path_lookup h fs (String.mk parent_dir) = some (P : Int))
    (hind : path_independent_of_dir h fs (String.mk parent_dir) P)
    (hr : a1fs_create h fs now g path mode = some (0, fs')) :
    fs.available_inodes ≠ 0 ∧
    ∃ name, add_entry h
      (set_mtime
        (take_inode h fs ⟨u32 mode, 1, 0, g.new_dir.mtime, 0, 0, g.new_dir.indirect_pt⟩)
        P now)
      P (get_first_available_position h fs.num_inodes fs.inode_bitmap) name
      g.new_entry false = some (0, fs') := by
  obtain ⟨hav, _, pd, nm, r, hpd, hnm, hl, _, hadd⟩ :=
    create_ok h fs fs' now g path mode hr
  rw [hpar] at hpd
  simp only [Option.some.injEq] at hpd
  subst hpd
  rw [take_inode_lookup h fs _ P _ hsp hav hind, hP] at hl
  simp only [Option.some.injEq] at hl
  subst hl
  rw [Int.toNat_ofNat] at hadd
  exact ⟨hav, nm, hadd⟩

/-- A successful `a1fs_rmdir` of the entry `name` of the directory `P` takes
that entry out of `P`. -/
theorem rmdir_removes (h : a1fs_h) (fs fs' : fs_ctx) (now : timespec) (path : String)
    (parent_dir name : List Char) (P t : Nat)
    (hN : fs.num_of_data_blocks < 1048576)
    (hpar : extract_parent_path path.toList h.A1FS_PATH_MAX = some parent_dir)
    (hname : extract_child_path path.toList = some name) (hne : name ≠ [])
    (hP : path_lookup h fs (String.mk parent_dir) = some (P : Int))
    (hPdir : S_ISREG (fs.inode_table P).mode = false)
    (hwf : directory_wf h fs P)
    (hinos : ((dir_entries h fs P).map (read32 fs.data)).Nodup)
    (hfind : dir_find h fs P name = some t)
    (hr : a1fs_rmdir h fs now path = some (0, fs')) :
    remove_entry h (set_mtime fs P now) P t true = some (0, fs') ∧
    ∃ a, a ∈ dir_entries h fs P ∧ read32 fs.data a = t ∧
      entry_removed h (set_mtime fs P now) fs' P a := by
  have hP32 : P < 4294967296 := by
    have := path_lookup_lt h fs _ _ hP
    omega
  obtain ⟨a, hfa, ha, hat⟩ := dir_find_mem h fs P name t hfind
  have e : (String.mk parent_dir).toList = parent_dir := rfl
  have hhead : parent_dir.head? = some '/' := by
    by_contra hc
    rw [path_lookup_eq_tokens, e, if_pos hc] at hP
    simp only [Option.some.injEq] at hP
    omega
  have hhead2 := (parent_head path.toList parent_dir _ hpar).mpr hhead
  obtain ⟨htok, _⟩ := tokens_parent_child path.toList parent_dir name _ hpar hname hne
  have hlt : lookup_tokens h fs (strtok_tokens parent_dir []) = some (P : Int) := by
    rw [path_lookup_eq_tokens, e, if_neg (by rw [hhead]; simp)] at hP
    exact hP
  have hlook : path_lookup h fs path = some (int_of t) := by
    rw [path_lookup_eq_tokens, if_neg (by rw [hhead2]; simp), htok,
      lookup_child h fs _ name P hN hlt hwf hPdir, hfind]
  have ht32 : t < 4294967296 := by
    rw [← hat]
    exact read32_lt _ _
  have hrem0 := rmdir_ok h fs fs' now path parent_dir P t hpar hP hP32 hlook ht32 hr
  have hwf0 := directory_wf_set_mtime h fs P now hwf
  have hent0 := dir_entries_set_mtime h fs P now
  have ha0 : a ∈ dir_entries h (set_mtime fs P now) P := by rw [hent0]; exact ha
  have hinos0 : ((dir_entries h (set_mtime fs P now) P).map
      (read32 (set_mtime fs P now).data)).Nodup := by
    rw [hent0]
    exact hinos
  obtain ⟨fs2, hrem2, hremd⟩ :=
    remove_entry_removed h (set_mtime fs P now) P t a true hN hwf0 hinos0 ha0 hat
  rw [hrem0] at hrem2
  simp only [Option.some.injEq, Prod.mk.injEq, true_and] at hrem2
  subst hrem2
  exact ⟨hrem0, a, ha, hat, hremd⟩

/-- The data bitmap and the counter of available blocks have no part in what
`remove_entry` does to the rest of the state. -/
theorem remove_entry_bitmaps (h : a1fs_h) (fs fs' : fs_ctx) (bm : Mem) (av : Nat)
    (P t : Nat) (dir : Bool) (r : Int)
    (hr : remove_entry h { fs with data_bitmap := bm, available_blocks := av } P t dir
      = some (r, fs')) :
    ∃ fsz, remove_entry h fs P t dir = some (r, fsz) ∧ fs'.data = fsz.data ∧
      fs'.inode_table = fsz.inode_table ∧ fs'.inode_bitmap = fsz.inode_bitmap ∧
      fs'.num_of_data_blocks = fsz.num_of_data_blocks ∧ fs'.num_inodes = fsz.num_inodes ∧
      fs'.available_inodes = fsz.available_inodes := by
  have hte : take_entry h { fs with data_bitmap := bm, available_blocks := av } P t
      = take_entry h fs P t := rfl
  unfold remove_entry at hr ⊢
  simp only at hr ⊢
  rw [hte] at hr
  cases hv : take_entry h fs P t with
  | none => rw [hv] at hr; simp at hr
  | some v =>
    rw [hv] at hr
    simp only at hr ⊢
    by_cases h1 : (fs.inode_table P).num_dir_entry = 1
    · rw [if_pos h1] at hr ⊢
      simp only [Option.some.injEq, Prod.mk.injEq] at hr
      obtain ⟨hr1, hfs⟩ := hr
      subst hfs
      subst hr1
      exact ⟨_, rfl, rfl, rfl, rfl, rfl, rfl, rfl⟩
    · rw [if_neg h1] at hr ⊢
      by_cases h2 : (fs.inode_table P).num_dir_entry % (A1FS_BLOCK_SIZE / h.sizeof_dentry) ≠ 1
      · rw [if_pos h2] at hr ⊢
        simp only [Option.some.injEq, Prod.mk.injEq] at hr
        obtain ⟨hr1, hfs⟩ := hr
        subst hfs
        subst hr1
        exact ⟨_, rfl, rfl, rfl, rfl, rfl, rfl, rfl⟩
      · rw [if_neg h2] at hr ⊢
        by_cases h3 : extent_count v.2 (fs.inode_table P).indirect_pt
            (sub32 (fs.inode_table P).extent_num 1) > 1
        · rw [if_pos h3] at hr ⊢
          simp only [Option.some.injEq, Prod.mk.injEq] at hr
          obtain ⟨hr1, hfs⟩ := hr
          subst hfs
          subst hr1
          exact ⟨_, rfl, rfl, rfl, rfl, rfl, rfl, rfl⟩
        · rw [if_neg h3] at hr ⊢
          simp only [Option.some.injEq, Prod.mk.injEq] at hr
          obtain ⟨hr1, hfs⟩ := hr
          subst hfs
          subst hr1
          exact ⟨_, rfl, rfl, rfl, rfl, rfl, rfl, rfl⟩

/-- The steps of a successful `a1fs_unlink` of a path that resolves to the
inode `t` under the directory `P`. -/
theorem unlink_ok (h : a1fs_h) (fs fs1 : fs_ctx) (now : timespec) (path : String)
    (parent_dir : List Char) (P t : Nat) (r : Int)
    (hpar : extract_parent_path path.toList h.A1FS_PATH_MAX = some parent_dir)
    (hP : path_lookup h fs (String.mk parent_dir) = some (P : Int)) (hP32 : P < 4294967296)
    (hlook : path_lookup h fs path = some (int_of t)) (ht : t < 4294967296)
    (hr : a1fs_unlink h fs now path = some (r, fs1)) :
    ∃ bm av, remove_entry h
      { unlink_target_cleared (set_mtime fs P now) t with
          data_bitmap := bm, available_blocks := av } P t false = some (r, fs1) := by
  unfold a1fs_unlink at hr
  rw [hpar] at hr
  simp only at hr
  rw [hP] at hr
  simp only at hr
  rw [u32_of_int_natCast P hP32, path_lookup_set_mtime, hlook] at hr
  simp only at hr
  rw [u32_of_int_int_of t ht] at hr
  unfold unlink_target_cleared
  by_cases hsz : ((set_mtime fs P now).inode_table t).size ≠ 0
  · rw [if_pos hsz] at hr ⊢
    exact ⟨_, _, hr⟩
  · rw [if_neg hsz] at hr ⊢
    exact ⟨_, _, hr⟩

theorem unlink_target_cleared_fields (fs : fs_ctx) (t : Nat) :
    (unlink_target_cleared fs t).data = fs.data ∧
    (unlink_target_cleared fs t).data_bitmap = fs.data_bitmap ∧
    (unlink_target_cleared fs t).num_of_data_blocks = fs.num_of_data_blocks ∧
    (unlink_target_cleared fs t).inode_bitmap = fs.inode_bitmap ∧
    (unlink_target_cleared fs t).num_inodes = fs.num_inodes ∧
    (∀ k, k ≠ t → (unlink_target_cleared fs t).inode_table k = fs.inode_table k) ∧
    ((unlink_target_cleared fs t).inode_table t).mode = (fs.inode_table t).mode := by
  unfold unlink_target_cleared
  by_cases hsz : (fs.inode_table t).size ≠ 0
  · rw [if_pos hsz]
    refine ⟨rfl, rfl, rfl, rfl, rfl, ?_, ?_⟩
    · intro k hk
      simp only [set_inode, if_neg hk]
    · simp only [set_inode, if_true]
  · rw [if_neg hsz]
    exact ⟨rfl, rfl, rfl, rfl, rfl, fun _ _ => rfl, rfl⟩

/-- A successful `a1fs_unlink` of the entry `name` of the directory `P` takes
that entry out of `P`: the state reached is, but for the data bitmap and the
counter of available blocks, the state `fsz` that `remove_entry` makes of the
state in which the record of the target was cleared. -/
theorem unlink_removes (h : a1fs_h) (fs fs' : fs_ctx) (now : timespec) (path : String)
    (parent_dir name : List Char) (P t : Nat)
    (hN : fs.num_of_data_blocks < 1048576)
    (hpar : extract_parent_path path.toList h.A1FS_PATH_MAX = some parent_dir)
    (hname : extract_child_path path.toList = some name) (hne : name ≠ [])
    (hP : path_lookup h fs (String.mk parent_dir) = some (P : Int))
    (hPdir : S_ISREG (fs.inode_table P).mode = false)
    (hwf : directory_wf h fs P)
    (hinos : ((dir_entries h fs P).map (read32 fs.data)).Nodup)
    (hfind : dir_find h fs P name = some t) (htP : t ≠ P)
    (hr : a1fs_unlink h fs now path = some (0, fs')) :
    ∃ a fsz, a ∈ dir_entries h fs P ∧ read32 fs.data a = t ∧
      entry_removed h (unlink_target_cleared (set_mtime fs P now) t) fsz P a ∧
      remove_entry h (unlink_target_cleared (set_mtime fs P now) t) P t false = some (0, fsz) ∧
      fs'.data = fsz.data ∧ fs'.inode_table = fsz.inode_table ∧
      fs'.inode_bitmap = fsz.inode_bitmap ∧
      fs'.num_of_data_blocks = fsz.num_of_data_blocks ∧ fs'.num_inodes = fsz.num_inodes ∧
      ((fs.inode_table P).num_dir_entry = 1 →
        ∀ b, dir_owns fs P b → is_bit_set b fs'.data_bitmap = 0) := by
  have hP32 : P < 4294967296 := by
    have := path_lookup_lt h fs _ _ hP
    omega
  obtain ⟨a, hfa, ha, hat⟩ := dir_find_mem h fs P name t hfind
  have e : (String.mk parent_dir).toList = parent_dir := rfl
  have hhead : parent_dir.head? = some '/' := by
    by_contra hc
    rw [path_lookup_eq_tokens, e, if_pos hc] at hP
    simp only [Option.some.injEq] at hP
    omega
  have hhead2 := (parent_head path.toList parent_dir _ hpar).mpr hhead
  obtain ⟨htok, _⟩ := tokens_parent_child path.toList parent_dir name _ hpar hname hne
  have hlt : lookup_tokens h fs (strtok_tokens parent_dir []) = some (P : Int) := by
    rw [path_lookup_eq_tokens, e, if_neg (by rw [hhead]; simp)] at hP
    exact hP
  have hlook : path_lookup h fs path = some (int_of t) := by
    rw [path_lookup_eq_tokens, if_neg (by rw [hhead2]; simp), htok,
      lookup_child h fs _ name P hN hlt hwf hPdir, hfind]
  have ht32 : t < 4294967296 := by
    rw [← hat]
    exact read32_lt _ _
  obtain ⟨bm, av, hrem0⟩ := unlink_ok h fs fs' now path parent_dir P t 0 hpar hP hP32 hlook ht32 hr
  obtain ⟨hUd, hUb, hUN, _, _, hUo, _⟩ := unlink_target_cleared_fields (set_mtime fs P now) t
  have hUP : (unlink_target_cleared (set_mtime fs P now) t).inode_table P
      = (set_mtime fs P now).inode_table P := hUo P (Ne.symm htP)
  have hwf1 := directory_wf_set_mtime h fs P now hwf
  have hwf0 : directory_wf h (unlink_target_cleared (set_mtime fs P now) t) P := by
    apply directory_wf_congr h (set_mtime fs P now)
      (unlink_target_cleared (set_mtime fs P now) t) P hUd hUb hUN _ _ _ _ _ hwf1
    all_goals rw [hUP]
  have hent1 := dir_entries_set_mtime h fs P now
  have hent0 : dir_entries h (unlink_target_cleared (set_mtime fs P now) t) P
      = dir_entries h fs P := by
    rw [← hent1]
    apply dir_entries_congr h (set_mtime fs P now)
      (unlink_target_cleared (set_mtime fs P now) t) P hUd
    all_goals rw [hUP]
  have hd0 : (unlink_target_cleared (set_mtime fs P now) t).data = fs.data := hUd
  have ha0 : a ∈ dir_entries h (unlink_target_cleared (set_mtime fs P now) t) P := by
    rw [hent0]; exact ha
  have hinos0 : ((dir_entries h (unlink_target_cleared (set_mtime fs P now) t) P).map
      (read32 (unlink_target_cleared (set_mtime fs P now) t).data)).Nodup := by
    rw [hent0, hd0]
    exact hinos
  have hat0 : read32 (unlink_target_cleared (set_mtime fs P now) t).data a = t := by
    rw [hd0]; exact hat
  have hN0 : (unlink_target_cleared (set_mtime fs P now) t).num_of_data_blocks < 1048576 := by
    rw [hUN]; exact hN
  obtain ⟨fs2, hrem2, hremd⟩ :=
    remove_entry_removed h (unlink_target_cleared (set_mtime fs P now) t) P t a false hN0 hwf0
      hinos0 ha0 hat0
  obtain ⟨fsz, hz, hzd, hzt, hzb, hzN, hzn, _⟩ :=
    remove_entry_bitmaps h (unlink_target_cleared (set_mtime fs P now) t) fs' bm av P t false 0
      hrem0
  rw [hrem2] at hz
  simp only [Option.some.injEq, Prod.mk.injEq, true_and] at hz
  subst hz
  refine ⟨a, fs2, ha, hat, hremd, hrem2, hzd, hzt, hzb, hzN, hzn, ?_⟩
  intro hone b hb
  have hone0 : ((unlink_target_cleared (set_mtime fs P now) t).inode_table P).num_dir_entry
      = 1 := by
    rw [hUP, set_mtime_record]
    exact hone
  have hbm : fs'.data_bitmap
      = unset_bitmap (unset_bitmap bm
          (find_last_block (unlink_target_cleared (set_mtime fs P now) t) P))
        (get_num_of_block
          ((unlink_target_cleared (set_mtime fs P now) t).inode_table P).indirect_pt) :=
    (remove_entry_only h
      { unlink_target_cleared (set_mtime fs P now) t with
          data_bitmap := bm, available_blocks := av } fs' P t false 0 hone0 hrem0).1
  apply owned_blocks_cleared h (unlink_target_cleared (set_mtime fs P now) t) P bm
    fs'.data_bitmap hN0 hwf0 hone0 hbm
  apply dir_owns_congr (unlink_target_cleared (set_mtime fs P now) t) fs P b
  · exact hUd.symm
  · rw [hUP, set_mtime_record]
  · rw [hUP, set_mtime_record]
  · rw [hUP, set_mtime_record]
  · exact hb

theorem directory_shape_congr (h : a1fs_h) (fs fs2 : fs_ctx) (dir : Nat)
    (hd : fs2.data = fs.data) (ht : fs2.inode_table = fs.inode_table)
    (hs : directory_shape h fs dir) : directory_shape h fs2 dir := by
  unfold directory_shape extent_blocks at hs ⊢
  rw [hd, ht]
  exact hs

/-- A directory that `entry_removed` leaves without entries has no extent and
size 0. -/
theorem entry_removed_empty (h : a1fs_h) (fs fs' : fs_ctx) (P a : Nat)
    (hrem : entry_removed h fs fs' P a) (hone : (fs.inode_table P).num_dir_entry = 1) :
    (fs'.inode_table P).extent_num = 0 ∧ (fs'.inode_table P).num_dir_entry = 0 ∧
      (fs'.inode_table P).size = 0 := by
  obtain ⟨_, _, _, _, _, hnum, _, hwf'⟩ := hrem
  have hz : (fs'.inode_table P).num_dir_entry = 0 := by omega
  obtain ⟨_, hsize, _, h0, _⟩ := hwf'
  refine ⟨(h0 hz).1, hz, ?_⟩
  rw [hsize, hz]

/-! ## The link counts of the directories -/

theorem mem_dirs_in_use (fs : fs_ctx) (Q : Nat) :
    Q ∈ dirs_in_use fs ↔ Q < fs.num_inodes ∧ is_bit_set Q fs.inode_bitmap = 1 ∧
      S_ISDIR (fs.inode_table Q).mode = true := by
  unfold dirs_in_use
  rw [List.mem_filter, List.mem_range]
  simp

theorem not_reg_of_dir (mode : Nat) (hd : S_ISDIR mode = true) : S_ISREG mode = false := by
  unfold S_ISDIR at hd
  unfold S_ISREG
  simp only [beq_iff_eq] at hd
  rw [hd]
  rfl

theorem not_dir_of_reg (mode : Nat) (hd : S_ISREG mode = true) : S_ISDIR mode = false := by
  unfold S_ISREG at hd
  unfold S_ISDIR
  simp only [beq_iff_eq] at hd
  rw [hd]
  rfl

/-- The blocks of a well-formed directory are in the list of the blocks it
owns. -/
theorem dir_owns_owned (h : a1fs_h) (fs : fs_ctx) (Q b : Nat) (hwf : directory_wf h fs Q)
    (ho : dir_owns fs Q b) : b ∈ owned_blocks fs Q := by
  unfold owned_blocks
  rcases ho with ho | ⟨hpos, hb⟩
  · have he : (fs.inode_table Q).extent_num ≠ 0 := by
      intro hc
      rw [dir_blocks_nil fs Q hc] at ho
      simp at ho
    rw [if_neg he]
    exact List.mem_cons_of_mem _ ho
  · have he := directory_wf_extents_pos h fs Q hwf hpos
    rw [if_neg (by omega), hb]
    exact List.mem_cons_self _ _

/-- The entries of a well-formed directory `Q` are kept by a change of the
image that keeps the record of `Q` and the bytes of the marked blocks that
another directory `P` does not own, when `Q` shares no block with `P`. -/
theorem other_dir_kept (h : a1fs_h) (fs fs' : fs_ctx) (P Q : Nat)
    (hwfQ : directory_wf h fs Q)
    (hframe : ∀ x, is_bit_set (x / A1FS_BLOCK_SIZE) fs.data_bitmap = 1 →
      ¬ dir_owns fs P (x / A1FS_BLOCK_SIZE) → fs'.data x = fs.data x)
    (hrec : fs'.inode_table Q = fs.inode_table Q)
    (hdisj : ∀ b, dir_owns fs Q b → ¬ dir_owns fs P b) :
    dir_entries h fs' Q = dir_entries h fs Q ∧
      ∀ a ∈ dir_entries h fs Q, read32 fs'.data a = read32 fs.data a := by
  have hs := hwfQ.1
  by_cases hpos : 0 < (fs.inode_table Q).num_dir_entry
  · obtain ⟨_, _, _, _, hd⟩ := hwfQ
    obtain ⟨he512, hp0, hXN, hXbit, hcnt, hle, hlt, hnd, hblk⟩ := hd hpos
    unfold A1FS_BLOCK_SIZE at hp0 hXbit hframe
    have hf : ∀ x, x / 4096 = (fs.inode_table Q).indirect_pt / 4096 →
        fs'.data x = fs.data x := by
      intro x hx
      apply hframe x
      · rw [hx]; exact hXbit
      · rw [hx]
        exact hdisj _ (Or.inr ⟨hpos, rfl⟩)
    have hblocks : dir_blocks fs' Q = dir_blocks fs Q := by
      apply dir_blocks_congr fs fs' Q (by rw [hrec])
      intro i hi
      rw [hrec]
      exact extent_frame fs'.data fs.data _ i hp0 (by omega) hf
    refine ⟨?_, ?_⟩
    · unfold dir_entries dir_entry_addrs
      rw [hblocks, hrec]
    · intro a ha
      obtain ⟨hmem, _, hoff⟩ := mem_dir_entries h hs fs Q a ha
      apply read32_congr
      intro k hk
      have hq : (a + k) / 4096 = a / 4096 := by omega
      apply hframe (a + k)
      · rw [hq]; exact (hblk _ hmem).2.1
      · rw [hq]
        exact hdisj _ (Or.inl hmem)
  · have hz : (fs.inode_table Q).num_dir_entry = 0 := by omega
    have e1 : dir_entries h fs Q = [] := by
      unfold dir_entries
      rw [hz]
      simp
    have e2 : dir_entries h fs' Q = [] := by
      unfold dir_entries
      rw [hrec, hz]
      simp
    rw [e1, e2]
    exact ⟨rfl, by simp⟩

/-- The number of directories among the entries of `Q` is kept when the entries,
their inode numbers and the modes of these inodes are kept. -/
theorem subdir_count_kept (h : a1fs_h) (fs fs' : fs_ctx) (Q : Nat)
    (hent : dir_entries h fs' Q = dir_entries h fs Q)
    (hino : ∀ a ∈ dir_entries h fs Q, read32 fs'.data a = read32 fs.data a)
    (hmode : ∀ a ∈ dir_entries h fs Q,
      (fs'.inode_table (read32 fs.data a)).mode = (fs.inode_table (read32 fs.data a)).mode) :
    subdir_count h fs' Q = subdir_count h fs Q := by
  unfold subdir_count
  rw [hent, List.countP_map, List.countP_map]
  apply List.countP_congr
  intro a ha
  simp only [Function.comp]
  rw [hino a ha, hmode a ha]

theorem subdir_count_le (h : a1fs_h) (fs : fs_ctx) (Q : Nat) :
    subdir_count h fs Q ≤ (fs.inode_table Q).num_dir_entry := by
  unfold subdir_count
  have h1 := List.countP_le_length (fun k => S_ISDIR (fs.inode_table k).mode)
    (l := (dir_entries h fs Q).map (read32 fs.data))
  rw [List.length_map] at h1
  have h2 : (dir_entries h fs Q).length ≤ (fs.inode_table Q).num_dir_entry := by
    unfold dir_entries
    exact List.length_take_le _ _
  omega

/-- The invariant of link counts after an entry for the first free inode was
added to the directory `P`: it is kept, and the link count of `P` has grown by
one when the new inode is a directory. -/
theorem links_after_add (h : a1fs_h) (fs fs' : fs_ctx) (new_dir : a1fs_inode)
    (P : Nat) (name : List Char) (g : Mem) (dir : Bool) (now : timespec)
    (hsp : space_wf fs) (hav : fs.available_inodes ≠ 0)
    (hPd : P ∈ dirs_in_use fs) (hgrow : dir_can_grow fs P)
    (htree : tree_wf h fs) (hinv : links_invariant h fs)
    (hkind : S_ISDIR new_dir.mode = dir)
    (hnl : dir = true → new_dir.links = 2) (hnn : new_dir.num_dir_entry = 0)
    (hr : add_entry h (set_mtime (take_inode h fs new_dir) P now) P
      (get_first_available_position h fs.num_inodes fs.inode_bitmap) name g dir
        = some (0, fs')) :
    links_invariant h fs' ∧
      (fs'.inode_table P).links = (fs.inode_table P).links + (if dir then 1 else 0) := by
  obtain ⟨hPN, hPuse, hPdir⟩ := (mem_dirs_in_use fs P).mp hPd
  obtain ⟨hwf, hinosP, huseP, hdisjP⟩ := htree P hPd
  obtain ⟨hnewN, hnewbit, hrec_new, hlinks, a, hadded⟩ :=
    new_entry_added h fs fs' new_dir P name g dir now hsp hav hPuse hwf hgrow hr
  have hPnew : P ≠ get_first_available_position h fs.num_inodes fs.inode_bitmap := by
    intro e
    rw [← e, hPuse] at hnewbit
    exact absurd hnewbit (by decide)
  have hrecP := take_inode_parent h fs new_dir P now hPnew
  have hent0 := take_inode_entries h fs new_dir P now hPnew
  obtain ⟨hent, _, hino, _, hkeep, hframe, hother, hmode, _, hnum, hibm, _, hni, hnb, hwf'⟩ :=
    hadded
  have hframe' : ∀ x, is_bit_set (x / A1FS_BLOCK_SIZE) fs.data_bitmap = 1 →
      ¬ dir_owns fs P (x / A1FS_BLOCK_SIZE) → fs'.data x = fs.data x := by
    intro x hb ho
    apply hframe x hb
    intro hc
    apply ho
    apply dir_owns_congr fs (set_mtime (take_inode h fs new_dir) P now) P _ rfl _ _ _ hc
    all_goals rw [hrecP]
  have hmodek : ∀ k, is_bit_set k fs.inode_bitmap = 1 →
      (fs'.inode_table k).mode = (fs.inode_table k).mode := by
    intro k hk
    by_cases hkP : k = P
    · rw [hkP, hmode, hrecP]
    · have hkn : k ≠ get_first_available_position h fs.num_inodes fs.inode_bitmap := by
        intro e
        rw [e, hnewbit] at hk
        exact absurd hk (by decide)
      rw [hother k hkP, take_inode_other h fs new_dir P k now hkP, if_neg hkn]
  have hbound : (fs.inode_table P).links + 1 < 4294967296 := by
    have h1 := hinv P hPd
    have h2 := subdir_count_le h fs P
    have h3 := directory_wf_bound h fs P hsp.1 hwf
    omega
  have hlinks2 : (fs'.inode_table P).links
      = (fs.inode_table P).links + (if dir then 1 else 0) := by
    rw [hlinks]
    cases dir
    · simp
    · simp only [if_true]
      exact u32_small _ hbound
  refine ⟨?_, hlinks2⟩
  intro Q hQ
  obtain ⟨hQN, hQbit, hQdir⟩ := (mem_dirs_in_use fs' Q).mp hQ
  rw [hibm] at hQbit
  have hQbit2 : is_bit_set Q (set_bitmap fs.inode_bitmap
      (get_first_available_position h fs.num_inodes fs.inode_bitmap)) = 1 := hQbit
  by_cases hQn : Q = get_first_available_position h fs.num_inodes fs.inode_bitmap
  · rw [hQn, hrec_new] at hQdir
    rw [hQn, hrec_new]
    have hd : dir = true := by rw [← hkind]; exact hQdir
    have hc : subdir_count h fs'
        (get_first_available_position h fs.num_inodes fs.inode_bitmap) = 0 := by
      unfold subdir_count dir_entries
      rw [hrec_new, hnn]
      simp
    rw [hc, hnl hd]
  · rw [is_bit_set_set_other _ _ _ hQn] at hQbit2
    by_cases hQP : Q = P
    · rw [hQP, hlinks2, hinv P hPd]
      have hc : subdir_count h fs' P = subdir_count h fs P + (if dir then 1 else 0) := by
        unfold subdir_count
        rw [hent, hent0, List.map_append, List.countP_append, List.map_singleton,
          List.countP_singleton, hino, hrec_new, hkind, List.countP_map, List.countP_map]
        congr 1
        · apply List.countP_congr
          intro x hx
          simp only [Function.comp]
          have hx0 : x ∈ dir_entries h (set_mtime (take_inode h fs new_dir) P now) P := by
            rw [hent0]; exact hx
          have e1 : read32 fs'.data x = read32 fs.data x :=
            read32_record_congr _ _ x (hkeep x hx0)
          rw [e1, hmodek _ (huseP x hx)]
      rw [hc, Nat.add_assoc]
    · have hrecQ : fs'.inode_table Q = fs.inode_table Q := by
        rw [hother Q hQP, take_inode_other h fs new_dir P Q now hQP, if_neg hQn]
      rw [hrecQ] at hQdir
      have hQd : Q ∈ dirs_in_use fs := (mem_dirs_in_use fs Q).mpr ⟨by rw [hni] at hQN; exact hQN,
        hQbit2, hQdir⟩
      obtain ⟨hwfQ, _, huseQ, hdisjQ⟩ := htree Q hQd
      have hdisj : ∀ b, dir_owns fs Q b → ¬ dir_owns fs P b := by
        intro b hb hc
        exact hdisjQ P hPd (fun e => hQP e.symm) b (dir_owns_owned h fs Q b hwfQ hb)
          (dir_owns_owned h fs P b hwf hc)
      obtain ⟨hentQ, hinoQ⟩ := other_dir_kept h fs fs' P Q hwfQ hframe' hrecQ hdisj
      rw [hrecQ, subdir_count_kept h fs fs' Q hentQ hinoQ (fun a ha => hmodek _ (huseQ a ha))]
      exact hinv Q hQd

/-- The link count that `remove_entry` leaves in the directory. -/
theorem remove_entry_links (h : a1fs_h) (fs fs' : fs_ctx) (P t : Nat) (dir : Bool) (r : Int)
    (hr : remove_entry h fs P t dir = some (r, fs')) :
    (fs'.inode_table P).links
      = if (fs.inode_table P).num_dir_entry = 1 then 2
        else if dir then sub32 (fs.inode_table P).links 1 else (fs.inode_table P).links := by
  unfold remove_entry at hr
  simp only at hr
  cases hv : take_entry h fs P t with
  | none => rw [hv] at hr; simp at hr
  | some v =>
    rw [hv] at hr
    simp only at hr
    by_cases h1 : (fs.inode_table P).num_dir_entry = 1
    · rw [if_pos h1] at hr ⊢
      simp only [Option.some.injEq, Prod.mk.injEq] at hr
      rw [← hr.2]
      simp only [set_inode, if_true]
    · rw [if_neg h1] at hr ⊢
      by_cases h2 : (fs.inode_table P).num_dir_entry % (A1FS_BLOCK_SIZE / h.sizeof_dentry) ≠ 1
      · rw [if_pos h2] at hr
        simp only [Option.some.injEq, Prod.mk.injEq] at hr
        rw [← hr.2]
        simp only [set_inode, if_true]
      · rw [if_neg h2] at hr
        by_cases h3 : extent_count v.2 (fs.inode_table P).indirect_pt
            (sub32 (fs.inode_table P).extent_num 1) > 1
        · rw [if_pos h3] at hr
          simp only [Option.some.injEq, Prod.mk.injEq] at hr
          rw [← hr.2]
          simp only [set_inode, if_true]
        · rw [if_neg h3] at hr
          simp only [Option.some.injEq, Prod.mk.injEq] at hr
          rw [← hr.2]
          simp only [set_inode, if_true]

theorem perm_replace_val (l : List Nat) (a : Nat) (f : Nat → Nat) (v : Nat)
    (hnd : l.Nodup) (ha : a ∈ l) :
    (l.map f ++ [v]).Perm (f a :: l.map (fun s => if s = a then v else f s)) := by
  induction l with
  | nil => simp at ha
  | cons b l ih =>
    rw [List.nodup_cons] at hnd
    by_cases hb : b = a
    · subst hb
      have hmap : l.map (fun s => if s = b then v else f s) = l.map f := by
        apply List.map_congr_left
        intro s hs
        have : s ≠ b := fun e => hnd.1 (e ▸ hs)
        rw [if_neg this]
      simp only [List.map_cons, if_true, List.cons_append, hmap]
      exact List.Perm.cons _ (List.perm_append_singleton _ _)
    · rw [List.mem_cons] at ha
      have ha2 : a ∈ l := by
        rcases ha with ha | ha
        · exact absurd ha.symm hb
        · exact ha
      simp only [List.map_cons, if_neg hb, List.cons_append]
      exact (List.Perm.cons _ (ih hnd.2 ha2)).trans (List.Perm.swap _ _ _)

/-- The inode numbers in a directory after the removal of the entry at `a`:
those of before without that of the entry. -/
theorem inos_after_remove (h : a1fs_h) (fs fs' : fs_ctx) (P a : Nat)
    (hN : fs.num_of_data_blocks < 1048576) (hwf : directory_wf h fs P)
    (hrem : entry_removed h fs fs' P a) (ha : a ∈ dir_entries h fs P) :
    ((dir_entries h fs P).map (read32 fs.data)).Perm
      (read32 fs.data a :: (dir_entries h fs' P).map (read32 fs'.data)) := by
  have hpos : 0 < (fs.inode_table P).num_dir_entry := by
    by_contra hc
    have : (fs.inode_table P).num_dir_entry = 0 := by omega
    unfold dir_entries at ha
    rw [this] at ha
    simp at ha
  obtain ⟨_, hsplit⟩ := last_entry_addr_spec h fs P hN hwf hpos
  have hndE := entries_nodup h fs P hwf
  obtain ⟨hent, hbytes, _⟩ := hrem
  have hfront : dir_entries h fs P = dir_entries h fs' P ++ [last_entry_addr h fs P] := by
    rw [hent]
    conv_lhs => rw [hsplit]
    rw [hsplit, List.dropLast_concat]
  have hino : ∀ s, s ∈ dir_entries h fs' P →
      read32 fs'.data s = read32 fs.data (if s = a then last_entry_addr h fs P else s) :=
    fun s hsm => read32_move _ _ _ _ (fun k hk => hbytes s hsm k (by omega))
  have hmap : (dir_entries h fs' P).map (read32 fs'.data)
      = (dir_entries h fs' P).map (fun s =>
          if s = a then read32 fs.data (last_entry_addr h fs P) else read32 fs.data s) := by
    apply List.map_congr_left
    intro s hsm
    rw [hino s hsm]
    split_ifs <;> rfl
  have hpf : (dir_entries h fs P).map (read32 fs.data)
      = (dir_entries h fs' P).map (read32 fs.data)
        ++ [read32 fs.data (last_entry_addr h fs P)] := by
    conv_lhs => rw [hfront]
    rw [List.map_append, List.map_singleton]
  rw [hmap, hpf]
  have hnd' : (dir_entries h fs' P).Nodup := by
    rw [hfront] at hndE
    exact (List.nodup_append.mp hndE).1
  by_cases hal : a = last_entry_addr h fs P
  · have hnot : a ∉ dir_entries h fs' P := by
      rw [hfront] at hndE
      intro hc
      exact (List.nodup_append.mp hndE).2.2 hc (by rw [hal]; exact List.mem_singleton_self _)
    have hmap2 : (dir_entries h fs' P).map (fun s =>
          if s = a then read32 fs.data (last_entry_addr h fs P) else read32 fs.data s)
        = (dir_entries h fs' P).map (read32 fs.data) := by
      apply List.map_congr_left
      intro s hsm
      have : s ≠ a := fun e => hnot (e ▸ hsm)
      rw [if_neg this]
    rw [hmap2, ← hal]
    exact List.perm_append_singleton _ _
  · have hmem : a ∈ dir_entries h fs' P := by
      rw [hfront, List.mem_append, List.mem_singleton] at ha
      rcases ha with ha | ha
      · exact ha
      · exact absurd ha hal
    exact perm_replace_val (dir_entries h fs' P) a (read32 fs.data) _ hnd' hmem

/-- The invariant of link counts after the entry of the inode `t` was taken out
of the directory `P`: it is kept, and the link count of `P` has dropped by one
when `t` is a directory. -/
theorem links_after_remove (h : a1fs_h) (fs fs' : fs_ctx) (P t a : Nat) (dir : Bool)
    (hN : fs.num_of_data_blocks < 1048576)
    (hPd : P ∈ dirs_in_use fs) (htree : tree_wf h fs) (hinv : links_invariant h fs)
    (ha : a ∈ dir_entries h fs P) (hat : read32 fs.data a = t)
    (hkind : S_ISDIR (fs.inode_table t).mode = dir)
    (hr : remove_entry h fs P t dir = some (0, fs'))
    (hrem : entry_removed h fs fs' P a) :
    links_invariant h fs' ∧
      (fs'.inode_table P).links + (if dir then 1 else 0) = (fs.inode_table P).links := by
  obtain ⟨hPN, hPuse, hPdir⟩ := (mem_dirs_in_use fs P).mp hPd
  obtain ⟨hwf, hinosP, huseP, _⟩ := htree P hPd
  have hperm := inos_after_remove h fs fs' P a hN hwf hrem ha
  rw [hat] at hperm
  obtain ⟨hibm, _, hni⟩ := remove_entry_inode_fields h fs fs' P t dir 0 hr
  have hlk := remove_entry_links h fs fs' P t dir 0 hr
  obtain ⟨hent, hbytes, hframe, hother, hmode, hnum, hnb, hwf'⟩ := hrem
  have hmodek : ∀ k, (fs'.inode_table k).mode = (fs.inode_table k).mode := by
    intro k
    by_cases hk : k = P
    · rw [hk, hmode]
    · rw [hother k hk]
  have hcount : subdir_count h fs P = (if dir then 1 else 0) + subdir_count h fs' P := by
    unfold subdir_count
    rw [hperm.countP_eq, List.countP_cons, hkind]
    have e : List.countP (fun k => S_ISDIR (fs.inode_table k).mode)
          ((dir_entries h fs' P).map (read32 fs'.data))
        = List.countP (fun k => S_ISDIR (fs'.inode_table k).mode)
          ((dir_entries h fs' P).map (read32 fs'.data)) := by
      apply List.countP_congr
      intro k _
      rw [hmodek k]
    rw [e]
    cases dir
    · simp
    · simp
      omega
  have hP1 := hinv P hPd
  have hl32 := hwf.2.2.1
  have hlinks2 : (fs'.inode_table P).links + (if dir then 1 else 0)
      = (fs.inode_table P).links := by
    rw [hlk]
    by_cases h1 : (fs.inode_table P).num_dir_entry = 1
    · rw [if_pos h1]
      have hc0 := subdir_count_le h fs' P
      have hz : subdir_count h fs' P = 0 := by omega
      rw [hP1, hcount, hz]
      cases dir <;> simp
    · rw [if_neg h1]
      cases dir
      · simp
      · simp only [if_true]
        simp only [if_true] at hcount
        unfold sub32 u32
        omega
  refine ⟨?_, hlinks2⟩
  intro Q hQ
  obtain ⟨hQN, hQbit, hQdir⟩ := (mem_dirs_in_use fs' Q).mp hQ
  rw [hibm] at hQbit
  have hQt : Q ≠ t := by
    intro e
    rw [e, is_bit_set_unset_same] at hQbit
    exact absurd hQbit (by decide)
  rw [is_bit_set_unset_other _ _ _ hQt] at hQbit
  rw [hmodek] at hQdir
  have hQd : Q ∈ dirs_in_use fs :=
    (mem_dirs_in_use fs Q).mpr ⟨by rw [hni] at hQN; exact hQN, hQbit, hQdir⟩
  by_cases hQP : Q = P
  · rw [hQP]
    have : (fs'.inode_table P).links + (if dir then 1 else 0)
        = 2 + ((if dir then 1 else 0) + subdir_count h fs' P) := by
      rw [hlinks2, hP1, hcount]
    cases dir
    · simp at this
      omega
    · simp at this
      omega
  · have hrecQ : fs'.inode_table Q = fs.inode_table Q := hother Q hQP
    obtain ⟨hwfQ, _, huseQ, hdisjQ⟩ := htree Q hQd
    have hdisj : ∀ b, dir_owns fs Q b → ¬ dir_owns fs P b := by
      intro b hb hc
      exact hdisjQ P hPd (fun e => hQP e.symm) b (dir_owns_owned h fs Q b hwfQ hb)
        (dir_owns_owned h fs P b hwf hc)
    obtain ⟨hentQ, hinoQ⟩ := other_dir_kept h fs fs' P Q hwfQ hframe hrecQ hdisj
    rw [hrecQ, subdir_count_kept h fs fs' Q hentQ hinoQ (fun a _ => hmodek _)]
    exact hinv Q hQd

/-- The state of the directories and the invariant of link counts depend on the
bytes, the bitmaps, the modes, and the records of the directories but for
their times. -/
theorem tree_links_congr (h : a1fs_h) (fs fs2 : fs_ctx)
    (hd : fs2.data = fs.data) (hb : fs2.data_bitmap = fs.data_bitmap)
    (hib : fs2.inode_bitmap = fs.inode_bitmap) (hni : fs2.num_inodes = fs.num_inodes)
    (hN : fs2.num_of_data_blocks = fs.num_of_data_blocks)
    (hmode : ∀ k, (fs2.inode_table k).mode = (fs.inode_table k).mode)
    (hrec : ∀ k, S_ISDIR (fs.inode_table k).mode = true →
      (fs2.inode_table k).links = (fs.inode_table k).links ∧
      (fs2.inode_table k).size = (fs.inode_table k).size ∧
      (fs2.inode_table k).extent_num = (fs.inode_table k).extent_num ∧
      (fs2.inode_table k).num_dir_entry = (fs.inode_table k).num_dir_entry ∧
      (fs2.inode_table k).indirect_pt = (fs.inode_table k).indirect_pt)
    (htree : tree_wf h fs) (hinv : links_invariant h fs) :
    dirs_in_use fs2 = dirs_in_use fs ∧ tree_wf h fs2 ∧ links_invariant h fs2 := by
  have hdirs : dirs_in_use fs2 = dirs_in_use fs := by
    unfold dirs_in_use
    rw [hni, hib]
    apply List.filter_congr
    intro Q _
    rw [hmode]
  have hfacts : ∀ Q ∈ dirs_in_use fs,
      dir_entries h fs2 Q = dir_entries h fs Q ∧ owned_blocks fs2 Q = owned_blocks fs Q := by
    intro Q hQ
    obtain ⟨_, _, hQdir⟩ := (mem_dirs_in_use fs Q).mp hQ
    obtain ⟨_, _, he, hn, hp⟩ := hrec Q hQdir
    refine ⟨dir_entries_congr h fs fs2 Q hd he hn hp, ?_⟩
    have hblocks : dir_blocks fs2 Q = dir_blocks fs Q := by
      apply dir_blocks_congr fs fs2 Q he
      intro i _
      rw [hd, hp]
      exact ⟨rfl, rfl⟩
    unfold owned_blocks
    rw [hblocks, he, hp]
  refine ⟨hdirs, ?_, ?_⟩
  · intro Q hQ
    rw [hdirs] at hQ
    obtain ⟨_, _, hQdir⟩ := (mem_dirs_in_use fs Q).mp hQ
    obtain ⟨hl, hsz, he, hn, hp⟩ := hrec Q hQdir
    obtain ⟨hwfQ, hnd, huse, hdisj⟩ := htree Q hQ
    obtain ⟨hentQ, hownQ⟩ := hfacts Q hQ
    refine ⟨directory_wf_congr h fs fs2 Q hd hb hN hsz hl he hn hp hwfQ, ?_, ?_, ?_⟩
    · rw [hentQ, hd]
      exact hnd
    · rw [hentQ, hd, hib]
      exact huse
    · intro Q2 hQ2 hne
      rw [hdirs] at hQ2
      rw [hownQ, (hfacts Q2 hQ2).2]
      exact hdisj Q2 hQ2 hne
  · intro Q hQ
    rw [hdirs] at hQ
    obtain ⟨_, _, hQdir⟩ := (mem_dirs_in_use fs Q).mp hQ
    obtain ⟨hl, _⟩ := hrec Q hQdir
    obtain ⟨hentQ, _⟩ := hfacts Q hQ
    have hc : subdir_count h fs2 Q = subdir_count h fs Q := by
      unfold subdir_count
      rw [hentQ, hd]
      apply List.countP_congr
      intro k _
      rw [hmode k]
    rw [hl, hc]
    exact hinv Q hQ

theorem set_mtime_fields (fs : fs_ctx) (P k : Nat) (now : timespec) :
    ((set_mtime fs P now).inode_table k).mode = (fs.inode_table k).mode ∧
    ((set_mtime fs P now).inode_table k).links = (fs.inode_table k).links ∧
    ((set_mtime fs P now).inode_table k).size = (fs.inode_table k).size ∧
    ((set_mtime fs P now).inode_table k).extent_num = (fs.inode_table k).extent_num ∧
    ((set_mtime fs P now).inode_table k).num_dir_entry = (fs.inode_table k).num_dir_entry ∧
    ((set_mtime fs P now).inode_table k).indirect_pt = (fs.inode_table k).indirect_pt := by
  by_cases hk : k = P
  · rw [hk, set_mtime_record]
    exact ⟨rfl, rfl, rfl, rfl, rfl, rfl⟩
  · rw [set_mtime_other fs P k now hk]
    exact ⟨rfl, rfl, rfl, rfl, rfl, rfl⟩

/-- A call of `a1fs_create` that returns has the mode of a regular file. -/
theorem create_mode_reg (h : a1fs_h) (fs fs' : fs_ctx) (now : timespec) (g : locals)
    (path : String) (mode : Nat) (r : Int)
    (hr : a1fs_create h fs now g path mode = some (r, fs')) : S_ISREG (u32 mode) = true := by
  unfold a1fs_create at hr
  by_cases hm : S_ISREG (u32 mode) = false
  · rw [if_pos hm] at hr
    simp at hr
  · simpa using hm

/-- The invariant of link counts after a successful `a1fs_rmdir` of an entry of
the directory `P` that names a directory. -/
theorem links_after_rmdir (h : a1fs_h) (fs fs' : fs_ctx) (now : timespec) (path : String)
    (parent_dir name : List Char) (P t : Nat)
    (hN : fs.num_of_data_blocks < 1048576)
    (hpar : extract_parent_path path.toList h.A1FS_PATH_MAX = some parent_dir)
    (hname : extract_child_path path.toList = some name) (hne : name ≠ [])
    (hP : path_lookup h fs (String.mk parent_dir) = some (P : Int))
    (hPd : P ∈ dirs_in_use fs) (htree : tree_wf h fs) (hinv : links_invariant h fs)
    (hfind : dir_find h fs P name = some t)
    (hkind : S_ISDIR (fs.inode_table t).mode = true)
    (hr : a1fs_rmdir h fs now path = some (0, fs')) :
    links_invariant h fs' ∧ (fs'.inode_table P).links + 1 = (fs.inode_table P).links := by
  obtain ⟨_, _, hPdir⟩ := (mem_dirs_in_use fs P).mp hPd
  obtain ⟨hwf, hinosP, _, _⟩ := htree P hPd
  obtain ⟨hrem, a, ha, hat, hremd⟩ :=
    rmdir_removes h fs fs' now path parent_dir name P t hN hpar hname hne hP
      (not_reg_of_dir _ hPdir) hwf hinosP hfind hr
  obtain ⟨hdirs, htree1, hinv1⟩ := tree_links_congr h fs (set_mtime fs P now) rfl rfl rfl rfl rfl
    (fun k => (set_mtime_fields fs P k now).1) (fun k _ => (set_mtime_fields fs P k now).2)
    htree hinv
  have hres := links_after_remove h (set_mtime fs P now) fs' P t a true hN
    (by rw [hdirs]; exact hPd) htree1 hinv1
    (by rw [dir_entries_set_mtime]; exact ha) hat
    (by rw [(set_mtime_fields fs P t now).1]; exact hkind) hrem hremd
  refine ⟨hres.1, ?_⟩
  have := hres.2
  rw [(set_mtime_fields fs P P now).2.1] at this
  simpa using this

/-- The invariant of link counts after a successful `a1fs_unlink` of an entry
of the directory `P` that does not name a directory. -/
theorem links_after_unlink (h : a1fs_h) (fs fs' : fs_ctx) (now : timespec) (path : String)
    (parent_dir name : List Char) (P t : Nat)
    (hN : fs.num_of_data_blocks < 1048576)
    (hpar : extract_parent_path path.toList h.A1FS_PATH_MAX = some parent_dir)
    (hname : extract_child_path path.toList = some name) (hne : name ≠ [])
    (hP : path_lookup h fs (String.mk parent_dir) = some (P : Int))
    (hPd : P ∈ dirs_in_use fs) (htree : tree_wf h fs) (hinv : links_invariant h fs)
    (hfind : dir_find h fs P name = some t)
    (hkind : S_ISDIR (fs.inode_table t).mode = false)
    (hr : a1fs_unlink h fs now path = some (0, fs')) :
    links_invariant h fs' ∧ (fs'.inode_table P).links = (fs.inode_table P).links := by
  obtain ⟨_, _, hPdir⟩ := (mem_dirs_in_use fs P).mp hPd
  obtain ⟨hwf, hinosP, _, _⟩ := htree P hPd
  have htP : t ≠ P := by
    intro e
    rw [e, hPdir] at hkind
    exact absurd hkind (by decide)
  obtain ⟨a, fsz, ha, hat, hremd, hrem, hzd, hzt, hzb, _, hzn, _⟩ :=
    unlink_removes h fs fs' now path parent_dir name P t hN hpar hname hne hP
      (not_reg_of_dir _ hPdir) hwf hinosP hfind htP hr
  obtain ⟨hUd, hUb, hUN, hUib, hUni, hUo, hUm⟩ :=
    unlink_target_cleared_fields (set_mtime fs P now) t
  have hUrec : ∀ k, k ≠ t → (unlink_target_cleared (set_mtime fs P now) t).inode_table k
      = (set_mtime fs P now).inode_table k := hUo
  obtain ⟨hdirs, htree1, hinv1⟩ := tree_links_congr h fs
    (unlink_target_cleared (set_mtime fs P now) t) hUd hUb hUib hUni hUN
    (fun k => by
      by_cases hk : k = t
      · rw [hk, hUm, (set_mtime_fields fs P t now).1]
      · rw [hUrec k hk, (set_mtime_fields fs P k now).1])
    (fun k hk => by
      have hkt : k ≠ t := by
        intro e
        rw [e, hkind] at hk
        exact absurd hk (by decide)
      rw [hUrec k hkt]
      exact (set_mtime_fields fs P k now).2)
    htree hinv
  have hd0 : (unlink_target_cleared (set_mtime fs P now) t).data = fs.data := hUd
  have hUP : (unlink_target_cleared (set_mtime fs P now) t).inode_table P
      = (set_mtime fs P now).inode_table P := hUrec P (Ne.symm htP)
  have hent0 : dir_entries h (unlink_target_cleared (set_mtime fs P now) t) P
      = dir_entries h fs P := by
    rw [← dir_entries_set_mtime h fs P now]
    apply dir_entries_congr h (set_mtime fs P now)
      (unlink_target_cleared (set_mtime fs P now) t) P hUd
    all_goals rw [hUP]
  have hres := links_after_remove h (unlink_target_cleared (set_mtime fs P now) t) fsz P t a
    false (by rw [hUN]; exact hN) (by rw [hdirs]; exact hPd) htree1 hinv1
    (by rw [hent0]; exact ha) (by rw [hd0]; exact hat)
    (by rw [hUm, (set_mtime_fields fs P t now).1]; exact hkind) hrem hremd
  have hinvz := hres.1
  refine ⟨?_, ?_⟩
  · unfold links_invariant dirs_in_use subdir_count dir_entries dir_entry_addrs dir_blocks
      at hinvz ⊢
    rw [hzd, hzt, hzb, hzn]
    exact hinvz
  · have := hres.2
    rw [hUP, (set_mtime_fields fs P P now).2.1] at this
    rw [hzt]
    simpa using this

set_option maxRecDepth 100000 in
theorem tree_wf_fs_two : tree_wf hdr fs_two := by
  intro Q hQ
  have hdirs : dirs_in_use fs_two = [0, 1, 2] := by decide
  rw [hdirs] at hQ
  simp only [List.mem_cons, List.mem_singleton, List.not_mem_nil, or_false] at hQ
  rcases hQ with rfl | rfl | rfl
  · exact ⟨by unfold directory_wf; decide, by decide, by decide, by decide⟩
  · exact ⟨by unfold directory_wf; decide, by decide, by decide, by decide⟩
  · exact ⟨by unfold directory_wf; decide, by decide, by decide, by decide⟩

set_option maxRecDepth 100000 in
theorem links_invariant_fs_two : links_invariant hdr fs_two := by
  unfold links_invariant
  decide

/-- When every bit from `i` on is set, the loop of
`get_first_available_position` ends with the value of `(uint32_t) 2e32-1`. -/
theorem first_available_from_full (h : a1fs_h) (bm : Mem) (k i : Nat)
    (hfull : ∀ j, i ≤ j → j < i + k → is_bit_set j bm = 1) :
    first_available_from h bm k i = u32 h.no_position := by
  induction k generalizing i with
  | zero => rfl
  | succ k ih =>
    unfold first_available_from
    have hi : is_bit_set i bm = 1 := hfull i (Nat.le_refl _) (by omega)
    rw [if_neg (by omega)]
    exact ih (i + 1) (fun j h1 h2 => hfull j (by omega) (by omega))

/-- When no bit below `n` is clear, `get_first_available_position` returns the
value of `(uint32_t) 2e32-1`. -/
theorem get_first_available_position_full (h : a1fs_h) (bm : Mem) (n : Nat)
    (hfull : ∀ j, j < n → is_bit_set j bm = 1) :
    get_first_available_position h n bm = u32 h.no_position := by
  unfold get_first_available_position
  exact first_available_from_full h bm n 0 (fun j _ h2 => hfull j (by omega))

/-- Every bit of a bitmap of bytes `0xff` is set. -/
theorem is_bit_set_all_ones (j : Nat) : is_bit_set j (fun _ => 255) = 1 := by
  have hk : j % 8 < 8 := Nat.mod_lt _ (by decide)
  rw [is_bit_set_eq]
  simp only [testBit_255 _ hk, if_true]

theorem set_bitmap_idem (bm : Mem) (i : Nat) :
    set_bitmap (set_bitmap bm i) i = set_bitmap bm i := by
  funext b
  unfold set_bitmap
  by_cases hb : b = i / 8
  · simp only [hb, if_true]
    rw [Nat.lor_assoc, Nat.or_self]
  · simp only [hb, if_false]

theorem unset_bitmap_idem (bm : Mem) (i : Nat) :
    unset_bitmap (unset_bitmap bm i) i = unset_bitmap bm i := by
  funext b
  unfold unset_bitmap
  by_cases hb : b = i / 8
  · simp only [hb, if_true]
    rw [Nat.land_assoc, Nat.and_self]
  · simp only [hb, if_false]

/-! ## Growing a file that has blocks -/

theorem sum_counts_lt (m : Mem) (p k : Nat) : sum_counts m p k < 4294967296 := by
  cases k with
  | zero => simp [sum_counts]
  | succ k => unfold sum_counts u32; omega

/-- The last block of a well-formed file that is not empty: it is the last
block of the last extent, a block of the data region, and not the block of the
extent array. -/
theorem last_block_facts (fs : fs_ctx) (n : Nat) (hwf : regular_file_wf fs n)
    (hsize : 0 < (fs.inode_table n).size) :
    1 ≤ (fs.inode_table n).extent_num ∧
      sub32 (fs.inode_table n).extent_num 1 = (fs.inode_table n).extent_num - 1 ∧
      find_last_block fs n + 1
        = extent_start fs.data (fs.inode_table n).indirect_pt ((fs.inode_table n).extent_num - 1)
          + extent_count fs.data (fs.inode_table n).indirect_pt
              ((fs.inode_table n).extent_num - 1) ∧
      find_last_block fs n < fs.num_of_data_blocks ∧
      find_last_block fs n ≠ (fs.inode_table n).indirect_pt / A1FS_BLOCK_SIZE := by
  obtain ⟨hN, _, he512, hle, _, hext⟩ := hwf
  obtain ⟨_, hall⟩ := hext hsize
  have hB : 0 < sum_counts fs.data (fs.inode_table n).indirect_pt
      (fs.inode_table n).extent_num := by
    unfold get_num_blks_of_file A1FS_BLOCK_SIZE at hle
    omega
  have he1 := sum_counts_pos_extent_num _ _ _ hB
  have hs : sub32 (fs.inode_table n).extent_num 1 = (fs.inode_table n).extent_num - 1 := by
    unfold sub32 u32; omega
  obtain ⟨hc1, hcN, hdis⟩ := hall ((fs.inode_table n).extent_num - 1) (by omega)
  have hL : find_last_block fs n + 1
      = extent_start fs.data (fs.inode_table n).indirect_pt ((fs.inode_table n).extent_num - 1)
        + extent_count fs.data (fs.inode_table n).indirect_pt
            ((fs.inode_table n).extent_num - 1) := by
    rw [find_last_block_eq, hs]
    unfold u32
    omega
  refine ⟨he1, hs, hL, by omega, ?_⟩
  omega

/-- The `memset` of the hole stays inside the last block of the file. -/
theorem hole_zeroed_frame (fs : fs_ctx) (n : Nat) (hwf : regular_file_wf fs n)
    (x : Nat)
    (hx : x < find_last_block fs n * 4096 ∨ find_last_block fs n * 4096 + 4096 ≤ x) :
    hole_zeroed fs n x = fs.data x := by
  obtain ⟨_, _, _, hle, hlt, _⟩ := hwf
  unfold hole_zeroed
  by_cases hr : (fs.inode_table n).size % A1FS_BLOCK_SIZE ≠ 0
  · rw [if_pos hr]
    have hB := sum_counts_lt fs.data (fs.inode_table n).indirect_pt (fs.inode_table n).extent_num
    apply memset_other
    unfold get_num_blks_of_file A1FS_BLOCK_SIZE at *
    unfold get_addr_of_block sub64 u64 A1FS_BLOCK_SIZE
    omega
  · rw [if_neg hr]

/-- The `memset` of the hole leaves the extent array as it is. -/
theorem hole_zeroed_extents (fs : fs_ctx) (n : Nat) (hwf : regular_file_wf fs n)
    (hsize : 0 < (fs.inode_table n).size) (i : Nat) (hi : i < 512) :
    extent_start (hole_zeroed fs n) (fs.inode_table n).indirect_pt i
        = extent_start fs.data (fs.inode_table n).indirect_pt i ∧
      extent_count (hole_zeroed fs n) (fs.inode_table n).indirect_pt i
        = extent_count fs.data (fs.inode_table n).indirect_pt i := by
  obtain ⟨_, _, _, _, hLX⟩ := last_block_facts fs n hwf hsize
  have hp : (fs.inode_table n).indirect_pt % A1FS_BLOCK_SIZE = 0 := (hwf.2.2.2.2.2 hsize).1
  unfold A1FS_BLOCK_SIZE at hLX hp
  unfold extent_start extent_count sizeof_extent
  constructor
  · apply read32_congr
    intro k hk
    apply hole_zeroed_frame fs n hwf
    omega
  · apply read32_congr
    intro k hk
    apply hole_zeroed_frame fs n hwf
    omega

theorem find_last_block_hole_zeroed (fs : fs_ctx) (n : Nat) (hwf : regular_file_wf fs n)
    (hsize : 0 < (fs.inode_table n).size) :
    find_last_block { fs with data := hole_zeroed fs n } n = find_last_block fs n := by
  obtain ⟨he1, hs, _, _, _⟩ := last_block_facts fs n hwf hsize
  have he512 : (fs.inode_table n).extent_num ≤ 512 := hwf.2.2.1
  obtain ⟨e1, e2⟩ := hole_zeroed_extents fs n hwf hsize ((fs.inode_table n).extent_num - 1)
    (by omega)
  rw [find_last_block_eq, find_last_block_eq]
  show u32 (extent_start (hole_zeroed fs n) (fs.inode_table n).indirect_pt
        (sub32 (fs.inode_table n).extent_num 1)
      + extent_count (hole_zeroed fs n) (fs.inode_table n).indirect_pt
        (sub32 (fs.inode_table n).extent_num 1) + 4294967295) = _
  rw [hs, e1, e2]

/-- The outcomes of `growing_a_block_for_file` on a file that has blocks, when
a block is available. -/
theorem grow_nonempty_eq (h : a1fs_h) (fs : fs_ctx) (n : Nat)
    (hav : fs.available_blocks ≠ 0) (hsize : (fs.inode_table n).size ≠ 0) :
    growing_a_block_for_file h fs n =
      if is_bit_set (u32 (find_last_block { fs with data := hole_zeroed fs n } n + 1))
          fs.data_bitmap = 0 then
        if fs.size < fs.data_block
            + (get_addr_of_block (find_last_block fs n) + A1FS_BLOCK_SIZE) + A1FS_BLOCK_SIZE
        then none
        else
          some (0, { fs with
            data_bitmap := set_bitmap fs.data_bitmap
              (u32 (find_last_block { fs with data := hole_zeroed fs n } n + 1))
            available_blocks := sub32 fs.available_blocks 1
            data := memset
              (write32 (hole_zeroed fs n)
                ((fs.inode_table n).indirect_pt
                  + sizeof_extent * sub32 (fs.inode_table n).extent_num 1 + 4)
                (u32 (extent_count (hole_zeroed fs n) (fs.inode_table n).indirect_pt
                  (sub32 (fs.inode_table n).extent_num 1) + 1)))
              (get_addr_of_block (find_last_block fs n) + A1FS_BLOCK_SIZE) 0 A1FS_BLOCK_SIZE
            inode_table := set_inode fs.inode_table n
              { fs.inode_table n with
                  size := u64 ((get_num_blks_of_file fs.data (fs.inode_table n) + 1)
                    * A1FS_BLOCK_SIZE) } })
      else if (fs.inode_table n).extent_num = 512 then
        some (-1, { fs with data := hole_zeroed fs n })
      else
        some (0, { fs with
          data_bitmap := set_bitmap fs.data_bitmap
            (get_first_available_position h fs.num_of_data_blocks fs.data_bitmap)
          available_blocks := sub32 fs.available_blocks 1
          data := memset
            (write32
              (write32 (hole_zeroed fs n)
                ((fs.inode_table n).indirect_pt + sizeof_extent * (fs.inode_table n).extent_num)
                (get_first_available_position h fs.num_of_data_blocks fs.data_bitmap))
              ((fs.inode_table n).indirect_pt + sizeof_extent * (fs.inode_table n).extent_num + 4)
              1)
            (get_addr_of_block
              (get_first_available_position h fs.num_of_data_blocks fs.data_bitmap))
            0 A1FS_BLOCK_SIZE
          inode_table := set_inode fs.inode_table n
            { fs.inode_table n with
                extent_num := u32 ((fs.inode_table n).extent_num + 1)
                size := u64 ((get_num_blks_of_file fs.data (fs.inode_table n) + 1)
                  * A1FS_BLOCK_SIZE) } }) := by
  unfold growing_a_block_for_file
  rw [if_neg hav, if_neg hsize]
  rfl

/-- Growth in place, when the block after the last block of the file is free
and lies inside the mapped image. -/
theorem grow_in_place_spec (h : a1fs_h) (fs : fs_ctx) (n : Nat) (hwf : regular_file_wf fs n)
    (hsize : 0 < (fs.inode_table n).size) (hav : 0 < fs.available_blocks)
    (hX : is_bit_set ((fs.inode_table n).indirect_pt / A1FS_BLOCK_SIZE) fs.data_bitmap = 1)
    (hbit : is_bit_set (find_last_block fs n + 1) fs.data_bitmap = 0)
    (himg : fs.data_block + (find_last_block fs n + 1) * 4096 + 4096 ≤ fs.size) :
    ∃ g, growing_a_block_for_file h fs n = some (0, g) ∧
      is_bit_set (find_last_block fs n + 1) g.data_bitmap = 1 ∧
      (∀ j, j ≠ find_last_block fs n + 1 →
        is_bit_set j g.data_bitmap = is_bit_set j fs.data_bitmap) ∧
      (g.inode_table n).extent_num = (fs.inode_table n).extent_num ∧
      (g.inode_table n).indirect_pt = (fs.inode_table n).indirect_pt ∧
      (∀ i, i < (fs.inode_table n).extent_num →
        extent_start g.data (fs.inode_table n).indirect_pt i
          = extent_start fs.data (fs.inode_table n).indirect_pt i) ∧
      (∀ i, i + 1 < (fs.inode_table n).extent_num →
        extent_count g.data (fs.inode_table n).indirect_pt i
          = extent_count fs.data (fs.inode_table n).indirect_pt i) ∧
      extent_count g.data (fs.inode_table n).indirect_pt ((fs.inode_table n).extent_num - 1)
        = extent_count fs.data (fs.inode_table n).indirect_pt
          ((fs.inode_table n).extent_num - 1) + 1 ∧
      g.available_blocks + 1 = fs.available_blocks ∧
      ∀ a, (find_last_block fs n + 1) * 4096 ≤ a → a < (find_last_block fs n + 1) * 4096 + 4096 →
        g.data a = 0 := by
  obtain ⟨he1, hs, hL, hLN, hLX⟩ := last_block_facts fs n hwf hsize
  have hN : fs.num_of_data_blocks < 1048576 := hwf.1
  have hfree := hwf.2.1
  have he512 : (fs.inode_table n).extent_num ≤ 512 := hwf.2.2.1
  have hp : (fs.inode_table n).indirect_pt % A1FS_BLOCK_SIZE = 0 := (hwf.2.2.2.2.2 hsize).1
  have hfc := free_count_le fs.data_bitmap fs.num_of_data_blocks
  have hLu : u32 (find_last_block fs n + 1) = find_last_block fs n + 1 :=
    u32_small _ (by omega)
  have hXL : (fs.inode_table n).indirect_pt / A1FS_BLOCK_SIZE ≠ find_last_block fs n + 1 := by
    intro e
    rw [e] at hX
    omega
  have hin : ¬ fs.size < fs.data_block
      + (get_addr_of_block (find_last_block fs n) + A1FS_BLOCK_SIZE) + A1FS_BLOCK_SIZE := by
    unfold get_addr_of_block A1FS_BLOCK_SIZE
    omega
  rw [grow_nonempty_eq h fs n (by omega) (by omega), find_last_block_hole_zeroed fs n hwf hsize,
    hLu, if_pos hbit, if_neg hin, hs]
  unfold A1FS_BLOCK_SIZE at hp hLX hXL
  have hm : ∀ v a, a + 4 ≤ (fs.inode_table n).indirect_pt + 4096 →
      (fs.inode_table n).indirect_pt ≤ a →
      read32 (memset v (get_addr_of_block (find_last_block fs n) + A1FS_BLOCK_SIZE) 0
        A1FS_BLOCK_SIZE) a = read32 v a := by
    intro v a ha1 ha2
    apply read32_memset_other
    unfold get_addr_of_block A1FS_BLOCK_SIZE
    omega
  refine ⟨_, rfl, is_bit_set_set_same _ _, fun j hj => is_bit_set_set_other _ _ j hj, ?_, ?_, ?_,
    ?_, ?_, ?_, ?_⟩
  · simp only [set_inode, if_true]
  · simp only [set_inode, if_true]
  · intro i hi
    show read32 _ _ = _
    unfold sizeof_extent
    rw [hm _ _ (by omega) (by omega), read32_write32_other _ _ _ _ (by omega)]
    exact (hole_zeroed_extents fs n hwf hsize i (by omega)).1
  · intro i hi
    show read32 _ _ = _
    unfold sizeof_extent
    rw [hm _ _ (by omega) (by omega), read32_write32_other _ _ _ _ (by omega)]
    exact (hole_zeroed_extents fs n hwf hsize i (by omega)).2
  · have hc := (hole_zeroed_extents fs n hwf hsize ((fs.inode_table n).extent_num - 1)
      (by omega)).2
    show read32 _ _ = _
    unfold sizeof_extent
    rw [hm _ _ (by omega) (by omega)]
    unfold sizeof_extent at hc
    rw [read32_write32_same, hc]
    unfold u32
    omega
  · show sub32 fs.available_blocks 1 + 1 = fs.available_blocks
    unfold sub32 u32
    omega
  · intro a ha1 ha2
    show memset _ _ _ _ a = 0
    unfold memset get_addr_of_block A1FS_BLOCK_SIZE
    rw [if_pos (by omega)]

/-- Growth in place, when the block after the last block of the file is free
and does not lie inside the mapped image: the `memset` of that block leaves the
image. -/
theorem grow_outside_image (h : a1fs_h) (fs : fs_ctx) (n : Nat) (hwf : regular_file_wf fs n)
    (hsize : 0 < (fs.inode_table n).size) (hav : 0 < fs.available_blocks)
    (hbit : is_bit_set (find_last_block fs n + 1) fs.data_bitmap = 0)
    (himg : fs.size < fs.data_block + (find_last_block fs n + 1) * 4096 + 4096) :
    growing_a_block_for_file h fs n = none := by
  obtain ⟨_, _, _, hLN, _⟩ := last_block_facts fs n hwf hsize
  have hN : fs.num_of_data_blocks < 1048576 := hwf.1
  have hLu : u32 (find_last_block fs n + 1) = find_last_block fs n + 1 :=
    u32_small _ (by omega)
  have hout : fs.size < fs.data_block
      + (get_addr_of_block (find_last_block fs n) + A1FS_BLOCK_SIZE) + A1FS_BLOCK_SIZE := by
    unfold get_addr_of_block A1FS_BLOCK_SIZE
    omega
  rw [grow_nonempty_eq h fs n (by omega) (by omega), find_last_block_hole_zeroed fs n hwf hsize,
    hLu, if_pos hbit, if_pos hout]

/-- Growth refused: the block after the last block is in use and the file has
512 extents. -/
theorem grow_at_cap_spec (h : a1fs_h) (fs : fs_ctx) (n : Nat) (hwf : regular_file_wf fs n)
    (hsize : 0 < (fs.inode_table n).size) (hav : 0 < fs.available_blocks)
    (hbit : is_bit_set (find_last_block fs n + 1) fs.data_bitmap ≠ 0)
    (hcap : (fs.inode_table n).extent_num = 512) :
    ∃ g, growing_a_block_for_file h fs n = some (-1, g) ∧
      g.inode_table = fs.inode_table ∧
      g.data_bitmap = fs.data_bitmap ∧
      g.available_blocks = fs.available_blocks ∧
      ∀ i, i < 512 →
        extent_start g.data (fs.inode_table n).indirect_pt i
          = extent_start fs.data (fs.inode_table n).indirect_pt i ∧
        extent_count g.data (fs.inode_table n).indirect_pt i
          = extent_count fs.data (fs.inode_table n).indirect_pt i := by
  obtain ⟨_, _, _, hLN, _⟩ := last_block_facts fs n hwf hsize
  have hN : fs.num_of_data_blocks < 1048576 := hwf.1
  have hLu : u32 (find_last_block fs n + 1) = find_last_block fs n + 1 :=
    u32_small _ (by omega)
  rw [grow_nonempty_eq h fs n (by omega) (by omega), find_last_block_hole_zeroed fs n hwf hsize,
    hLu, if_neg hbit, if_pos hcap]
  exact ⟨_, rfl, rfl, rfl, rfl, fun i hi => hole_zeroed_extents fs n hwf hsize i hi⟩

/-- Growth by a new extent: the block after the last block is in use and the
file has fewer than 512 extents. -/
theorem grow_new_extent_spec (h : a1fs_h) (fs : fs_ctx) (n : Nat) (hwf : regular_file_wf fs n)
    (hsize : 0 < (fs.inode_table n).size) (hav : 0 < fs.available_blocks)
    (hX : is_bit_set ((fs.inode_table n).indirect_pt / A1FS_BLOCK_SIZE) fs.data_bitmap = 1)
    (hbit : is_bit_set (find_last_block fs n + 1) fs.data_bitmap ≠ 0)
    (hcap : (fs.inode_table n).extent_num ≠ 512) :
    ∃ g, growing_a_block_for_file h fs n = some (0, g) ∧
      get_first_available_position h fs.num_of_data_blocks fs.data_bitmap
        < fs.num_of_data_blocks ∧
      is_bit_set (get_first_available_position h fs.num_of_data_blocks fs.data_bitmap)
        fs.data_bitmap = 0 ∧
      (∀ j, j < get_first_available_position h fs.num_of_data_blocks fs.data_bitmap →
        is_bit_set j fs.data_bitmap = 1) ∧
      is_bit_set (get_first_available_position h fs.num_of_data_blocks fs.data_bitmap)
        g.data_bitmap = 1 ∧
      (∀ j, j ≠ get_first_available_position h fs.num_of_data_blocks fs.data_bitmap →
        is_bit_set j g.data_bitmap = is_bit_set j fs.data_bitmap) ∧
      (g.inode_table n).extent_num = (fs.inode_table n).extent_num + 1 ∧
      (g.inode_table n).indirect_pt = (fs.inode_table n).indirect_pt ∧
      extent_start g.data (fs.inode_table n).indirect_pt (fs.inode_table n).extent_num
        = get_first_available_position h fs.num_of_data_blocks fs.data_bitmap ∧
      extent_count g.data (fs.inode_table n).indirect_pt (fs.inode_table n).extent_num = 1 ∧
      (∀ i, i < (fs.inode_table n).extent_num →
        extent_start g.data (fs.inode_table n).indirect_pt i
          = extent_start fs.data (fs.inode_table n).indirect_pt i ∧
        extent_count g.data (fs.inode_table n).indirect_pt i
          = extent_count fs.data (fs.inode_table n).indirect_pt i) ∧
      g.available_blocks + 1 = fs.available_blocks ∧
      ∀ a, get_first_available_position h fs.num_of_data_blocks fs.data_bitmap * 4096 ≤ a →
        a < get_first_available_position h fs.num_of_data_blocks fs.data_bitmap * 4096 + 4096 →
        g.data a = 0 := by
  obtain ⟨he1, hs, hL, hLN, hLX⟩ := last_block_facts fs n hwf hsize
  have hN : fs.num_of_data_blocks < 1048576 := hwf.1
  have hfree := hwf.2.1
  have he512 : (fs.inode_table n).extent_num ≤ 512 := hwf.2.2.1
  have hp : (fs.inode_table n).indirect_pt % A1FS_BLOCK_SIZE = 0 := (hwf.2.2.2.2.2 hsize).1
  have hfc := free_count_le fs.data_bitmap fs.num_of_data_blocks
  have hLu : u32 (find_last_block fs n + 1) = find_last_block fs n + 1 :=
    u32_small _ (by omega)
  obtain ⟨hB, hBb⟩ := get_first_available_position_spec h fs.data_bitmap fs.num_of_data_blocks
    (by omega)
  have hleast := fun j hj =>
    get_first_available_position_least h fs.data_bitmap fs.num_of_data_blocks j hB hj
  rw [grow_nonempty_eq h fs n (by omega) (by omega), find_last_block_hole_zeroed fs n hwf hsize,
    hLu, if_neg hbit, if_neg hcap]
  generalize get_first_available_position h fs.num_of_data_blocks fs.data_bitmap = B at *
  have hXB : (fs.inode_table n).indirect_pt / A1FS_BLOCK_SIZE ≠ B := by
    intro e
    rw [e] at hX
    omega
  unfold A1FS_BLOCK_SIZE at hp hXB
  have hm : ∀ v a, a + 4 ≤ (fs.inode_table n).indirect_pt + 4096 →
      (fs.inode_table n).indirect_pt ≤ a →
      read32 (memset v (get_addr_of_block B) 0 A1FS_BLOCK_SIZE) a = read32 v a := by
    intro v a ha1 ha2
    apply read32_memset_other
    unfold get_addr_of_block A1FS_BLOCK_SIZE
    omega
  refine ⟨_, rfl, hB, hBb, hleast, is_bit_set_set_same _ _,
    fun j hj => is_bit_set_set_other _ _ j hj, ?_, ?_, ?_, ?_, ?_, ?_, ?_⟩
  · simp only [set_inode, if_true]
    exact u32_small _ (by omega)
  · simp only [set_inode, if_true]
  · show read32 _ _ = _
    unfold sizeof_extent
    rw [hm _ _ (by omega) (by omega), read32_write32_other _ _ _ _ (by omega),
      read32_write32_same]
    omega
  · show read32 _ _ = _
    unfold sizeof_extent
    rw [hm _ _ (by omega) (by omega), read32_write32_same]
  · intro i hi
    constructor
    · show read32 _ _ = _
      unfold sizeof_extent
      rw [hm _ _ (by omega) (by omega), read32_write32_other _ _ _ _ (by omega),
        read32_write32_other _ _ _ _ (by omega)]
      exact (hole_zeroed_extents fs n hwf hsize i (by omega)).1
    · show read32 _ _ = _
      unfold sizeof_extent
      rw [hm _ _ (by omega) (by omega), read32_write32_other _ _ _ _ (by omega),
        read32_write32_other _ _ _ _ (by omega)]
      exact (hole_zeroed_extents fs n hwf hsize i (by omega)).2
  · show sub32 fs.available_blocks 1 + 1 = fs.available_blocks
    unfold sub32 u32
    omega
  · intro a ha1 ha2
    show memset _ _ _ _ a = 0
    unfold memset get_addr_of_block A1FS_BLOCK_SIZE
    rw [if_pos (by omega)]

set_option maxRecDepth 100000 in
theorem regular_file_wf_fs_three : regular_file_wf fs_three 1 := by
  unfold regular_file_wf
  refine ⟨by decide, by decide, by decide, by decide, by decide, fun _ => ⟨by decide, ?_⟩⟩
  intro i hi
  have hi0 : i = 0 := by
    have : (fs_three.inode_table 1).extent_num = 1 := by decide
    omega
  subst hi0
  decide

set_option maxRecDepth 100000 in
theorem regular_file_wf_fs_three_blocked : regular_file_wf fs_three_blocked 1 := by
  unfold regular_file_wf
  refine ⟨by decide, by decide, by decide, by decide, by decide, fun _ => ⟨by decide, ?_⟩⟩
  intro i hi
  have hi0 : i = 0 := by
    have : (fs_three_blocked.inode_table 1).extent_num = 1 := by decide
    omega
  subst hi0
  decide

set_option maxRecDepth 100000 in
theorem regular_file_wf_fs_file_512_full : regular_file_wf fs_file_512_full 1 := by
  unfold regular_file_wf
  refine ⟨by decide, by decide!, by decide, by decide!, by decide!, fun _ => ⟨by decide, ?_⟩⟩
  decide!

set_option maxRecDepth 100000 in
theorem regular_file_wf_fs_file_at_end : regular_file_wf fs_file_at_end 2 := by
  unfold regular_file_wf
  refine ⟨by decide, by decide, by decide, by decide, by decide, fun _ => ⟨by decide, ?_⟩⟩
  intro i hi
  have hi0 : i = 0 := by
    have : (fs_file_at_end.inode_table 2).extent_num = 1 := by decide
    omega
  subst hi0
  decide

/-! ## The blocks that `a1fs_unlink` gives back -/

theorem is_bit_set_unset_mono (bm : Mem) (x b : Nat) (hb : is_bit_set b bm = 0) :
    is_bit_set b (unset_bitmap bm x) = 0 := by
  by_cases hbx : b = x
  · rw [hbx]; exact is_bit_set_unset_same bm x
  · rw [is_bit_set_unset_other bm x b hbx]; exact hb

/-- The loop of `a1fs_unlink` over the blocks of one extent: it adds the number
of blocks to the counter, clears their bits and sets no bit. -/
theorem unlink_free_blocks_spec (start k j : Nat) (bm : Mem) (av : Nat)
    (hav : av + k < 4294967296) (hs : start + j + k ≤ 4294967296) :
    (unlink_free_blocks start k j bm av).2 = av + k ∧
      (∀ b, is_bit_set b bm = 0 → is_bit_set b (unlink_free_blocks start k j bm av).1 = 0) ∧
      ∀ b, start + j ≤ b → b < start + j + k →
        is_bit_set b (unlink_free_blocks start k j bm av).1 = 0 := by
  induction k generalizing j bm av with
  | zero =>
    refine ⟨rfl, fun b hb => hb, fun b h1 h2 => ?_⟩
    omega
  | succ k ih =>
    unfold unlink_free_blocks
    have hu1 : u32 (start + j) = start + j := u32_small _ (by omega)
    have hu2 : u32 (av + 1) = av + 1 := u32_small _ (by omega)
    rw [hu1, hu2]
    obtain ⟨i1, i2, i3⟩ := ih (j + 1) (unset_bitmap bm (start + j)) (av + 1) (by omega) (by omega)
    refine ⟨by omega, fun b hb => i2 b (is_bit_set_unset_mono bm _ b hb), fun b h1 h2 => ?_⟩
    by_cases hbj : b = start + j
    · apply i2
      rw [hbj]
      exact is_bit_set_unset_same bm _
    · exact i3 b (by omega) (by omega)

theorem sum_counts_le (m : Mem) (p k C : Nat)
    (hc : ∀ e, e < k → extent_count m p e ≤ C) : sum_counts m p k ≤ C * k := by
  induction k with
  | zero => simp [sum_counts]
  | succ k ih =>
    unfold sum_counts
    have h1 := ih (fun e he => hc e (by omega))
    have h2 := hc k (by omega)
    have h3 : u32 (sum_counts m p k + extent_count m p k)
        ≤ sum_counts m p k + extent_count m p k := by
      unfold u32
      exact Nat.mod_le _ _
    rw [Nat.mul_succ]
    omega

theorem sum_counts_succ (m : Mem) (p k : Nat) (hk : k < 512)
    (hc : ∀ e, e < k + 1 → extent_count m p e ≤ 1048576) :
    sum_counts m p (k + 1) = sum_counts m p k + extent_count m p k := by
  have h1 := sum_counts_le m p k 1048576 (fun e he => hc e (by omega))
  have h2 := hc k (by omega)
  show u32 _ = _
  exact u32_small _ (by omega)

/-- The loop of `a1fs_unlink` over the extents of the file: it adds the counts
of the extents to the counter, clears the bits of their blocks and sets no
bit. -/
theorem unlink_free_extents_spec (m : Mem) (p k i : Nat) (bm : Mem) (av : Nat)
    (hk : i + k ≤ 512)
    (hc : ∀ e, e < i + k → extent_start m p e + extent_count m p e ≤ 1048576)
    (hav : av ≤ 1048576 * (i + 1)) :
    (unlink_free_extents m p k i bm av).2 + sum_counts m p i = av + sum_counts m p (i + k) ∧
      (∀ b, is_bit_set b bm = 0 → is_bit_set b (unlink_free_extents m p k i bm av).1 = 0) ∧
      ∀ e b, i ≤ e → e < i + k → extent_start m p e ≤ b →
        b < extent_start m p e + extent_count m p e →
        is_bit_set b (unlink_free_extents m p k i bm av).1 = 0 := by
  induction k generalizing i bm av with
  | zero =>
    refine ⟨rfl, fun b hb => hb, fun e b h1 h2 => ?_⟩
    omega
  | succ k ih =>
    unfold unlink_free_extents
    have hci := hc i (by omega)
    obtain ⟨b1, b2, b3⟩ := unlink_free_blocks_spec (extent_start m p i) (extent_count m p i) 0
      bm av (by omega) (by omega)
    simp only
    rw [b1]
    obtain ⟨i1, i2, i3⟩ := ih (i + 1)
      (unlink_free_blocks (extent_start m p i) (extent_count m p i) 0 bm av).1
      (av + extent_count m p i) (by omega) (fun e he => hc e (by omega)) (by omega)
    have hsucc := sum_counts_succ m p i (by omega)
      (fun e he => by have := hc e (by omega); omega)
    have hidx : i + 1 + k = i + (k + 1) := by omega
    rw [hidx] at i1
    refine ⟨by omega, fun b hb => i2 b (b2 b hb), fun e b h1 h2 h3 h4 => ?_⟩
    by_cases hei : e = i
    · subst hei
      exact i2 b (b3 b (by omega) (by omega))
    · exact i3 e b (by omega) (by omega) h3 h4

/-- The data blocks that `remove_entry` gives back: it adds their number to the
counter of available blocks and sets no bit of the data bitmap. -/
theorem remove_entry_blocks (h : a1fs_h) (fs fs' : fs_ctx) (P t : Nat) (dir : Bool) (r : Int)
    (hav : fs.available_blocks + 2 < 4294967296)
    (hr : remove_entry h fs P t dir = some (r, fs')) :
    r = 0 ∧ fs'.available_blocks = fs.available_blocks + parent_blocks_freed h fs P ∧
      ∀ b, is_bit_set b fs.data_bitmap = 0 → is_bit_set b fs'.data_bitmap = 0 := by
  have hu1 : u32 (fs.available_blocks + 1) = fs.available_blocks + 1 := u32_small _ (by omega)
  have hu2 : u32 (fs.available_blocks + 1 + 1) = fs.available_blocks + 2 :=
    u32_small _ (by omega)
  unfold remove_entry at hr
  simp only at hr
  unfold parent_blocks_freed
  cases hte : take_entry h fs P t with
  | none => rw [hte] at hr; simp at hr
  | some v =>
    rw [hte] at hr
    simp only at hr
    by_cases h1 : (fs.inode_table P).num_dir_entry = 1
    · rw [if_pos h1] at hr
      rw [if_pos h1]
      simp only [Option.some.injEq, Prod.mk.injEq] at hr
      obtain ⟨hr1, hfs⟩ := hr
      subst hfs
      refine ⟨hr1.symm, ?_, fun b hb => ?_⟩
      · show u32 (u32 (fs.available_blocks + 1) + 1) = _
        rw [hu1, hu2]
      · exact is_bit_set_unset_mono _ _ b (is_bit_set_unset_mono _ _ b hb)
    · rw [if_neg h1] at hr
      rw [if_neg h1]
      by_cases h2 : (fs.inode_table P).num_dir_entry % (A1FS_BLOCK_SIZE / h.sizeof_dentry) ≠ 1
      · rw [if_pos h2] at hr
        rw [if_pos h2]
        simp only [Option.some.injEq, Prod.mk.injEq] at hr
        obtain ⟨hr1, hfs⟩ := hr
        subst hfs
        exact ⟨hr1.symm, rfl, fun b hb => hb⟩
      · rw [if_neg h2] at hr
        rw [if_neg h2]
        by_cases h3 : extent_count v.2 (fs.inode_table P).indirect_pt
            (sub32 (fs.inode_table P).extent_num 1) > 1
        · rw [if_pos h3] at hr
          simp only [Option.some.injEq, Prod.mk.injEq] at hr
          obtain ⟨hr1, hfs⟩ := hr
          subst hfs
          exact ⟨hr1.symm, hu1, fun b hb => is_bit_set_unset_mono _ _ b hb⟩
        · rw [if_neg h3] at hr
          simp only [Option.some.injEq, Prod.mk.injEq] at hr
          obtain ⟨hr1, hfs⟩ := hr
          subst hfs
          exact ⟨hr1.symm, hu1, fun b hb => is_bit_set_unset_mono _ _ b hb⟩

/-! ## The claims -/

/-- Write/read round trip inside the first block, for a path that is resolved
without the blocks the write touches: on a well-formed
regular file whose path is resolved without reading the file's own blocks or
free blocks, when `a1fs_write` of a non-empty buffer `data` at an offset with
`offset + len(data) ≤ 4096` succeeds, the following `a1fs_read` of `len(data)`
bytes at the same offset returns `len(data)` and exactly `data`. -/
theorem write_read_round_trip (h : a1fs_h) (fs fs' : fs_ctx) (now : timespec) (path : String)
    (data : List Nat) (offset ino : Nat) (r : Int)
    (hlook : path_lookup h fs path = some (ino : Int))
    (hind : path_independent_of_file h fs path ino)
    (hwf : regular_file_wf fs ino)
    (hne : data ≠ [])
    (hrange : offset + data.length ≤ 4096)
    (hw : a1fs_write h fs now path data offset = some (r, fs'))
    (hok : 0 ≤ r) :
    a1fs_read h fs' path data.length offset = some ((data.length : Int), data) := by
  obtain ⟨s, c, m, hd, hsz, hen, hs, hc, hc1, hc2, hdisj, hit, hfr⟩ :=
    write_first_block_shape h fs fs' now path data offset ino r hlook hwf hne hrange hw hok
  have hlook' : path_lookup h fs' path = some (ino : Int) := by
    rw [← hlook]
    apply hind fs' hit
    intro a hbit hnf
    obtain ⟨hne', hma⟩ := hfr a hbit hnf
    rw [hd, memcpy_other _ _ _ _ _ (by omega), hma]
  exact read_after_memcpy h fs' path data offset ino s c m hlook' hrange
    (List.length_pos.mpr hne) hsz hen hd hs hc hc1 hc2 hdisj

set_option maxRecDepth 100000 in
/-- The round trip at a concrete input: on the image holding the empty file `/f`,
writing `hello` at offset 10 and reading 5 bytes at offset 10 gives `hello`. -/
theorem write_read_round_trip_witness :
    regular_file_wf fs_f 1 ∧ path_independent_of_file hdr fs_f "/f" 1 ∧
      a1fs_read hdr (state_after (a1fs_write hdr fs_f t1 "/f" hello 10) fs_f) "/f" hello.length 10
        = some ((hello.length : Int), hello) :=
  ⟨regular_file_wf_fs_f, path_independent_fs_f,
    write_read_round_trip hdr fs_f _ t1 "/f" hello 10 1 _ (by decide) path_independent_fs_f
      regular_file_wf_fs_f (by decide) (by decide) (eq_some_of_isSome _ fs_f (by decide))
      (by decide)⟩

set_option maxRecDepth 100000 in
/-- Claim C2 fails on the code.  On the image holding the empty file `/f`,
`a1fs_write` of `hello` at offset 4106 (a range inside the second block)
returns 5; the file then has size 4111, and the byte at position 4096, which
lies between the old size 0 and the offset, reads as 104 and not as zero, while
the five bytes at offset 4106 read as zero: the branch that grows the file by
two blocks copies the buffer to the start of the last block instead of to
`offset % 4096` in it.  (The example of the claim, 5 bytes at offset 10, does
read back five zero bytes at offset 5.) -/
theorem hole_not_zeroed_in_second_block :
    value_of (a1fs_write hdr fs_f t1 "/f" hello 4106) fs_f = 5 ∧
      ((state_after (a1fs_write hdr fs_f t1 "/f" hello 4106) fs_f).inode_table 1).size = 4111 ∧
      a1fs_read hdr (state_after (a1fs_write hdr fs_f t1 "/f" hello 4106) fs_f) "/f" 1 4096
        = some (1, [104]) ∧
      a1fs_read hdr (state_after (a1fs_write hdr fs_f t1 "/f" hello 4106) fs_f) "/f" 5 4106
        = some (5, [0, 0, 0, 0, 0]) ∧
      a1fs_read hdr (state_after (a1fs_write hdr fs_f t1 "/f" hello 10) fs_f) "/f" 5 5
        = some (5, [0, 0, 0, 0, 0]) := by
  decide

set_option maxRecDepth 100000 in
/-- Claim C3 fails on the code.  After ten bytes were written to `/f`, a read
of 5 bytes at offset `2^32`, far beyond the end of the file, returns 5 and the
first five bytes of the file instead of 0: the test for the end of the file
compares `(uint32_t) offset`, which is 0 here, with the size. -/
theorem read_beyond_eof_at_wide_offset :
    value_of (a1fs_write hdr fs_f t1 "/f" [48, 49, 50, 51, 52, 53, 54, 55, 56, 57] 0) fs_f = 10 ∧
      (fs_ten.inode_table 1).size = 10 ∧
      a1fs_read hdr fs_ten "/f" 5 4294967296 = some (5, [48, 49, 50, 51, 52]) := by
  decide

set_option maxRecDepth 1000000 in
/-- Claim C4 fails on the code.  On the image `fs_fg` (blocks 2 and 3 free,
block 4 in use) two appends are made to the empty file `/f`: 4096 bytes `A` at
offset 0, then the byte `B` at offset 4096, the size at that time.  Both return
their sizes.  After the first the file reads `A A` at offset 0 and `A` at
offset 4095; after the second it reads `B 0` at offset 0 and 0 at offset 4095:
bytes below the old size and outside the written range have changed, and the
file is not the concatenation of the two buffers.  The first growth leaves the
bit of the first data block (block 3) clear, so the second growth takes block 3
again as a new extent and zero-fills it. -/
theorem append_overwrites_first_block :
    value_of (a1fs_write hdr fs_fg t1 "/f" (List.replicate 4096 65) 0) fs_fg = 4096 ∧
      (fs_fg_block.inode_table 1).size = 4096 ∧
      a1fs_read hdr fs_fg_block "/f" 2 0 = some (2, [65, 65]) ∧
      a1fs_read hdr fs_fg_block "/f" 1 4095 = some (1, [65]) ∧
      value_of (a1fs_write hdr fs_fg_block t1 "/f" [66] 4096) fs_fg_block = 1 ∧
      ((state_after (a1fs_write hdr fs_fg_block t1 "/f" [66] 4096) fs_fg_block).inode_table
        1).size = 4097 ∧
      a1fs_read hdr (state_after (a1fs_write hdr fs_fg_block t1 "/f" [66] 4096) fs_fg_block)
        "/f" 2 0 = some (2, [66, 0]) ∧
      a1fs_read hdr (state_after (a1fs_write hdr fs_fg_block t1 "/f" [66] 4096) fs_fg_block)
        "/f" 1 4095 = some (1, [0]) := by
  decide!

set_option maxRecDepth 100000 in
/-- Claim C5 fails on the code as stated.  A write of zero bytes at offset 10
to the empty file `/f` returns 0, which is the requested count and no error,
and leaves the size at 0, although `offset + size = 10` exceeds the old size:
`a1fs_write` returns at once when `size == 0`. -/
theorem zero_length_write_keeps_size :
    path_lookup hdr fs_f "/f" = some 1 ∧
      (fs_f.inode_table 1).size = 0 ∧
      value_of (a1fs_write hdr fs_f t1 "/f" [] 10) fs_f = 0 ∧
      ((state_after (a1fs_write hdr fs_f t1 "/f" [] 10) fs_f).inode_table 1).size = 0 ∧
      ((state_after (a1fs_write hdr fs_f t1 "/f" [] 10) fs_f).inode_table 1).size ≠ 10 + 0 := by
  decide

/-- Claim C5, amended.  For a buffer of at most 4096 bytes (the single-block
assumption of the dispatcher) and an offset in the range of `off_t`, every
`a1fs_write` that does not return an error returns the buffer length, and
afterwards the size of the file is unchanged when the buffer is empty or
`offset + size ≤ old size`, and equals `offset + size` otherwise. -/
theorem write_returns_size (h : a1fs_h) (fs fs' : fs_ctx) (now : timespec) (path : String)
    (buf : List Nat) (offset ino : Nat) (r : Int)
    (hlook : path_lookup h fs path = some (ino : Int))
    (hlen : buf.length ≤ 4096)
    (hoff : offset < 9223372036854775808)
    (hw : a1fs_write h fs now path buf offset = some (r, fs'))
    (hok : 0 ≤ r) :
    r = (buf.length : Int) ∧
      (fs'.inode_table ino).size =
        if buf.length = 0 ∨ offset + buf.length ≤ (fs.inode_table ino).size then
          (fs.inode_table ino).size
        else offset + buf.length := by
  by_cases hlen0 : buf.length = 0
  · unfold a1fs_write at hw
    simp only [hlen0, if_true, Option.some.injEq, Prod.mk.injEq] at hw
    obtain ⟨hr, hfs⟩ := hw
    subst hfs
    simp [hlen0, hr.symm]
  have hino : (ino : Int) < 2147483648 := path_lookup_lt h fs path _ hlook
  have hu : u32_of_int (ino : Int) = ino := u32_of_int_natCast _ (by omega)
  have hpos : 0 < buf.length := by omega
  have he : u64 (buf.length + offset) = buf.length + offset := u64_small _ (by omega)
  have hint : int_of buf.length = (buf.length : Int) := int_of_small _ (by omega)
  unfold a1fs_write at hw
  simp only [hlen0, if_false, hlook, he, hint, hu] at hw
  simp only [hlen0, false_or]
  by_cases hc1 : buf.length + offset ≤ (fs.inode_table ino).size
  · rw [if_pos hc1] at hw
    split at hw
    · simp at hw
    · simp only [Option.some.injEq, Prod.mk.injEq] at hw
      obtain ⟨hr, hfs⟩ := hw
      subst hfs
      simp only [touch_same]
      rw [if_pos (by omega)]
      exact ⟨hr.symm, rfl⟩
  · rw [if_neg hc1] at hw
    rw [if_neg (by omega)]
    by_cases hc2 : buf.length + offset
        ≤ u32 (A1FS_BLOCK_SIZE * get_num_blks_of_file fs.data (fs.inode_table ino))
    · rw [if_pos hc2] at hw
      split at hw
      · simp at hw
      · by_cases hos : u64 offset ≤ (fs.inode_table ino).size
        · rw [if_pos hos] at hw
          simp only [Option.some.injEq, Prod.mk.injEq] at hw
          obtain ⟨hr, hfs⟩ := hw
          subst hfs
          simp only [touch_same]
          exact ⟨hr.symm, by omega⟩
        · rw [if_neg hos] at hw
          split_ifs at hw
          simp only [Option.some.injEq, Prod.mk.injEq] at hw
          obtain ⟨hr, hfs⟩ := hw
          subst hfs
          simp only [touch_same]
          exact ⟨hr.symm, by omega⟩
    · rw [if_neg hc2] at hw
      by_cases hc3 : buf.length + offset ≤ u32 (A1FS_BLOCK_SIZE
          * u32 (1 + get_num_blks_of_file fs.data (fs.inode_table ino)))
      · rw [if_pos hc3] at hw
        cases hgo : growing_a_block_for_file h fs ino with
        | none => rw [hgo] at hw; simp at hw
        | some g =>
          rw [hgo] at hw
          simp only at hw
          by_cases hg : g.1 = -1
          · rw [if_pos hg] at hw
            simp only [Option.some.injEq, Prod.mk.injEq, ENOSPC] at hw
            omega
          · rw [if_neg hg] at hw
            simp only [Option.some.injEq, Prod.mk.injEq] at hw
            obtain ⟨hr, hfs⟩ := hw
            subst hfs
            simp only [touch_same]
            exact ⟨hr.symm, by omega⟩
      · rw [if_neg hc3] at hw
        cases hgo1 : growing_a_block_for_file h fs ino with
        | none => rw [hgo1] at hw; simp at hw
        | some g1 =>
          rw [hgo1] at hw
          simp only at hw
          by_cases hg1 : g1.1 = -1
          · rw [if_pos hg1] at hw
            simp only [Option.some.injEq, Prod.mk.injEq, ENOSPC] at hw
            omega
          · rw [if_neg hg1] at hw
            cases hgo2 : growing_a_block_for_file h g1.2 ino with
            | none => rw [hgo2] at hw; simp at hw
            | some g2 =>
              rw [hgo2] at hw
              simp only at hw
              by_cases hg2 : g2.1 = -1
              · rw [if_pos hg2] at hw
                simp only [Option.some.injEq, Prod.mk.injEq, ENOSPC] at hw
                omega
              · rw [if_neg hg2] at hw
                simp only [Option.some.injEq, Prod.mk.injEq] at hw
                obtain ⟨hr, hfs⟩ := hw
                subst hfs
                simp only [touch_same]
                exact ⟨hr.symm, by omega⟩

set_option maxRecDepth 100000 in
/-- Claim C5 amended, at a concrete input: writing `hello` at offset 10 of the
empty file `/f` returns 5 and sets the size to 15. -/
theorem write_returns_size_witness :
    value_of (a1fs_write hdr fs_f t1 "/f" hello 10) fs_f = (hello.length : Int) ∧
      ((state_after (a1fs_write hdr fs_f t1 "/f" hello 10) fs_f).inode_table 1).size =
        if hello.length = 0 ∨ 10 + hello.length ≤ (fs_f.inode_table 1).size then
          (fs_f.inode_table 1).size
        else 10 + hello.length :=
  write_returns_size hdr fs_f _ t1 "/f" hello 10 1 _ (by decide) (by decide) (by decide)
    (eq_some_of_isSome _ fs_f (by decide)) (by decide)

set_option maxRecDepth 100000 in
/-- Claim C6 fails on the code.  A write of one byte at offset 12288 to the
empty file `/f` returns 1 and leaves a file of size 12289 that holds two
blocks: the size exceeds `4096 * 2`, and the file was not grown to the four
blocks that the end of the write needs.  The last branch of `a1fs_write` grows
the file by two blocks whatever the distance. -/
theorem far_write_size_exceeds_blocks :
    regular_file_wf fs_f 1 ∧
      value_of (a1fs_write hdr fs_f t1 "/f" [104] 12288) fs_f = 1 ∧
      ((state_after (a1fs_write hdr fs_f t1 "/f" [104] 12288) fs_f).inode_table 1).size = 12289 ∧
      get_num_blks_of_file (state_after (a1fs_write hdr fs_f t1 "/f" [104] 12288) fs_f).data
        ((state_after (a1fs_write hdr fs_f t1 "/f" [104] 12288) fs_f).inode_table 1) = 2 ∧
      ¬ (12289 ≤ 4096 * 2) :=
  ⟨regular_file_wf_fs_f, by decide⟩

set_option maxRecDepth 100000 in
/-- Claim C7 fails on the code, at the example of the claim.  After 100 bytes
`x` are written to `/f`, `truncate` to 10 and `truncate` to 100 both return 0,
and the bytes at positions 10 and 99 still read as `x` (120), not as zero: the
growing branch calls `growing_a_block_for_file` only for new blocks and zeroes
nothing when the new size stays in the last block. -/
theorem truncate_regrow_keeps_old_bytes :
    value_of (a1fs_write hdr fs_f t1 "/f" (List.replicate 100 120) 0) fs_f = 100 ∧
      value_of (a1fs_truncate hdr fs_x100 t1 "/f" 10) fs_x100 = 0 ∧
      (fs_x100_cut.inode_table 1).size = 10 ∧
      value_of (a1fs_truncate hdr fs_x100_cut t1 "/f" 100) fs_x100_cut = 0 ∧
      (fs_x100_regrown.inode_table 1).size = 100 ∧
      a1fs_read hdr fs_x100_regrown "/f" 1 10 = some (1, [120]) ∧
      a1fs_read hdr fs_x100_regrown "/f" 1 99 = some (1, [120]) := by
  decide

set_option maxRecDepth 100000 in
/-- Claim C8 fails on the code.  On the image `fs_three`, where `/f` holds the
extent `(3, 3)` and blocks 3, 4, 5 are marked, `truncate` to 4096 (so `k = 1`)
returns 0 and sets the count of the extent to 1, but it clears the bits of
blocks 3 and 4 and leaves the bit of block 5 set: the kept block 3 is marked
free and the discarded block 5 is still marked used.  The loop over the tail of
the target extent clears bit `start + i - 1` for `i` from `k`. -/
theorem truncate_shrink_frees_wrong_blocks :
    is_bit_set 3 fs_three.data_bitmap = 1 ∧ is_bit_set 4 fs_three.data_bitmap = 1 ∧
      is_bit_set 5 fs_three.data_bitmap = 1 ∧
      value_of (a1fs_truncate hdr fs_three t1 "/f" 4096) fs_three = 0 ∧
      extent_count (state_after (a1fs_truncate hdr fs_three t1 "/f" 4096) fs_three).data 8192 0 = 1 ∧
      is_bit_set 3 (state_after (a1fs_truncate hdr fs_three t1 "/f" 4096) fs_three).data_bitmap = 0 ∧
      is_bit_set 4 (state_after (a1fs_truncate hdr fs_three t1 "/f" 4096) fs_three).data_bitmap = 0 ∧
      is_bit_set 5 (state_after (a1fs_truncate hdr fs_three t1 "/f" 4096) fs_three).data_bitmap = 1 := by
  decide

set_option maxRecDepth 100000 in
/-- Claim C9 fails on the code.  On the image `fs_one`, where `/f` has size 100,
its extent array in block 2 and the extent `(3, 1)`, `truncate` to 0 returns 0
and sets the size to 0, but `extent_num` is 1 and not 0, the data block 3 is
still marked used, and `available_blocks` grows by 1 (248 to 249) and not by
`1 + 1`.  The shrinking branch always keeps `target_extent_index + 1` extents
and has no step that releases the extent block. -/
theorem truncate_to_zero_keeps_extent :
    fs_one.available_blocks = 248 ∧
      value_of (a1fs_truncate hdr fs_one t1 "/f" 0) fs_one = 0 ∧
      ((state_after (a1fs_truncate hdr fs_one t1 "/f" 0) fs_one).inode_table 1).size = 0 ∧
      ((state_after (a1fs_truncate hdr fs_one t1 "/f" 0) fs_one).inode_table 1).extent_num = 1 ∧
      is_bit_set 3 (state_after (a1fs_truncate hdr fs_one t1 "/f" 0) fs_one).data_bitmap = 1 ∧
      (state_after (a1fs_truncate hdr fs_one t1 "/f" 0) fs_one).available_blocks = 249 := by
  decide

set_option maxRecDepth 100000 in
/-- Claim C10 fails on the code.  After `/f` is truncated to 8192 bytes it holds
two data blocks and the extent block, and `a1fs_getattr` returns 0 with
`st_size = 8192` and `st_blocks = 3`, the count of 4096-byte blocks, and not
`3 * 8 = 24` units of 512 bytes. -/
theorem getattr_blocks_not_in_sectors :
    value_of (a1fs_truncate hdr fs_f t1 "/f" 8192) fs_f = 0 ∧
      (fs_8192.inode_table 1).extent_num = 1 ∧
      get_num_blks_of_file fs_8192.data (fs_8192.inode_table 1) = 2 ∧
      (a1fs_getattr hdr fs_8192 "/f" ⟨0, 0, 0, 0, t0⟩).map
        (fun x => (x.1, x.2.st_size, x.2.st_blocks)) = some (0, 8192, 3) := by
  decide

set_option maxRecDepth 100000 in
/-- Claim C12 (defect): on the freshly formatted image, whose root directory is
empty, the lookup of `/a/b` does not return -1: the loops over the root are not
entered, `tmp_inode` stays -1, and the `while` loop reads `itable[-1].size` for
the second component, an index below the inode table. -/
theorem lookup_under_empty_root_indexes_below_table :
    (fs_empty.inode_table ROOT_INODE).num_dir_entry = 0 ∧
      path_lookup hdr fs_empty "/a/b" = none ∧
      path_lookup hdr fs_empty "/a" = some (-1) := by
  decide

set_option maxRecDepth 100000 in
/-- Claim C13 (defect): in the image `fs_f` the path `/f` is an empty regular
file, and the lookup of `/f/x` returns -1, not -2: the test of the size comes
before the test of the type.  `a1fs_getattr` then returns `-ENOENT`. -/
theorem empty_file_in_prefix_reported_missing :
    path_lookup hdr fs_f "/f" = some 1 ∧
      S_ISREG (fs_f.inode_table 1).mode = true ∧
      (fs_f.inode_table 1).size = 0 ∧
      path_lookup hdr fs_f "/f/x" = some (-1) ∧
      (a1fs_getattr hdr fs_f "/f/x" ⟨0, 0, 0, 0, t0⟩).map Prod.fst = some (-ENOENT) := by
  decide

set_option maxRecDepth 100000 in
/-- Claim C14 (defect): a path of 301 bytes whose only component has 300
characters, more than `A1FS_NAME_MAX = 252`, is resolved by `a1fs_getattr`,
which returns `-ENOENT` and not `-ENAMETOOLONG`. -/
theorem long_component_is_resolved :
    long_path.length = 301 ∧ hdr.A1FS_NAME_MAX = 252 ∧
      strtok_tokens long_path.toList [] = [List.replicate 300 'a'] ∧
      (a1fs_getattr hdr fs_f long_path ⟨0, 0, 0, 0, t0⟩).map Prod.fst = some (-ENOENT) := by
  decide

set_option maxRecDepth 100000 in
/-- Claim C15 (defect): the lookup of `/a/b` in the image `fs_ab` returns inode
2 and leaves the bytes `/a\0b` in the caller's buffer: `strtok` stored a NUL over
the second slash. -/
theorem lookup_overwrites_slash_in_buffer :
    path_lookup_buffer hdr fs_ab ['/', 'a', '/', 'b'] = (some 2, ['/', 'a', Char.ofNat 0, 'b']) := by
  decide

set_option maxRecDepth 100000 in
/-- Claim C19 (defect): in the image `fs_ab` the directory `/a` holds `b`, and
`rmdir("/a")` at time `t2` returns `-ENOTEMPTY` after it has stored `t2` as the
modification time of the root directory, which was `t1`. -/
theorem failed_rmdir_sets_parent_mtime :
    value_of (a1fs_rmdir hdr fs_ab t2 "/a") fs_ab = -ENOTEMPTY ∧
      (fs_ab.inode_table ROOT_INODE).mtime = t1 ∧
      ((state_after (a1fs_rmdir hdr fs_ab t2 "/a") fs_ab).inode_table ROOT_INODE).mtime = t2 := by
  decide

/-- The result of `a1fs_mkdir` under a well-formed parent: when
`a1fs_mkdir(path, mode)` succeeds, for `path` a parent path
that resolves to the directory `P` followed by a name that `P` does not hold,
the inode taken is the lowest index whose bit was clear in the inode bitmap,
`path_lookup(path)` returns that index in the state reached, and the record
there has mode `mode | S_IFDIR`, link count 2, size 0, no extent and no
entry. -/
theorem mkdir_result (h : a1fs_h) (fs fs' : fs_ctx) (now_child now_parent : timespec)
    (g : locals) (path : String) (mode : Nat) (parent_dir name : List Char) (P : Nat)
    (hsp : space_wf fs)
    (hpar : extract_parent_path path.toList h.A1FS_PATH_MAX = some parent_dir)
    (hname : extract_child_path path.toList = some name) (hne : name ≠ [])
    (hP : path_lookup h fs (String.mk parent_dir) = some (P : Int))
    (hPuse : is_bit_set P fs.inode_bitmap = 1)
    (hPdir : S_ISREG (fs.inode_table P).mode = false)
    (hwf : directory_wf h fs P) (hgrow : dir_can_grow fs P)
    (hind : path_independent_of_dir h fs (String.mk parent_dir) P)
    (habs : dir_find h fs P name = none)
    (hr : a1fs_mkdir h fs now_child now_parent g path mode = some (0, fs')) :
    get_first_available_position h fs.num_inodes fs.inode_bitmap < fs.num_inodes ∧
      is_bit_set (get_first_available_position h fs.num_inodes fs.inode_bitmap)
        fs.inode_bitmap = 0 ∧
      (∀ j, j < get_first_available_position h fs.num_inodes fs.inode_bitmap →
        is_bit_set j fs.inode_bitmap = 1) ∧
      fs'.inode_bitmap = set_bitmap fs.inode_bitmap
        (get_first_available_position h fs.num_inodes fs.inode_bitmap) ∧
      path_lookup h fs' path
        = some ((get_first_available_position h fs.num_inodes fs.inode_bitmap : Nat) : Int) ∧
      (fs'.inode_table
        (get_first_available_position h fs.num_inodes fs.inode_bitmap)).mode
          = u32 (mode ||| S_IFDIR) ∧
      (fs'.inode_table
        (get_first_available_position h fs.num_inodes fs.inode_bitmap)).links = 2 ∧
      (fs'.inode_table
        (get_first_available_position h fs.num_inodes fs.inode_bitmap)).size = 0 ∧
      (fs'.inode_table
        (get_first_available_position h fs.num_inodes fs.inode_bitmap)).extent_num = 0 ∧
      (fs'.inode_table
        (get_first_available_position h fs.num_inodes fs.inode_bitmap)).num_dir_entry = 0 := by
  obtain ⟨hav, _, pd, nm, r, hpd, hnm, hl, _, hadd⟩ :=
    mkdir_ok h fs fs' now_child now_parent g path mode hr
  rw [hpar] at hpd
  rw [hname] at hnm
  simp only [Option.some.injEq] at hpd hnm
  subst hpd
  subst hnm
  rw [take_inode_lookup h fs _ P _ hsp hav hind, hP] at hl
  simp only [Option.some.injEq] at hl
  subst hl
  rw [Int.toNat_ofNat] at hadd
  obtain ⟨hnewN, hnewbit, hlook, _, hrec, a, hadded, _, _⟩ :=
    new_entry_resolves h fs fs' _ P name g.new_entry true now_parent parent_dir path
      h.A1FS_PATH_MAX hsp hav hP hPuse hPdir hwf hgrow hind hpar hname hne habs hadd
  refine ⟨hnewN, hnewbit, ?_, ?_, hlook, ?_, ?_, ?_, ?_, ?_⟩
  · intro j hj
    exact get_first_available_position_least h fs.inode_bitmap fs.num_inodes j hnewN hj
  · rw [hadded.2.2.2.2.2.2.2.2.2.2.1]
    rfl
  all_goals rw [hrec]

set_option maxRecDepth 100000 in
/-- The directory `/b` made in the image `fs_a`, whose root directory holds the
entry `a`: the inode taken is 2, the first one whose bit is clear. -/
theorem mkdir_result_witness :
    space_wf fs_a ∧ directory_wf hdr fs_a ROOT_INODE ∧ dir_find hdr fs_a ROOT_INODE ['b'] = none ∧
      get_first_available_position hdr fs_a.num_inodes fs_a.inode_bitmap = 2 ∧
      path_lookup hdr (state_after (a1fs_mkdir hdr fs_a t1 t2 stack "/b" 493) fs_a) "/b"
        = some ((get_first_available_position hdr fs_a.num_inodes fs_a.inode_bitmap : Nat) :
          Int) :=
  ⟨space_wf_fs_a, directory_wf_fs_a, by decide, by decide,
    (mkdir_result hdr fs_a _ t1 t2 stack "/b" 493 ['/'] ['b'] ROOT_INODE space_wf_fs_a
      (by decide) (by decide) (by decide) (by decide) (by decide) (by decide)
      directory_wf_fs_a dir_can_grow_fs_a (path_independent_root hdr fs_a ROOT_INODE)
      (by decide) (eq_some_of_value _ fs_a 0 (by decide) (by decide))).2.2.2.2.1⟩

/-- Create-then-remove keeps the accounting state under a well-formed parent.
For a parent
path that resolves to the well-formed directory `P` and a name that `P` does
not hold, a successful `a1fs_mkdir(path)` followed by `a1fs_rmdir(path)`, and a
successful `a1fs_create(path)` followed by `a1fs_unlink(path)`, succeed and
leave `available_inodes`, `available_blocks`, every bit of the inode bitmap and
of the data bitmap, and the size, entry count, extent count and link count of
`P` as they were before, whether `P` was empty, had room in its last block or
had a full last block. -/
theorem create_then_remove_restores (h : a1fs_h) (fs : fs_ctx) (path : String)
    (parent_dir name : List Char) (P : Nat)
    (hsp : space_wf fs) (hcap : h.A1FS_NAME_MAX ≤ h.A1FS_PATH_MAX)
    (hname : extract_child_path path.toList = some name) (hne : name ≠ [])
    (hP : path_lookup h fs (String.mk parent_dir) = some (P : Int))
    (hPN : P < fs.num_inodes)
    (hPuse : is_bit_set P fs.inode_bitmap = 1)
    (hPdir : S_ISREG (fs.inode_table P).mode = false)
    (hwf : directory_wf h fs P) (hgrow : dir_can_grow fs P)
    (hind : path_independent_of_dir h fs (String.mk parent_dir) P)
    (habs : dir_find h fs P name = none) :
    (∀ now_child now_parent now g mode fs1,
      extract_parent_path path.toList h.A1FS_PATH_MAX = some parent_dir →
      a1fs_mkdir h fs now_child now_parent g path mode = some (0, fs1) →
      ∃ fs2, a1fs_rmdir h fs1 now path = some (0, fs2) ∧ accounting_restored fs fs2 P) ∧
    (∀ now_create now g mode fs1,
      extract_parent_path path.toList h.A1FS_NAME_MAX = some parent_dir →
      a1fs_create h fs now_create g path mode = some (0, fs1) →
      ∃ fs2, a1fs_unlink h fs1 now path = some (0, fs2) ∧ accounting_restored fs fs2 P) := by
  have hP32 : P < 4294967296 := by
    have := hsp.2.2.1
    omega
  constructor
  · intro now_child now_parent now g mode fs1 hpar hr
    obtain ⟨hav, _, pd, nm, r, hpd, hnm, hl, _, hadd⟩ :=
      mkdir_ok h fs fs1 now_child now_parent g path mode hr
    rw [hpar] at hpd
    rw [hname] at hnm
    simp only [Option.some.injEq] at hpd hnm
    subst hpd
    subst hnm
    rw [take_inode_lookup h fs _ P _ hsp hav hind, hP] at hl
    simp only [Option.some.injEq] at hl
    subst hl
    rw [Int.toNat_ofNat] at hadd
    obtain ⟨hnew31, hPnew, hlook, hpl, hrec, fs2, hrem, hres⟩ :=
      new_entry_removed h fs fs1 _ P name g.new_entry true now_parent now parent_dir path
        h.A1FS_PATH_MAX hsp hav hP hPuse hPdir hwf hgrow hind hpar hname hne habs hadd
    refine ⟨fs2, ?_, hres⟩
    unfold a1fs_rmdir
    rw [hpar]
    simp only
    rw [hpl]
    simp only
    rw [u32_of_int_natCast P hP32, path_lookup_set_mtime, hlook]
    simp only
    rw [u32_of_int_natCast _ (by omega), set_mtime_other _ _ _ _ (Ne.symm hPnew), hrec]
    simp only [ne_eq, not_true_eq_false, if_false]
    exact hrem
  · intro now_create now g mode fs1 hpar hr
    obtain ⟨hav, _, pd, nm, r, hpd, hnm, hl, _, hadd⟩ :=
      create_ok h fs fs1 now_create g path mode hr
    rw [hpar] at hpd
    rw [hname] at hnm
    simp only [Option.some.injEq] at hpd hnm
    subst hpd
    subst hnm
    rw [take_inode_lookup h fs _ P _ hsp hav hind, hP] at hl
    simp only [Option.some.injEq] at hl
    subst hl
    rw [Int.toNat_ofNat] at hadd
    obtain ⟨hnew31, hPnew, hlook, hpl, hrec, fs2, hrem, hres⟩ :=
      new_entry_removed h fs fs1 _ P name g.new_entry false now_create now parent_dir path
        h.A1FS_NAME_MAX hsp hav hP hPuse hPdir hwf hgrow hind hpar hname hne habs hadd
    refine ⟨fs2, ?_, hres⟩
    unfold a1fs_unlink
    rw [extract_parent_path_mono _ _ _ _ hcap hpar]
    simp only
    rw [hpl]
    simp only
    rw [u32_of_int_natCast P hP32, path_lookup_set_mtime, hlook]
    simp only
    rw [u32_of_int_natCast _ (by omega), set_mtime_other _ _ _ _ (Ne.symm hPnew), hrec]
    simp only [ne_eq, not_true_eq_false, if_false]
    exact hrem

set_option maxRecDepth 100000 in
/-- The directory `/b` made in the image `fs_a` and removed again: the
accounting state is that of `fs_a`. -/
theorem create_then_remove_restores_witness :
    space_wf fs_a ∧ directory_wf hdr fs_a ROOT_INODE ∧ dir_find hdr fs_a ROOT_INODE ['b'] = none ∧
      ∃ fs2, a1fs_rmdir hdr (state_after (a1fs_mkdir hdr fs_a t1 t1 stack "/b" 493) fs_a) t2 "/b"
          = some (0, fs2) ∧
        accounting_restored fs_a fs2 ROOT_INODE :=
  ⟨space_wf_fs_a, directory_wf_fs_a, by decide,
    (create_then_remove_restores hdr fs_a "/b" ['/'] ['b'] ROOT_INODE space_wf_fs_a (by decide)
      (by decide) (by decide) (by decide) (by decide) (by decide) (by decide)
      directory_wf_fs_a dir_can_grow_fs_a (path_independent_root hdr fs_a ROOT_INODE)
      (by decide)).1 t1 t1 t2 stack 493 _ (by decide)
      (eq_some_of_value _ fs_a 0 (by decide) (by decide))⟩

/-- The listing of a well-formed directory follows `a1fs_mkdir` and
`a1fs_rmdir`.
For a parent path that resolves to the well-formed directory `P`, whose entries
hold strings, and a name `x` without NUL: after a successful
`a1fs_mkdir(parent/x)`, for `x` not in `P`, `a1fs_readdir(parent)` emits `.`,
`..` and then the names it emitted before followed by `x`, which was not among
them; after a successful `a1fs_rmdir(parent/x)`, for `x` in `P` with inode `t`
and `P` without two entries of the same name or inode, `a1fs_readdir(parent)`
emits `.`, `..` and the names of `P`, which with `x` put back are a
rearrangement of the names of before, as are the pairs of name and inode; `x` is
not among them, no name is there twice, `path_lookup(parent/x)` returns -1, and
the path of every other name of `parent` resolves as before. -/
theorem listing_follows_mkdir_rmdir (h : a1fs_h) (fs : fs_ctx) (path : String)
    (parent_dir name : List Char) (P : Nat)
    (hsp : space_wf fs)
    (hpar : extract_parent_path path.toList h.A1FS_PATH_MAX = some parent_dir)
    (hname : extract_child_path path.toList = some name) (hne : name ≠ [])
    (hnul : ∀ c ∈ name, c.toNat ≠ 0)
    (hP : path_lookup h fs (String.mk parent_dir) = some (P : Int))
    (hPN : P < fs.num_inodes)
    (hPuse : is_bit_set P fs.inode_bitmap = 1)
    (hPdir : S_ISREG (fs.inode_table P).mode = false)
    (hwf : directory_wf h fs P)
    (hind : path_independent_of_dir h fs (String.mk parent_dir) P)
    (hread : names_readable h fs P) :
    a1fs_readdir h fs (String.mk parent_dir) = some (0, [46] :: [46, 46] :: dir_names h fs P) ∧
    (∀ now_child now_parent g mode fs1,
      dir_can_grow fs P → dir_find h fs P name = none →
      a1fs_mkdir h fs now_child now_parent g path mode = some (0, fs1) →
      a1fs_readdir h fs1 (String.mk parent_dir)
          = some (0, [46] :: [46, 46] :: (dir_names h fs P ++ [name.map Char.toNat])) ∧
        name.map Char.toNat ∉ dir_names h fs P) ∧
    (∀ now t fs1,
      entries_distinct h fs P → dir_find h fs P name = some t →
      a1fs_rmdir h fs now path = some (0, fs1) →
      a1fs_readdir h fs1 (String.mk parent_dir)
          = some (0, [46] :: [46, 46] :: dir_names h fs1 P) ∧
        (dir_pairs h fs P).Perm ((name.map Char.toNat, t) :: dir_pairs h fs1 P) ∧
        (dir_names h fs P).Perm (name.map Char.toNat :: dir_names h fs1 P) ∧
        name.map Char.toNat ∉ dir_names h fs1 P ∧ (dir_names h fs1 P).Nodup ∧
        path_lookup h fs1 path = some (-1) ∧
        ∀ (path2 : String) (name2 : List Char),
          extract_parent_path path2.toList h.A1FS_PATH_MAX = some parent_dir →
          extract_child_path path2.toList = some name2 → name2 ≠ [] → name2 ≠ name →
          (∀ c ∈ name2, c.toNat ≠ 0) →
          path_lookup h fs1 path2 = path_lookup h fs path2) := by
  refine ⟨readdir_names h fs _ P hsp.1 hP hwf hread, ?_, ?_⟩
  · intro now_child now_parent g mode fs1 hgrow habs hr
    exact mkdir_listing h fs fs1 now_child now_parent g path mode parent_dir name P hsp hpar
      hname hne hnul hP hPuse hPdir hwf hgrow hind hread habs hr
  · intro now t fs1 hdist hfind hr
    exact rmdir_listing h fs fs1 now path parent_dir name P t hsp hpar hname hne hnul hP hPN
      hPdir hwf hind hread hdist hfind hr

set_option maxRecDepth 100000 in
/-- The directory `/a` removed from the image `fs_two`, whose root directory
holds `a` and then `b`: the listing that was `.`, `..`, `a`, `b` is `.`, `..`,
`b`, and `/b` resolves to inode 2 as before. -/
theorem listing_follows_mkdir_rmdir_witness :
    space_wf fs_two ∧ directory_wf hdr fs_two ROOT_INODE ∧
      names_readable hdr fs_two ROOT_INODE ∧ entries_distinct hdr fs_two ROOT_INODE ∧
      dir_find hdr fs_two ROOT_INODE ['a'] = some 1 ∧
      a1fs_readdir hdr fs_two "/" = some (0, [[46], [46, 46], [97], [98]]) ∧
      a1fs_readdir hdr (state_after (a1fs_rmdir hdr fs_two t2 "/a") fs_two) "/"
        = some (0, [46] :: [46, 46] ::
            dir_names hdr (state_after (a1fs_rmdir hdr fs_two t2 "/a") fs_two) ROOT_INODE) ∧
      dir_names hdr (state_after (a1fs_rmdir hdr fs_two t2 "/a") fs_two) ROOT_INODE = [[98]] ∧
      path_lookup hdr (state_after (a1fs_rmdir hdr fs_two t2 "/a") fs_two) "/a" = some (-1) :=
  ⟨space_wf_fs_two, directory_wf_fs_two, names_readable_fs_two, entries_distinct_fs_two,
    by decide, by decide,
    ((listing_follows_mkdir_rmdir hdr fs_two "/a" ['/'] ['a'] ROOT_INODE space_wf_fs_two
      (by decide) (by decide) (by decide) (by decide) (by decide) (by decide) (by decide)
      (by decide) directory_wf_fs_two (path_independent_root hdr fs_two ROOT_INODE)
      names_readable_fs_two).2.2 t2 1 _ entries_distinct_fs_two (by decide)
      (eq_some_of_value _ fs_two 0 (by decide) (by decide))).1,
    by decide,
    ((listing_follows_mkdir_rmdir hdr fs_two "/a" ['/'] ['a'] ROOT_INODE space_wf_fs_two
      (by decide) (by decide) (by decide) (by decide) (by decide) (by decide) (by decide)
      (by decide) directory_wf_fs_two (path_independent_root hdr fs_two ROOT_INODE)
      names_readable_fs_two).2.2 t2 1 _ entries_distinct_fs_two (by decide)
      (eq_some_of_value _ fs_two 0 (by decide) (by decide))).2.2.2.2.2.1⟩

set_option maxRecDepth 100000 in
/-- Claim C21 (defect): the accounting of data blocks is lost by the first
growth of an empty file and by a truncate that drops a whole extent.  On the
image `fs_f` it holds (250 available, 2 marked, 252 blocks); the write of ten
bytes to the empty file `/f` returns 10 and leaves 248 available and 3 marked:
the growth from empty marks the block of the extent array twice and the data
block never, and counts two blocks.  On the image `fs_split` it holds (247
available, 5 marked); the truncate of `/f` from two extents to 4096 bytes
returns 0 and leaves 248 available and 5 marked: the loop over the dropped
extent counts its block as available and clears no bit of the data bitmap. -/
theorem block_accounting_lost :
    block_accounting fs_f ∧
      value_of (a1fs_write hdr fs_f t1 "/f" [48, 49, 50, 51, 52, 53, 54, 55, 56, 57] 0) fs_f = 10 ∧
      fs_ten.available_blocks = 248 ∧ popcount fs_ten.data_bitmap 252 = 3 ∧
      ¬ block_accounting fs_ten ∧
      block_accounting fs_split ∧
      value_of (a1fs_truncate hdr fs_split t1 "/f" 4096) fs_split = 0 ∧
      (state_after (a1fs_truncate hdr fs_split t1 "/f" 4096) fs_split).available_blocks = 248 ∧
      popcount (state_after (a1fs_truncate hdr fs_split t1 "/f" 4096) fs_split).data_bitmap 252 = 5 ∧
      ¬ block_accounting (state_after (a1fs_truncate hdr fs_split t1 "/f" 4096) fs_split) := by
  unfold block_accounting
  decide

set_option maxRecDepth 100000 in
/-- Claim C22 (defect): on the freshly formatted image `fs_empty`, where the
ownership of blocks holds, the operations create `/f`, write one byte to `/f`,
create `/g`, write one byte to `/g` all succeed, and afterwards block 3 is both
the data block of `/f` (inode 1, extent array in block 2) and the block of the
extent array of `/g` (inode 2, data block 4): the owned blocks are
`0 1 2 3 3 4`, the marked blocks are `0 1 2 3`, and `/f` reads back the first
byte of the extent of `/g` and not the byte written to it.  The first growth of
`/f` marks the block of its extent array twice and leaves its data block
free. -/
theorem data_block_owned_twice :
    block_ownership fs_empty ∧
      value_of (a1fs_create hdr fs_empty t1 stack "/f" 33188) fs_empty = 0 ∧
      value_of (a1fs_write hdr fs_made_f t1 "/f" [120] 0) fs_made_f = 1 ∧
      value_of (a1fs_create hdr fs_wrote_f t1 stack "/g" 33188) fs_wrote_f = 0 ∧
      value_of (a1fs_write hdr fs_made_g t1 "/g" [121] 0) fs_made_g = 1 ∧
      path_lookup hdr fs_wrote_g "/f" = some 1 ∧ path_lookup hdr fs_wrote_g "/g" = some 2 ∧
      owned_blocks fs_wrote_g 1 = [2, 3] ∧ owned_blocks fs_wrote_g 2 = [3, 4] ∧
      all_owned_blocks fs_wrote_g = [0, 1, 2, 3, 3, 4] ∧
      marked_blocks fs_wrote_g = [0, 1, 2, 3] ∧
      ¬ block_ownership fs_wrote_g ∧
      a1fs_read hdr fs_wrote_g "/f" 1 0 = some (1, [4]) := by
  unfold block_ownership
  decide

/-- Claim C25 (defect): `a1fs_statfs` returns 0 and reports the block size
4096, the number of inodes, the available inodes in `f_ffree` and `f_favail`,
the available blocks in `f_bfree` and `f_bavail` and `A1FS_NAME_MAX`, but it
never assigns `f_blocks`, which keeps the 0 of `memset`.  Right after a 1 MiB
image is formatted with 64 inodes and mounted, it reports 64 inodes and 63 free
inodes, and 0 blocks in total although 252 are free. -/
theorem statfs_reports_no_total_blocks :
    (∀ (h : a1fs_h) (fs : fs_ctx),
      (a1fs_statfs h fs).1 = 0 ∧
      (a1fs_statfs h fs).2.f_bsize = 4096 ∧
      (a1fs_statfs h fs).2.f_files = fs.num_inodes ∧
      (a1fs_statfs h fs).2.f_ffree = fs.available_inodes ∧
      (a1fs_statfs h fs).2.f_favail = fs.available_inodes ∧
      (a1fs_statfs h fs).2.f_bfree = fs.available_blocks ∧
      (a1fs_statfs h fs).2.f_bavail = fs.available_blocks ∧
      (a1fs_statfs h fs).2.f_namemax = h.A1FS_NAME_MAX ∧
      (a1fs_statfs h fs).2.f_blocks = 0) ∧
    mkfs disk img_zero 1048576 64 t1 stack.new_dir = some (true, img_formatted) ∧
    fs_ctx_init disk fs_empty img_formatted 1048576 = (true, fs_formatted) ∧
    (a1fs_statfs hdr fs_formatted).2.f_files = 64 ∧
    (a1fs_statfs hdr fs_formatted).2.f_ffree = 63 ∧
    (a1fs_statfs hdr fs_formatted).2.f_bfree = 252 ∧
    fs_formatted.num_of_data_blocks = 252 ∧
    (a1fs_statfs hdr fs_formatted).2.f_blocks = 0 := by
  refine ⟨fun h fs => ⟨rfl, rfl, rfl, rfl, rfl, rfl, rfl, rfl, rfl⟩, ?_, ?_, ?_, ?_, ?_, ?_, ?_⟩
  · rfl
  · rfl
  all_goals decide

/-- Claim C26 (defect): `mkfs` succeeds with a count of available blocks that
is not the number of image blocks less the reserved ones.  An image of
`2^32 + 32768` bytes (1048584 blocks) formatted with 64 inodes gets the lengths
1, 1, 1 and 4 available blocks, the geometry of an image of 32768 bytes: the
cast in `(uint32_t) size / A1FS_BLOCK_SIZE` applies to `size` before the
division, while the superblock keeps the whole size.  An image of 128 MiB
(32768 blocks) formatted with `2^26` inodes of 64 bytes gets the lengths 16384,
4 and 1048576 and 4293935099 available blocks: the 32-bit subtraction wraps.
In both the five regions do not tile the image. -/
theorem mkfs_geometry_wraps :
    4295000064 % 4096 = 0 ∧ 4295000064 / 4096 = 1048584 ∧
    (mkfs disk img_zero 4295000064 64 t1 stack.new_dir).map Prod.fst = some true ∧
    (image_after (mkfs disk img_zero 4295000064 64 t1 stack.new_dir) img_zero).superblock
      = ⟨disk.A1FS_MAGIC, 4295000064, 64, 63, 4096, 1, 8192, 4, 1, 12288, 1, 0⟩ ∧
    1 + 1 + 1 + 1 + 4 ≠ 1048584 ∧
    134217728 % 4096 = 0 ∧ 134217728 / 4096 = 32768 ∧
    (mkfs disk img_zero 134217728 67108864 t1 stack.new_dir).map Prod.fst = some true ∧
    (image_after (mkfs disk img_zero 134217728 67108864 t1 stack.new_dir) img_zero).superblock
      = ⟨disk.A1FS_MAGIC, 134217728, 67108864, 67108863, 4096, 16384, 67112960, 4293935099, 4,
          67129344, 1048576, 0⟩ ∧
    1 + 16384 + 4 + 1048576 + 4293935099 ≠ 32768 := by
  decide

/-- Claim C27 (defect): `mkfs` takes one block of bitmap for every 4096 items,
not for every `4096 * 8`.  A 1 MiB image formatted with 5000 inodes gets an
inode bitmap of 2 blocks, where `ceil(5000 / 32768) = 1`; a 32 MiB image
formatted with 64 inodes gets a data bitmap of 2 blocks for its 8187 data
blocks, where `ceil(8187 / 32768) = 1`.  Both calls succeed. -/
theorem mkfs_bitmap_lengths_per_byte :
    (mkfs disk img_zero 1048576 5000 t1 stack.new_dir).map Prod.fst = some true ∧
    (image_after (mkfs disk img_zero 1048576 5000 t1 stack.new_dir)
      img_zero).superblock.inode_bitmap_length = 2 ∧
    (5000 + 32767) / 32768 = 1 ∧
    (mkfs disk img_zero 33554432 64 t1 stack.new_dir).map Prod.fst = some true ∧
    (image_after (mkfs disk img_zero 33554432 64 t1 stack.new_dir)
      img_zero).superblock.available_blocks = 8187 ∧
    (image_after (mkfs disk img_zero 33554432 64 t1 stack.new_dir)
      img_zero).superblock.data_bitmap_length = 2 ∧
    (8187 + 32767) / 32768 = 1 := by
  decide

set_option maxRecDepth 100000 in
/-- Claim C28 (defect): `mkfs` sets bit 0 of the inode bitmap and stores no
other byte of the two bitmaps.  On the 1 MiB image `img_used`, whose bytes all
were `0xff`, `mkfs` with 64 inodes succeeds and the mounted image has bit 1 of
the inode bitmap and bit 0 of the data bitmap set: all 64 bits of the inode
bitmap are set while 63 inodes are counted available, and all 252 bits of the
data bitmap are set while 252 blocks are counted available. -/
theorem mkfs_keeps_old_bitmaps :
    (mkfs disk img_used 1048576 64 t1 stack.new_dir).map Prod.fst = some true ∧
    (fs_ctx_init disk fs_empty
      (image_after (mkfs disk img_used 1048576 64 t1 stack.new_dir) img_used) 1048576).1
      = true ∧
    is_bit_set 1 fs_reformatted.inode_bitmap = 1 ∧
    is_bit_set 0 fs_reformatted.data_bitmap = 1 ∧
    fs_reformatted.num_inodes = 64 ∧ fs_reformatted.available_inodes = 63 ∧
    popcount fs_reformatted.inode_bitmap 64 = 64 ∧
    fs_reformatted.num_of_data_blocks = 252 ∧ fs_reformatted.available_blocks = 252 ∧
    popcount fs_reformatted.data_bitmap 252 = 252 := by
  decide

/-- Claim C29 (defect): `mkfs` returns true on geometries that leave no data
block.  On an image of `2^32` bytes (1048576 blocks) with 64 inodes the lengths
are 1, 1048576 and 1, so the reserved blocks are 1048579, and `mkfs` returns
true: `(uint32_t) size` is 0, the count of available blocks wraps to 4293918717
and the product `num_reserved_blocks * A1FS_BLOCK_SIZE` wraps to 12288.  On an
image of 128 MiB (32768 blocks) with `2^26` inodes of 64 bytes the reserved
blocks are 1064965 and `mkfs` returns true in the same way.  On an image of one
block `mkfs` does not return false either: it stores the first byte of the
inode bitmap, at offset 4096, before it tests anything. -/
theorem mkfs_accepts_infeasible_geometry :
    4294967296 % 4096 = 0 ∧ 4294967296 / 4096 = 1048576 ∧
    (mkfs disk img_zero 4294967296 64 t1 stack.new_dir).map Prod.fst = some true ∧
    (image_after (mkfs disk img_zero 4294967296 64 t1 stack.new_dir)
      img_zero).superblock.inode_bitmap_length = 1 ∧
    (image_after (mkfs disk img_zero 4294967296 64 t1 stack.new_dir)
      img_zero).superblock.data_bitmap_length = 1048576 ∧
    (image_after (mkfs disk img_zero 4294967296 64 t1 stack.new_dir)
      img_zero).superblock.inode_table_length = 1 ∧
    (image_after (mkfs disk img_zero 4294967296 64 t1 stack.new_dir)
      img_zero).superblock.available_blocks = 4293918717 ∧
    1 + 1 + 1048576 + 1 ≥ 1048576 ∧
    (mkfs disk img_zero 134217728 67108864 t1 stack.new_dir).map Prod.fst = some true ∧
    (image_after (mkfs disk img_zero 134217728 67108864 t1 stack.new_dir)
      img_zero).superblock.inode_bitmap_length = 16384 ∧
    (image_after (mkfs disk img_zero 134217728 67108864 t1 stack.new_dir)
      img_zero).superblock.data_bitmap_length = 4 ∧
    (image_after (mkfs disk img_zero 134217728 67108864 t1 stack.new_dir)
      img_zero).superblock.inode_table_length = 1048576 ∧
    1 + 16384 + 4 + 1048576 ≥ 134217728 / 4096 ∧
    (mkfs disk img_zero 4096 64 t1 stack.new_dir).map Prod.fst = none := by
  decide

/-- Claim C30: format, then mount.  When `mkfs` succeeds and leaves the image
`img2`, `fs_ctx_init` on `img2` returns true, and the record that its inode
table holds at index 0 is the root inode that `mkfs` stored at the offset
`inode_table` of the superblock: mode `S_IFDIR | 0777`, link count 2, size 0,
no extent, no entry, and the time of the format.  And on every image
`fs_ctx_init` returns false exactly when the magic number of the superblock is
not `A1FS_MAGIC`. -/
theorem format_then_mount (d : a1fs_disk) (img img2 : a1fs_image) (size n_inodes : Nat)
    (now : timespec) (root_inode : a1fs_inode) (fs : fs_ctx)
    (hm : mkfs d img size n_inodes now root_inode = some (true, img2)) :
    (fs_ctx_init d fs img2 size).1 = true ∧
    (fs_ctx_init d fs img2 size).2.inode_table ROOT_INODE = img2.inodes img2.superblock.inode_table ∧
    ((fs_ctx_init d fs img2 size).2.inode_table ROOT_INODE).mode = S_IFDIR ||| 511 ∧
    ((fs_ctx_init d fs img2 size).2.inode_table ROOT_INODE).links = 2 ∧
    ((fs_ctx_init d fs img2 size).2.inode_table ROOT_INODE).size = 0 ∧
    ((fs_ctx_init d fs img2 size).2.inode_table ROOT_INODE).extent_num = 0 ∧
    ((fs_ctx_init d fs img2 size).2.inode_table ROOT_INODE).num_dir_entry = 0 ∧
    ((fs_ctx_init d fs img2 size).2.inode_table ROOT_INODE).mtime = now ∧
    ∀ (fs3 : fs_ctx) (img3 : a1fs_image) (size3 : Nat),
      (fs_ctx_init d fs3 img3 size3).1 = false ↔ img3.superblock.magic ≠ d.A1FS_MAGIC := by
  have hlast : ∀ (fs3 : fs_ctx) (img3 : a1fs_image) (size3 : Nat),
      (fs_ctx_init d fs3 img3 size3).1 = false ↔ img3.superblock.magic ≠ d.A1FS_MAGIC := by
    intro fs3 img3 size3
    unfold fs_ctx_init
    by_cases hc : img3.superblock.magic = d.A1FS_MAGIC
    · simp [hc]
    · simp [hc]
  unfold mkfs at hm
  simp only at hm
  split at hm
  · exact absurd hm (by simp)
  split at hm
  · exact absurd hm (by simp)
  split at hm
  · exact absurd hm (by simp)
  split at hm
  · exact absurd hm (by simp)
  split at hm
  · exact absurd hm (by simp)
  split at hm
  · exact absurd hm (by simp)
  split at hm
  · exact absurd hm (by simp)
  simp only [Option.some.injEq, Prod.mk.injEq, true_and] at hm
  subst hm
  refine ⟨?_, ?_, ?_, ?_, ?_, ?_, ?_, ?_, hlast⟩
  all_goals simp [fs_ctx_init, set_inode, ROOT_INODE]

/-- Claim C30, at a concrete input: the 1 MiB image of zero bytes formatted
with 64 inodes is mounted, and its inode 0 is the root directory. -/
theorem format_then_mount_witness :
    mkfs disk img_zero 1048576 64 t1 stack.new_dir = some (true, img_formatted) ∧
    (fs_ctx_init disk fs_empty img_formatted 1048576).1 = true ∧
    ((fs_ctx_init disk fs_empty img_formatted 1048576).2.inode_table ROOT_INODE).mode = S_IFDIR ||| 511 ∧
    ((fs_ctx_init disk fs_empty img_formatted 1048576).2.inode_table ROOT_INODE).links = 2 :=
  ⟨rfl,
    (format_then_mount disk img_zero img_formatted 1048576 64 t1 stack.new_dir fs_empty rfl).1,
    (format_then_mount disk img_zero img_formatted 1048576 64 t1 stack.new_dir fs_empty rfl).2.2.1,
    (format_then_mount disk img_zero img_formatted 1048576 64 t1 stack.new_dir fs_empty
      rfl).2.2.2.1⟩

/-- The shape of a well-formed parent directory is kept.  Let the parent path
resolve to the directory `P`, which is well formed, so that its size is
`dir_entry_count * sizeof(dentry)` and the counts of its extents add up to
`ceil(dir_entry_count / 16)`.  After a successful `a1fs_mkdir` or `a1fs_create`
under `P` (which can grow), and after a successful `a1fs_rmdir` or
`a1fs_unlink` of an entry of `P` (whose entries name different inodes), `P`
has that shape again; and when `a1fs_rmdir` or `a1fs_unlink` took its only
entry, `P` has no extent, no entry and size 0, and the bits of its data block
and of the block of its extent array are clear in the data bitmap. -/
theorem directory_shape_preserved (h : a1fs_h) (fs : fs_ctx) (parent_dir : List Char) (P : Nat)
    (hsp : space_wf fs)
    (hP : path_lookup h fs (String.mk parent_dir) = some (P : Int))
    (hPuse : is_bit_set P fs.inode_bitmap = 1)
    (hPdir : S_ISREG (fs.inode_table P).mode = false)
    (hwf : directory_wf h fs P)
    (hind : path_independent_of_dir h fs (String.mk parent_dir) P) :
    directory_shape h fs P ∧
    (∀ now_child now_parent g path mode fs',
      extract_parent_path path.toList h.A1FS_PATH_MAX = some parent_dir →
      dir_can_grow fs P →
      a1fs_mkdir h fs now_child now_parent g path mode = some (0, fs') →
      directory_shape h fs' P) ∧
    (∀ now g path mode fs',
      extract_parent_path path.toList h.A1FS_NAME_MAX = some parent_dir →
      dir_can_grow fs P →
      a1fs_create h fs now g path mode = some (0, fs') →
      directory_shape h fs' P) ∧
    (∀ now path name t fs',
      extract_parent_path path.toList h.A1FS_PATH_MAX = some parent_dir →
      extract_child_path path.toList = some name → name ≠ [] →
      dir_find h fs P name = some t →
      ((dir_entries h fs P).map (read32 fs.data)).Nodup →
      a1fs_rmdir h fs now path = some (0, fs') →
      directory_shape h fs' P ∧
        ((fs.inode_table P).num_dir_entry = 1 → directory_emptied fs fs' P)) ∧
    (∀ now path name t fs',
      extract_parent_path path.toList h.A1FS_PATH_MAX = some parent_dir →
      extract_child_path path.toList = some name → name ≠ [] →
      dir_find h fs P name = some t → t ≠ P →
      ((dir_entries h fs P).map (read32 fs.data)).Nodup →
      a1fs_unlink h fs now path = some (0, fs') →
      directory_shape h fs' P ∧
        ((fs.inode_table P).num_dir_entry = 1 → directory_emptied fs fs' P)) := by
  have hN := hsp.1
  refine ⟨directory_shape_of_wf h fs P hwf, ?_, ?_, ?_, ?_⟩
  · intro now_child now_parent g path mode fs' hpar hgrow hr
    obtain ⟨hav, name, hadd⟩ :=
      mkdir_adds h fs fs' now_child now_parent g path mode parent_dir P hsp hpar hP hind hr
    obtain ⟨_, _, _, _, a, hadded⟩ :=
      new_entry_added h fs fs' _ P name g.new_entry true now_parent hsp hav hPuse hwf hgrow hadd
    exact directory_shape_of_wf h fs' P hadded.2.2.2.2.2.2.2.2.2.2.2.2.2.2
  · intro now g path mode fs' hpar hgrow hr
    obtain ⟨hav, name, hadd⟩ :=
      create_adds h fs fs' now g path mode parent_dir P hsp hpar hP hind hr
    obtain ⟨_, _, _, _, a, hadded⟩ :=
      new_entry_added h fs fs' _ P name g.new_entry false now hsp hav hPuse hwf hgrow hadd
    exact directory_shape_of_wf h fs' P hadded.2.2.2.2.2.2.2.2.2.2.2.2.2.2
  · intro now path name t fs' hpar hname hne hfind hinos hr
    obtain ⟨hrem, a, ha, hat, hremd⟩ :=
      rmdir_removes h fs fs' now path parent_dir name P t hN hpar hname hne hP hPdir hwf hinos
        hfind hr
    refine ⟨directory_shape_of_wf h fs' P hremd.2.2.2.2.2.2.2, ?_⟩
    intro hone
    have hone0 : ((set_mtime fs P now).inode_table P).num_dir_entry = 1 := by
      rw [set_mtime_record]
      exact hone
    obtain ⟨he, hn, hs⟩ := entry_removed_empty h _ fs' P a hremd hone0
    refine ⟨he, hn, hs, ?_⟩
    have hbm := (remove_entry_only h (set_mtime fs P now) fs' P t true 0 hone0 hrem).1
    rw [find_last_block_set_mtime, set_mtime_record] at hbm
    exact owned_blocks_cleared h fs P fs.data_bitmap fs'.data_bitmap hN hwf hone hbm
  · intro now path name t fs' hpar hname hne hfind htP hinos hr
    obtain ⟨a, fsz, ha, hat, hremd, _, hzd, hzt, _, _, _, hclear⟩ :=
      unlink_removes h fs fs' now path parent_dir name P t hN hpar hname hne hP hPdir hwf hinos
        hfind htP hr
    refine ⟨directory_shape_congr h fsz fs' P hzd hzt
      (directory_shape_of_wf h fsz P hremd.2.2.2.2.2.2.2), ?_⟩
    intro hone
    have hUP : (unlink_target_cleared (set_mtime fs P now) t).inode_table P
        = (set_mtime fs P now).inode_table P :=
      (unlink_target_cleared_fields (set_mtime fs P now) t).2.2.2.2.2.1 P (Ne.symm htP)
    have hone0 : ((unlink_target_cleared (set_mtime fs P now) t).inode_table P).num_dir_entry
        = 1 := by
      rw [hUP, set_mtime_record]
      exact hone
    obtain ⟨he, hn, hs⟩ := entry_removed_empty h _ fsz P a hremd hone0
    rw [← hzt] at he hn hs
    exact ⟨he, hn, hs, hclear hone⟩

set_option maxRecDepth 100000 in
/-- The shape of the parent at a concrete input: in the image `fs_a` the root directory
holds the one entry `a`; after `rmdir("/a")` it has the shape of a directory,
no extent, no entry and size 0, and its two blocks are free. -/
theorem directory_shape_preserved_witness :
    space_wf fs_a ∧ directory_wf hdr fs_a ROOT_INODE ∧
      (fs_a.inode_table ROOT_INODE).num_dir_entry = 1 ∧
      dir_find hdr fs_a ROOT_INODE ['a'] = some 1 ∧
      directory_shape hdr (state_after (a1fs_rmdir hdr fs_a t2 "/a") fs_a) ROOT_INODE ∧
      directory_emptied fs_a (state_after (a1fs_rmdir hdr fs_a t2 "/a") fs_a) ROOT_INODE :=
  ⟨space_wf_fs_a, directory_wf_fs_a, by decide, by decide,
    ((directory_shape_preserved hdr fs_a ['/'] ROOT_INODE space_wf_fs_a (by decide) (by decide)
      (by decide) directory_wf_fs_a (path_independent_root hdr fs_a ROOT_INODE)).2.2.2.1
      t2 "/a" ['a'] 1 _ (by decide) (by decide) (by decide) (by decide) (by decide)
      (eq_some_of_value _ fs_a 0 (by decide) (by decide))).1,
    ((directory_shape_preserved hdr fs_a ['/'] ROOT_INODE space_wf_fs_a (by decide) (by decide)
      (by decide) directory_wf_fs_a (path_independent_root hdr fs_a ROOT_INODE)).2.2.2.1
      t2 "/a" ['a'] 1 _ (by decide) (by decide) (by decide) (by decide) (by decide)
      (eq_some_of_value _ fs_a 0 (by decide) (by decide))).2 (by decide)⟩

/-- The invariant of link counts is kept in a state whose directories are well
formed.  Let every directory in
use have the link count 2 plus the number of its entries that are directories,
in a state whose directories are well formed, and let the parent path resolve
to the directory `P`.  After a successful `a1fs_mkdir` under `P` (for a mode
without other type bits) the invariant holds again and the link count of `P`
has grown by one; after a successful `a1fs_create` it holds and the link count
of `P` is the same; after a successful `a1fs_rmdir` of an entry of `P` that
names a directory it holds and the link count of `P` has dropped by one, to 2
when `P` had that entry only; after a successful `a1fs_unlink` of an entry that
does not name a directory it holds and the link count of `P` is the same. -/
theorem link_counts_preserved (h : a1fs_h) (fs : fs_ctx) (parent_dir : List Char) (P : Nat)
    (hsp : space_wf fs) (htree : tree_wf h fs) (hinv : links_invariant h fs)
    (hP : path_lookup h fs (String.mk parent_dir) = some (P : Int))
    (hPd : P ∈ dirs_in_use fs)
    (hind : path_independent_of_dir h fs (String.mk parent_dir) P) :
    (∀ now_child now_parent g path mode fs',
      extract_parent_path path.toList h.A1FS_PATH_MAX = some parent_dir →
      dir_can_grow fs P → S_ISDIR (u32 (mode ||| S_IFDIR)) = true →
      a1fs_mkdir h fs now_child now_parent g path mode = some (0, fs') →
      links_invariant h fs' ∧ (fs'.inode_table P).links = (fs.inode_table P).links + 1) ∧
    (∀ now g path mode fs',
      extract_parent_path path.toList h.A1FS_NAME_MAX = some parent_dir →
      dir_can_grow fs P →
      a1fs_create h fs now g path mode = some (0, fs') →
      links_invariant h fs' ∧ (fs'.inode_table P).links = (fs.inode_table P).links) ∧
    (∀ now path name t fs',
      extract_parent_path path.toList h.A1FS_PATH_MAX = some parent_dir →
      extract_child_path path.toList = some name → name ≠ [] →
      dir_find h fs P name = some t → S_ISDIR (fs.inode_table t).mode = true →
      a1fs_rmdir h fs now path = some (0, fs') →
      links_invariant h fs' ∧ (fs'.inode_table P).links + 1 = (fs.inode_table P).links ∧
        ((fs.inode_table P).num_dir_entry = 1 → (fs'.inode_table P).links = 2)) ∧
    (∀ now path name t fs',
      extract_parent_path path.toList h.A1FS_PATH_MAX = some parent_dir →
      extract_child_path path.toList = some name → name ≠ [] →
      dir_find h fs P name = some t → S_ISDIR (fs.inode_table t).mode = false →
      a1fs_unlink h fs now path = some (0, fs') →
      links_invariant h fs' ∧ (fs'.inode_table P).links = (fs.inode_table P).links) := by
  have hN := hsp.1
  obtain ⟨_, _, hPdir⟩ := (mem_dirs_in_use fs P).mp hPd
  obtain ⟨hwf, hinosP, _, _⟩ := htree P hPd
  refine ⟨?_, ?_, ?_, ?_⟩
  · intro now_child now_parent g path mode fs' hpar hgrow hmode hr
    obtain ⟨hav, name, hadd⟩ :=
      mkdir_adds h fs fs' now_child now_parent g path mode parent_dir P hsp hpar hP hind hr
    have hres := links_after_add h fs fs'
      ⟨u32 (mode ||| S_IFDIR), 2, 0, now_child, 0, 0, g.new_dir.indirect_pt⟩ P name g.new_entry
      true now_parent hsp hav hPd hgrow htree hinv hmode (fun _ => rfl) rfl hadd
    exact ⟨hres.1, by simpa using hres.2⟩
  · intro now g path mode fs' hpar hgrow hr
    obtain ⟨hav, name, hadd⟩ :=
      create_adds h fs fs' now g path mode parent_dir P hsp hpar hP hind hr
    have hreg := create_mode_reg h fs fs' now g path mode 0 hr
    have hres := links_after_add h fs fs'
      ⟨u32 mode, 1, 0, g.new_dir.mtime, 0, 0, g.new_dir.indirect_pt⟩ P name g.new_entry
      false now hsp hav hPd hgrow htree hinv (not_dir_of_reg _ hreg)
      (fun e => absurd e (by decide)) rfl hadd
    exact ⟨hres.1, by simpa using hres.2⟩
  · intro now path name t fs' hpar hname hne hfind hkind hr
    obtain ⟨hi, hl⟩ := links_after_rmdir h fs fs' now path parent_dir name P t hN hpar hname
      hne hP hPd htree hinv hfind hkind hr
    refine ⟨hi, hl, ?_⟩
    intro hone
    obtain ⟨hrem, _⟩ :=
      rmdir_removes h fs fs' now path parent_dir name P t hN hpar hname hne hP
        (not_reg_of_dir _ hPdir) hwf hinosP hfind hr
    have hlk := remove_entry_links h (set_mtime fs P now) fs' P t true 0 hrem
    rw [set_mtime_record] at hlk
    simp only at hlk
    rw [if_pos hone] at hlk
    exact hlk
  · intro now path name t fs' hpar hname hne hfind hkind hr
    exact links_after_unlink h fs fs' now path parent_dir name P t hN hpar hname hne hP hPd
      htree hinv hfind hkind hr

set_option maxRecDepth 100000 in
/-- The link counts at a concrete input: in the image `fs_two` the root directory
holds the directories `a` and `b` and has the link count 4; after `rmdir("/b")`
every directory in use has its link count again, and the root has 3. -/
theorem link_counts_preserved_witness :
    space_wf fs_two ∧ tree_wf hdr fs_two ∧ links_invariant hdr fs_two ∧
      dir_find hdr fs_two ROOT_INODE ['b'] = some 2 ∧
      (fs_two.inode_table ROOT_INODE).links = 4 ∧
      links_invariant hdr (state_after (a1fs_rmdir hdr fs_two t2 "/b") fs_two) ∧
      ((state_after (a1fs_rmdir hdr fs_two t2 "/b") fs_two).inode_table ROOT_INODE).links + 1
        = (fs_two.inode_table ROOT_INODE).links :=
  ⟨space_wf_fs_two, tree_wf_fs_two, links_invariant_fs_two, by decide, by decide,
    ((link_counts_preserved hdr fs_two ['/'] ROOT_INODE space_wf_fs_two tree_wf_fs_two
      links_invariant_fs_two (by decide) (by decide)
      (path_independent_root hdr fs_two ROOT_INODE)).2.2.1
      t2 "/b" ['b'] 2 _ (by decide) (by decide) (by decide) (by decide) (by decide)
      (eq_some_of_value _ fs_two 0 (by decide) (by decide))).1,
    ((link_counts_preserved hdr fs_two ['/'] ROOT_INODE space_wf_fs_two tree_wf_fs_two
      links_invariant_fs_two (by decide) (by decide)
      (path_independent_root hdr fs_two ROOT_INODE)).2.2.1
      t2 "/b" ['b'] 2 _ (by decide) (by decide) (by decide) (by decide) (by decide)
      (eq_some_of_value _ fs_two 0 (by decide) (by decide))).2.1⟩

set_option maxRecDepth 100000 in
/-- Claim C33 fails on the code.  On the image `fs_f` (250 blocks available,
the bits of the blocks 2 and 3 clear) `growing_a_block_for_file` grows the
empty file `/f`: it returns 0, puts the extent array in block `X = 2` and makes
`(3, 1)` the first extent, so `Y = 3`, with `extent_num = 1` and 248 blocks
available.  Afterwards the bit of block 2 is set and the bit of the data block
3 is still clear: the second `set_bitmap` is given the extent block again. -/
theorem grow_from_empty_leaves_data_block_unmarked :
    (fs_f.inode_table 1).size = 0 ∧ fs_f.available_blocks = 250 ∧
      is_bit_set 2 fs_f.data_bitmap = 0 ∧ is_bit_set 3 fs_f.data_bitmap = 0 ∧
      value_of (growing_a_block_for_file hdr fs_f 1) fs_f = 0 ∧
      ((state_after (growing_a_block_for_file hdr fs_f 1) fs_f).inode_table 1).indirect_pt
        = get_addr_of_block 2 ∧
      ((state_after (growing_a_block_for_file hdr fs_f 1) fs_f).inode_table 1).extent_num = 1 ∧
      extent_start (state_after (growing_a_block_for_file hdr fs_f 1) fs_f).data
        (get_addr_of_block 2) 0 = 3 ∧
      extent_count (state_after (growing_a_block_for_file hdr fs_f 1) fs_f).data
        (get_addr_of_block 2) 0 = 1 ∧
      (state_after (growing_a_block_for_file hdr fs_f 1) fs_f).available_blocks = 248 ∧
      is_bit_set 2 (state_after (growing_a_block_for_file hdr fs_f 1) fs_f).data_bitmap = 1 ∧
      is_bit_set 3 (state_after (growing_a_block_for_file hdr fs_f 1) fs_f).data_bitmap = 0 := by
  decide

set_option maxRecDepth 100000 in
/-- Claim C39 fails on the code.  The image `img_in_use` of 256 blocks has one
block each for the superblock, the two bitmaps and the inode table, so its data
region has 252 blocks; two of them are in use and the superblock counts 250
available blocks.  `fs_ctx_init` accepts the image and sets
`num_of_data_blocks` to 250, the counter of available blocks, not to 252. -/
theorem mount_takes_free_counter_for_region_size :
    img_in_use.superblock.size / A1FS_BLOCK_SIZE = 256 ∧
      img_in_use.superblock.inode_bitmap_length = 1 ∧
      img_in_use.superblock.data_bitmap_length = 1 ∧
      img_in_use.superblock.inode_table_length = 1 ∧
      img_in_use.superblock.available_blocks = 250 ∧
      (fs_ctx_init disk fs_empty img_in_use 1048576).1 = true ∧
      (fs_ctx_init disk fs_empty img_in_use 1048576).2.available_blocks = 250 ∧
      (fs_ctx_init disk fs_empty img_in_use 1048576).2.num_of_data_blocks = 250 ∧
      (fs_ctx_init disk fs_empty img_in_use 1048576).2.num_of_data_blocks
        ≠ img_in_use.superblock.size / A1FS_BLOCK_SIZE - 1
          - img_in_use.superblock.inode_bitmap_length
          - img_in_use.superblock.data_bitmap_length
          - img_in_use.superblock.inode_table_length := by
  decide

set_option maxRecDepth 100000 in
/-- Claim C40 fails on the code.  On the image `fs_last_free`, with one free
data block (251) and the empty directory `/d`, `a1fs_mkdir("/d/x")` and
`a1fs_create("/d/x")` return `-ENOSPC` after they took inode 3, marked block
251 and stored its address and a new `mtime` in the record of `/d`: the bit of
inode 3 is set, 60 inodes and no block are available, the bit of block 251 is
set, and the record of the parent is not what it was. -/
theorem failed_entry_creation_keeps_allocations :
    path_lookup hdr fs_last_free "/d" = some 1 ∧
      (fs_last_free.inode_table 1).num_dir_entry = 0 ∧
      fs_last_free.available_blocks = 1 ∧ fs_last_free.available_inodes = 61 ∧
      is_bit_set 3 fs_last_free.inode_bitmap = 0 ∧
      is_bit_set 251 fs_last_free.data_bitmap = 0 ∧
      fs_last_free.inode_table 1 = ⟨16877, 2, 0, t0, 0, 0, 0⟩ ∧
      value_of (a1fs_mkdir hdr fs_last_free t1 t2 stack "/d/x" 493) fs_last_free = -ENOSPC ∧
      is_bit_set 3
        (state_after (a1fs_mkdir hdr fs_last_free t1 t2 stack "/d/x" 493) fs_last_free).inode_bitmap
        = 1 ∧
      (state_after (a1fs_mkdir hdr fs_last_free t1 t2 stack "/d/x" 493)
        fs_last_free).available_inodes = 60 ∧
      is_bit_set 251
        (state_after (a1fs_mkdir hdr fs_last_free t1 t2 stack "/d/x" 493) fs_last_free).data_bitmap
        = 1 ∧
      (state_after (a1fs_mkdir hdr fs_last_free t1 t2 stack "/d/x" 493)
        fs_last_free).available_blocks = 0 ∧
      (state_after (a1fs_mkdir hdr fs_last_free t1 t2 stack "/d/x" 493)
        fs_last_free).inode_table 1 = ⟨16877, 2, 0, t2, 0, 0, get_addr_of_block 251⟩ ∧
      value_of (a1fs_create hdr fs_last_free t2 stack "/d/x" 33188) fs_last_free = -ENOSPC ∧
      is_bit_set 3
        (state_after (a1fs_create hdr fs_last_free t2 stack "/d/x" 33188) fs_last_free).inode_bitmap
        = 1 ∧
      (state_after (a1fs_create hdr fs_last_free t2 stack "/d/x" 33188)
        fs_last_free).available_inodes = 60 ∧
      is_bit_set 251
        (state_after (a1fs_create hdr fs_last_free t2 stack "/d/x" 33188) fs_last_free).data_bitmap
        = 1 ∧
      (state_after (a1fs_create hdr fs_last_free t2 stack "/d/x" 33188)
        fs_last_free).available_blocks = 0 ∧
      (state_after (a1fs_create hdr fs_last_free t2 stack "/d/x" 33188)
        fs_last_free).inode_table 1 = ⟨16877, 2, 0, t2, 0, 0, get_addr_of_block 251⟩ := by
  decide

set_option maxRecDepth 100000 in
/-- Claim C35 fails on the code.  The data region of the images
`fs_file_at_end` and `fs_dir_at_end` has the 252 blocks 0 to 251 and ends where
the mapped image ends; the last block of `/f`, respectively of the full
directory `/d`, is block 251, bit 252 of the data bitmap is clear, and one block
inside the region is free (block 2, respectively 249).
`growing_a_block_for_file` on `/f`, `a1fs_mkdir("/d/q")` and
`a1fs_create("/d/q")` do not return `-ENOSPC` and do not take the free block:
they take the block after the last one, block 252, which is not a block of the
data region, and their store into it leaves the mapped image (the result
`none`).  On the image `fs_file_at_count`, whose data region of 250 blocks is
followed by two more blocks of the image, `growing_a_block_for_file` on `/f`,
which ends in block 249, returns 0 with block 250 allocated: its bit is set, it
is the last block of the file, and the free block 2 stays free. -/
theorem in_place_extension_leaves_data_region :
    fs_file_at_end.num_of_data_blocks = 252 ∧
      fs_file_at_end.data_block + 252 * A1FS_BLOCK_SIZE = fs_file_at_end.size ∧
      find_last_block fs_file_at_end 2 = 251 ∧
      fs_file_at_end.available_blocks = 1 ∧ is_bit_set 2 fs_file_at_end.data_bitmap = 0 ∧
      is_bit_set 252 fs_file_at_end.data_bitmap = 0 ∧
      growing_a_block_for_file hdr fs_file_at_end 2 = none ∧
      fs_dir_at_end.num_of_data_blocks = 252 ∧
      fs_dir_at_end.data_block + 252 * A1FS_BLOCK_SIZE = fs_dir_at_end.size ∧
      path_lookup hdr fs_dir_at_end "/d" = some 1 ∧
      find_last_block fs_dir_at_end 1 = 251 ∧ (fs_dir_at_end.inode_table 1).size = 4096 ∧
      fs_dir_at_end.available_blocks = 1 ∧ is_bit_set 249 fs_dir_at_end.data_bitmap = 0 ∧
      is_bit_set 252 fs_dir_at_end.data_bitmap = 0 ∧
      a1fs_mkdir hdr fs_dir_at_end t1 t2 stack "/d/q" 493 = none ∧
      a1fs_create hdr fs_dir_at_end t2 stack "/d/q" 33188 = none ∧
      fs_file_at_count.num_of_data_blocks = 250 ∧
      find_last_block fs_file_at_count 2 = 249 ∧
      is_bit_set 2 fs_file_at_count.data_bitmap = 0 ∧
      is_bit_set 250 fs_file_at_count.data_bitmap = 0 ∧
      value_of (growing_a_block_for_file hdr fs_file_at_count 2) fs_file_at_count = 0 ∧
      is_bit_set 250
        (state_after (growing_a_block_for_file hdr fs_file_at_count 2)
          fs_file_at_count).data_bitmap = 1 ∧
      find_last_block
        (state_after (growing_a_block_for_file hdr fs_file_at_count 2) fs_file_at_count) 2
        = 250 ∧
      is_bit_set 2
        (state_after (growing_a_block_for_file hdr fs_file_at_count 2)
          fs_file_at_count).data_bitmap = 0 := by
  refine ⟨by decide, by decide, by decide, by decide, by decide, by decide,
    Option.isNone_iff_eq_none.mp (by decide), by decide, by decide, by decide, by decide,
    by decide, by decide, by decide, by decide, Option.isNone_iff_eq_none.mp (by decide),
    Option.isNone_iff_eq_none.mp (by decide), by decide, by decide, by decide, by decide,
    by decide, by decide, by decide, by decide⟩

set_option maxRecDepth 100000 in
/-- Claim C36 fails on the code.  On the image `fs_dir_512` the root directory
has 512 extents, its last block 1023 is full and block 1024 is in use.
`a1fs_mkdir("/q")` and `a1fs_create("/q")` return 0, not `-ENOSPC`, and leave
the directory with 513 extents: the extent `(1025, 1)` is stored as extent 512,
at offset 4096 of the extent array, which is the start of the next block.  The
branch that makes a new extent tests the counters only. -/
theorem directory_gets_extent_beyond_cap :
    (fs_dir_512.inode_table 0).extent_num = 512 ∧
      (fs_dir_512.inode_table 0).size % A1FS_BLOCK_SIZE = 0 ∧
      find_last_block fs_dir_512 0 = 1023 ∧ is_bit_set 1024 fs_dir_512.data_bitmap = 1 ∧
      value_of (a1fs_mkdir hdr fs_dir_512 t1 t2 stack "/q" 493) fs_dir_512 = 0 ∧
      ((state_after (a1fs_mkdir hdr fs_dir_512 t1 t2 stack "/q" 493) fs_dir_512).inode_table
        0).extent_num = 513 ∧
      extent_start (state_after (a1fs_mkdir hdr fs_dir_512 t1 t2 stack "/q" 493) fs_dir_512).data
        0 512 = 1025 ∧
      read32 (state_after (a1fs_mkdir hdr fs_dir_512 t1 t2 stack "/q" 493) fs_dir_512).data
        (get_addr_of_block 1) = 1025 ∧
      value_of (a1fs_create hdr fs_dir_512 t2 stack "/q" 33188) fs_dir_512 = 0 ∧
      ((state_after (a1fs_create hdr fs_dir_512 t2 stack "/q" 33188) fs_dir_512).inode_table
        0).extent_num = 513 ∧
      extent_start (state_after (a1fs_create hdr fs_dir_512 t2 stack "/q" 33188) fs_dir_512).data
        0 512 = 1025 := by
  decide!


set_option maxRecDepth 100000 in
/-- Claim C31 fails on the code as stated.  On the image `fs_file_512` the file
`/f` has 512 extents and size 2097152, the block 1027 after its last block is
free and block 1028 is in use.  A write of one byte at offset 2101248 needs two
more blocks, the second of them in a 513th extent.  It returns `-ENOSPC`, and
the size of the file is then 2101248: the first call of
`growing_a_block_for_file` took block 1027 into the last extent before the
second call failed. -/
theorem failed_write_keeps_first_growth :
    path_lookup hdr fs_file_512 "/f" = some 1 ∧
      (fs_file_512.inode_table 1).extent_num = 512 ∧
      (fs_file_512.inode_table 1).size = 2097152 ∧
      find_last_block fs_file_512 1 = 1026 ∧
      is_bit_set 1027 fs_file_512.data_bitmap = 0 ∧
      is_bit_set 1028 fs_file_512.data_bitmap = 1 ∧
      value_of (a1fs_write hdr fs_file_512 t1 "/f" [120] 2101248) fs_file_512 = -ENOSPC ∧
      ((state_after (a1fs_write hdr fs_file_512 t1 "/f" [120] 2101248) fs_file_512).inode_table
        1).size = 2101248 ∧
      ((state_after (a1fs_write hdr fs_file_512 t1 "/f" [120] 2101248) fs_file_512).inode_table
        1).extent_num = 512 ∧
      is_bit_set 1027
        (state_after (a1fs_write hdr fs_file_512 t1 "/f" [120] 2101248) fs_file_512).data_bitmap
        = 1 := by
  decide

/-- Claim C37 fails on the code.  With the value 4294967294 that the expression
`(uint32_t) 2e32-1` has in the header constants `hdr`, and a bitmap whose bits
are all set, `get_first_available_position(4294967295, bitmap)` returns
4294967294: the value that stands for "none" is an index below `n`, and its bit
is set. -/
theorem sentinel_inside_search_range :
    hdr.no_position = 4294967294 ∧
      (∀ j, is_bit_set j (fun _ => 255) = 1) ∧
      get_first_available_position hdr 4294967295 (fun _ => 255) = 4294967294 ∧
      get_first_available_position hdr 4294967295 (fun _ => 255) < 4294967295 := by
  have e : get_first_available_position hdr 4294967295 (fun _ => 255) = 4294967294 :=
    get_first_available_position_full hdr (fun _ => 255) 4294967295
      (fun j _ => is_bit_set_all_ones j)
  refine ⟨rfl, is_bit_set_all_ones, e, ?_⟩
  rw [e]
  decide

/-- Claim C38: the bitmap operations.  For every bitmap and indices `i` and
`j ≠ i`: after `set_bitmap(i)` the test `is_bit_set(i)` gives 1, after
`unset_bitmap(i)` it gives 0, in both cases `is_bit_set(j)` gives what it gave
before, and a second `set_bitmap(i)`, or a second `unset_bitmap(i)`, leaves the
bitmap as the first one made it. -/
theorem bitmap_set_clear_test (bm : Mem) (i j : Nat) (hij : j ≠ i) :
    is_bit_set i (set_bitmap bm i) = 1 ∧
      is_bit_set i (unset_bitmap bm i) = 0 ∧
      is_bit_set j (set_bitmap bm i) = is_bit_set j bm ∧
      is_bit_set j (unset_bitmap bm i) = is_bit_set j bm ∧
      set_bitmap (set_bitmap bm i) i = set_bitmap bm i ∧
      unset_bitmap (unset_bitmap bm i) i = unset_bitmap bm i :=
  ⟨is_bit_set_set_same bm i, is_bit_set_unset_same bm i, is_bit_set_set_other bm i j hij,
    is_bit_set_unset_other bm i j hij, set_bitmap_idem bm i, unset_bitmap_idem bm i⟩

/-- Claim C38 at a concrete input: bit 11 of the data bitmap of the image
`fs_three`, next to bit 3. -/
theorem bitmap_set_clear_test_witness :
    (3 : Nat) ≠ 11 ∧
      is_bit_set 11 (set_bitmap fs_three.data_bitmap 11) = 1 ∧
      is_bit_set 11 (unset_bitmap fs_three.data_bitmap 11) = 0 ∧
      is_bit_set 3 (set_bitmap fs_three.data_bitmap 11) = is_bit_set 3 fs_three.data_bitmap ∧
      is_bit_set 3 (unset_bitmap fs_three.data_bitmap 11) = is_bit_set 3 fs_three.data_bitmap ∧
      set_bitmap (set_bitmap fs_three.data_bitmap 11) 11 = set_bitmap fs_three.data_bitmap 11 ∧
      unset_bitmap (unset_bitmap fs_three.data_bitmap 11) 11
        = unset_bitmap fs_three.data_bitmap 11 :=
  ⟨by decide, bitmap_set_clear_test fs_three.data_bitmap 11 3 (by decide)⟩

set_option maxRecDepth 100000 in
/-- Claim C34 fails on the code.  On the image `fs_file_at_end` the file `/f`
(inode 2) is well formed and not empty, its last block is `L = 251`, bit 252 of
the data bitmap is clear, a block is available and the block of the extent
array is marked.  The data region has 252 blocks and ends where the mapped image
ends.  `growing_a_block_for_file` takes the branch of the clear bit `L + 1`
and does not come back with block 252 marked and zero-filled: the `memset` of
that block leaves the mapped image (the result `none`). -/
theorem append_block_stores_outside_image :
    regular_file_wf fs_file_at_end 2 ∧ (fs_file_at_end.inode_table 2).size = 1015808 ∧
      (fs_file_at_end.inode_table 2).extent_num = 1 ∧
      fs_file_at_end.available_blocks = 1 ∧
      is_bit_set ((fs_file_at_end.inode_table 2).indirect_pt / A1FS_BLOCK_SIZE)
        fs_file_at_end.data_bitmap = 1 ∧
      find_last_block fs_file_at_end 2 = 251 ∧
      is_bit_set (find_last_block fs_file_at_end 2 + 1) fs_file_at_end.data_bitmap = 0 ∧
      fs_file_at_end.num_of_data_blocks = 252 ∧
      fs_file_at_end.data_block + 252 * A1FS_BLOCK_SIZE = fs_file_at_end.size ∧
      growing_a_block_for_file hdr fs_file_at_end 2 = none := by
  refine ⟨regular_file_wf_fs_file_at_end, by decide, by decide, by decide, by decide, by decide,
    by decide, by decide, by decide, Option.isNone_iff_eq_none.mp (by decide)⟩

/-- Claim C31, amended.  Let the file be well formed, have 512 extents, and let
the block after its last block be in use.  Then every `a1fs_write` of a
non-empty buffer that ends beyond the blocks of the file returns `-ENOSPC`, and
the size and the number of extents of the file, the data bitmap and the counter
of available blocks are what they were before the call. -/
theorem write_at_extent_cap (h : a1fs_h) (fs : fs_ctx) (now : timespec) (path : String)
    (buf : List Nat) (offset ino : Nat)
    (hlook : path_lookup h fs path = some (ino : Int))
    (hwf : regular_file_wf fs ino) (hsize : 0 < (fs.inode_table ino).size)
    (hcap : (fs.inode_table ino).extent_num = 512)
    (hbit : is_bit_set (find_last_block fs ino + 1) fs.data_bitmap ≠ 0)
    (hbuf : buf ≠ [])
    (hoff : buf.length + offset < 9223372036854775808)
    (hbeyond : A1FS_BLOCK_SIZE * get_num_blks_of_file fs.data (fs.inode_table ino)
      < buf.length + offset) :
    ∃ fs', a1fs_write h fs now path buf offset = some (-ENOSPC, fs') ∧
      (fs'.inode_table ino).size = (fs.inode_table ino).size ∧
      (fs'.inode_table ino).extent_num = 512 ∧
      fs'.data_bitmap = fs.data_bitmap ∧
      fs'.available_blocks = fs.available_blocks := by
  have hg : ∃ g, growing_a_block_for_file h fs ino = some (-1, g) ∧
      g.inode_table = fs.inode_table ∧ g.data_bitmap = fs.data_bitmap ∧
      g.available_blocks = fs.available_blocks := by
    by_cases hav0 : fs.available_blocks = 0
    · refine ⟨fs, ?_, rfl, rfl, rfl⟩
      unfold growing_a_block_for_file
      rw [if_pos hav0]
    · obtain ⟨g, h1, h2, h3, h4, _⟩ := grow_at_cap_spec h fs ino hwf hsize (by omega) hbit hcap
      exact ⟨g, h1, h2, h3, h4⟩
  obtain ⟨g, hg1, hg2, hg3, hg4⟩ := hg
  have hlen0 : buf.length ≠ 0 := by
    intro e
    exact hbuf (List.length_eq_zero.mp e)
  have hino : (ino : Int) < 2147483648 := path_lookup_lt h fs path _ hlook
  have hu : u32_of_int (ino : Int) = ino := u32_of_int_natCast _ (by omega)
  have he : u64 (buf.length + offset) = buf.length + offset := u64_small _ (by omega)
  have hle := hwf.2.2.2.1
  have hc1 : ¬ buf.length + offset ≤ (fs.inode_table ino).size := by
    rw [Nat.mul_comm] at hbeyond
    omega
  have hc2 : ¬ buf.length + offset
      ≤ u32 (A1FS_BLOCK_SIZE * get_num_blks_of_file fs.data (fs.inode_table ino)) := by
    have : u32 (A1FS_BLOCK_SIZE * get_num_blks_of_file fs.data (fs.inode_table ino))
        ≤ A1FS_BLOCK_SIZE * get_num_blks_of_file fs.data (fs.inode_table ino) := by
      unfold u32
      exact Nat.mod_le _ _
    omega
  refine ⟨g, ?_, by rw [hg2], by rw [hg2]; exact hcap, hg3, hg4⟩
  unfold a1fs_write
  simp only [hlen0, if_false, hlook, he, hu]
  rw [if_neg hc1, if_neg hc2]
  by_cases hc3 : buf.length + offset ≤ u32 (A1FS_BLOCK_SIZE
      * u32 (1 + get_num_blks_of_file fs.data (fs.inode_table ino)))
  · rw [if_pos hc3, hg1]
    simp only [if_true]
  · rw [if_neg hc3, hg1]
    simp only [if_true]

set_option maxRecDepth 100000 in
/-- Claim C31 amended, at a concrete input: on `fs_file_512_full` the write of
one byte at the end of `/f` returns `-ENOSPC` and leaves the size 2097152. -/
theorem write_at_extent_cap_witness :
    regular_file_wf fs_file_512_full 1 ∧
      (fs_file_512_full.inode_table 1).extent_num = 512 ∧
      is_bit_set (find_last_block fs_file_512_full 1 + 1) fs_file_512_full.data_bitmap ≠ 0 ∧
      ∃ fs', a1fs_write hdr fs_file_512_full t1 "/f" [120] 2097152 = some (-ENOSPC, fs') ∧
        (fs'.inode_table 1).size = (fs_file_512_full.inode_table 1).size ∧
        (fs'.inode_table 1).extent_num = 512 ∧
        fs'.data_bitmap = fs_file_512_full.data_bitmap ∧
        fs'.available_blocks = fs_file_512_full.available_blocks :=
  ⟨regular_file_wf_fs_file_512_full, by decide, by decide!,
    write_at_extent_cap hdr fs_file_512_full t1 "/f" [120] 2097152 1 (by decide)
      regular_file_wf_fs_file_512_full (by decide) (by decide) (by decide!) (by decide)
      (by decide) (by decide!)⟩

/-- What `a1fs_unlink` releases for a file that owns blocks.  Let `path` name the
well-formed file `t` under the directory `P`, let the file own blocks (the sum
of the counts of its extents is not 0), and let its extent array be in a block
of the data region.  After `a1fs_unlink` returned, every
block of every extent of the file and the block of its extent array are clear
in the data bitmap, the counter of available blocks has grown by the sum of the
counts of the extents plus one, plus the blocks that the parent gave back for
the entry, and the bit of the inode `t` is clear. -/
theorem unlink_releases_blocks (h : a1fs_h) (fs fs' : fs_ctx) (now : timespec) (path : String)
    (parent_dir : List Char) (P t : Nat) (r : Int)
    (hpar : extract_parent_path path.toList h.A1FS_PATH_MAX = some parent_dir)
    (hP : path_lookup h fs (String.mk parent_dir) = some (P : Int))
    (hlook : path_lookup h fs path = some (t : Int)) (htP : t ≠ P)
    (hwf : regular_file_wf fs t)
    (hown : 0 < get_num_blks_of_file fs.data (fs.inode_table t))
    (hXN : (fs.inode_table t).indirect_pt / A1FS_BLOCK_SIZE < fs.num_of_data_blocks)
    (hr : a1fs_unlink h fs now path = some (r, fs')) :
    r = 0 ∧
      (∀ b, file_block fs t b → is_bit_set b fs'.data_bitmap = 0) ∧
      is_bit_set ((fs.inode_table t).indirect_pt / A1FS_BLOCK_SIZE) fs'.data_bitmap = 0 ∧
      fs'.available_blocks
        = fs.available_blocks + (get_num_blks_of_file fs.data (fs.inode_table t) + 1)
          + parent_blocks_freed h fs P ∧
      is_bit_set t fs'.inode_bitmap = 0 := by
  obtain ⟨hN, hfree, he512, _, hlt, hext⟩ := hwf
  have hsize : 0 < (fs.inode_table t).size := by
    unfold A1FS_BLOCK_SIZE at hlt
    omega
  obtain ⟨_, hall⟩ := hext hsize
  have hfc := free_count_le fs.data_bitmap fs.num_of_data_blocks
  have hP32 : (P : Int) < 2147483648 := path_lookup_lt h fs _ _ hP
  have ht32 : (t : Int) < 2147483648 := path_lookup_lt h fs _ _ hlook
  have htt : (set_mtime fs P now).inode_table t = fs.inode_table t := by
    simp only [set_mtime, set_inode, if_neg htP]
  have hsz : ((set_mtime fs P now).inode_table t).size ≠ 0 := by
    rw [htt]; omega
  obtain ⟨f1, f2, f3⟩ := unlink_free_extents_spec fs.data (fs.inode_table t).indirect_pt
    (fs.inode_table t).extent_num 0 fs.data_bitmap fs.available_blocks (by omega)
    (fun e he => by have := (hall e (by omega)).2.1; omega) (by omega)
  have hB := sum_counts_le fs.data (fs.inode_table t).indirect_pt (fs.inode_table t).extent_num
    1048576 (fun e he => by have := (hall e he).2.1; omega)
  rw [Nat.zero_add] at f1
  have f1' : (unlink_free_extents fs.data (fs.inode_table t).indirect_pt
      (fs.inode_table t).extent_num 0 fs.data_bitmap fs.available_blocks).2
      = fs.available_blocks + get_num_blks_of_file fs.data (fs.inode_table t) := by
    have hz : sum_counts fs.data (fs.inode_table t).indirect_pt 0 = 0 := rfl
    unfold get_num_blks_of_file
    omega
  have hBq : get_num_blks_of_file fs.data (fs.inode_table t) ≤ 1048576 * 512 := by
    unfold get_num_blks_of_file
    omega
  unfold a1fs_unlink at hr
  rw [hpar] at hr
  simp only at hr
  rw [hP] at hr
  simp only at hr
  rw [u32_of_int_natCast P (by omega), path_lookup_set_mtime, hlook] at hr
  simp only at hr
  rw [u32_of_int_natCast t (by omega), if_pos hsz, htt] at hr
  have hXu : get_num_of_block (fs.inode_table t).indirect_pt
      = (fs.inode_table t).indirect_pt / A1FS_BLOCK_SIZE := by
    unfold get_num_of_block
    exact u32_small _ (by omega)
  rw [hXu] at hr
  have hr' : remove_entry h
      { set_mtime fs P now with
          data_bitmap := unset_bitmap
            (unlink_free_extents fs.data (fs.inode_table t).indirect_pt
              (fs.inode_table t).extent_num 0 fs.data_bitmap fs.available_blocks).1
            ((fs.inode_table t).indirect_pt / A1FS_BLOCK_SIZE)
          available_blocks := u32
            ((unlink_free_extents fs.data (fs.inode_table t).indirect_pt
              (fs.inode_table t).extent_num 0 fs.data_bitmap fs.available_blocks).2 + 1)
          inode_table := set_inode (set_mtime fs P now).inode_table t
            { fs.inode_table t with extent_num := 0, size := 0 } } P t false
      = some (r, fs') := hr
  rw [f1', u32_small _ (by omega)] at hr'
  have hinode := (remove_entry_inode_fields h _ fs' P t false r hr').1
  obtain ⟨r0, ravail, rbits⟩ := remove_entry_blocks h _ fs' P t false r
    (by
      show fs.available_blocks + get_num_blks_of_file fs.data (fs.inode_table t) + 1 + 2
        < 4294967296
      omega) hr'
  refine ⟨r0, fun b hb => ?_, ?_, ?_, ?_⟩
  · obtain ⟨i, hi, hb1, hb2⟩ := hb
    apply rbits
    apply is_bit_set_unset_mono
    exact f3 i b (by omega) (by omega) hb1 hb2
  · apply rbits
    exact is_bit_set_unset_same _ _
  · rw [ravail]
    have hpf : ∀ U : fs_ctx, (U.inode_table P).num_dir_entry = (fs.inode_table P).num_dir_entry →
        parent_blocks_freed h U P = parent_blocks_freed h fs P := by
      intro U hU
      unfold parent_blocks_freed
      rw [hU]
    rw [hpf _ (by simp only [set_inode, if_neg (Ne.symm htP), set_mtime, if_true])]
    rfl
  · rw [hinode]
    exact is_bit_set_unset_same _ _

set_option maxRecDepth 100000 in
/-- The blocks released at a concrete input: on `fs_three` the file `/f` holds the blocks
3 to 5 and keeps its extent array in block 2, and it is the only entry of the
root directory.  After `a1fs_unlink("/f")` the four blocks are clear, the bit
of inode 1 is clear, and the counter went from 246 to 252: three blocks, the
block of the extent array and the two blocks of the root directory. -/
theorem unlink_releases_blocks_witness :
    regular_file_wf fs_three 1 ∧
      get_num_blks_of_file fs_three.data (fs_three.inode_table 1) = 3 ∧
      fs_three.available_blocks = 246 ∧
      (state_after (a1fs_unlink hdr fs_three t2 "/f") fs_three).available_blocks = 252 ∧
      (value_of (a1fs_unlink hdr fs_three t2 "/f") fs_three = 0 ∧
      (∀ b, file_block fs_three 1 b →
        is_bit_set b (state_after (a1fs_unlink hdr fs_three t2 "/f") fs_three).data_bitmap = 0) ∧
      is_bit_set ((fs_three.inode_table 1).indirect_pt / A1FS_BLOCK_SIZE)
        (state_after (a1fs_unlink hdr fs_three t2 "/f") fs_three).data_bitmap = 0 ∧
      (state_after (a1fs_unlink hdr fs_three t2 "/f") fs_three).available_blocks
        = fs_three.available_blocks
          + (get_num_blks_of_file fs_three.data (fs_three.inode_table 1) + 1)
          + parent_blocks_freed hdr fs_three 0 ∧
      is_bit_set 1 (state_after (a1fs_unlink hdr fs_three t2 "/f") fs_three).inode_bitmap = 0) :=
  ⟨regular_file_wf_fs_three, by decide, by decide, by decide,
    unlink_releases_blocks hdr fs_three _ t2 "/f" ['/'] 0 1 _ (by decide) (by decide) (by decide)
      (by decide) regular_file_wf_fs_three (by decide) (by decide)
      (eq_some_of_isSome _ fs_three (by decide))⟩

set_option maxRecDepth 100000 in
/-- Claim C1 fails on the code.  From the empty image the calls `create("/z")`,
`create("/a")`, `write("/a", "x", 0)`, `mkdir("/d")`, `create("/d/f")` and
`unlink("/a")` succeed and give `fs_run_u`.  There `/d/f` is the regular file
of inode 4, the extent array of `/d` is in block 3 and block 3 is clear in the
data bitmap: the write to `/a` took it for the data of `/a` without marking it
(fs_ctx.c:290), `create("/d/f")` took it for the extent array of `/d`
(a1fs.c:603-628) and `unlink("/a")` cleared its bit (a1fs.c:731-741).  The
write of the 5 bytes of `hello` at offset 0 of `/d/f` returns 5 and takes block
3 for the data of the file; after it the lookup of `/d/f` gives -1, and the
read of 5 bytes at offset 0 that follows has no file to read: it does not
return 5 bytes. -/
theorem write_then_read_loses_the_file :
    (value_of (a1fs_create hdr fs_empty t1 stack "/z" 33188) fs_empty = 0 ∧
     value_of (a1fs_create hdr fs_run_z t1 stack "/a" 33188) fs_run_z = 0 ∧
     value_of (a1fs_write hdr fs_run_a t1 "/a" [120] 0) fs_run_a = 1 ∧
     value_of (a1fs_mkdir hdr fs_run_w t1 t1 stack "/d" 493) fs_run_w = 0 ∧
     value_of (a1fs_create hdr fs_run_d t1 stack "/d/f" 33188) fs_run_d = 0 ∧
     value_of (a1fs_unlink hdr fs_run_f t1 "/a") fs_run_f = 0) ∧
    (path_lookup hdr fs_run_u "/d" = some 3 ∧ path_lookup hdr fs_run_u "/d/f" = some 4 ∧
     S_ISREG (fs_run_u.inode_table 4).mode = true ∧
     (fs_run_u.inode_table 3).indirect_pt = get_addr_of_block 3 ∧
     is_bit_set 3 fs_run_u.data_bitmap = 0) ∧
    (hello ≠ [] ∧ 0 + hello.length ≤ 4096) ∧
    value_of (a1fs_write hdr fs_run_u t1 "/d/f" hello 0) fs_run_u = hello.length ∧
    ((fs_run_h.inode_table 4).extent_num = 1 ∧
     (fs_run_h.inode_table 4).indirect_pt = get_addr_of_block 2 ∧
     extent_start fs_run_h.data (fs_run_h.inode_table 4).indirect_pt 0 = 3) ∧
    path_lookup hdr fs_run_h "/d/f" = some (-1) ∧
    a1fs_read hdr fs_run_h "/d/f" hello.length 0 = none ∧
    a1fs_read hdr fs_run_h "/d/f" hello.length 0 ≠ some (hello.length, hello) := by
  refine ⟨by decide, by decide, by decide, by decide, by decide, by decide, by decide,
    by decide⟩

set_option maxRecDepth 100000 in
/-- Claim C16 fails on the code.  From the empty image the calls
`create("/z")`, `create("/a")`, `write("/a", "x", 0)`, `mkdir("/d")`,
`create("/d/f")`, `unlink("/a")` and `mkdir("/d/e")` succeed and give
`fs_run_e`.  There `/d/e` is an existing directory (inode 2) without the entry
`x`, the lowest clear bit of the inode bitmap is 5, the extent array of `/d` is
in block 3 and the bits 2 and 3 of the data bitmap are clear (fs_ctx.c:290,
a1fs.c:731-741).  `mkdir("/d/e/x", 0755)` returns 0 and writes the record of inode
5 as the claim says, but `path_lookup("/d/e/x")` gives -1 afterwards, not 5:
the entry of `x` went into block 3 (a1fs.c:295-319) and took the place of the
first extent of `/d`. -/
theorem mkdir_entry_does_not_resolve :
    (value_of (a1fs_create hdr fs_empty t1 stack "/z" 33188) fs_empty = 0 ∧
     value_of (a1fs_create hdr fs_run_z t1 stack "/a" 33188) fs_run_z = 0 ∧
     value_of (a1fs_write hdr fs_run_a t1 "/a" [120] 0) fs_run_a = 1 ∧
     value_of (a1fs_mkdir hdr fs_run_w t1 t1 stack "/d" 493) fs_run_w = 0 ∧
     value_of (a1fs_create hdr fs_run_d t1 stack "/d/f" 33188) fs_run_d = 0 ∧
     value_of (a1fs_unlink hdr fs_run_f t1 "/a") fs_run_f = 0 ∧
     value_of (a1fs_mkdir hdr fs_run_u t1 t1 stack "/d/e" 493) fs_run_u = 0) ∧
    (path_lookup hdr fs_run_e "/d/e" = some 2 ∧ S_ISDIR (fs_run_e.inode_table 2).mode = true ∧
     path_lookup hdr fs_run_e "/d/e/x" = some (-1) ∧
     get_first_available_position hdr fs_run_e.num_inodes fs_run_e.inode_bitmap = 5 ∧
     path_lookup hdr fs_run_e "/d" = some 3 ∧
     (fs_run_e.inode_table 3).indirect_pt = get_addr_of_block 3 ∧
     is_bit_set 2 fs_run_e.data_bitmap = 0 ∧ is_bit_set 3 fs_run_e.data_bitmap = 0) ∧
    value_of (a1fs_mkdir hdr fs_run_e t1 t1 stack "/d/e/x" 493) fs_run_e = 0 ∧
    ((fs_run_x.inode_table 5).mode = 493 ||| S_IFDIR ∧ (fs_run_x.inode_table 5).links = 2 ∧
     (fs_run_x.inode_table 5).size = 0 ∧ (fs_run_x.inode_table 5).extent_num = 0 ∧
     (fs_run_x.inode_table 5).num_dir_entry = 0) ∧
    ((fs_run_x.inode_table 2).indirect_pt = get_addr_of_block 2 ∧
     extent_start fs_run_x.data (fs_run_x.inode_table 2).indirect_pt 0 = 3 ∧
     read32 fs_run_x.data (get_addr_of_block 3) = 5) ∧
    path_lookup hdr fs_run_x "/d/e/x" = some (-1) ∧
    path_lookup hdr fs_run_x "/d/e/x" ≠ some 5 := by
  refine ⟨by decide, by decide, by decide, by decide, by decide, by decide, by decide⟩

set_option maxRecDepth 100000 in
/-- Claim C17 fails on the code.  From the empty image the calls
`create("/z")`, `create("/a")`, `write("/a", "x", 0)`, `mkdir("/d")`,
`create("/d/f")`, `unlink("/a")` and `mkdir("/d/e")` succeed and give
`fs_run_e`, in which `readdir("/d/e")` emits `.` and `..` and `readdir("/d")`
emits `.`, `..`, `f` and `e`.  `mkdir("/d/e/x", 0755)` returns 0.  After it the
lookup of `/d/e` gives -1, so that `a1fs_readdir("/d/e")` has no directory to
list and emits no `x`, and `readdir("/d")` emits two empty names in the place
of `f` and `e`: the entry of `x` took the place of the first extent of `/d`
(fs_ctx.c:290, a1fs.c:731-741, a1fs.c:295-319). -/
theorem listing_misses_the_new_directory :
    (value_of (a1fs_create hdr fs_empty t1 stack "/z" 33188) fs_empty = 0 ∧
     value_of (a1fs_create hdr fs_run_z t1 stack "/a" 33188) fs_run_z = 0 ∧
     value_of (a1fs_write hdr fs_run_a t1 "/a" [120] 0) fs_run_a = 1 ∧
     value_of (a1fs_mkdir hdr fs_run_w t1 t1 stack "/d" 493) fs_run_w = 0 ∧
     value_of (a1fs_create hdr fs_run_d t1 stack "/d/f" 33188) fs_run_d = 0 ∧
     value_of (a1fs_unlink hdr fs_run_f t1 "/a") fs_run_f = 0 ∧
     value_of (a1fs_mkdir hdr fs_run_u t1 t1 stack "/d/e" 493) fs_run_u = 0) ∧
    (path_lookup hdr fs_run_e "/d/e" = some 2 ∧ S_ISDIR (fs_run_e.inode_table 2).mode = true ∧
     path_lookup hdr fs_run_e "/d/e/x" = some (-1)) ∧
    (a1fs_readdir hdr fs_run_e "/d/e" = some (0, [".".toList.map Char.toNat,
       "..".toList.map Char.toNat]) ∧
     a1fs_readdir hdr fs_run_e "/d" = some (0, [".".toList.map Char.toNat,
       "..".toList.map Char.toNat, "f".toList.map Char.toNat, "e".toList.map Char.toNat])) ∧
    value_of (a1fs_mkdir hdr fs_run_e t1 t1 stack "/d/e/x" 493) fs_run_e = 0 ∧
    path_lookup hdr fs_run_x "/d/e" = some (-1) ∧
    a1fs_readdir hdr fs_run_x "/d/e" = none ∧
    (¬ ∃ names, a1fs_readdir hdr fs_run_x "/d/e" = some (0, names) ∧
      "x".toList.map Char.toNat ∈ names) ∧
    a1fs_readdir hdr fs_run_x "/d" = some (0, [".".toList.map Char.toNat,
       "..".toList.map Char.toNat, [], []]) := by
  refine ⟨by decide, by decide, by decide, by decide, by decide, by decide, ?_, by decide⟩
  rintro ⟨names, hn, -⟩
  have h0 : a1fs_readdir hdr fs_run_x "/d/e" = none := by decide
  rw [h0] at hn
  cases hn
set_option maxRecDepth 100000 in
/-- Claim C18 fails on the code.  From the empty image the calls
`create("/z")`, `create("/a")`, `write("/a", "x", 0)`, `mkdir("/d")`,
`create("/d/f")`, `unlink("/a")` and `mkdir("/d/e")` succeed and give
`fs_run_e`, in which `/d/e` is an empty directory (inode 2).
`mkdir("/d/e/x", 0755)` returns 0: it takes inode 5 and the blocks 2 and 3, and
its entry in block 3 takes the place of the first extent of `/d`
(fs_ctx.c:290, a1fs.c:731-741, a1fs.c:295-319).  The `rmdir("/d/e/x")` that
follows finds neither `/d/e` nor `/d/e/x` (both lookups give -1, which it uses
as the index 4294967295 into a table of 64 inodes, a1fs.c:411-421) and restores
nothing: the counters, the two bitmaps and the record of the parent stay as
`mkdir` left them, different from their values before `mkdir`. -/
theorem mkdir_then_rmdir_restores_nothing :
    (value_of (a1fs_create hdr fs_empty t1 stack "/z" 33188) fs_empty = 0 ∧
     value_of (a1fs_create hdr fs_run_z t1 stack "/a" 33188) fs_run_z = 0 ∧
     value_of (a1fs_write hdr fs_run_a t1 "/a" [120] 0) fs_run_a = 1 ∧
     value_of (a1fs_mkdir hdr fs_run_w t1 t1 stack "/d" 493) fs_run_w = 0 ∧
     value_of (a1fs_create hdr fs_run_d t1 stack "/d/f" 33188) fs_run_d = 0 ∧
     value_of (a1fs_unlink hdr fs_run_f t1 "/a") fs_run_f = 0 ∧
     value_of (a1fs_mkdir hdr fs_run_u t1 t1 stack "/d/e" 493) fs_run_u = 0) ∧
    (path_lookup hdr fs_run_e "/d/e" = some 2 ∧ S_ISDIR (fs_run_e.inode_table 2).mode = true ∧
     path_lookup hdr fs_run_e "/d/e/x" = some (-1)) ∧
    value_of (a1fs_mkdir hdr fs_run_e t1 t1 stack "/d/e/x" 493) fs_run_e = 0 ∧
    (path_lookup hdr fs_run_x "/d/e" = some (-1) ∧
     path_lookup hdr fs_run_x "/d/e/x" = some (-1) ∧
     u32_of_int (-1) = 4294967295 ∧ fs_run_x.num_inodes = 64 ∧
     (a1fs_rmdir hdr fs_run_x t2 "/d/e/x").isNone = true ∧
     value_of (a1fs_rmdir hdr fs_run_x t2 "/d/e/x") fs_run_x ≠ 0) ∧
    (fs_run_e.available_inodes = 59 ∧ fs_run_x.available_inodes = 58) ∧
    (fs_run_e.available_blocks = 248 ∧ fs_run_x.available_blocks = 246) ∧
    (is_bit_set 5 fs_run_e.inode_bitmap = 0 ∧ is_bit_set 5 fs_run_x.inode_bitmap = 1) ∧
    (is_bit_set 2 fs_run_e.data_bitmap = 0 ∧ is_bit_set 2 fs_run_x.data_bitmap = 1) ∧
    (is_bit_set 3 fs_run_e.data_bitmap = 0 ∧ is_bit_set 3 fs_run_x.data_bitmap = 1) ∧
    ((fs_run_e.inode_table 2).size = 0 ∧ (fs_run_x.inode_table 2).size = 256) ∧
    ((fs_run_e.inode_table 2).num_dir_entry = 0 ∧ (fs_run_x.inode_table 2).num_dir_entry = 1) ∧
    ((fs_run_e.inode_table 2).extent_num = 0 ∧ (fs_run_x.inode_table 2).extent_num = 1) ∧
    ((fs_run_e.inode_table 2).links = 2 ∧ (fs_run_x.inode_table 2).links = 3) := by
  refine ⟨by decide, by decide, by decide, by decide, by decide, by decide, by decide,
    by decide, by decide, by decide, by decide, by decide, by decide⟩

set_option maxRecDepth 100000 in
/-- Claim C23 fails on the code.  From the empty image the calls
`create("/a")`, `write("/a", "x", 0)`, `write("/a", "x", 4096)`, `mkdir("/p")`,
`create("/p/a")`, `create("/b")`, `write("/b", "x", 0)`, fifteen more
`create` in `/p` and `truncate("/a", 4096)` succeed and give `fs_shape_t`.
There `/p` (inode 2) has 16 entries in block 5 and the shape of the claim; its
extent array is in block 3, whose bit is clear (the first write to `/a` did not
mark the block, fs_ctx.c:290, `create("/p/a")` took it, and the `truncate`
cleared the bit, a1fs.c:963); block 6 is in use and block 3 is the lowest
clear block.  `create("/p/z")` returns 0: it takes block 3 for a new extent of
`/p` (a1fs.c:667-681), and the entry of `z` stored at the start of the block
takes the place of the two extents.  After it `/p` has 17 entries and the
counts of its extents add up to 2863311652, not to 2. -/
theorem create_loses_directory_shape :
    (value_of (a1fs_create hdr fs_empty t1 stack "/a" 33188) fs_empty = 0 ∧
     value_of (a1fs_write hdr fs_shape_a t1 "/a" [120] 0) fs_shape_a = 1 ∧
     value_of (a1fs_write hdr fs_shape_w t1 "/a" [120] 4096) fs_shape_w = 1 ∧
     value_of (a1fs_mkdir hdr fs_shape_w2 t1 t1 stack "/p" 493) fs_shape_w2 = 0 ∧
     value_of (a1fs_create hdr fs_shape_p t1 stack "/p/a" 33188) fs_shape_p = 0 ∧
     value_of (a1fs_create hdr fs_shape_pa t1 stack "/b" 33188) fs_shape_pa = 0 ∧
     value_of (a1fs_write hdr fs_shape_b t1 "/b" [120] 0) fs_shape_b = 1 ∧
     (create_each hdr t1 stack fs_shape_bw shape_paths).isSome = true ∧
     value_of (a1fs_truncate hdr fs_shape_16 t1 "/a" 4096) fs_shape_16 = 0) ∧
    (path_lookup hdr fs_shape_t "/p" = some 2 ∧ S_ISDIR (fs_shape_t.inode_table 2).mode = true ∧
     path_lookup hdr fs_shape_t "/p/z" = some (-1) ∧
     (fs_shape_t.inode_table 2).num_dir_entry = 16 ∧
     (fs_shape_t.inode_table 2).indirect_pt = get_addr_of_block 3 ∧
     find_last_block fs_shape_t 2 = 5 ∧
     is_bit_set 3 fs_shape_t.data_bitmap = 0 ∧ is_bit_set 6 fs_shape_t.data_bitmap = 1 ∧
     get_first_available_position hdr fs_shape_t.num_of_data_blocks fs_shape_t.data_bitmap = 3) ∧
    directory_shape hdr fs_shape_t 2 ∧
    value_of (a1fs_create hdr fs_shape_t t1 stack "/p/z" 33188) fs_shape_t = 0 ∧
    ((fs_shape_z.inode_table 2).num_dir_entry = 17 ∧ (fs_shape_z.inode_table 2).extent_num = 2 ∧
     (fs_shape_z.inode_table 2).indirect_pt = get_addr_of_block 3) ∧
    extent_blocks fs_shape_z 2 = 2863311652 ∧
    ¬ directory_shape hdr fs_shape_z 2 := by
  refine ⟨by decide, by decide, ?_, by decide, by decide, by decide, ?_⟩
  · unfold directory_shape
    decide
  · unfold directory_shape
    decide

set_option maxRecDepth 100000 in
/-- Claim C24 fails on the code.  From the empty image the calls
`create("/z")`, `create("/a")`, `write("/a", "x", 0)`, `mkdir("/d")`,
`create("/d/f")`, `unlink("/a")` and `mkdir("/d/e")` succeed and give
`fs_run_e`, in which every directory has the link count 2 plus the number of
its entries that are directories.  `mkdir("/d/e/x", 0755)` returns 0 and stores
its entry in block 3, over the first extent of `/d` (fs_ctx.c:290,
a1fs.c:731-741, a1fs.c:295-319).  After it the directory `/d` (inode 3) has the
link count 3, and two of the entries it reads are directories: the invariant
asks for 4. -/
theorem mkdir_loses_link_counts :
    (value_of (a1fs_create hdr fs_empty t1 stack "/z" 33188) fs_empty = 0 ∧
     value_of (a1fs_create hdr fs_run_z t1 stack "/a" 33188) fs_run_z = 0 ∧
     value_of (a1fs_write hdr fs_run_a t1 "/a" [120] 0) fs_run_a = 1 ∧
     value_of (a1fs_mkdir hdr fs_run_w t1 t1 stack "/d" 493) fs_run_w = 0 ∧
     value_of (a1fs_create hdr fs_run_d t1 stack "/d/f" 33188) fs_run_d = 0 ∧
     value_of (a1fs_unlink hdr fs_run_f t1 "/a") fs_run_f = 0 ∧
     value_of (a1fs_mkdir hdr fs_run_u t1 t1 stack "/d/e" 493) fs_run_u = 0) ∧
    (path_lookup hdr fs_run_e "/d/e" = some 2 ∧ S_ISDIR (fs_run_e.inode_table 2).mode = true ∧
     path_lookup hdr fs_run_e "/d/e/x" = some (-1)) ∧
    (dirs_in_use fs_run_e = [0, 2, 3] ∧ links_invariant hdr fs_run_e) ∧
    value_of (a1fs_mkdir hdr fs_run_e t1 t1 stack "/d/e/x" 493) fs_run_e = 0 ∧
    (dirs_in_use fs_run_x = [0, 2, 3, 5] ∧ (fs_run_x.inode_table 3).links = 3 ∧
     subdir_count hdr fs_run_x 3 = 2) ∧
    ¬ links_invariant hdr fs_run_x := by
  refine ⟨by decide, by decide, ⟨by decide, ?_⟩, by decide, by decide, ?_⟩
  · unfold links_invariant
    decide
  · unfold links_invariant
    decide

set_option maxRecDepth 100000 in
/-- Claim C32 fails on the code.  From the empty image the calls
`create("/f")`, `write("/f", "hello", 0)` and `truncate("/f", 0)` succeed and
give `fs_lost_t`, in which `/f` is a regular file (inode 1) with one extent,
`(3, 0)`, and size 0, and 249 blocks are available.  `unlink("/f")` returns 0.
It frees nothing for the file, because its size is 0 (a1fs.c:728): the counter
of available blocks goes up by the 2 blocks of the root directory, which gets
empty, to 251, where the claim asks for the sum of the extent counts plus 1 on
top of these, 252.  The file system is empty again with one block less than
after `mkfs`.  On the image `fs_one`, where block 3 of `/f` is marked,
`truncate("/f", 0)` followed by `unlink("/f")` leaves the same counter, 251,
and block 3 marked. -/
theorem unlink_after_truncate_keeps_a_block :
    (value_of (a1fs_create hdr fs_empty t1 stack "/f" 33188) fs_empty = 0 ∧
     value_of (a1fs_write hdr fs_lost_f t1 "/f" hello 0) fs_lost_f = 5 ∧
     value_of (a1fs_truncate hdr fs_lost_w t1 "/f" 0) fs_lost_w = 0) ∧
    (path_lookup hdr fs_lost_t "/f" = some 1 ∧ S_ISREG (fs_lost_t.inode_table 1).mode = true ∧
     (fs_lost_t.inode_table 1).extent_num = 1 ∧ (fs_lost_t.inode_table 1).size = 0 ∧
     extent_start fs_lost_t.data (fs_lost_t.inode_table 1).indirect_pt 0 = 3 ∧
     extent_count fs_lost_t.data (fs_lost_t.inode_table 1).indirect_pt 0 = 0 ∧
     extent_blocks fs_lost_t 1 = 0 ∧ parent_blocks_freed hdr fs_lost_t 0 = 2 ∧
     fs_lost_t.available_blocks = 249) ∧
    value_of (a1fs_unlink hdr fs_lost_t t2 "/f") fs_lost_t = 0 ∧
    (is_bit_set 1 fs_lost_u.inode_bitmap = 0 ∧ fs_lost_u.available_blocks = 251 ∧
     fs_lost_u.available_blocks
       ≠ fs_lost_t.available_blocks + (extent_blocks fs_lost_t 1 + 1)
           + parent_blocks_freed hdr fs_lost_t 0) ∧
    (fs_empty.available_blocks = 252 ∧ fs_lost_u.available_inodes = fs_empty.available_inodes ∧
     ∀ b < 252, is_bit_set b fs_lost_u.data_bitmap = 0) ∧
    (value_of (a1fs_truncate hdr fs_one t1 "/f" 0) fs_one = 0 ∧
     (fs_cut.inode_table 1).extent_num = 1 ∧ extent_blocks fs_cut 1 = 0 ∧
     parent_blocks_freed hdr fs_cut 0 = 2 ∧ fs_cut.available_blocks = 249 ∧
     value_of (a1fs_unlink hdr fs_cut t2 "/f") fs_cut = 0 ∧
     fs_cut_gone.available_blocks = 251 ∧ is_bit_set 3 fs_cut_gone.data_bitmap = 1) := by
  refine ⟨by decide, by decide, by decide, by decide, ⟨by decide, by decide, ?_⟩, by decide⟩
  decide

end A1fs
